import Mathlib

/-! A verification development for `sjtu::map` (src/map.hpp).

The container is a red-black tree with parent pointers and a per-container
sentinel node `nil`.  The code is embedded over an explicit heap: a pointer is
a natural number (`0` is `nullptr`), the heap maps every address to the
content of the `Node` stored there, and every member function becomes a
function on the container state.  Loops carry a fuel argument and return
`none` when the fuel runs out; C++ exceptions are the `Except.error` results.

`size_t map_size` is modelled as a natural number: the counter is bounded by
the number of live nodes, each of which occupies its own storage, so the
increment of line 576 never wraps, and the decrement of line 618 is written as
truncated subtraction, which differs from the code only when an element is
erased while the counter is 0; no well-formed state is such.  `new` hands out
the addresses `next, next + 1, ...`; `delete` releases storage that this model
never reuses.
-/

namespace sjtu

variable {K V : Type}

/-- Node colours, `enum Color { RED, BLACK }` (line 29). -/
inductive Color where
  | RED
  | BLACK
  deriving DecidableEq, Repr

/-- The exceptions of `exceptions.hpp` thrown by the container. -/
inductive Exn where
  | invalid_iterator
  | index_out_of_bound
  deriving DecidableEq, Repr

/-- Content of a `struct Node` (lines 31-39); `key`/`val` are `data.first`/`data.second`. -/
structure Node (K V : Type) where
  key : K
  val : V
  left : Nat
  right : Nat
  parent : Nat
  color : Color
  deriving DecidableEq, Repr

/-- State of one `map` object (lines 42-45) together with the heap holding its nodes.
`self` is the address of the object (`this`), `next` the next address `new` returns. -/
structure Map (K V : Type) where
  mem : Nat → Node K V
  root : Nat
  nil : Nat
  map_size : Nat
  self : Nat
  next : Nat

/-- How a call ends: with a value, with an exception that propagates to the caller, or in
`std::terminate`, when an exception leaves a function that is declared `noexcept`. -/
inductive Outcome (α : Type) where
  | value (a : α)
  | raised (e : Exn)
  | terminated
  deriving DecidableEq, Repr

/-- The outcome of a computation on the value of a call. -/
def Outcome.map {α β : Type} (f : α → β) : Outcome α → Outcome β
  | Outcome.value a => Outcome.value (f a)
  | Outcome.raised e => Outcome.raised e
  | Outcome.terminated => Outcome.terminated

/-- An `iterator` / `const_iterator`: the fields `current` and `container` (lines 214-215). -/
structure Iter where
  current : Nat
  container : Nat
  deriving DecidableEq, Repr

/-- A step of a fixup loop that is logged: a call `leftRotate(x)` with `x->right` at the call,
a call `rightRotate(y)` with `y->left` at the call, an assignment `node->color = c`, and a
sibling `w` read by `eraseFixup` (lines 126, 131, 141, 150, 155, 165). -/
inductive Event where
  | leftRotate (x right : Nat)
  | rightRotate (y left : Nat)
  | recolour (node : Nat) (c : Color)
  | sibling (w : Nat)
  deriving DecidableEq, Repr

/-- The step keeps off the sentinel `nilp`: a rotation is called at a node whose child that
moves up is a node, the sentinel is not coloured RED, a sibling is a node. -/
def Event.Safe (nilp : Nat) : Event → Prop
  | Event.leftRotate x r => x ≠ nilp ∧ r ≠ nilp
  | Event.rightRotate y l => y ≠ nilp ∧ l ≠ nilp
  | Event.recolour a c => c = Color.RED → a ≠ nilp
  | Event.sibling w => w ≠ nilp

instance Event.decidableSafe (nilp : Nat) : DecidablePred (Event.Safe nilp) := fun e => by
  cases e <;> unfold Event.Safe <;> infer_instance

namespace Map

/-- Field read `a->data.first`. -/
def key (m : Map K V) (a : Nat) : K := (m.mem a).key

/-- Field read `a->data.second`. -/
def val (m : Map K V) (a : Nat) : V := (m.mem a).val

/-- Field read `a->left`. -/
def left (m : Map K V) (a : Nat) : Nat := (m.mem a).left

/-- Field read `a->right`. -/
def right (m : Map K V) (a : Nat) : Nat := (m.mem a).right

/-- Field read `a->parent`. -/
def parent (m : Map K V) (a : Nat) : Nat := (m.mem a).parent

/-- Field read `a->color`. -/
def color (m : Map K V) (a : Nat) : Color := (m.mem a).color

/-- Store to the node at address `a`. -/
def upd (m : Map K V) (a : Nat) (f : Node K V → Node K V) : Map K V :=
  { m with mem := fun b => if b = a then f (m.mem b) else m.mem b }

/-- Assignment `a->left = v`. -/
def setLeft (m : Map K V) (a v : Nat) : Map K V := m.upd a (fun n => { n with left := v })

/-- Assignment `a->right = v`. -/
def setRight (m : Map K V) (a v : Nat) : Map K V := m.upd a (fun n => { n with right := v })

/-- Assignment `a->parent = v`. -/
def setParent (m : Map K V) (a v : Nat) : Map K V := m.upd a (fun n => { n with parent := v })

/-- Assignment `a->color = c`. -/
def setColor (m : Map K V) (a : Nat) (c : Color) : Map K V := m.upd a (fun n => { n with color := c })

/-- Assignment `root = v`. -/
def setRoot (m : Map K V) (v : Nat) : Map K V := { m with root := v }

/-- Allocation `new Node(val, c, p)` (constructor of lines 36-38: `left` and `right`
default to `nullptr`).  Returns the new state and the address of the node. -/
def newNode (m : Map K V) (k : K) (v : V) (c : Color) (p : Nat) : Map K V × Nat :=
  ({ m with mem := fun b => if b = m.next then ⟨k, v, 0, 0, p, c⟩ else m.mem b,
            next := m.next + 1 }, m.next)

/-- Lines 48-58. -/
def leftRotate (m : Map K V) (x : Nat) : Map K V :=
  let y := m.right x
  let m := m.setRight x (m.left y)
  let m := if m.left y ≠ m.nil then m.setParent (m.left y) x else m
  let m := m.setParent y (m.parent x)
  let m := if m.parent x = m.nil then m.setRoot y
           else if x = m.left (m.parent x) then m.setLeft (m.parent x) y
           else m.setRight (m.parent x) y
  let m := m.setLeft y x
  m.setParent x y

/-- Lines 60-70. -/
def rightRotate (m : Map K V) (y : Nat) : Map K V :=
  let x := m.left y
  let m := m.setLeft y (m.right x)
  let m := if m.right x ≠ m.nil then m.setParent (m.right x) y else m
  let m := m.setParent x (m.parent y)
  let m := if m.parent y = m.nil then m.setRoot x
           else if y = m.left (m.parent y) then m.setLeft (m.parent y) x
           else m.setRight (m.parent y) x
  let m := m.setRight x y
  m.setParent y x

/-- Body of the `while` loop of `insertFixup` (lines 74-106): new state and new `z`. -/
def insertFixupBody (m : Map K V) (z : Nat) : Map K V × Nat :=
  if m.parent z = m.left (m.parent (m.parent z)) then
    let y := m.right (m.parent (m.parent z))
    if m.color y = Color.RED then
      let m := m.setColor (m.parent z) Color.BLACK
      let m := m.setColor y Color.BLACK
      let m := m.setColor (m.parent (m.parent z)) Color.RED
      (m, m.parent (m.parent z))
    else
      let mz : Map K V × Nat :=
        if z = m.right (m.parent z) then (leftRotate m (m.parent z), m.parent z) else (m, z)
      let m := mz.1
      let z := mz.2
      let m := m.setColor (m.parent z) Color.BLACK
      let m := m.setColor (m.parent (m.parent z)) Color.RED
      let m := rightRotate m (m.parent (m.parent z))
      (m, z)
  else
    let y := m.left (m.parent (m.parent z))
    if m.color y = Color.RED then
      let m := m.setColor (m.parent z) Color.BLACK
      let m := m.setColor y Color.BLACK
      let m := m.setColor (m.parent (m.parent z)) Color.RED
      (m, m.parent (m.parent z))
    else
      let mz : Map K V × Nat :=
        if z = m.left (m.parent z) then (rightRotate m (m.parent z), m.parent z) else (m, z)
      let m := mz.1
      let z := mz.2
      let m := m.setColor (m.parent z) Color.BLACK
      let m := m.setColor (m.parent (m.parent z)) Color.RED
      let m := leftRotate m (m.parent (m.parent z))
      (m, z)

/-- Lines 72-109: the loop and the final `root->color = BLACK`. -/
def insertFixup : Nat → Map K V → Nat → Option (Map K V)
  | 0, _, _ => none
  | fuel + 1, m, z =>
    if m.color (m.parent z) = Color.RED then
      insertFixup fuel (insertFixupBody m z).1 (insertFixupBody m z).2
    else
      some (m.setColor m.root Color.BLACK)

/-- Lines 111-116. -/
def transplant (m : Map K V) (u v : Nat) : Map K V :=
  let m := if m.parent u = m.nil then m.setRoot v
           else if u = m.left (m.parent u) then m.setLeft (m.parent u) v
           else m.setRight (m.parent u) v
  m.setParent v (m.parent u)

/-- Lines 118-121. -/
def minimum (m : Map K V) : Nat → Nat → Option Nat
  | 0, _ => none
  | fuel + 1, x => if m.left x ≠ m.nil then minimum m fuel (m.left x) else some x

/-- The loop `while (current->right != nil) current = current->right` of
lines 266, 270, 373 and 377. -/
def maximum (m : Map K V) : Nat → Nat → Option Nat
  | 0, _ => none
  | fuel + 1, x => if m.right x ≠ m.nil then maximum m fuel (m.right x) else some x

/-- Body of the `while` loop of `eraseFixup` (lines 125-173): new state and new `x`. -/
def eraseFixupBody (m : Map K V) (x : Nat) : Map K V × Nat :=
  if x = m.left (m.parent x) then
    let w := m.right (m.parent x)
    let mw : Map K V × Nat :=
      if m.color w = Color.RED then
        let m := m.setColor w Color.BLACK
        let m := m.setColor (m.parent x) Color.RED
        let m := leftRotate m (m.parent x)
        (m, m.right (m.parent x))
      else (m, w)
    let m := mw.1
    let w := mw.2
    if m.color (m.left w) = Color.BLACK ∧ m.color (m.right w) = Color.BLACK then
      let m := m.setColor w Color.RED
      (m, m.parent x)
    else
      let mw : Map K V × Nat :=
        if m.color (m.right w) = Color.BLACK then
          let m := m.setColor (m.left w) Color.BLACK
          let m := m.setColor w Color.RED
          let m := rightRotate m w
          (m, m.right (m.parent x))
        else (m, w)
      let m := mw.1
      let w := mw.2
      let m := m.setColor w (m.color (m.parent x))
      let m := m.setColor (m.parent x) Color.BLACK
      let m := m.setColor (m.right w) Color.BLACK
      let m := leftRotate m (m.parent x)
      (m, m.root)
  else
    let w := m.left (m.parent x)
    let mw : Map K V × Nat :=
      if m.color w = Color.RED then
        let m := m.setColor w Color.BLACK
        let m := m.setColor (m.parent x) Color.RED
        let m := rightRotate m (m.parent x)
        (m, m.left (m.parent x))
      else (m, w)
    let m := mw.1
    let w := mw.2
    if m.color (m.right w) = Color.BLACK ∧ m.color (m.left w) = Color.BLACK then
      let m := m.setColor w Color.RED
      (m, m.parent x)
    else
      let mw : Map K V × Nat :=
        if m.color (m.left w) = Color.BLACK then
          let m := m.setColor (m.right w) Color.BLACK
          let m := m.setColor w Color.RED
          let m := leftRotate m w
          (m, m.left (m.parent x))
        else (m, w)
      let m := mw.1
      let w := mw.2
      let m := m.setColor w (m.color (m.parent x))
      let m := m.setColor (m.parent x) Color.BLACK
      let m := m.setColor (m.left w) Color.BLACK
      let m := rightRotate m (m.parent x)
      (m, m.root)

/-- Lines 123-176: the loop and the final `x->color = BLACK`. -/
def eraseFixup : Nat → Map K V → Nat → Option (Map K V)
  | 0, _, _ => none
  | fuel + 1, m, x =>
    if x ≠ m.root ∧ m.color x = Color.BLACK then
      eraseFixup fuel (eraseFixupBody m x).1 (eraseFixupBody m x).2
    else
      some (m.setColor x Color.BLACK)

/-- Lines 178-183; `delete node` releases storage and leaves the state as it is. -/
def clearHelper (m : Map K V) : Nat → Nat → Option Unit
  | 0, _ => none
  | fuel + 1, node =>
    if node = m.nil then some ()
    else
      match clearHelper m fuel (m.left node) with
      | none => none
      | some _ => clearHelper m fuel (m.right node)

/-- Lines 193-201. -/
def findHelper (lt : K → K → Bool) (m : Map K V) (key : K) : Nat → Nat → Option Nat
  | 0, _ => none
  | fuel + 1, current =>
    if current ≠ m.nil then
      if lt key (m.key current) then findHelper lt m key fuel (m.left current)
      else if lt (m.key current) key then findHelper lt m key fuel (m.right current)
      else some current
    else some m.nil

/-- The default constructor `map()` (lines 423-428) for an object at address `self`,
run on a heap whose cells all hold `cell`; the sentinel is the first node allocated. -/
def empty (self : Nat) (cell : Node K V) : Map K V :=
  let m : Map K V := ⟨fun _ => cell, 0, 0, 0, self, 1⟩
  let mn := m.newNode cell.key cell.val Color.BLACK 0
  let m := mn.1
  let m := { m with nil := mn.2 }
  let m := m.setParent m.nil m.nil
  let m := m.setRight m.nil m.nil
  let m := m.setLeft m.nil m.nil
  m.setRoot m.nil

/-- Mutable `at` (lines 467-471) and const `at` (lines 473-477). -/
def at_ (lt : K → K → Bool) (fuel : Nat) (m : Map K V) (key : K) : Option (Except Exn V) :=
  match findHelper lt m key fuel m.root with
  | none => none
  | some node =>
    if node = m.nil then some (Except.error Exn.index_out_of_bound)
    else some (Except.ok (m.val node))

/-- The const `operator[]` (lines 498-500). -/
def indexConst (lt : K → K → Bool) (fuel : Nat) (m : Map K V) (key : K) :
    Option (Except Exn V) :=
  at_ lt fuel m key

/-- Lines 505-508 and 510-513: `begin()` and `cbegin()`. -/
def begin (fuel : Nat) (m : Map K V) : Option Iter :=
  if m.root = m.nil then some ⟨m.nil, m.self⟩
  else
    match minimum m fuel m.root with
    | none => none
    | some x => some ⟨x, m.self⟩

/-- Lines 519-525: `end()` and `cend()`. -/
def end_ (m : Map K V) : Iter := ⟨m.nil, m.self⟩

/-- Lines 531-533. -/
def isEmpty (m : Map K V) : Bool := m.map_size == 0

/-- Lines 538-540. -/
def size (m : Map K V) : Nat := m.map_size

/-- Lines 545-549. -/
def clear (fuel : Nat) (m : Map K V) : Option (Map K V) :=
  match clearHelper m fuel m.root with
  | none => none
  | some _ =>
    let m := m.setRoot m.nil
    some { m with map_size := 0 }

/-- The search loop of `insert` (lines 561-566) started with `y` and `x`.  The result
`(y, x)` is the pair at loop exit; `x ≠ nil` says the `return` of line 565 was taken at
node `x`. -/
def insertWalk (lt : K → K → Bool) (m : Map K V) (key : K) : Nat → Nat → Nat → Option (Nat × Nat)
  | 0, _, _ => none
  | fuel + 1, y, x =>
    if x ≠ m.nil then
      if lt key (m.key x) then insertWalk lt m key fuel x (m.left x)
      else if lt (m.key x) key then insertWalk lt m key fuel x (m.right x)
      else some (x, x)
    else some (y, x)

/-- Lines 557-578. -/
def insert (lt : K → K → Bool) (fuel : Nat) (m : Map K V) (value : K × V) :
    Option (Map K V × Iter × Bool) :=
  match insertWalk lt m value.1 fuel m.nil m.root with
  | none => none
  | some (y, x) =>
    if x ≠ m.nil then some (m, ⟨x, m.self⟩, false)
    else
      let mz := m.newNode value.1 value.2 Color.RED y
      let m := mz.1
      let z := mz.2
      let m := m.setRight z m.nil
      let m := m.setLeft z m.nil
      let m := if y = m.nil then m.setRoot z
               else if lt value.1 (m.key y) then m.setLeft y z
               else m.setRight y z
      match insertFixup fuel m z with
      | none => none
      | some m =>
        let m := { m with map_size := m.map_size + 1 }
        some (m, ⟨z, m.self⟩, true)

/-- Lines 588-618 of `erase`, after the check of line 586, for the node `z`. -/
def eraseNode (fuel : Nat) (m : Map K V) (z : Nat) : Option (Map K V) :=
  let y := z
  let y_original_color := m.color y
  let r : Option (Map K V × Nat × Color) :=
    if m.left z = m.nil then
      let x := m.right z
      some (transplant m z (m.right z), x, y_original_color)
    else if m.right z = m.nil then
      let x := m.left z
      some (transplant m z (m.left z), x, y_original_color)
    else
      match minimum m fuel (m.right z) with
      | none => none
      | some y =>
        let y_original_color := m.color y
        let x := m.right y
        let m :=
          if m.parent y = z then m.setParent x y
          else
            let m := transplant m y (m.right y)
            let m := m.setRight y (m.right z)
            m.setParent (m.right y) y
        let m := transplant m z y
        let m := m.setLeft y (m.left z)
        let m := m.setParent (m.left y) y
        let m := m.setColor y (m.color z)
        some (m, x, y_original_color)
  match r with
  | none => none
  | some (m, x, y_original_color) =>
    let r : Option (Map K V) :=
      if y_original_color = Color.BLACK then eraseFixup fuel m x else some m
    match r with
    | none => none
    | some m => some { m with map_size := m.map_size - 1 }

/-- Lines 585-619. -/
def erase (fuel : Nat) (m : Map K V) (pos : Iter) : Option (Except Exn (Map K V)) :=
  if pos.container ≠ m.self ∨ pos.current = m.nil then some (Except.error Exn.invalid_iterator)
  else
    match eraseNode fuel m pos.current with
    | none => none
    | some m => some (Except.ok m)

/-- Lines 628-630. -/
def count (lt : K → K → Bool) (fuel : Nat) (m : Map K V) (key : K) : Option Nat :=
  match findHelper lt m key fuel m.root with
  | none => none
  | some node => some (if node ≠ m.nil then 1 else 0)

/-- Lines 638-641 and 643-646: `find` for both iterator kinds. -/
def find (lt : K → K → Bool) (fuel : Nat) (m : Map K V) (key : K) : Option Iter :=
  match findHelper lt m key fuel m.root with
  | none => none
  | some node => some ⟨node, m.self⟩

/-- Member access `operator->` (lines 315-318 and 412-415) of a cursor of the container
`m`.  Both are declared `noexcept`: the `throw invalid_iterator()` at the sentinel does not
reach the caller, the program ends in `std::terminate`. -/
def arrow (m : Map K V) (it : Iter) : Outcome (K × V) :=
  if it.current = m.nil then Outcome.terminated
  else Outcome.value (m.key it.current, m.val it.current)

/-- The mutable `operator[]` (lines 485-493).  Line 490, `T default_value;`, is
default-initialisation and not `T()`: it runs the default constructor of a class type and
stores nothing when `T` is a scalar type such as `int`, so the program does not fix what
the local holds when line 491 copies it into the pair.  `held` is what it holds then: any
value of `V`, and the value `T()` only where the type initialises itself.  Returns the new
state and how the call ends: line 492 reads the value through `operator->` of the cursor
that `insert` returned. -/
def index (lt : K → K → Bool) (held : V) (fuel : Nat) (m : Map K V) (key : K) :
    Option (Map K V × Outcome V) :=
  match findHelper lt m key fuel m.root with
  | none => none
  | some node =>
    if node ≠ m.nil then some (m, Outcome.value (m.val node))
    else
      match insert lt fuel m (key, held) with
      | none => none
      | some (m, it, _) => some (m, (arrow m it).map (fun p => p.2))

/-- Prefix `operator++` of `iterator` (lines 234-247) and `const_iterator` (348-361):
the climbing loop of lines 240-243, returning the final `parent`. -/
def climbRight (m : Map K V) : Nat → Nat → Nat → Option Nat
  | 0, _, _ => none
  | fuel + 1, current, parent =>
    if parent ≠ m.nil ∧ current = m.right parent then climbRight m fuel parent (m.parent parent)
    else some parent

/-- Prefix `operator++` (lines 234-247 and 348-361) on a cursor of the container `m`. -/
def Iter_next (fuel : Nat) (m : Map K V) (it : Iter) : Option (Except Exn Iter) :=
  if it.current = m.nil then some (Except.error Exn.invalid_iterator)
  else if m.right it.current ≠ m.nil then
    match minimum m fuel (m.right it.current) with
    | none => none
    | some c => some (Except.ok ⟨c, it.container⟩)
  else
    match climbRight m fuel it.current (m.parent it.current) with
    | none => none
    | some c => some (Except.ok ⟨c, it.container⟩)

/-- Dereference `operator*` (lines 287-290 and 391-394) of a cursor of the container `m`. -/
def deref (m : Map K V) (it : Iter) : Except Exn (K × V) :=
  if it.current = m.nil then Except.error Exn.invalid_iterator
  else Except.ok (m.key it.current, m.val it.current)

/-- The node `x` is reached from `root` through child links before the sentinel: a cursor
at `x` is positioned at an element of the container. -/
inductive InTree (m : Map K V) : Nat → Prop
  | root : m.root ≠ m.nil → InTree m m.root
  | left {x : Nat} : InTree m x → m.left x ≠ m.nil → InTree m (m.left x)
  | right {x : Nat} : InTree m x → m.right x ≠ m.nil → InTree m (m.right x)

/-- The walk `for (it = begin(); it != end(); ++it)`: the nodes visited, in order.
`operator!=` (lines 303-305) compares both fields of the cursors. -/
def walk (m : Map K V) : Nat → Iter → Option (List Nat)
  | 0, _ => none
  | fuel + 1, it =>
    if ¬ (it.current = (end_ m).current ∧ it.container = (end_ m).container) then
      match Iter_next (fuel + 1) m it with
      | some (Except.ok it2) =>
        match walk m fuel it2 with
        | none => none
        | some l => some (it.current :: l)
      | _ => none
    else some []

/-- Number of steps of the walk from `begin()` to `end()`. -/
def traversalCount (fuel : Nat) (m : Map K V) : Option Nat :=
  match begin fuel m with
  | none => none
  | some it => (walk m fuel it).map List.length

/-- `a->color = c`, logged. -/
def setColorL (s : Map K V × List Event) (a : Nat) (c : Color) : Map K V × List Event :=
  (s.1.setColor a c, s.2 ++ [Event.recolour a c])

/-- `leftRotate(x)`, logged with `x->right` at the call. -/
def leftRotateL (s : Map K V × List Event) (x : Nat) : Map K V × List Event :=
  (s.1.leftRotate x, s.2 ++ [Event.leftRotate x (s.1.right x)])

/-- `rightRotate(y)`, logged with `y->left` at the call. -/
def rightRotateL (s : Map K V × List Event) (y : Nat) : Map K V × List Event :=
  (s.1.rightRotate y, s.2 ++ [Event.rightRotate y (s.1.left y)])

/-- The sibling `w` read by `eraseFixup`, logged. -/
def siblingL (s : Map K V × List Event) (w : Nat) : Map K V × List Event :=
  (s.1, s.2 ++ [Event.sibling w])

/-- Body of the `while` loop of `insertFixup` (lines 74-106) with its log. -/
def insertFixupBodyT (m : Map K V) (z : Nat) : (Map K V × Nat) × List Event :=
  let s : Map K V × List Event := (m, [])
  if s.1.parent z = s.1.left (s.1.parent (s.1.parent z)) then
    let y := s.1.right (s.1.parent (s.1.parent z))
    if s.1.color y = Color.RED then
      let s := setColorL s (s.1.parent z) Color.BLACK
      let s := setColorL s y Color.BLACK
      let s := setColorL s (s.1.parent (s.1.parent z)) Color.RED
      ((s.1, s.1.parent (s.1.parent z)), s.2)
    else
      let sz : (Map K V × List Event) × Nat :=
        if z = s.1.right (s.1.parent z) then (leftRotateL s (s.1.parent z), s.1.parent z)
        else (s, z)
      let s := sz.1
      let z := sz.2
      let s := setColorL s (s.1.parent z) Color.BLACK
      let s := setColorL s (s.1.parent (s.1.parent z)) Color.RED
      let s := rightRotateL s (s.1.parent (s.1.parent z))
      ((s.1, z), s.2)
  else
    let y := s.1.left (s.1.parent (s.1.parent z))
    if s.1.color y = Color.RED then
      let s := setColorL s (s.1.parent z) Color.BLACK
      let s := setColorL s y Color.BLACK
      let s := setColorL s (s.1.parent (s.1.parent z)) Color.RED
      ((s.1, s.1.parent (s.1.parent z)), s.2)
    else
      let sz : (Map K V × List Event) × Nat :=
        if z = s.1.left (s.1.parent z) then (rightRotateL s (s.1.parent z), s.1.parent z)
        else (s, z)
      let s := sz.1
      let z := sz.2
      let s := setColorL s (s.1.parent z) Color.BLACK
      let s := setColorL s (s.1.parent (s.1.parent z)) Color.RED
      let s := leftRotateL s (s.1.parent (s.1.parent z))
      ((s.1, z), s.2)

/-- Lines 72-109 with the log of the whole run. -/
def insertFixupT : Nat → Map K V → Nat → Option (Map K V × List Event)
  | 0, _, _ => none
  | fuel + 1, m, z =>
    if m.color (m.parent z) = Color.RED then
      match insertFixupT fuel (insertFixupBodyT m z).1.1 (insertFixupBodyT m z).1.2 with
      | none => none
      | some (m2, tr) => some (m2, (insertFixupBodyT m z).2 ++ tr)
    else
      some (m.setColor m.root Color.BLACK, [Event.recolour m.root Color.BLACK])

/-- Lines 126-132 of `eraseFixup` with their log: the sibling of a left child `x` is read,
and rotated away when it is RED.  Returns the state and the sibling `w`. -/
def eraseFixupSibLT (m : Map K V) (x : Nat) : (Map K V × Nat) × List Event :=
  let w := m.right (m.parent x)
  let s : Map K V × List Event := siblingL (m, []) w
  if s.1.color w = Color.RED then
    let s := setColorL s w Color.BLACK
    let s := setColorL s (s.1.parent x) Color.RED
    let s := leftRotateL s (s.1.parent x)
    let w := s.1.right (s.1.parent x)
    let s := siblingL s w
    ((s.1, w), s.2)
  else ((s.1, w), s.2)

/-- Lines 133-148 of `eraseFixup` with their log. -/
def eraseFixupRestLT (m : Map K V) (x w : Nat) : (Map K V × Nat) × List Event :=
  let s : Map K V × List Event := (m, [])
  if s.1.color (s.1.left w) = Color.BLACK ∧ s.1.color (s.1.right w) = Color.BLACK then
    let s := setColorL s w Color.RED
    ((s.1, s.1.parent x), s.2)
  else
    let sw : (Map K V × List Event) × Nat :=
      if s.1.color (s.1.right w) = Color.BLACK then
        let s := setColorL s (s.1.left w) Color.BLACK
        let s := setColorL s w Color.RED
        let s := rightRotateL s w
        let w := s.1.right (s.1.parent x)
        (siblingL s w, w)
      else (s, w)
    let s := sw.1
    let w := sw.2
    let s := setColorL s w (s.1.color (s.1.parent x))
    let s := setColorL s (s.1.parent x) Color.BLACK
    let s := setColorL s (s.1.right w) Color.BLACK
    let s := leftRotateL s (s.1.parent x)
    ((s.1, s.1.root), s.2)

/-- Lines 150-156 of `eraseFixup` with their log: the sibling of a right child `x`. -/
def eraseFixupSibRT (m : Map K V) (x : Nat) : (Map K V × Nat) × List Event :=
  let w := m.left (m.parent x)
  let s : Map K V × List Event := siblingL (m, []) w
  if s.1.color w = Color.RED then
    let s := setColorL s w Color.BLACK
    let s := setColorL s (s.1.parent x) Color.RED
    let s := rightRotateL s (s.1.parent x)
    let w := s.1.left (s.1.parent x)
    let s := siblingL s w
    ((s.1, w), s.2)
  else ((s.1, w), s.2)

/-- Lines 157-172 of `eraseFixup` with their log. -/
def eraseFixupRestRT (m : Map K V) (x w : Nat) : (Map K V × Nat) × List Event :=
  let s : Map K V × List Event := (m, [])
  if s.1.color (s.1.right w) = Color.BLACK ∧ s.1.color (s.1.left w) = Color.BLACK then
    let s := setColorL s w Color.RED
    ((s.1, s.1.parent x), s.2)
  else
    let sw : (Map K V × List Event) × Nat :=
      if s.1.color (s.1.left w) = Color.BLACK then
        let s := setColorL s (s.1.right w) Color.BLACK
        let s := setColorL s w Color.RED
        let s := leftRotateL s w
        let w := s.1.left (s.1.parent x)
        (siblingL s w, w)
      else (s, w)
    let s := sw.1
    let w := sw.2
    let s := setColorL s w (s.1.color (s.1.parent x))
    let s := setColorL s (s.1.parent x) Color.BLACK
    let s := setColorL s (s.1.left w) Color.BLACK
    let s := rightRotateL s (s.1.parent x)
    ((s.1, s.1.root), s.2)

/-- Body of the `while` loop of `eraseFixup` (lines 125-173) with its log. -/
def eraseFixupBodyT (m : Map K V) (x : Nat) : (Map K V × Nat) × List Event :=
  if x = m.left (m.parent x) then
    let a := eraseFixupSibLT m x
    let b := eraseFixupRestLT a.1.1 x a.1.2
    (b.1, a.2 ++ b.2)
  else
    let a := eraseFixupSibRT m x
    let b := eraseFixupRestRT a.1.1 x a.1.2
    (b.1, a.2 ++ b.2)

/-- Lines 123-176 with the log of the whole run. -/
def eraseFixupT : Nat → Map K V → Nat → Option (Map K V × List Event)
  | 0, _, _ => none
  | fuel + 1, m, x =>
    if x ≠ m.root ∧ m.color x = Color.BLACK then
      match eraseFixupT fuel (eraseFixupBodyT m x).1.1 (eraseFixupBodyT m x).1.2 with
      | none => none
      | some (m2, tr) => some (m2, (eraseFixupBodyT m x).2 ++ tr)
    else
      some (m.setColor x Color.BLACK, [Event.recolour x Color.BLACK])

/-- Lines 557-578: `insert` with the log of its call of `insertFixup`. -/
def insertT (lt : K → K → Bool) (fuel : Nat) (m : Map K V) (value : K × V) :
    Option ((Map K V × Iter × Bool) × List Event) :=
  match insertWalk lt m value.1 fuel m.nil m.root with
  | none => none
  | some (y, x) =>
    if x ≠ m.nil then some ((m, ⟨x, m.self⟩, false), [])
    else
      let mz := m.newNode value.1 value.2 Color.RED y
      let m := mz.1
      let z := mz.2
      let m := m.setRight z m.nil
      let m := m.setLeft z m.nil
      let m := if y = m.nil then m.setRoot z
               else if lt value.1 (m.key y) then m.setLeft y z
               else m.setRight y z
      match insertFixupT fuel m z with
      | none => none
      | some (m, tr) =>
        let m := { m with map_size := m.map_size + 1 }
        some ((m, ⟨z, m.self⟩, true), tr)

/-- Lines 588-618 of `erase` with the log of the call of `eraseFixup`, if there is one. -/
def eraseNodeT (fuel : Nat) (m : Map K V) (z : Nat) : Option (Map K V × List Event) :=
  let y := z
  let y_original_color := m.color y
  let r : Option (Map K V × Nat × Color) :=
    if m.left z = m.nil then
      let x := m.right z
      some (transplant m z (m.right z), x, y_original_color)
    else if m.right z = m.nil then
      let x := m.left z
      some (transplant m z (m.left z), x, y_original_color)
    else
      match minimum m fuel (m.right z) with
      | none => none
      | some y =>
        let y_original_color := m.color y
        let x := m.right y
        let m :=
          if m.parent y = z then m.setParent x y
          else
            let m := transplant m y (m.right y)
            let m := m.setRight y (m.right z)
            m.setParent (m.right y) y
        let m := transplant m z y
        let m := m.setLeft y (m.left z)
        let m := m.setParent (m.left y) y
        let m := m.setColor y (m.color z)
        some (m, x, y_original_color)
  match r with
  | none => none
  | some (m, x, y_original_color) =>
    let r : Option (Map K V × List Event) :=
      if y_original_color = Color.BLACK then eraseFixupT fuel m x else some (m, [])
    match r with
    | none => none
    | some (m, tr) => some ({ m with map_size := m.map_size - 1 }, tr)

/-- Lines 585-619 with the log of the call of `eraseFixup`. -/
def eraseT (fuel : Nat) (m : Map K V) (pos : Iter) :
    Option (Except Exn (Map K V) × List Event) :=
  if pos.container ≠ m.self ∨ pos.current = m.nil then
    some (Except.error Exn.invalid_iterator, [])
  else
    match eraseNodeT fuel m pos.current with
    | none => none
    | some (m, tr) => some (Except.ok m, tr)

end Map

/-- A binary tree whose nodes carry their address, colour, key and value: the shape that
the nodes reachable from `root` form in the heap. -/
inductive Tree (K V : Type) where
  | leaf : Tree K V
  | node (l : Tree K V) (a : Nat) (c : Color) (k : K) (v : V) (r : Tree K V) : Tree K V

namespace Tree

/-- Pointer to the root node of a tree: the sentinel for the empty tree. -/
def ptr (nilp : Nat) : Tree K V → Nat
  | leaf => nilp
  | node _ a _ _ _ _ => a

/-- In-order list of the nodes: address, key and value. -/
def elems : Tree K V → List (Nat × K × V)
  | leaf => []
  | node l a _ k v r => l.elems ++ (a, k, v) :: r.elems

/-- In-order list of the node addresses. -/
def addrs (t : Tree K V) : List Nat := t.elems.map (fun e => e.1)

/-- In-order list of the key/value pairs. -/
def toList (t : Tree K V) : List (K × V) := t.elems.map (fun e => e.2)

/-- In-order list of the keys. -/
def keys (t : Tree K V) : List K := t.elems.map (fun e => e.2.1)

/-- Number of nodes. -/
def size : Tree K V → Nat
  | leaf => 0
  | node l _ _ _ _ r => l.size + 1 + r.size

/-- Largest number of nodes on a path from the root to a leaf. -/
def height : Tree K V → Nat
  | leaf => 0
  | node l _ _ _ _ r => max l.height r.height + 1

/-- Colour of the root node; the sentinel is BLACK. -/
def color : Tree K V → Color
  | leaf => Color.BLACK
  | node _ _ c _ _ _ => c

/-- The number of BLACK nodes on each path from the root to a sentinel leaf. -/
def blackCounts : Tree K V → List Nat
  | leaf => [0]
  | node l _ c _ _ r =>
    (l.blackCounts ++ r.blackCounts).map (fun n => n + (if c = Color.BLACK then 1 else 0))

/-- Every path from the root to a sentinel leaf passes through the same number of BLACK
nodes. -/
def EqualBlackHeight (t : Tree K V) : Prop :=
  ∀ a ∈ t.blackCounts, ∀ b ∈ t.blackCounts, a = b

/-- No RED node has a RED child. -/
def NoRedRed : Tree K V → Prop
  | leaf => True
  | node l _ c _ _ r =>
    (c = Color.RED → l.color = Color.BLACK ∧ r.color = Color.BLACK) ∧ l.NoRedRed ∧ r.NoRedRed

/-- Black height `n`: every path from the root to a leaf has `n` BLACK nodes
(defined by recursion on the tree). -/
def BH : Tree K V → Nat → Prop
  | leaf, n => n = 0
  | node l _ c _ _ r, n =>
    match c with
    | Color.RED => l.BH n ∧ r.BH n
    | Color.BLACK => ∃ n', n = n' + 1 ∧ l.BH n' ∧ r.BH n'

/-- The red-black colouring invariants: BLACK root (or empty tree), no RED node with a
RED child, equal black height on all root-to-leaf paths. -/
structure RB (t : Tree K V) : Prop where
  root_black : t.color = Color.BLACK
  no_red_red : t.NoRedRed
  balanced : t.EqualBlackHeight

/-- The binary-search-tree property: at every node all keys of the left subtree compare
less than the node's key and all keys of the right subtree compare greater. -/
def BST (lt : K → K → Bool) : Tree K V → Prop
  | leaf => True
  | node l _ _ k _ r =>
    (∀ x ∈ l.keys, lt x k = true) ∧ (∀ x ∈ r.keys, lt k x = true) ∧ l.BST lt ∧ r.BST lt

end Tree

/-- A list of keys is strictly ascending under `lt`. -/
def Ascending {K : Type} (lt : K → K → Bool) (l : List K) : Prop :=
  l.Pairwise (fun a b => lt a b = true)

/-- Equivalence of keys: neither compares less than the other. -/
def Equiv {K : Type} (lt : K → K → Bool) (a b : K) : Prop :=
  lt a b = false ∧ lt b a = false

/-- The comparison `comp` is a strict weak order. -/
structure StrictWeakOrder {K : Type} (lt : K → K → Bool) : Prop where
  irrefl : ∀ a, lt a a = false
  trans : ∀ a b c, lt a b = true → lt b c = true → lt a c = true
  equiv_trans : ∀ a b c, Equiv lt a b → Equiv lt b c → Equiv lt a c

/-- The heap `mem` holds the tree `t` at the addresses of its nodes, linked to each other,
to the sentinel `nilp` at the leaves, and to `par` as the parent of the root. -/
def Rep (mem : Nat → Node K V) (nilp : Nat) : Tree K V → Nat → Prop
  | Tree.leaf, _ => True
  | Tree.node l a c k v r, par =>
    a ≠ nilp ∧ mem a = ⟨k, v, l.ptr nilp, r.ptr nilp, par, c⟩ ∧
      Rep mem nilp l a ∧ Rep mem nilp r a

/-- The container state `m` represents the tree `t`: the nodes reachable from `root` are
those of `t`, at pairwise distinct allocated addresses, and the sentinel is BLACK with its
`left` and `right` links at itself (lines 425-426; its parent link is written by `erase`). -/
structure Abs (m : Map K V) (t : Tree K V) : Prop where
  rep : Rep m.mem m.nil t m.nil
  root : m.root = t.ptr m.nil
  nodup : t.addrs.Nodup
  bound : ∀ a ∈ t.addrs, a < m.next
  nil_lt : m.nil < m.next
  nil_black : (m.mem m.nil).color = Color.BLACK
  nil_links : (m.mem m.nil).left = m.nil ∧ (m.mem m.nil).right = m.nil

/-- A well-formed container: it represents a tree that satisfies the search-tree and the
colouring invariants, `map_size` counts its nodes, and the object is not at `nullptr`. -/
structure WF (lt : K → K → Bool) (m : Map K V) (t : Tree K V) : Prop where
  abs : Abs m t
  bst : t.BST lt
  rb : t.RB
  size_eq : m.map_size = t.size
  self_ne : m.self ≠ 0
  nil_ne : m.nil ≠ 0

/-- A cursor of the container `m` positioned at one of its elements. -/
def ValidCursor (m : Map K V) (t : Tree K V) (pos : Iter) : Prop :=
  pos.container = m.self ∧ pos.current ∈ t.addrs

/-- The path from the root to a hole, innermost frame first.  `L` says the hole is the left
child of node `a` (whose right subtree is `r`), `R` that it is the right child. -/
inductive Path (K V : Type) where
  | top : Path K V
  | L (a : Nat) (c : Color) (k : K) (v : V) (r : Tree K V) (up : Path K V) : Path K V
  | R (l : Tree K V) (a : Nat) (c : Color) (k : K) (v : V) (up : Path K V) : Path K V

namespace Path

/-- Fill the hole. -/
def plug : Path K V → Tree K V → Tree K V
  | top, t => t
  | L a c k v r up, t => plug up (Tree.node t a c k v r)
  | R l a c k v up, t => plug up (Tree.node l a c k v t)

/-- Address of the innermost frame, the parent of the hole; the sentinel at the top. -/
def ptr (nilp : Nat) : Path K V → Nat
  | top => nilp
  | L a _ _ _ _ _ => a
  | R _ a _ _ _ _ => a

/-- Colour of the innermost frame; the sentinel is BLACK. -/
def color : Path K V → Color
  | top => Color.BLACK
  | L _ c _ _ _ _ => c
  | R _ _ c _ _ _ => c

/-- Address of the root of the plugged tree when the hole holds a tree at `hp`. -/
def rootPtr : Path K V → Nat → Nat
  | top, hp => hp
  | L a _ _ _ _ up, _ => rootPtr up a
  | R _ a _ _ _ up, _ => rootPtr up a

/-- Colour of the root of the plugged tree when the hole holds a tree of colour `hc`. -/
def rootColor : Path K V → Color → Color
  | top, hc => hc
  | L _ c _ _ _ up, _ => rootColor up c
  | R _ _ c _ _ up, _ => rootColor up c

/-- Nodes before the hole, in order. -/
def pre : Path K V → List (Nat × K × V)
  | top => []
  | L _ _ _ _ _ up => up.pre
  | R l a _ k v up => up.pre ++ (l.elems ++ [(a, k, v)])

/-- Nodes after the hole, in order. -/
def post : Path K V → List (Nat × K × V)
  | top => []
  | L a _ k v r up => ((a, k, v) :: r.elems) ++ up.post
  | R _ _ _ _ _ up => up.post

/-- Number of frames. -/
def depth : Path K V → Nat
  | top => 0
  | L _ _ _ _ _ up => up.depth + 1
  | R _ _ _ _ _ up => up.depth + 1

/-- Composition: `inner` sits in the hole of `outer`. -/
def comp : Path K V → Path K V → Path K V
  | top, outer => outer
  | L a c k v r up, outer => L a c k v r (comp up outer)
  | R l a c k v up, outer => R l a c k v (comp up outer)

end Path

/-- The heap holds the frames of the path and their sibling subtrees, the innermost frame
pointing to `hp` on the side of the hole. -/
def RepPath (mem : Nat → Node K V) (nilp : Nat) : Path K V → Nat → Prop
  | Path.top, _ => True
  | Path.L a c k v r up, hp =>
    a ≠ nilp ∧ mem a = ⟨k, v, hp, r.ptr nilp, up.ptr nilp, c⟩ ∧
      Rep mem nilp r a ∧ RepPath mem nilp up a
  | Path.R l a c k v up, hp =>
    a ≠ nilp ∧ mem a = ⟨k, v, l.ptr nilp, hp, up.ptr nilp, c⟩ ∧
      Rep mem nilp l a ∧ RepPath mem nilp up a

namespace Path

/-- All addresses on the path: frames and sibling subtrees. -/
def addrs (p : Path K V) : List Nat := (p.pre ++ p.post).map (fun e => e.1)

end Path

/-- The state `m` holds the tree `p.plug t`, seen as the path `p` and the subtree `t`. -/
structure ZRep (m : Map K V) (p : Path K V) (t : Tree K V) : Prop where
  path : RepPath m.mem m.nil p (t.ptr m.nil)
  tree : Rep m.mem m.nil t (p.ptr m.nil)
  root : m.root = p.rootPtr (t.ptr m.nil)
  nodup : (p.addrs ++ t.addrs).Nodup
  bound : ∀ a ∈ p.addrs ++ t.addrs, a < m.next
  nil_lt : m.nil < m.next
  nil_black : (m.mem m.nil).color = Color.BLACK
  nil_links : (m.mem m.nil).left = m.nil ∧ (m.mem m.nil).right = m.nil

namespace Tree

/-- Recolouring the root BLACK, the store `root->color = BLACK`. -/
def blacken : Tree K V → Tree K V
  | leaf => leaf
  | node l a _ k v r => node l a Color.BLACK k v r

end Tree

namespace Path

/-- The colouring invariants of the part of the tree outside the hole, for a hole that takes
a subtree of black height `n`. -/
def OK : Path K V → Nat → Prop
  | top, _ => True
  | L _ c _ _ r up, n =>
    r.BH n ∧ r.NoRedRed ∧ (c = Color.RED → r.color = Color.BLACK ∧ up.color = Color.BLACK) ∧
      up.OK (n + (if c = Color.BLACK then 1 else 0))
  | R l _ c _ _ up, n =>
    l.BH n ∧ l.NoRedRed ∧ (c = Color.RED → l.color = Color.BLACK ∧ up.color = Color.BLACK) ∧
      up.OK (n + (if c = Color.BLACK then 1 else 0))

end Path

/-- The outcome of `insertFixup(z)`: with `d + 2` units of fuel or more it returns a state
holding a red-black tree with the in-order content `E`; only node cells are written, and
every logged step of the run keeps off the sentinel. -/
def FixupResult (m : Map K V) (z d : Nat) (E : List (Nat × K × V)) : Prop :=
  ∃ m2 T, (∀ fuel, d + 2 ≤ fuel → m.insertFixup fuel z = some m2) ∧ Abs m2 T ∧ T.RB ∧
    T.elems = E ∧ m2.nil = m.nil ∧ m2.next = m.next ∧ m2.self = m.self ∧
    m2.map_size = m.map_size ∧ m2.mem m.nil = m.mem m.nil ∧
    ∃ tr, (∀ fuel, d + 2 ≤ fuel → m.insertFixupT fuel z = some (m2, tr)) ∧
      ∀ e ∈ tr, e.Safe m.nil

/-- The search of `findHelper` and of the loop of `insert` on the represented tree: the
position where it stops, either a node whose key is equivalent to `key` or a leaf. -/
def descend (lt : K → K → Bool) (key : K) : Tree K V → Path K V → Path K V × Tree K V
  | Tree.leaf, p => (p, Tree.leaf)
  | Tree.node l a c k v r, p =>
    if lt key k then descend lt key l (Path.L a c k v r p)
    else if lt k key then descend lt key r (Path.R l a c k v p)
    else (p, Tree.node l a c k v r)

/-- Every choice of the search is recorded in the path: a left turn at a key greater than
`key`, a right turn at a smaller one. -/
def Path.Turns (lt : K → K → Bool) (key : K) : Path K V → Prop
  | Path.top => True
  | Path.L _ _ k _ _ up => lt key k = true ∧ up.Turns lt key
  | Path.R _ _ _ k _ up => lt key k = false ∧ lt k key = true ∧ up.Turns lt key

/-- The empty tree. -/
def Tree.isLeaf : Tree K V → Bool
  | Tree.leaf => true
  | Tree.node _ _ _ _ _ _ => false

namespace Map

/-- The state after lines 568-573 of `insert`: the new node is allocated and linked below
`y`. -/
def insertLink (lt : K → K → Bool) (m : Map K V) (value : K × V) (y : Nat) : Map K V :=
  let mz := m.newNode value.1 value.2 Color.RED y
  let m := mz.1
  let z := mz.2
  let m := m.setRight z m.nil
  let m := m.setLeft z m.nil
  if y = m.nil then m.setRoot z
  else if lt value.1 (m.key y) then m.setLeft y z
  else m.setRight y z

/-- Lines 133-148 of `eraseFixup`: the part of the loop body after the sibling `w` of a left
child `x` has been made BLACK. -/
def eraseFixupRestL (m : Map K V) (x w : Nat) : Map K V × Nat :=
  if m.color (m.left w) = Color.BLACK ∧ m.color (m.right w) = Color.BLACK then
    let m := m.setColor w Color.RED
    (m, m.parent x)
  else
    let mw : Map K V × Nat :=
      if m.color (m.right w) = Color.BLACK then
        let m := m.setColor (m.left w) Color.BLACK
        let m := m.setColor w Color.RED
        let m := rightRotate m w
        (m, m.right (m.parent x))
      else (m, w)
    let m := mw.1
    let w := mw.2
    let m := m.setColor w (m.color (m.parent x))
    let m := m.setColor (m.parent x) Color.BLACK
    let m := m.setColor (m.right w) Color.BLACK
    let m := leftRotate m (m.parent x)
    (m, m.root)

/-- Lines 157-172 of `eraseFixup`: the part of the loop body after the sibling `w` of a right
child `x` has been made BLACK. -/
def eraseFixupRestR (m : Map K V) (x w : Nat) : Map K V × Nat :=
  if m.color (m.right w) = Color.BLACK ∧ m.color (m.left w) = Color.BLACK then
    let m := m.setColor w Color.RED
    (m, m.parent x)
  else
    let mw : Map K V × Nat :=
      if m.color (m.left w) = Color.BLACK then
        let m := m.setColor (m.right w) Color.BLACK
        let m := m.setColor w Color.RED
        let m := leftRotate m w
        (m, m.left (m.parent x))
      else (m, w)
    let m := mw.1
    let w := mw.2
    let m := m.setColor w (m.color (m.parent x))
    let m := m.setColor (m.parent x) Color.BLACK
    let m := m.setColor (m.left w) Color.BLACK
    let m := rightRotate m (m.parent x)
    (m, m.root)

/-- Lines 126-132 of `eraseFixup`: a RED sibling of a left child `x` is rotated away.
Returns the state and the sibling `w`. -/
def eraseFixupSibL (m : Map K V) (x : Nat) : Map K V × Nat :=
  let w := m.right (m.parent x)
  if m.color w = Color.RED then
    let m := m.setColor w Color.BLACK
    let m := m.setColor (m.parent x) Color.RED
    let m := leftRotate m (m.parent x)
    (m, m.right (m.parent x))
  else (m, w)

/-- Lines 150-156 of `eraseFixup`: a RED sibling of a right child `x` is rotated away.
Returns the state and the sibling `w`. -/
def eraseFixupSibR (m : Map K V) (x : Nat) : Map K V × Nat :=
  let w := m.left (m.parent x)
  if m.color w = Color.RED then
    let m := m.setColor w Color.BLACK
    let m := m.setColor (m.parent x) Color.RED
    let m := rightRotate m (m.parent x)
    (m, m.left (m.parent x))
  else (m, w)

end Map

/-- The outcome of `eraseFixup(x)`: with `d + 2` units of fuel or more it returns a state
holding a red-black tree with the in-order content `E`, and every logged step of the run
keeps off the sentinel. -/
def EFResult (m : Map K V) (x d : Nat) (E : List (Nat × K × V)) : Prop :=
  ∃ m2 T, (∀ fuel, d + 2 ≤ fuel → m.eraseFixup fuel x = some m2) ∧ Abs m2 T ∧ T.RB ∧
    T.elems = E ∧ m2.nil = m.nil ∧ m2.next = m.next ∧ m2.self = m.self ∧
    m2.map_size = m.map_size ∧
    ∃ tr, (∀ fuel, d + 2 ≤ fuel → m.eraseFixupT fuel x = some (m2, tr)) ∧
      ∀ e ∈ tr, e.Safe m.nil

namespace Map

/-- Lines 616-618 of `erase`: `eraseFixup` when the spliced-out node was BLACK, then
`map_size--`. -/
def eraseFinish (fuel : Nat) (m : Map K V) (x : Nat) (y_original_color : Color) :
    Option (Map K V) :=
  match (if y_original_color = Color.BLACK then eraseFixup fuel m x else some m) with
  | none => none
  | some m => some { m with map_size := m.map_size - 1 }

/-- Lines 616-618 of `erase` with the log of the call of `eraseFixup`, if there is one. -/
def eraseFinishT (fuel : Nat) (m : Map K V) (x : Nat) (y_original_color : Color) :
    Option (Map K V × List Event) :=
  match (if y_original_color = Color.BLACK then eraseFixupT fuel m x else some (m, [])) with
  | none => none
  | some (m, tr) => some ({ m with map_size := m.map_size - 1 }, tr)

/-- Lines 602-613 of `erase`: the state after the successor `y` of a node `z` with two
children has taken the place of `z`. -/
def eraseSplice (m : Map K V) (z y : Nat) : Map K V :=
  let x := m.right y
  let m :=
    if m.parent y = z then m.setParent x y
    else
      let m := transplant m y (m.right y)
      let m := m.setRight y (m.right z)
      m.setParent (m.right y) y
  let m := transplant m z y
  let m := m.setLeft y (m.left z)
  let m := m.setParent (m.left y) y
  m.setColor y (m.color z)

end Map

/-- More fuel does not change a result. -/
def FuelMono {α : Type} (f : Nat → Option α) : Prop :=
  ∀ n r, f n = some r → f (n + 1) = some r

/-- Address of the first element of a list of elements, the sentinel for the empty list. -/
def headPtr (nilp : Nat) : List (Nat × K × V) → Nat
  | [] => nilp
  | e :: _ => e.1

/-- The states of a container after a finite sequence of `insert`, `erase` at a cursor of
this container positioned at one of its elements, `clear` and mutable `operator[]`, from
the default-constructed container at address `self`.  (An `erase` that throws leaves the
state as it is.)  `dflt` is what the local `default_value` of `operator[]` holds; a call
in which it holds something else leaves the state of an `insert` step. -/
inductive Reachable (lt : K → K → Bool) (dflt : V) (self : Nat) (cell : Node K V) :
    Map K V → Prop
  | init : Reachable lt dflt self cell (Map.empty self cell)
  | insert {m m2 : Map K V} {fuel : Nat} {value : K × V} {it : Iter} {b : Bool} :
      Reachable lt dflt self cell m → m.insert lt fuel value = some (m2, it, b) →
      Reachable lt dflt self cell m2
  | erase {m m2 : Map K V} {fuel : Nat} {pos : Iter} :
      Reachable lt dflt self cell m → pos.container = m.self → m.InTree pos.current →
      m.erase fuel pos = some (Except.ok m2) → Reachable lt dflt self cell m2
  | clear {m m2 : Map K V} {fuel : Nat} :
      Reachable lt dflt self cell m → m.clear fuel = some m2 → Reachable lt dflt self cell m2
  | index {m m2 : Map K V} {fuel : Nat} {key : K} {r : Outcome V} :
      Reachable lt dflt self cell m → m.index lt dflt fuel key = some (m2, r) →
      Reachable lt dflt self cell m2

/-- In a well-formed container every operation returns once the fuel exceeds the height
of the tree by two. -/
def Responsive (lt : K → K → Bool) (dflt : V) (m : Map K V) : Prop :=
  ∃ N, ∀ fuel, N ≤ fuel →
    (∀ value, ∃ m2 it b, m.insert lt fuel value = some (m2, it, b)) ∧
    (∀ pos : Iter, pos.container = m.self → m.InTree pos.current →
      ∃ m2, m.erase fuel pos = some (Except.ok m2)) ∧
    (∃ m2, m.clear fuel = some m2) ∧
    (∀ key, ∃ m2 v, m.index lt dflt fuel key = some (m2, Outcome.value v))

/-- The order `<` on `Nat` as a comparison function. -/
def ltN (a b : Nat) : Bool := decide (a < b)

/-- The content of unallocated cells in the examples. -/
def cell0 : Node Nat Nat := ⟨0, 0, 0, 0, 0, Color.BLACK⟩

/-- The empty container at address 7. -/
def exEmpty : Map Nat Nat := Map.empty 7 cell0

/-- The container after one more `insert`. -/
def insertD (m : Map Nat Nat) (kv : Nat × Nat) : Map Nat Nat :=
  match Map.insert ltN 10 m kv with
  | some (m2, _, _) => m2
  | none => m

/-- The container after `insert (5, 50)`, `insert (3, 30)`, `insert (8, 80)`. -/
def exMap3 : Map Nat Nat := insertD (insertD (insertD exEmpty (5, 50)) (3, 30)) (8, 80)

/-- The tree of `exMap3`: the nodes were allocated at 2, 3 and 4, the sentinel at 1. -/
def exTree3 : Tree Nat Nat :=
  Tree.node (Tree.node Tree.leaf 3 Color.RED 3 30 Tree.leaf) 2 Color.BLACK 5 50
    (Tree.node Tree.leaf 4 Color.RED 8 80 Tree.leaf)

/-- The container after `erase (find k)`. -/
def eraseD (m : Map Nat Nat) (k : Nat) : Map Nat Nat :=
  match Map.find ltN 10 m k with
  | some it =>
    match Map.erase 10 m it with
    | some (Except.ok m2) => m2
    | _ => m
  | none => m

/-- The container after `insert` of the keys 5, 3, 8, 1, 4, 7, 9 and `erase` of 3. -/
def exMap6 : Map Nat Nat :=
  eraseD (insertD (insertD (insertD (insertD exMap3 (1, 10)) (4, 40)) (7, 70)) (9, 90)) 3

/-- The tree of `exMap6`. -/
def exTree6 : Tree Nat Nat :=
  Tree.node
    (Tree.node (Tree.node Tree.leaf 5 Color.RED 1 10 Tree.leaf) 6 Color.BLACK 4 40 Tree.leaf)
    2 Color.BLACK 5 50
    (Tree.node (Tree.node Tree.leaf 7 Color.RED 7 70 Tree.leaf) 4 Color.BLACK 8 80
      (Tree.node Tree.leaf 8 Color.RED 9 90 Tree.leaf))

namespace Map

/-- Lines 185-191, a member function called by the container `m`: the `nil` of line 186 is
the sentinel of `m`.  Returns the new state and the pointer returned. -/
def copyHelper : Nat → Map K V → Nat → Nat → Option (Map K V × Nat)
  | 0, _, _, _ => none
  | fuel + 1, m, node, parent =>
    if node = m.nil then some (m, m.nil)
    else
      let mn := m.newNode (m.key node) (m.val node) (m.color node) parent
      let m := mn.1
      let newNode := mn.2
      match copyHelper fuel m (m.left node) newNode with
      | none => none
      | some (m, l) =>
        let m := m.setLeft newNode l
        match copyHelper fuel m (m.right node) newNode with
        | none => none
        | some (m, r) =>
          let m := m.setRight newNode r
          some (m, newNode)

/-- Lines 425-426, 432-433 and 445-446: a new sentinel is allocated (`cell` holds `Key()`
and `T()`), made the `nil` of the container, and linked to itself. -/
def freshSentinel (m : Map K V) (cell : Node K V) : Map K V :=
  let mn := m.newNode cell.key cell.val Color.BLACK 0
  let m := mn.1
  let m := { m with nil := mn.2 }
  let m := m.setParent m.nil m.nil
  let m := m.setRight m.nil m.nil
  m.setLeft m.nil m.nil

/-- The copy constructor (lines 430-435) for an object at address `self`, from the
container `other`, on the heap of `other`. -/
def copyConstruct (fuel : Nat) (self : Nat) (cell : Node K V) (other : Map K V) :
    Option (Map K V) :=
  let m : Map K V := ⟨other.mem, 0, 0, other.map_size, self, other.next⟩
  let m := m.freshSentinel cell
  match copyHelper fuel m other.root m.nil with
  | none => none
  | some (m, r) => some (m.setRoot r)

/-- The default constructor (lines 423-428) for an object at address `self`, run on the
heap of the container `h`: a second container beside `h`. -/
def emptyBeside (self : Nat) (cell : Node K V) (h : Map K V) : Map K V :=
  let m : Map K V := ⟨h.mem, 0, 0, 0, self, h.next⟩
  let m := m.freshSentinel cell
  m.setRoot m.nil

/-- Copy assignment `*this = other` (lines 440-451) for the container `m`; the nodes
of `other` are in the heap of `m`.  `delete nil` releases storage and leaves the state as
it is. -/
def copyAssign (fuel : Nat) (cell : Node K V) (m other : Map K V) : Option (Map K V) :=
  if m.self ≠ other.self then
    match clear fuel m with
    | none => none
    | some m =>
      let m := m.freshSentinel cell
      match copyHelper fuel m other.root m.nil with
      | none => none
      | some (m, r) =>
        let m := m.setRoot r
        some { m with map_size := other.map_size }
  else some m

end Map

/-- The empty container at address 9 beside `exMap3`. -/
def exBeside : Map Nat Nat := Map.emptyBeside 9 cell0 exMap3

namespace Map

/-- The climbing loop of `operator--` (lines 273-276 and 380-383), returning the final
`parent`. -/
def climbLeft (m : Map K V) : Nat → Nat → Nat → Option Nat
  | 0, _, _ => none
  | fuel + 1, current, parent =>
    if parent ≠ m.nil ∧ current = m.left parent then climbLeft m fuel parent (m.parent parent)
    else some parent

/-- Prefix `operator--` of `iterator` (lines 261-282) and `const_iterator` (368-389) on a
cursor of the container `m`: the cursor after the call, and the exception thrown, if any.
Line 277 assigns `current` before line 278 throws. -/
def Iter_prev (fuel : Nat) (m : Map K V) (it : Iter) : Option (Iter × Option Exn) :=
  if it.current = m.nil then
    if m.root = m.nil then some (it, some Exn.invalid_iterator)
    else
      match maximum m fuel m.root with
      | none => none
      | some c => some (⟨c, it.container⟩, none)
  else if m.left it.current ≠ m.nil then
    match maximum m fuel (m.left it.current) with
    | none => none
    | some c => some (⟨c, it.container⟩, none)
  else
    match climbLeft m fuel it.current (m.parent it.current) with
    | none => none
    | some c =>
      if c = m.nil then some (⟨c, it.container⟩, some Exn.invalid_iterator)
      else some (⟨c, it.container⟩, none)

/-- The cursor after `n` calls of `operator--`, stopping at the first that throws. -/
def retreat (m : Map K V) (fuel : Nat) : Nat → Iter → Option (Iter × Option Exn)
  | 0, it => some (it, none)
  | n + 1, it =>
    match Iter_prev fuel m it with
    | some (it2, none) => retreat m fuel n it2
    | r => r

/-- The cursor after `n` calls of `operator++`, stopping at the first that throws. -/
def advance (m : Map K V) (fuel : Nat) : Nat → Iter → Option (Except Exn Iter)
  | 0, it => some (Except.ok it)
  | n + 1, it =>
    match Iter_next fuel m it with
    | some (Except.ok it2) => advance m fuel n it2
    | r => r

end Map

/-- Address of the last element of a list of elements, the sentinel for the empty list. -/
def lastPtr (nilp : Nat) (l : List (Nat × K × V)) : Nat := headPtr nilp l.reverse

/-- Cursors at the elements of the tree `T` of the container `m` move along its in-order
sequence: `operator++` to the next element (to `end()` from the last), `operator--` to the
element before (throwing at the first). -/
def FollowsOrder (m : Map K V) (T : Tree K V) : Prop :=
  ∀ pre e rest s, T.elems = pre ++ e :: rest → ∀ fuel, T.height + 1 ≤ fuel →
    Map.Iter_next fuel m ⟨e.1, s⟩ = some (Except.ok ⟨headPtr m.nil rest, s⟩) ∧
    Map.Iter_prev fuel m ⟨e.1, s⟩ = some (⟨lastPtr m.nil pre, s⟩,
      if pre.isEmpty then some Exn.invalid_iterator else none)

end sjtu

namespace sjtu

namespace Map

variable {K V : Type}

/-! ### The fixup loops with a log

The same loops, keeping a log of the steps that could touch the sentinel: every assignment
to a `color` field, every call of a rotation with the child that moves up, and every sibling
`w` that `eraseFixup` reads. -/

end Map

end sjtu

namespace sjtu

/-! ## The tree a heap represents -/

variable {K V : Type}

/-! ## Paths: a tree with a hole -/

/-! ## Basic facts -/

namespace Tree

@[simp] theorem elems_leaf : (leaf : Tree K V).elems = [] := rfl
@[simp] theorem elems_node (l : Tree K V) (a c k v r) :
    (node l a c k v r).elems = l.elems ++ (a, k, v) :: r.elems := rfl
@[simp] theorem addrs_leaf : (leaf : Tree K V).addrs = [] := rfl
@[simp] theorem addrs_node (l : Tree K V) (a c k v r) :
    (node l a c k v r).addrs = l.addrs ++ a :: r.addrs := by simp [addrs]
@[simp] theorem keys_leaf : (leaf : Tree K V).keys = [] := rfl
@[simp] theorem keys_node (l : Tree K V) (a c k v r) :
    (node l a c k v r).keys = l.keys ++ k :: r.keys := by simp [keys]
@[simp] theorem toList_leaf : (leaf : Tree K V).toList = [] := rfl
@[simp] theorem toList_node (l : Tree K V) (a c k v r) :
    (node l a c k v r).toList = l.toList ++ (k, v) :: r.toList := by simp [toList]
@[simp] theorem ptr_leaf (nilp : Nat) : (leaf : Tree K V).ptr nilp = nilp := rfl
@[simp] theorem ptr_node (nilp : Nat) (l : Tree K V) (a c k v r) :
    (node l a c k v r).ptr nilp = a := rfl
@[simp] theorem color_leaf : (leaf : Tree K V).color = Color.BLACK := rfl
@[simp] theorem color_node (l : Tree K V) (a c k v r) : (node l a c k v r).color = c := rfl
@[simp] theorem size_leaf : (leaf : Tree K V).size = 0 := rfl
@[simp] theorem size_node (l : Tree K V) (a c k v r) :
    (node l a c k v r).size = l.size + 1 + r.size := rfl

theorem length_elems (t : Tree K V) : t.elems.length = t.size := by
  induction t with
  | leaf => rfl
  | node l a c k v r ihl ihr => simp [ihl, ihr]; omega

theorem length_addrs (t : Tree K V) : t.addrs.length = t.size := by
  simp [addrs, length_elems]

theorem height_le_size (t : Tree K V) : t.height ≤ t.size := by
  induction t with
  | leaf => simp [height]
  | node l a c k v r ihl ihr => simp [height]; omega

end Tree

theorem Color.ne_red {c : Color} : c ≠ Color.RED ↔ c = Color.BLACK := by
  cases c <;> simp

theorem Color.ne_black {c : Color} : c ≠ Color.BLACK ↔ c = Color.RED := by
  cases c <;> simp

@[simp] theorem Rep_leaf (mem : Nat → Node K V) (nilp par : Nat) :
    Rep mem nilp Tree.leaf par := trivial

@[simp] theorem Rep_node (mem : Nat → Node K V) (nilp par : Nat) (l : Tree K V) (a c k v r) :
    Rep mem nilp (Tree.node l a c k v r) par ↔
      (a ≠ nilp ∧ mem a = ⟨k, v, l.ptr nilp, r.ptr nilp, par, c⟩ ∧
        Rep mem nilp l a ∧ Rep mem nilp r a) := Iff.rfl

/-- Frame rule: a heap that agrees with `mem` on the addresses of `t` holds `t` too. -/
theorem Rep_congr {mem mem2 : Nat → Node K V} {nilp : Nat} {t : Tree K V} :
    ∀ {par : Nat}, (∀ a ∈ t.addrs, mem2 a = mem a) → Rep mem nilp t par → Rep mem2 nilp t par := by
  induction t with
  | leaf => intro _ _ _; trivial
  | node l a c k v r ihl ihr =>
    intro par h hr
    simp only [Rep_node] at hr ⊢
    obtain ⟨h1, h2, h3, h4⟩ := hr
    refine ⟨h1, ?_, ihl (fun b hb => h b (by simp [hb])) h3, ihr (fun b hb => h b (by simp [hb])) h4⟩
    rw [h a (by simp), h2]

/-- The addresses of a represented tree differ from the sentinel. -/
theorem Rep_nil_not_mem {mem : Nat → Node K V} {nilp : Nat} {t : Tree K V} :
    ∀ {par : Nat}, Rep mem nilp t par → nilp ∉ t.addrs := by
  induction t with
  | leaf => intro _ _; simp
  | node l a c k v r ihl ihr =>
    intro par hr
    simp only [Rep_node] at hr
    obtain ⟨h1, _, h3, h4⟩ := hr
    simp only [Tree.addrs_node, List.mem_append, List.mem_cons, not_or]
    exact ⟨ihl h3, fun h => h1 h.symm, ihr h4⟩

/-- Re-parenting: storing a new parent pointer in the root of a subtree. -/
theorem Rep_setParent {mem : Nat → Node K V} {nilp : Nat} {t : Tree K V} {par par2 : Nat}
    (hn : t.addrs.Nodup) (hr : Rep mem nilp t par) :
    Rep (fun b => if b = t.ptr nilp then { mem b with parent := par2 } else mem b) nilp t par2 := by
  cases t with
  | leaf => trivial
  | node l a c k v r =>
    simp only [Rep_node, Tree.ptr_node] at hr ⊢
    obtain ⟨h1, h2, h3, h4⟩ := hr
    simp only [Tree.addrs_node] at hn
    have hd := List.nodup_append.1 hn
    have hal : a ∉ l.addrs := fun h => (List.disjoint_of_nodup_append hn) h (by simp)
    have har : a ∉ r.addrs := (List.nodup_cons.1 hd.2.1).1
    refine ⟨h1, by simp [h2], ?_, ?_⟩
    · refine Rep_congr (fun b hb => ?_) h3
      have : b ≠ a := fun h => hal (h ▸ hb)
      simp [this]
    · refine Rep_congr (fun b hb => ?_) h4
      have : b ≠ a := fun h => har (h ▸ hb)
      simp [this]

namespace Path

@[simp] theorem ptr_top (nilp : Nat) : (top : Path K V).ptr nilp = nilp := rfl
@[simp] theorem ptr_L (nilp a : Nat) (c k v) (r : Tree K V) (up : Path K V) :
    (L a c k v r up).ptr nilp = a := rfl
@[simp] theorem ptr_R (nilp a : Nat) (c k v) (l : Tree K V) (up : Path K V) :
    (R l a c k v up).ptr nilp = a := rfl
@[simp] theorem rootPtr_top (hp : Nat) : (top : Path K V).rootPtr hp = hp := rfl
@[simp] theorem rootPtr_L (hp a : Nat) (c k v) (r : Tree K V) (up : Path K V) :
    (L a c k v r up).rootPtr hp = up.rootPtr a := rfl
@[simp] theorem rootPtr_R (hp a : Nat) (c k v) (l : Tree K V) (up : Path K V) :
    (R l a c k v up).rootPtr hp = up.rootPtr a := rfl
@[simp] theorem color_top : (top : Path K V).color = Color.BLACK := rfl
@[simp] theorem color_L (a : Nat) (c k v) (r : Tree K V) (up : Path K V) :
    (L a c k v r up).color = c := rfl
@[simp] theorem color_R (a : Nat) (c k v) (l : Tree K V) (up : Path K V) :
    (R l a c k v up).color = c := rfl
@[simp] theorem depth_top : (top : Path K V).depth = 0 := rfl
@[simp] theorem depth_L (a : Nat) (c k v) (r : Tree K V) (up : Path K V) :
    (L a c k v r up).depth = up.depth + 1 := rfl
@[simp] theorem depth_R (a : Nat) (c k v) (l : Tree K V) (up : Path K V) :
    (R l a c k v up).depth = up.depth + 1 := rfl
@[simp] theorem plug_top (t : Tree K V) : plug top t = t := rfl
@[simp] theorem plug_L (a c k v) (r : Tree K V) (up : Path K V) (t : Tree K V) :
    plug (L a c k v r up) t = plug up (Tree.node t a c k v r) := rfl
@[simp] theorem plug_R (l : Tree K V) (a c k v) (up : Path K V) (t : Tree K V) :
    plug (R l a c k v up) t = plug up (Tree.node l a c k v t) := rfl

theorem elems_plug (p : Path K V) : ∀ (t : Tree K V),
    (p.plug t).elems = p.pre ++ t.elems ++ p.post := by
  induction p with
  | top => intro t; simp [pre, post]
  | L a c k v r up ih => intro t; simp [ih, pre, post]
  | R l a c k v up ih => intro t; simp [ih, pre, post]

theorem addrs_plug (p : Path K V) (t : Tree K V) :
    (p.plug t).addrs = p.pre.map (fun e => e.1) ++ t.addrs ++ p.post.map (fun e => e.1) := by
  simp [Tree.addrs, elems_plug]

theorem ptr_plug (nilp : Nat) (p : Path K V) : ∀ (t : Tree K V),
    (p.plug t).ptr nilp = p.rootPtr (t.ptr nilp) := by
  induction p with
  | top => intro t; rfl
  | L a c k v r up ih => intro t; simp [ih, rootPtr]
  | R l a c k v up ih => intro t; simp [ih, rootPtr]

theorem color_plug (p : Path K V) : ∀ (t : Tree K V),
    (p.plug t).color = p.rootColor t.color := by
  induction p with
  | top => intro t; rfl
  | L a c k v r up ih => intro t; simp [ih, rootColor]
  | R l a c k v up ih => intro t; simp [ih, rootColor]

theorem size_plug (p : Path K V) (t : Tree K V) :
    (p.plug t).size = p.pre.length + t.size + p.post.length := by
  rw [← Tree.length_elems, elems_plug]; simp [Tree.length_elems]; omega

theorem depth_le (p : Path K V) : p.depth ≤ p.pre.length + p.post.length := by
  induction p with
  | top => simp [depth]
  | L a c k v r up ih => simp [depth, pre, post]; omega
  | R l a c k v up ih => simp [depth, pre, post]; omega

theorem plug_comp (p q : Path K V) : ∀ (t : Tree K V), (p.comp q).plug t = q.plug (p.plug t) := by
  induction p with
  | top => intro t; rfl
  | L a c k v r up ih => intro t; simp [comp, ih]
  | R l a c k v up ih => intro t; simp [comp, ih]

end Path

/-- A represented tree splits into the path to a hole and the subtree in the hole. -/
theorem Rep_plug {mem : Nat → Node K V} {nilp : Nat} (p : Path K V) :
    ∀ (t : Tree K V), Rep mem nilp (p.plug t) nilp ↔
      (RepPath mem nilp p (t.ptr nilp) ∧ Rep mem nilp t (p.ptr nilp)) := by
  induction p with
  | top => intro t; simp [RepPath, Path.ptr]
  | L a c k v r up ih =>
    intro t
    simp only [Path.plug_L, ih, Rep_node, RepPath, Path.ptr, Tree.ptr_node]
    tauto
  | R l a c k v up ih =>
    intro t
    simp only [Path.plug_R, ih, Rep_node, RepPath, Path.ptr, Tree.ptr_node]
    tauto

theorem Path.mem_addrs_top (b : Nat) : b ∈ (Path.top : Path K V).addrs ↔ False := by
  simp [Path.addrs, Path.pre, Path.post]

theorem Path.mem_addrs_L (b a : Nat) (c k v) (r : Tree K V) (up : Path K V) :
    b ∈ (Path.L a c k v r up).addrs ↔ (b = a ∨ b ∈ r.addrs ∨ b ∈ up.addrs) := by
  simp only [Path.addrs, Path.pre, Path.post, Tree.addrs, List.map_append, List.mem_append,
    List.map_cons, List.mem_cons]
  tauto

theorem Path.mem_addrs_R (b a : Nat) (c k v) (l : Tree K V) (up : Path K V) :
    b ∈ (Path.R l a c k v up).addrs ↔ (b = a ∨ b ∈ l.addrs ∨ b ∈ up.addrs) := by
  simp only [Path.addrs, Path.pre, Path.post, Tree.addrs, List.map_append, List.mem_append,
    List.map_cons, List.mem_cons, List.map_nil, List.mem_singleton, List.not_mem_nil, or_false]
  tauto

/-- Frame rule for paths. -/
theorem RepPath_congr {mem mem2 : Nat → Node K V} {nilp : Nat} {p : Path K V} :
    ∀ {hp : Nat}, (∀ a ∈ p.addrs, mem2 a = mem a) → RepPath mem nilp p hp →
      RepPath mem2 nilp p hp := by
  induction p with
  | top => intro _ _ _; trivial
  | L a c k v r up ih =>
    intro hp h hr
    simp only [RepPath] at hr ⊢
    obtain ⟨h1, h2, h3, h4⟩ := hr
    refine ⟨h1, ?_, Rep_congr (fun b hb => h b ?_) h3, ih (fun b hb => h b ?_) h4⟩
    · rw [h a (by simp [Path.mem_addrs_L]), h2]
    · simp [Path.mem_addrs_L, hb]
    · simp [Path.mem_addrs_L, hb]
  | R l a c k v up ih =>
    intro hp h hr
    simp only [RepPath] at hr ⊢
    obtain ⟨h1, h2, h3, h4⟩ := hr
    refine ⟨h1, ?_, Rep_congr (fun b hb => h b ?_) h3, ih (fun b hb => h b ?_) h4⟩
    · rw [h a (by simp [Path.mem_addrs_R]), h2]
    · simp [Path.mem_addrs_R, hb]
    · simp [Path.mem_addrs_R, hb]

/-- The frames of a represented path differ from the sentinel. -/
theorem RepPath_nil_not_mem {mem : Nat → Node K V} {nilp : Nat} {p : Path K V} :
    ∀ {hp : Nat}, RepPath mem nilp p hp → nilp ∉ p.addrs := by
  induction p with
  | top => intro _ _; simp [Path.mem_addrs_top]
  | L a c k v r up ih =>
    intro hp hr
    simp only [RepPath] at hr
    obtain ⟨h1, _, h3, h4⟩ := hr
    have h5 := ih h4
    have h6 := Rep_nil_not_mem h3
    simp only [Path.mem_addrs_L, not_or]
    exact ⟨fun h => h1 h.symm, h6, h5⟩
  | R l a c k v up ih =>
    intro hp hr
    simp only [RepPath] at hr
    obtain ⟨h1, _, h3, h4⟩ := hr
    have h5 := ih h4
    have h6 := Rep_nil_not_mem h3
    simp only [Path.mem_addrs_R, not_or]
    exact ⟨fun h => h1 h.symm, h6, h5⟩

end sjtu

namespace sjtu

variable {K V : Type}

/-! ## Heap states that hold a tree with a focus -/

theorem path_addrs_plug_perm (p : Path K V) (t : Tree K V) :
    List.Perm (p.plug t).addrs (p.addrs ++ t.addrs) := by
  rw [Path.addrs_plug, Path.addrs, List.map_append, List.perm_iff_count]
  intro a
  simp only [List.count_append]
  omega

theorem path_addrs_L_perm (a : Nat) (c k v) (r : Tree K V) (up : Path K V) :
    List.Perm (Path.L a c k v r up).addrs (a :: (r.addrs ++ up.addrs)) := by
  simp only [Path.addrs, Path.pre, Path.post, Tree.addrs, List.map_append, List.map_cons,
    List.perm_iff_count]
  intro b
  simp only [List.count_append, List.count_cons]
  omega

theorem path_addrs_R_perm (a : Nat) (c k v) (l : Tree K V) (up : Path K V) :
    List.Perm (Path.R l a c k v up).addrs (a :: (l.addrs ++ up.addrs)) := by
  simp only [Path.addrs, Path.pre, Path.post, Tree.addrs, List.map_append, List.map_cons,
    List.perm_iff_count, List.map_nil]
  intro b
  simp only [List.count_append, List.count_cons, List.count_nil]
  omega

theorem path_mem_addrs_plug (p : Path K V) (t : Tree K V) (a : Nat) :
    a ∈ (p.plug t).addrs ↔ (a ∈ p.addrs ∨ a ∈ t.addrs) := by
  rw [(path_addrs_plug_perm p t).mem_iff, List.mem_append]

theorem zrep_iff {m : Map K V} {p : Path K V} {t : Tree K V} :
    Abs m (p.plug t) ↔ ZRep m p t := by
  constructor
  · intro h
    have hr := (Rep_plug p t).1 h.rep
    refine ⟨hr.1, hr.2, ?_, ?_, ?_, h.nil_lt, h.nil_black, h.nil_links⟩
    · rw [h.root, Path.ptr_plug]
    · exact (path_addrs_plug_perm p t).nodup_iff.1 h.nodup
    · intro a ha
      exact h.bound a ((path_addrs_plug_perm p t).mem_iff.2 ha)
  · intro h
    refine ⟨(Rep_plug p t).2 ⟨h.path, h.tree⟩, ?_, ?_, ?_, h.nil_lt, h.nil_black, h.nil_links⟩
    · rw [h.root, Path.ptr_plug]
    · exact (path_addrs_plug_perm p t).nodup_iff.2 h.nodup
    · intro a ha
      exact h.bound a ((path_addrs_plug_perm p t).mem_iff.1 ha)

theorem path_ptr_cases (nilp : Nat) (p : Path K V) :
    (p = Path.top ∧ p.ptr nilp = nilp) ∨ (p ≠ Path.top ∧ p.ptr nilp ∈ p.addrs) := by
  cases p with
  | top => left; exact ⟨rfl, rfl⟩
  | L a c k v r up => right; exact ⟨by simp, by simp [Path.mem_addrs_L, Path.ptr]⟩
  | R l a c k v up => right; exact ⟨by simp, by simp [Path.mem_addrs_R, Path.ptr]⟩

theorem tree_ptr_cases (nilp : Nat) (t : Tree K V) :
    (t = Tree.leaf ∧ t.ptr nilp = nilp) ∨ (t ≠ Tree.leaf ∧ t.ptr nilp ∈ t.addrs) := by
  cases t with
  | leaf => left; exact ⟨rfl, rfl⟩
  | node l a c k v r => right; exact ⟨by simp, by simp⟩

theorem zrep_nil_not_mem {m : Map K V} {p : Path K V} {t : Tree K V} (h : ZRep m p t) :
    m.nil ∉ p.addrs ++ t.addrs := by
  simp only [List.mem_append, not_or]
  exact ⟨RepPath_nil_not_mem h.path, Rep_nil_not_mem h.tree⟩

theorem path_addrs_nodup_L {a : Nat} {c k v} {r : Tree K V} {up : Path K V}
    (h : (Path.L a c k v r up).addrs.Nodup) :
    a ∉ r.addrs ∧ a ∉ up.addrs ∧ r.addrs.Nodup ∧ up.addrs.Nodup ∧
      (∀ b ∈ r.addrs, b ∉ up.addrs) := by
  have h2 := (path_addrs_L_perm a c k v r up).nodup_iff.1 h
  simp only [List.nodup_cons, List.nodup_append, List.mem_append, not_or] at h2
  exact ⟨h2.1.1, h2.1.2, h2.2.1, h2.2.2.1, fun b hb hb2 => h2.2.2.2 hb hb2⟩

theorem path_addrs_nodup_R {a : Nat} {c k v} {l : Tree K V} {up : Path K V}
    (h : (Path.R l a c k v up).addrs.Nodup) :
    a ∉ l.addrs ∧ a ∉ up.addrs ∧ l.addrs.Nodup ∧ up.addrs.Nodup ∧
      (∀ b ∈ l.addrs, b ∉ up.addrs) := by
  have h2 := (path_addrs_R_perm a c k v l up).nodup_iff.1 h
  simp only [List.nodup_cons, List.nodup_append, List.mem_append, not_or] at h2
  exact ⟨h2.1.1, h2.1.2, h2.2.1, h2.2.2.1, fun b hb hb2 => h2.2.2.2 hb hb2⟩

/-- Re-linking the hole of a path: the store `x->parent->left = y` or
`x->parent->right = y` chosen by the test `x == x->parent->left`. -/
theorem RepPath_relink {mem mem2 : Nat → Node K V} {nilp : Nat} {p : Path K V} {hp hp2 : Nat}
    (hr : RepPath mem nilp p hp) (hn : p.addrs.Nodup)
    (hne : hp ≠ nilp) (hnot : hp ∉ p.addrs)
    (hsame : ∀ b ∈ p.addrs, b ≠ p.ptr nilp → mem2 b = mem b)
    (hpar : p ≠ Path.top → mem2 (p.ptr nilp) =
      if hp = (mem (p.ptr nilp)).left then { mem (p.ptr nilp) with left := hp2 }
      else { mem (p.ptr nilp) with right := hp2 }) :
    RepPath mem2 nilp p hp2 := by
  cases p with
  | top => trivial
  | L a c k v r up =>
    simp only [RepPath] at hr ⊢
    obtain ⟨h1, h2, h3, h4⟩ := hr
    obtain ⟨n1, n2, _, _, _⟩ := path_addrs_nodup_L hn
    have hpar2 := hpar (by simp)
    simp only [Path.ptr, h2, if_true] at hpar2
    refine ⟨h1, hpar2, ?_, ?_⟩
    · refine Rep_congr (fun b hb => hsame b (by simp [Path.mem_addrs_L, hb]) ?_) h3
      simp only [Path.ptr]; rintro rfl; exact n1 hb
    · refine RepPath_congr (fun b hb => hsame b (by simp [Path.mem_addrs_L, hb]) ?_) h4
      simp only [Path.ptr]; rintro rfl; exact n2 hb
  | R l a c k v up =>
    simp only [RepPath] at hr ⊢
    obtain ⟨h1, h2, h3, h4⟩ := hr
    obtain ⟨n1, n2, _, _, _⟩ := path_addrs_nodup_R hn
    have hpar2 := hpar (by simp)
    have hl : hp ≠ l.ptr nilp := by
      rcases tree_ptr_cases nilp l with ⟨_, h⟩ | ⟨_, h⟩
      · rw [h]; exact hne
      · intro h5; apply hnot; rw [h5]; simp [Path.mem_addrs_R, h]
    simp only [Path.ptr, h2, if_neg hl] at hpar2
    refine ⟨h1, hpar2, ?_, ?_⟩
    · refine Rep_congr (fun b hb => hsame b (by simp [Path.mem_addrs_R, hb]) ?_) h3
      simp only [Path.ptr]; rintro rfl; exact n1 hb
    · refine RepPath_congr (fun b hb => hsame b (by simp [Path.mem_addrs_R, hb]) ?_) h4
      simp only [Path.ptr]; rintro rfl; exact n2 hb

/-- Reading the node in focus. -/
theorem zrep_read {m : Map K V} {p : Path K V} {l r : Tree K V} {a c k v}
    (h : ZRep m p (Tree.node l a c k v r)) :
    m.mem a = ⟨k, v, l.ptr m.nil, r.ptr m.nil, p.ptr m.nil, c⟩ := by
  have := h.tree
  simp only [Rep_node] at this
  exact this.2.1

theorem abs_read {m : Map K V} {p : Path K V} {l r : Tree K V} {a c k v}
    (h : Abs m (p.plug (Tree.node l a c k v r))) :
    m.mem a = ⟨k, v, l.ptr m.nil, r.ptr m.nil, p.ptr m.nil, c⟩ :=
  zrep_read (zrep_iff.1 h)

theorem abs_ne_nil {m : Map K V} {p : Path K V} {l r : Tree K V} {a c k v}
    (h : Abs m (p.plug (Tree.node l a c k v r))) : a ≠ m.nil := by
  have := (zrep_iff.1 h).tree
  simp only [Rep_node] at this
  exact this.1

/-- The facts about addresses that a focused node gives. -/
theorem zrep_facts {m : Map K V} {p : Path K V} {l r : Tree K V} {a c k v}
    (h : ZRep m p (Tree.node l a c k v r)) :
    a ≠ m.nil ∧ a ∉ p.addrs ∧ a ∉ l.addrs ∧ a ∉ r.addrs ∧ p.addrs.Nodup ∧ l.addrs.Nodup ∧
      r.addrs.Nodup ∧ (∀ b ∈ l.addrs, b ∉ p.addrs ∧ b ∉ r.addrs ∧ b ≠ a ∧ b ≠ m.nil) ∧
      (∀ b ∈ r.addrs, b ∉ p.addrs ∧ b ∉ l.addrs ∧ b ≠ a ∧ b ≠ m.nil) ∧
      (∀ b ∈ p.addrs, b ≠ a ∧ b ≠ m.nil) := by
  have hnil := zrep_nil_not_mem h
  have hn := h.nodup
  simp only [Tree.addrs_node, List.nodup_append, List.nodup_cons, List.mem_append, List.mem_cons,
    not_or, List.disjoint_append_right, List.disjoint_cons_right, List.disjoint_append_left,
    List.disjoint_cons_left] at hn hnil
  obtain ⟨hp, ⟨hl, ⟨har, hr⟩, hal, hlr⟩, hpl, hpa, hpr⟩ := hn
  obtain ⟨hnp, hnl, hna, hnr⟩ := hnil
  refine ⟨fun e => hna e.symm, hpa, hal, har, hp, hl, hr, ?_, ?_, ?_⟩
  · intro b hb
    exact ⟨fun hb2 => hpl hb2 hb, fun hb2 => hlr hb hb2, fun e => hal (e ▸ hb),
      fun e => hnl (e ▸ hb)⟩
  · intro b hb
    exact ⟨fun hb2 => hpr hb2 hb, fun hb2 => hlr hb2 hb, fun e => har (e ▸ hb),
      fun e => hnr (e ▸ hb)⟩
  · intro b hb
    exact ⟨fun e => hpa (e ▸ hb), fun e => hnp (e ▸ hb)⟩

/-- Recolouring the node in focus. -/
theorem zrep_setColor {m : Map K V} {p : Path K V} {l r : Tree K V} {a c k v}
    (h : ZRep m p (Tree.node l a c k v r)) (c2 : Color) :
    ZRep (m.setColor a c2) p (Tree.node l a c2 k v r) := by
  obtain ⟨f1, f2, f3, f4, f5, f6, f7, f8, f9, f10⟩ := zrep_facts h
  have ht := h.tree
  simp only [Rep_node] at ht
  refine ⟨?_, ?_, h.root, h.nodup, h.bound, h.nil_lt, ?_, ?_⟩
  · refine RepPath_congr (fun b hb => ?_) h.path
    simp [Map.setColor, Map.upd, (f10 b hb).1]
  · simp only [Rep_node]
    refine ⟨f1, by simp [Map.setColor, Map.upd, ht.2.1], ?_, ?_⟩
    · refine Rep_congr (fun b hb => ?_) ht.2.2.1
      simp [Map.setColor, Map.upd, (f8 b hb).2.2.1]
    · refine Rep_congr (fun b hb => ?_) ht.2.2.2
      simp [Map.setColor, Map.upd, (f9 b hb).2.2.1]
  · simp [Map.setColor, Map.upd, Ne.symm f1, h.nil_black]
  · simp [Map.setColor, Map.upd, Ne.symm f1, h.nil_links]

theorem abs_setColor {m : Map K V} {p : Path K V} {l r : Tree K V} {a c k v}
    (h : Abs m (p.plug (Tree.node l a c k v r))) (c2 : Color) :
    Abs (m.setColor a c2) (p.plug (Tree.node l a c2 k v r)) :=
  zrep_iff.2 (zrep_setColor (zrep_iff.1 h) c2)

end sjtu

namespace sjtu

variable {K V : Type}

namespace Map

/-! ## Stores -/

@[simp] theorem setLeft_nil (m : Map K V) (a : Nat) (v : Nat) : (m.setLeft a v).nil = m.nil := rfl
@[simp] theorem setLeft_root (m : Map K V) (a : Nat) (v : Nat) : (m.setLeft a v).root = m.root := rfl
@[simp] theorem setLeft_next (m : Map K V) (a : Nat) (v : Nat) : (m.setLeft a v).next = m.next := rfl
@[simp] theorem setLeft_self (m : Map K V) (a : Nat) (v : Nat) : (m.setLeft a v).self = m.self := rfl
@[simp] theorem setLeft_map_size (m : Map K V) (a : Nat) (v : Nat) : (m.setLeft a v).map_size = m.map_size := rfl
@[simp] theorem setLeft_mem_same (m : Map K V) (a : Nat) (v : Nat) :
    (m.setLeft a v).mem a = { m.mem a with left := v } := by
  simp [setLeft, upd]
@[simp] theorem setLeft_mem_ne (m : Map K V) {a b : Nat} (v : Nat) (h : b ≠ a) :
    (m.setLeft a v).mem b = m.mem b := by
  simp [setLeft, upd, h]
@[simp] theorem setRight_nil (m : Map K V) (a : Nat) (v : Nat) : (m.setRight a v).nil = m.nil := rfl
@[simp] theorem setRight_root (m : Map K V) (a : Nat) (v : Nat) : (m.setRight a v).root = m.root := rfl
@[simp] theorem setRight_next (m : Map K V) (a : Nat) (v : Nat) : (m.setRight a v).next = m.next := rfl
@[simp] theorem setRight_self (m : Map K V) (a : Nat) (v : Nat) : (m.setRight a v).self = m.self := rfl
@[simp] theorem setRight_map_size (m : Map K V) (a : Nat) (v : Nat) : (m.setRight a v).map_size = m.map_size := rfl
@[simp] theorem setRight_mem_same (m : Map K V) (a : Nat) (v : Nat) :
    (m.setRight a v).mem a = { m.mem a with right := v } := by
  simp [setRight, upd]
@[simp] theorem setRight_mem_ne (m : Map K V) {a b : Nat} (v : Nat) (h : b ≠ a) :
    (m.setRight a v).mem b = m.mem b := by
  simp [setRight, upd, h]
@[simp] theorem setParent_nil (m : Map K V) (a : Nat) (v : Nat) : (m.setParent a v).nil = m.nil := rfl
@[simp] theorem setParent_root (m : Map K V) (a : Nat) (v : Nat) : (m.setParent a v).root = m.root := rfl
@[simp] theorem setParent_next (m : Map K V) (a : Nat) (v : Nat) : (m.setParent a v).next = m.next := rfl
@[simp] theorem setParent_self (m : Map K V) (a : Nat) (v : Nat) : (m.setParent a v).self = m.self := rfl
@[simp] theorem setParent_map_size (m : Map K V) (a : Nat) (v : Nat) : (m.setParent a v).map_size = m.map_size := rfl
@[simp] theorem setParent_mem_same (m : Map K V) (a : Nat) (v : Nat) :
    (m.setParent a v).mem a = { m.mem a with parent := v } := by
  simp [setParent, upd]
@[simp] theorem setParent_mem_ne (m : Map K V) {a b : Nat} (v : Nat) (h : b ≠ a) :
    (m.setParent a v).mem b = m.mem b := by
  simp [setParent, upd, h]
@[simp] theorem setColor_nil (m : Map K V) (a : Nat) (v : Color) : (m.setColor a v).nil = m.nil := rfl
@[simp] theorem setColor_root (m : Map K V) (a : Nat) (v : Color) : (m.setColor a v).root = m.root := rfl
@[simp] theorem setColor_next (m : Map K V) (a : Nat) (v : Color) : (m.setColor a v).next = m.next := rfl
@[simp] theorem setColor_self (m : Map K V) (a : Nat) (v : Color) : (m.setColor a v).self = m.self := rfl
@[simp] theorem setColor_map_size (m : Map K V) (a : Nat) (v : Color) : (m.setColor a v).map_size = m.map_size := rfl
@[simp] theorem setColor_mem_same (m : Map K V) (a : Nat) (v : Color) :
    (m.setColor a v).mem a = { m.mem a with color := v } := by
  simp [setColor, upd]
@[simp] theorem setColor_mem_ne (m : Map K V) {a b : Nat} (v : Color) (h : b ≠ a) :
    (m.setColor a v).mem b = m.mem b := by
  simp [setColor, upd, h]
@[simp] theorem setRoot_nil (m : Map K V) (a : Nat) : (m.setRoot a).nil = m.nil := rfl
@[simp] theorem setRoot_root (m : Map K V) (a : Nat) : (m.setRoot a).root = a := rfl
@[simp] theorem setRoot_next (m : Map K V) (a : Nat) : (m.setRoot a).next = m.next := rfl
@[simp] theorem setRoot_self (m : Map K V) (a : Nat) : (m.setRoot a).self = m.self := rfl
@[simp] theorem setRoot_map_size (m : Map K V) (a : Nat) : (m.setRoot a).map_size = m.map_size := rfl
@[simp] theorem setRoot_mem (m : Map K V) (a : Nat) : (m.setRoot a).mem = m.mem := rfl

end Map

theorem path_ptr_eq_nil_iff {m : Map K V} {p : Path K V} {t : Tree K V} (h : ZRep m p t) :
    p.ptr m.nil = m.nil ↔ p = Path.top := by
  have hn := zrep_nil_not_mem h
  rcases path_ptr_cases m.nil p with ⟨h1, h2⟩ | ⟨h1, h2⟩
  · simp [h1, Path.ptr]
  · constructor
    · intro e; rw [e] at h2; exact absurd (List.mem_append_left _ h2) hn
    · intro e; exact absurd e h1

theorem zrep_up_L {m : Map K V} {a c k v} {r : Tree K V} {up : Path K V} {t : Tree K V}
    (h : ZRep m (Path.L a c k v r up) t) : ZRep m up (Tree.node t a c k v r) :=
  zrep_iff.1 (show Abs m (up.plug (Tree.node t a c k v r)) from
    (@zrep_iff K V m (Path.L a c k v r up) t).2 h)

theorem zrep_up_R {m : Map K V} {a c k v} {l : Tree K V} {up : Path K V} {t : Tree K V}
    (h : ZRep m (Path.R l a c k v up) t) : ZRep m up (Tree.node l a c k v t) :=
  zrep_iff.1 (show Abs m (up.plug (Tree.node l a c k v t)) from
    (@zrep_iff K V m (Path.R l a c k v up) t).2 h)

theorem zrep_down_L {m : Map K V} {a c k v} {r : Tree K V} {up : Path K V} {t : Tree K V}
    (h : ZRep m up (Tree.node t a c k v r)) : ZRep m (Path.L a c k v r up) t :=
  (@zrep_iff K V m (Path.L a c k v r up) t).1
    ((@zrep_iff K V m up (Tree.node t a c k v r)).2 h)

theorem zrep_down_R {m : Map K V} {a c k v} {l : Tree K V} {up : Path K V} {t : Tree K V}
    (h : ZRep m up (Tree.node l a c k v t)) : ZRep m (Path.R l a c k v up) t :=
  (@zrep_iff K V m (Path.R l a c k v up) t).1
    ((@zrep_iff K V m up (Tree.node l a c k v t)).2 h)

/-- What `leftRotate` stores: the cells of `x`, of `y = x->right`, of the root of `y`'s left
subtree, of the parent of `x`, and nothing else. -/
theorem zrep_leftRotate_mem {m : Map K V} {p : Path K V} {α β γ : Tree K V}
    {x y cx cy kx ky vx vy}
    (h : ZRep m p (Tree.node α x cx kx vx (Tree.node β y cy ky vy γ))) :
    (m.leftRotate x).mem x = ⟨kx, vx, α.ptr m.nil, β.ptr m.nil, y, cx⟩ ∧
    (m.leftRotate x).mem y = ⟨ky, vy, x, γ.ptr m.nil, p.ptr m.nil, cy⟩ ∧
    (β ≠ Tree.leaf →
      (m.leftRotate x).mem (β.ptr m.nil) = { m.mem (β.ptr m.nil) with parent := x }) ∧
    (p ≠ Path.top → (m.leftRotate x).mem (p.ptr m.nil) =
        (if x = (m.mem (p.ptr m.nil)).left then { m.mem (p.ptr m.nil) with left := y }
         else { m.mem (p.ptr m.nil) with right := y })) ∧
    (∀ b, b ≠ x → b ≠ y → (β ≠ Tree.leaf → b ≠ β.ptr m.nil) →
      (p ≠ Path.top → b ≠ p.ptr m.nil) → (m.leftRotate x).mem b = m.mem b) ∧
    (m.leftRotate x).root = p.rootPtr y := by
  have hx := zrep_read h
  have ht := h.tree
  have hroot := h.root
  have hnd := h.nodup
  simp only [Rep_node] at ht
  obtain ⟨hxn, -, hα, hyn, hy, hβ, hγ⟩ := ht
  have hxy : x ≠ y := by
    intro e; subst e
    simp [List.nodup_append, List.nodup_cons] at hnd
  simp only [Tree.ptr_node] at hx hroot
  cases p with
  | top =>
    cases β with
    | leaf =>
      simp only [Tree.ptr_leaf, Path.ptr_top, Path.ptr_L, Path.ptr_R, Path.rootPtr_top, Path.rootPtr_L, Path.rootPtr_R] at *
      unfold Map.leftRotate
      simp [Map.left, Map.right, Map.parent, hx, hy, hxy, hxy.symm]
      intro b h1 h2
      simp [h1, h2]
    | node βl bβ cβ kβ vβ βr =>
      simp only [Rep_node] at hβ
      obtain ⟨hbn, hb, -, -⟩ := hβ
      have hbx : bβ ≠ x := by
        intro e; subst e
        simp [List.nodup_append, List.nodup_cons] at hnd
      have hby : bβ ≠ y := by
        intro e; subst e
        simp [List.nodup_append, List.nodup_cons] at hnd
      simp only [Tree.ptr_leaf, Tree.ptr_node, Path.ptr_top, Path.ptr_L, Path.ptr_R, Path.rootPtr_top, Path.rootPtr_L, Path.rootPtr_R] at *
      unfold Map.leftRotate
      simp [Map.left, Map.right, Map.parent, hx, hy, hb, hxy, hxy.symm, hbn, hbx, hby, hbx.symm,
        hby.symm]
      intro b h1 h2 h3
      simp [h1, h2, h3]
  | L a c k v r up =>
    have hup := zrep_up_L h
    have ha := zrep_read hup
    obtain ⟨han, -, hat, -, -, -, -, -, -, -⟩ := zrep_facts hup
    have hax : a ≠ x := by intro e; subst e; simp at hat
    have hay : a ≠ y := by intro e; subst e; simp at hat
    simp only [Tree.ptr_node] at ha
    cases β with
    | leaf =>
      simp only [Tree.ptr_leaf, Path.ptr_top, Path.ptr_L, Path.ptr_R, Path.rootPtr_top, Path.rootPtr_L, Path.rootPtr_R] at *
      unfold Map.leftRotate
      simp [Map.left, Map.right, Map.parent, hx, hy, ha, hxy, hxy.symm, hax, hay, hax.symm,
        hay.symm, han]
      exact ⟨fun b h1 h2 h3 => by simp [h1, h2, h3], hroot⟩
    | node βl bβ cβ kβ vβ βr =>
      simp only [Rep_node] at hβ
      obtain ⟨hbn, hb, -, -⟩ := hβ
      have hbx : bβ ≠ x := by
        intro e; subst e
        simp [List.nodup_append, List.nodup_cons] at hnd
      have hby : bβ ≠ y := by
        intro e; subst e
        simp [List.nodup_append, List.nodup_cons] at hnd
      have hba : bβ ≠ a := by intro e; subst e; simp at hat
      simp only [Tree.ptr_leaf, Tree.ptr_node, Path.ptr_top, Path.ptr_L, Path.ptr_R, Path.rootPtr_top, Path.rootPtr_L, Path.rootPtr_R] at *
      unfold Map.leftRotate
      simp [Map.left, Map.right, Map.parent, hx, hy, hb, ha, hxy, hxy.symm, hbn, hbx, hby,
        hbx.symm, hby.symm, hax, hay, hax.symm, hay.symm, han, hba, hba.symm]
      exact ⟨fun b h1 h2 h3 h4 => by simp [h1, h2, h3, h4], hroot⟩
  | R l a c k v up =>
    have hup := zrep_up_R h
    have ha := zrep_read hup
    obtain ⟨han, -, -, hat, -, -, -, hl, -, -⟩ := zrep_facts hup
    have hax : a ≠ x := by intro e; subst e; simp at hat
    have hay : a ≠ y := by intro e; subst e; simp at hat
    have hlx : x ≠ l.ptr m.nil := by
      rcases tree_ptr_cases m.nil l with ⟨_, e⟩ | ⟨_, e⟩
      · rw [e]; exact hxn
      · intro e2; exact (hl _ e).2.1 (by rw [← e2]; simp)
    simp only [Tree.ptr_node] at ha
    cases β with
    | leaf =>
      simp only [Tree.ptr_leaf, Path.ptr_top, Path.ptr_L, Path.ptr_R, Path.rootPtr_top, Path.rootPtr_L, Path.rootPtr_R] at *
      unfold Map.leftRotate
      simp [Map.left, Map.right, Map.parent, hx, hy, ha, hxy, hxy.symm, hax, hay, hax.symm,
        hay.symm, han, hlx]
      exact ⟨fun b h1 h2 h3 => by simp [h1, h2, h3], hroot⟩
    | node βl bβ cβ kβ vβ βr =>
      simp only [Rep_node] at hβ
      obtain ⟨hbn, hb, -, -⟩ := hβ
      have hbx : bβ ≠ x := by
        intro e; subst e
        simp [List.nodup_append, List.nodup_cons] at hnd
      have hby : bβ ≠ y := by
        intro e; subst e
        simp [List.nodup_append, List.nodup_cons] at hnd
      have hba : bβ ≠ a := by intro e; subst e; simp at hat
      simp only [Tree.ptr_leaf, Tree.ptr_node, Path.ptr_top, Path.ptr_L, Path.ptr_R, Path.rootPtr_top, Path.rootPtr_L, Path.rootPtr_R] at *
      unfold Map.leftRotate
      simp [Map.left, Map.right, Map.parent, hx, hy, hb, ha, hxy, hxy.symm, hbn, hbx, hby,
        hbx.symm, hby.symm, hax, hay, hax.symm, hay.symm, han, hba, hba.symm, hlx]
      exact ⟨fun b h1 h2 h3 h4 => by simp [h1, h2, h3, h4], hroot⟩

namespace Map

@[simp] theorem leftRotate_nil (m : Map K V) (x : Nat) : (m.leftRotate x).nil = m.nil := by
  unfold leftRotate; simp only []; split_ifs <;> rfl
@[simp] theorem leftRotate_next (m : Map K V) (x : Nat) : (m.leftRotate x).next = m.next := by
  unfold leftRotate; simp only []; split_ifs <;> rfl
@[simp] theorem leftRotate_self (m : Map K V) (x : Nat) : (m.leftRotate x).self = m.self := by
  unfold leftRotate; simp only []; split_ifs <;> rfl
@[simp] theorem leftRotate_map_size (m : Map K V) (x : Nat) :
    (m.leftRotate x).map_size = m.map_size := by
  unfold leftRotate; simp only []; split_ifs <;> rfl

end Map

/-- The heap after `leftRotate(x)` holds the rotated tree; the sentinel's cell is not
written. -/
theorem zrep_leftRotate {m : Map K V} {p : Path K V} {α β γ : Tree K V}
    {x y cx cy kx ky vx vy}
    (h : ZRep m p (Tree.node α x cx kx vx (Tree.node β y cy ky vy γ))) :
    ZRep (m.leftRotate x) p (Tree.node (Tree.node α x cx kx vx β) y cy ky vy γ) ∧
      (m.leftRotate x).mem m.nil = m.mem m.nil := by
  obtain ⟨e1, e2, e3, e4, e5, e6⟩ := zrep_leftRotate_mem h
  have ht := h.tree
  simp only [Rep_node] at ht
  obtain ⟨hxn, -, hα, hyn, hy, hβ, hγ⟩ := ht
  obtain ⟨-, f2, f3, f4, f5, f6, f7, f8, f9, f10⟩ := zrep_facts h
  have h2 : ZRep m (Path.R α x cx kx vx p) (Tree.node β y cy ky vy γ) := zrep_down_R h
  obtain ⟨-, g2, g3, g4, g5, g6, g7, g8, g9, g10⟩ := zrep_facts h2
  simp only [Path.mem_addrs_R, not_or] at g2 g8 g9 g10
  have hβp : β ≠ Tree.leaf → β.ptr m.nil ∈ β.addrs := by
    intro hb
    rcases tree_ptr_cases m.nil β with ⟨e, _⟩ | ⟨_, e⟩
    · exact absurd e hb
    · exact e
  have hpp : p ≠ Path.top → p.ptr m.nil ∈ p.addrs := by
    intro hb
    rcases path_ptr_cases m.nil p with ⟨e, _⟩ | ⟨_, e⟩
    · exact absurd e hb
    · exact e
  have hxy : x ≠ y := fun e => g2.1 e.symm
  have sα : ∀ b ∈ α.addrs, (m.leftRotate x).mem b = m.mem b := fun b hb =>
    e5 b (f8 b hb).2.2.1 (fun e => g2.2.1 (e ▸ hb))
      (fun hl e => (g8 _ (hβp hl)).1.2.1 (e ▸ hb)) (fun hl e => (f8 b hb).1 (e ▸ hpp hl))
  have sγ : ∀ b ∈ γ.addrs, (m.leftRotate x).mem b = m.mem b := fun b hb =>
    e5 b (g9 b hb).1.1 (g9 b hb).2.2.1
      (fun hl e => (g9 b hb).2.1 (e ▸ hβp hl)) (fun hl e => (g9 b hb).1.2.2 (e ▸ hpp hl))
  have sp : ∀ b ∈ p.addrs, b ≠ p.ptr m.nil → (m.leftRotate x).mem b = m.mem b := fun b hb hne =>
    e5 b (f10 b hb).1 (fun e => g2.2.2 (e ▸ hb))
      (fun hl e => (g8 _ (hβp hl)).1.2.2 (e ▸ hb)) (fun _ => hne)
  have sn : (m.leftRotate x).mem m.nil = m.mem m.nil :=
    e5 _ (Ne.symm hxn) (Ne.symm hyn) (fun hl e => (g8 _ (hβp hl)).2.2.2 e.symm)
      (fun hl e => (f10 _ (hpp hl)).2 e.symm)
  refine ⟨⟨?_, ?_, ?_, ?_, ?_, ?_, ?_, ?_⟩, sn⟩
  · simp only [Map.leftRotate_nil, Tree.ptr_node]
    exact RepPath_relink h.path f5 hxn f2 sp e4
  · simp only [Map.leftRotate_nil, Rep_node, Tree.ptr_node]
    refine ⟨hyn, e2, ⟨hxn, e1, Rep_congr sα hα, ?_⟩, Rep_congr sγ hγ⟩
    refine Rep_congr (fun b hb => ?_) (Rep_setParent g6 hβ)
    by_cases hb2 : b = β.ptr m.nil
    · have hl : β ≠ Tree.leaf := by rintro rfl; simp at hb
      rw [if_pos hb2, hb2, e3 hl]
    · rw [if_neg hb2]
      exact e5 b (g8 b hb).1.1 (g8 b hb).2.2.1 (fun _ => hb2)
        (fun hl e => (g8 b hb).1.2.2 (e ▸ hpp hl))
  · simp only [Map.leftRotate_nil, Tree.ptr_node]; exact e6
  · have := h.nodup
    simpa using this
  · intro a ha
    simp only [Map.leftRotate_next]
    exact h.bound a (by simpa using ha)
  · simpa using h.nil_lt
  · simp only [Map.leftRotate_nil, sn]; exact h.nil_black
  · simp only [Map.leftRotate_nil, sn]; exact h.nil_links

theorem abs_leftRotate {m : Map K V} {p : Path K V} {α β γ : Tree K V}
    {x y cx cy kx ky vx vy}
    (h : Abs m (p.plug (Tree.node α x cx kx vx (Tree.node β y cy ky vy γ)))) :
    Abs (m.leftRotate x) (p.plug (Tree.node (Tree.node α x cx kx vx β) y cy ky vy γ)) :=
  zrep_iff.2 (zrep_leftRotate (zrep_iff.1 h)).1

/-- What `rightRotate` stores: the cells of `y`, of `x = y->left`, of the root of `x`'s right
subtree, of the parent of `y`, and nothing else. -/
theorem zrep_rightRotate_mem {m : Map K V} {p : Path K V} {α β γ : Tree K V}
    {x y cx cy kx ky vx vy}
    (h : ZRep m p (Tree.node (Tree.node α x cx kx vx β) y cy ky vy γ)) :
    (m.rightRotate y).mem y = ⟨ky, vy, β.ptr m.nil, γ.ptr m.nil, x, cy⟩ ∧
    (m.rightRotate y).mem x = ⟨kx, vx, α.ptr m.nil, y, p.ptr m.nil, cx⟩ ∧
    (β ≠ Tree.leaf →
      (m.rightRotate y).mem (β.ptr m.nil) = { m.mem (β.ptr m.nil) with parent := y }) ∧
    (p ≠ Path.top → (m.rightRotate y).mem (p.ptr m.nil) =
        (if y = (m.mem (p.ptr m.nil)).left then { m.mem (p.ptr m.nil) with left := x }
         else { m.mem (p.ptr m.nil) with right := x })) ∧
    (∀ b, b ≠ x → b ≠ y → (β ≠ Tree.leaf → b ≠ β.ptr m.nil) →
      (p ≠ Path.top → b ≠ p.ptr m.nil) → (m.rightRotate y).mem b = m.mem b) ∧
    (m.rightRotate y).root = p.rootPtr x := by
  have hy := zrep_read h
  have ht := h.tree
  have hroot := h.root
  have hnd := h.nodup
  simp only [Rep_node] at ht
  obtain ⟨hyn, -, ⟨hxn, hx, hα, hβ⟩, hγ⟩ := ht
  have hxy : x ≠ y := by
    intro e; subst e
    simp [List.nodup_append, List.nodup_cons] at hnd
  simp only [Tree.ptr_node] at hy hroot
  cases p with
  | top =>
    cases β with
    | leaf =>
      simp only [Tree.ptr_leaf, Path.ptr_top, Path.ptr_L, Path.ptr_R, Path.rootPtr_top,
        Path.rootPtr_L, Path.rootPtr_R] at *
      unfold Map.rightRotate
      simp [Map.left, Map.right, Map.parent, hx, hy, hxy, hxy.symm]
      intro b h1 h2
      simp [h1, h2]
    | node βl bβ cβ kβ vβ βr =>
      simp only [Rep_node] at hβ
      obtain ⟨hbn, hb, -, -⟩ := hβ
      have hbx : bβ ≠ x := by
        intro e; subst e
        simp [List.nodup_append, List.nodup_cons] at hnd
      have hby : bβ ≠ y := by
        intro e; subst e
        simp [List.nodup_append, List.nodup_cons] at hnd
      simp only [Tree.ptr_leaf, Tree.ptr_node, Path.ptr_top, Path.ptr_L, Path.ptr_R,
        Path.rootPtr_top, Path.rootPtr_L, Path.rootPtr_R] at *
      unfold Map.rightRotate
      simp [Map.left, Map.right, Map.parent, hx, hy, hb, hxy, hxy.symm, hbn, hbx, hby, hbx.symm,
        hby.symm]
      intro b h1 h2 h3
      simp [h1, h2, h3]
  | L a c k v r up =>
    have hup := zrep_up_L h
    have ha := zrep_read hup
    obtain ⟨han, -, hat, -, -, -, -, -, -, -⟩ := zrep_facts hup
    have hax : a ≠ x := by intro e; subst e; simp at hat
    have hay : a ≠ y := by intro e; subst e; simp at hat
    simp only [Tree.ptr_node] at ha
    cases β with
    | leaf =>
      simp only [Tree.ptr_leaf, Path.ptr_top, Path.ptr_L, Path.ptr_R, Path.rootPtr_top,
        Path.rootPtr_L, Path.rootPtr_R] at *
      unfold Map.rightRotate
      simp [Map.left, Map.right, Map.parent, hx, hy, ha, hxy, hxy.symm, hax, hay, hax.symm,
        hay.symm, han]
      exact ⟨fun b h1 h2 h3 => by simp [h1, h2, h3], hroot⟩
    | node βl bβ cβ kβ vβ βr =>
      simp only [Rep_node] at hβ
      obtain ⟨hbn, hb, -, -⟩ := hβ
      have hbx : bβ ≠ x := by
        intro e; subst e
        simp [List.nodup_append, List.nodup_cons] at hnd
      have hby : bβ ≠ y := by
        intro e; subst e
        simp [List.nodup_append, List.nodup_cons] at hnd
      have hba : bβ ≠ a := by intro e; subst e; simp at hat
      simp only [Tree.ptr_leaf, Tree.ptr_node, Path.ptr_top, Path.ptr_L, Path.ptr_R,
        Path.rootPtr_top, Path.rootPtr_L, Path.rootPtr_R] at *
      unfold Map.rightRotate
      simp [Map.left, Map.right, Map.parent, hx, hy, hb, ha, hxy, hxy.symm, hbn, hbx, hby,
        hbx.symm, hby.symm, hax, hay, hax.symm, hay.symm, han, hba, hba.symm]
      exact ⟨fun b h1 h2 h3 h4 => by simp [h1, h2, h3, h4], hroot⟩
  | R l a c k v up =>
    have hup := zrep_up_R h
    have ha := zrep_read hup
    obtain ⟨han, -, -, hat, -, -, -, hl, -, -⟩ := zrep_facts hup
    have hax : a ≠ x := by intro e; subst e; simp at hat
    have hay : a ≠ y := by intro e; subst e; simp at hat
    have hly : y ≠ l.ptr m.nil := by
      rcases tree_ptr_cases m.nil l with ⟨_, e⟩ | ⟨_, e⟩
      · rw [e]; exact hyn
      · intro e2; exact (hl _ e).2.1 (by rw [← e2]; simp)
    simp only [Tree.ptr_node] at ha
    cases β with
    | leaf =>
      simp only [Tree.ptr_leaf, Path.ptr_top, Path.ptr_L, Path.ptr_R, Path.rootPtr_top,
        Path.rootPtr_L, Path.rootPtr_R] at *
      unfold Map.rightRotate
      simp [Map.left, Map.right, Map.parent, hx, hy, ha, hxy, hxy.symm, hax, hay, hax.symm,
        hay.symm, han, hly]
      exact ⟨fun b h1 h2 h3 => by simp [h1, h2, h3], hroot⟩
    | node βl bβ cβ kβ vβ βr =>
      simp only [Rep_node] at hβ
      obtain ⟨hbn, hb, -, -⟩ := hβ
      have hbx : bβ ≠ x := by
        intro e; subst e
        simp [List.nodup_append, List.nodup_cons] at hnd
      have hby : bβ ≠ y := by
        intro e; subst e
        simp [List.nodup_append, List.nodup_cons] at hnd
      have hba : bβ ≠ a := by intro e; subst e; simp at hat
      simp only [Tree.ptr_leaf, Tree.ptr_node, Path.ptr_top, Path.ptr_L, Path.ptr_R,
        Path.rootPtr_top, Path.rootPtr_L, Path.rootPtr_R] at *
      unfold Map.rightRotate
      simp [Map.left, Map.right, Map.parent, hx, hy, hb, ha, hxy, hxy.symm, hbn, hbx, hby,
        hbx.symm, hby.symm, hax, hay, hax.symm, hay.symm, han, hba, hba.symm, hly]
      exact ⟨fun b h1 h2 h3 h4 => by simp [h1, h2, h3, h4], hroot⟩

namespace Map

@[simp] theorem rightRotate_nil (m : Map K V) (x : Nat) : (m.rightRotate x).nil = m.nil := by
  unfold rightRotate; simp only []; split_ifs <;> rfl
@[simp] theorem rightRotate_next (m : Map K V) (x : Nat) : (m.rightRotate x).next = m.next := by
  unfold rightRotate; simp only []; split_ifs <;> rfl
@[simp] theorem rightRotate_self (m : Map K V) (x : Nat) : (m.rightRotate x).self = m.self := by
  unfold rightRotate; simp only []; split_ifs <;> rfl
@[simp] theorem rightRotate_map_size (m : Map K V) (x : Nat) :
    (m.rightRotate x).map_size = m.map_size := by
  unfold rightRotate; simp only []; split_ifs <;> rfl

end Map

/-- The heap after `rightRotate(y)` holds the rotated tree; the sentinel's cell is not
written. -/
theorem zrep_rightRotate {m : Map K V} {p : Path K V} {α β γ : Tree K V}
    {x y cx cy kx ky vx vy}
    (h : ZRep m p (Tree.node (Tree.node α x cx kx vx β) y cy ky vy γ)) :
    ZRep (m.rightRotate y) p (Tree.node α x cx kx vx (Tree.node β y cy ky vy γ)) ∧
      (m.rightRotate y).mem m.nil = m.mem m.nil := by
  obtain ⟨e1, e2, e3, e4, e5, e6⟩ := zrep_rightRotate_mem h
  have ht := h.tree
  simp only [Rep_node] at ht
  obtain ⟨hyn, -, ⟨hxn, hx, hα, hβ⟩, hγ⟩ := ht
  obtain ⟨-, f2, f3, f4, f5, f6, f7, f8, f9, f10⟩ := zrep_facts h
  have h2 : ZRep m (Path.L y cy ky vy γ p) (Tree.node α x cx kx vx β) := zrep_down_L h
  obtain ⟨-, g2, g3, g4, g5, g6, g7, g8, g9, g10⟩ := zrep_facts h2
  simp only [Path.mem_addrs_L, not_or] at g2 g8 g9 g10
  have hβp : β ≠ Tree.leaf → β.ptr m.nil ∈ β.addrs := by
    intro hb
    rcases tree_ptr_cases m.nil β with ⟨e, _⟩ | ⟨_, e⟩
    · exact absurd e hb
    · exact e
  have hpp : p ≠ Path.top → p.ptr m.nil ∈ p.addrs := by
    intro hb
    rcases path_ptr_cases m.nil p with ⟨e, _⟩ | ⟨_, e⟩
    · exact absurd e hb
    · exact e
  have hxy : x ≠ y := g2.1
  have sα : ∀ b ∈ α.addrs, (m.rightRotate y).mem b = m.mem b := fun b hb =>
    e5 b (g8 b hb).2.2.1 (g8 b hb).1.1
      (fun hl e => (g8 b hb).2.1 (e ▸ hβp hl)) (fun hl e => (g8 b hb).1.2.2 (e ▸ hpp hl))
  have sγ : ∀ b ∈ γ.addrs, (m.rightRotate y).mem b = m.mem b := fun b hb =>
    e5 b (fun e => g2.2.1 (e ▸ hb)) (f9 b hb).2.2.1
      (fun hl e => (g9 _ (hβp hl)).1.2.1 (e ▸ hb)) (fun hl e => (f9 b hb).1 (e ▸ hpp hl))
  have sp : ∀ b ∈ p.addrs, b ≠ p.ptr m.nil → (m.rightRotate y).mem b = m.mem b :=
    fun b hb hne =>
    e5 b (fun e => g2.2.2 (e ▸ hb)) (f10 b hb).1
      (fun hl e => (g9 _ (hβp hl)).1.2.2 (e ▸ hb)) (fun _ => hne)
  have sn : (m.rightRotate y).mem m.nil = m.mem m.nil :=
    e5 _ (Ne.symm hxn) (Ne.symm hyn) (fun hl e => (g9 _ (hβp hl)).2.2.2 e.symm)
      (fun hl e => (f10 _ (hpp hl)).2 e.symm)
  refine ⟨⟨?_, ?_, ?_, ?_, ?_, ?_, ?_, ?_⟩, sn⟩
  · simp only [Map.rightRotate_nil, Tree.ptr_node]
    exact RepPath_relink h.path f5 hyn f2 sp e4
  · simp only [Map.rightRotate_nil, Rep_node, Tree.ptr_node]
    refine ⟨hxn, e2, Rep_congr sα hα, ⟨hyn, e1, ?_, Rep_congr sγ hγ⟩⟩
    refine Rep_congr (fun b hb => ?_) (Rep_setParent g7 hβ)
    by_cases hb2 : b = β.ptr m.nil
    · have hl : β ≠ Tree.leaf := by rintro rfl; simp at hb
      rw [if_pos hb2, hb2, e3 hl]
    · rw [if_neg hb2]
      exact e5 b (g9 b hb).2.2.1 (g9 b hb).1.1 (fun _ => hb2)
        (fun hl e => (g9 b hb).1.2.2 (e ▸ hpp hl))
  · simp only [Map.rightRotate_nil, Tree.ptr_node]; exact e6
  · have := h.nodup
    simpa using this
  · intro a ha
    simp only [Map.rightRotate_next]
    exact h.bound a (by simpa using ha)
  · simpa using h.nil_lt
  · simp only [Map.rightRotate_nil, sn]; exact h.nil_black
  · simp only [Map.rightRotate_nil, sn]; exact h.nil_links

theorem abs_rightRotate {m : Map K V} {p : Path K V} {α β γ : Tree K V}
    {x y cx cy kx ky vx vy}
    (h : Abs m (p.plug (Tree.node (Tree.node α x cx kx vx β) y cy ky vy γ))) :
    Abs (m.rightRotate y) (p.plug (Tree.node α x cx kx vx (Tree.node β y cy ky vy γ))) :=
  zrep_iff.2 (zrep_rightRotate (zrep_iff.1 h)).1

end sjtu

namespace sjtu

variable {K V : Type}

/-! ## Colouring invariants along a path -/

namespace Tree

theorem BH_unique {t : Tree K V} : ∀ {n n2 : Nat}, t.BH n → t.BH n2 → n = n2 := by
  induction t with
  | leaf => intro n n2 h1 h2; simp only [BH] at h1 h2; omega
  | node l a c k v r ihl _ =>
    intro n n2 h1 h2
    cases c with
    | RED => exact ihl h1.1 h2.1
    | BLACK =>
      obtain ⟨n1, e1, h1l, _⟩ := h1
      obtain ⟨n3, e3, h2l, _⟩ := h2
      have := ihl h1l h2l
      omega

@[simp] theorem BH_leaf (n : Nat) : (leaf : Tree K V).BH n ↔ n = 0 := Iff.rfl
theorem BH_red (l r : Tree K V) (a k v n) :
    (node l a Color.RED k v r).BH n ↔ (l.BH n ∧ r.BH n) := Iff.rfl
theorem BH_black (l r : Tree K V) (a k v n) :
    (node l a Color.BLACK k v r).BH n ↔ ∃ n2, n = n2 + 1 ∧ l.BH n2 ∧ r.BH n2 := Iff.rfl
theorem BH_black_succ (l r : Tree K V) (a k v n) :
    (node l a Color.BLACK k v r).BH (n + 1) ↔ (l.BH n ∧ r.BH n) := by
  rw [BH_black]
  constructor
  · rintro ⟨n2, e, h⟩
    have : n2 = n := by omega
    subst this; exact h
  · intro h; exact ⟨n, rfl, h⟩

@[simp] theorem NoRedRed_leaf : (leaf : Tree K V).NoRedRed := trivial
theorem NoRedRed_node (l r : Tree K V) (a c k v) :
    (node l a c k v r).NoRedRed ↔
      ((c = Color.RED → l.color = Color.BLACK ∧ r.color = Color.BLACK) ∧
        l.NoRedRed ∧ r.NoRedRed) := Iff.rfl

theorem blackCounts_ne_nil (t : Tree K V) : t.blackCounts ≠ [] := by
  induction t with
  | leaf => simp [blackCounts]
  | node l a c k v r ihl _ => simp [blackCounts, ihl]

/-- The recursive black height says that all root-to-leaf paths count `n` BLACK nodes. -/
theorem BH_iff_blackCounts (t : Tree K V) : ∀ n, t.BH n ↔ ∀ x ∈ t.blackCounts, x = n := by
  induction t with
  | leaf => intro n; simp [blackCounts]; exact eq_comm
  | node l a c k v r ihl ihr =>
    intro n
    obtain ⟨xl, hxl⟩ := List.exists_mem_of_ne_nil _ (blackCounts_ne_nil l)
    cases c with
    | RED =>
      rw [BH_red, ihl, ihr]
      simp only [blackCounts, List.mem_map, List.mem_append]
      constructor
      · rintro ⟨h1, h2⟩ x ⟨y, hy | hy, rfl⟩
        · simp [h1 y hy]
        · simp [h2 y hy]
      · intro h
        exact ⟨fun x hx => by simpa using h x ⟨x, Or.inl hx, by simp⟩,
          fun x hx => by simpa using h x ⟨x, Or.inr hx, by simp⟩⟩
    | BLACK =>
      rw [BH_black]
      simp only [blackCounts, List.mem_map, List.mem_append]
      constructor
      · rintro ⟨n2, rfl, h1, h2⟩ x ⟨y, hy | hy, rfl⟩
        · simp [(ihl n2).1 h1 y hy]
        · simp [(ihr n2).1 h2 y hy]
      · intro h
        have h0 := h (xl + 1) ⟨xl, Or.inl hxl, by simp⟩
        refine ⟨xl, h0.symm, (ihl xl).2 (fun x hx => ?_), (ihr xl).2 (fun x hx => ?_)⟩
        · have := h (x + 1) ⟨x, Or.inl hx, by simp⟩
          omega
        · have := h (x + 1) ⟨x, Or.inr hx, by simp⟩
          omega

theorem equalBlackHeight_iff (t : Tree K V) : t.EqualBlackHeight ↔ ∃ n, t.BH n := by
  obtain ⟨x, hx⟩ := List.exists_mem_of_ne_nil _ (blackCounts_ne_nil t)
  constructor
  · intro h
    exact ⟨x, (BH_iff_blackCounts t x).2 (fun y hy => h y hy x hx)⟩
  · rintro ⟨n, hn⟩ a ha b hb
    rw [BH_iff_blackCounts] at hn
    rw [hn a ha, hn b hb]

@[simp] theorem elems_blacken (t : Tree K V) : t.blacken.elems = t.elems := by
  cases t <;> rfl

theorem RB_blacken {t : Tree K V} {n : Nat} (h1 : t.NoRedRed) (h2 : t.BH n) : t.blacken.RB := by
  cases t with
  | leaf => exact ⟨rfl, trivial, (equalBlackHeight_iff _).2 ⟨0, rfl⟩⟩
  | node l a c k v r =>
    refine ⟨rfl, ?_, (equalBlackHeight_iff _).2 ?_⟩
    · simp only [blacken, NoRedRed_node] at h1 ⊢
      exact ⟨by simp, h1.2⟩
    · cases c with
      | RED => exact ⟨n + 1, (BH_black_succ ..).2 h2⟩
      | BLACK => exact ⟨n, h2⟩

end Tree

namespace Path

theorem plug_ok (p : Path K V) : ∀ (t : Tree K V) (n : Nat), p.OK n → t.BH n → t.NoRedRed →
    (p.color = Color.RED → t.color = Color.BLACK) →
    (p.plug t).NoRedRed ∧ ∃ N, (p.plug t).BH N := by
  induction p with
  | top => intro t n _ h2 h3 _; exact ⟨h3, n, h2⟩
  | L a c k v r up ih =>
    intro t n h1 h2 h3 h4
    obtain ⟨o1, o2, o3, o4⟩ := h1
    simp only [color_L] at h4
    refine ih _ _ o4 ?_ ?_ ?_
    · cases c with
      | RED => simpa [Tree.BH_red] using ⟨h2, o1⟩
      | BLACK => simpa [Tree.BH_black_succ] using ⟨h2, o1⟩
    · exact ⟨fun hc => ⟨h4 hc, (o3 hc).1⟩, h3, o2⟩
    · intro hu
      simp only [Tree.color_node]
      cases c with
      | RED => rw [(o3 rfl).2] at hu; cases hu
      | BLACK => rfl
  | R l a c k v up ih =>
    intro t n h1 h2 h3 h4
    obtain ⟨o1, o2, o3, o4⟩ := h1
    simp only [color_R] at h4
    refine ih _ _ o4 ?_ ?_ ?_
    · cases c with
      | RED => simpa [Tree.BH_red] using ⟨o1, h2⟩
      | BLACK => simpa [Tree.BH_black_succ] using ⟨o1, h2⟩
    · exact ⟨fun hc => ⟨(o3 hc).1, h4 hc⟩, o2, h3⟩
    · intro hu
      simp only [Tree.color_node]
      cases c with
      | RED => rw [(o3 rfl).2] at hu; cases hu
      | BLACK => rfl

theorem ok_of_plug (p : Path K V) : ∀ (t : Tree K V) (N : Nat), (p.plug t).NoRedRed →
    (p.plug t).BH N →
    ∃ n, p.OK n ∧ t.BH n ∧ t.NoRedRed ∧ (p.color = Color.RED → t.color = Color.BLACK) := by
  induction p with
  | top => intro t N h1 h2; exact ⟨N, trivial, h2, h1, by simp⟩
  | L a c k v r up ih =>
    intro t N h1 h2
    obtain ⟨n2, i1, i2, i3, i4⟩ := ih _ N h1 h2
    simp only [Tree.color_node] at i4
    simp only [Tree.NoRedRed_node] at i3
    cases c with
    | RED =>
      rw [Tree.BH_red] at i2
      refine ⟨n2, ⟨i2.2, i3.2.2, fun _ => ⟨(i3.1 rfl).2, ?_⟩, by simpa using i1⟩, i2.1, i3.2.1,
        fun _ => (i3.1 rfl).1⟩
      cases hc : up.color with
      | RED => exact absurd (i4 hc) (by simp)
      | BLACK => rfl
    | BLACK =>
      rw [Tree.BH_black] at i2
      obtain ⟨n3, rfl, j1, j2⟩ := i2
      exact ⟨n3, ⟨j2, i3.2.2, by simp, by simpa using i1⟩, j1, i3.2.1, by simp⟩
  | R l a c k v up ih =>
    intro t N h1 h2
    obtain ⟨n2, i1, i2, i3, i4⟩ := ih _ N h1 h2
    simp only [Tree.color_node] at i4
    simp only [Tree.NoRedRed_node] at i3
    cases c with
    | RED =>
      rw [Tree.BH_red] at i2
      refine ⟨n2, ⟨i2.1, i3.2.1, fun _ => ⟨(i3.1 rfl).1, ?_⟩, by simpa using i1⟩, i2.2, i3.2.2,
        fun _ => (i3.1 rfl).2⟩
      cases hc : up.color with
      | RED => exact absurd (i4 hc) (by simp)
      | BLACK => rfl
    | BLACK =>
      rw [Tree.BH_black] at i2
      obtain ⟨n3, rfl, j1, j2⟩ := i2
      exact ⟨n3, ⟨j1, i3.2.1, by simp, by simpa using i1⟩, j2, i3.2.2, by simp⟩

@[simp] theorem rootColor_top (hc : Color) : (top : Path K V).rootColor hc = hc := rfl
@[simp] theorem rootColor_L (hc : Color) (a : Nat) (c k v) (r : Tree K V) (up : Path K V) :
    (L a c k v r up).rootColor hc = up.rootColor c := rfl
@[simp] theorem rootColor_R (hc : Color) (a : Nat) (c k v) (l : Tree K V) (up : Path K V) :
    (R l a c k v up).rootColor hc = up.rootColor c := rfl

theorem rootColor_of_ne_top {p : Path K V} (h : p ≠ top) (c1 c2 : Color) :
    p.rootColor c1 = p.rootColor c2 := by
  cases p with
  | top => exact absurd rfl h
  | L a c k v r up => rfl
  | R l a c k v up => rfl

end Path

end sjtu

namespace sjtu

variable {K V : Type}

namespace Map

/-! ## Field reads after stores -/

@[simp] theorem key_setLeft (m : Map K V) (a b : Nat) (v : Nat) :
    (m.setLeft a v).key b = m.key b := by
  unfold key setLeft upd; dsimp only; split <;> rfl
@[simp] theorem val_setLeft (m : Map K V) (a b : Nat) (v : Nat) :
    (m.setLeft a v).val b = m.val b := by
  unfold val setLeft upd; dsimp only; split <;> rfl
theorem left_setLeft (m : Map K V) (a b : Nat) (v : Nat) :
    (m.setLeft a v).left b = if b = a then v else m.left b := by
  unfold left setLeft upd; dsimp only; split <;> rfl
@[simp] theorem left_setLeft_same (m : Map K V) (a : Nat) (v : Nat) :
    (m.setLeft a v).left a = v := by
  simp [left_setLeft]
@[simp] theorem left_setLeft_ne (m : Map K V) {a b : Nat} (v : Nat) (h : b ≠ a) :
    (m.setLeft a v).left b = m.left b := by
  simp [left_setLeft, h]
@[simp] theorem right_setLeft (m : Map K V) (a b : Nat) (v : Nat) :
    (m.setLeft a v).right b = m.right b := by
  unfold right setLeft upd; dsimp only; split <;> rfl
@[simp] theorem parent_setLeft (m : Map K V) (a b : Nat) (v : Nat) :
    (m.setLeft a v).parent b = m.parent b := by
  unfold parent setLeft upd; dsimp only; split <;> rfl
@[simp] theorem color_setLeft (m : Map K V) (a b : Nat) (v : Nat) :
    (m.setLeft a v).color b = m.color b := by
  unfold color setLeft upd; dsimp only; split <;> rfl
@[simp] theorem key_setRight (m : Map K V) (a b : Nat) (v : Nat) :
    (m.setRight a v).key b = m.key b := by
  unfold key setRight upd; dsimp only; split <;> rfl
@[simp] theorem val_setRight (m : Map K V) (a b : Nat) (v : Nat) :
    (m.setRight a v).val b = m.val b := by
  unfold val setRight upd; dsimp only; split <;> rfl
@[simp] theorem left_setRight (m : Map K V) (a b : Nat) (v : Nat) :
    (m.setRight a v).left b = m.left b := by
  unfold left setRight upd; dsimp only; split <;> rfl
theorem right_setRight (m : Map K V) (a b : Nat) (v : Nat) :
    (m.setRight a v).right b = if b = a then v else m.right b := by
  unfold right setRight upd; dsimp only; split <;> rfl
@[simp] theorem right_setRight_same (m : Map K V) (a : Nat) (v : Nat) :
    (m.setRight a v).right a = v := by
  simp [right_setRight]
@[simp] theorem right_setRight_ne (m : Map K V) {a b : Nat} (v : Nat) (h : b ≠ a) :
    (m.setRight a v).right b = m.right b := by
  simp [right_setRight, h]
@[simp] theorem parent_setRight (m : Map K V) (a b : Nat) (v : Nat) :
    (m.setRight a v).parent b = m.parent b := by
  unfold parent setRight upd; dsimp only; split <;> rfl
@[simp] theorem color_setRight (m : Map K V) (a b : Nat) (v : Nat) :
    (m.setRight a v).color b = m.color b := by
  unfold color setRight upd; dsimp only; split <;> rfl
@[simp] theorem key_setParent (m : Map K V) (a b : Nat) (v : Nat) :
    (m.setParent a v).key b = m.key b := by
  unfold key setParent upd; dsimp only; split <;> rfl
@[simp] theorem val_setParent (m : Map K V) (a b : Nat) (v : Nat) :
    (m.setParent a v).val b = m.val b := by
  unfold val setParent upd; dsimp only; split <;> rfl
@[simp] theorem left_setParent (m : Map K V) (a b : Nat) (v : Nat) :
    (m.setParent a v).left b = m.left b := by
  unfold left setParent upd; dsimp only; split <;> rfl
@[simp] theorem right_setParent (m : Map K V) (a b : Nat) (v : Nat) :
    (m.setParent a v).right b = m.right b := by
  unfold right setParent upd; dsimp only; split <;> rfl
theorem parent_setParent (m : Map K V) (a b : Nat) (v : Nat) :
    (m.setParent a v).parent b = if b = a then v else m.parent b := by
  unfold parent setParent upd; dsimp only; split <;> rfl
@[simp] theorem parent_setParent_same (m : Map K V) (a : Nat) (v : Nat) :
    (m.setParent a v).parent a = v := by
  simp [parent_setParent]
@[simp] theorem parent_setParent_ne (m : Map K V) {a b : Nat} (v : Nat) (h : b ≠ a) :
    (m.setParent a v).parent b = m.parent b := by
  simp [parent_setParent, h]
@[simp] theorem color_setParent (m : Map K V) (a b : Nat) (v : Nat) :
    (m.setParent a v).color b = m.color b := by
  unfold color setParent upd; dsimp only; split <;> rfl
@[simp] theorem key_setColor (m : Map K V) (a b : Nat) (v : Color) :
    (m.setColor a v).key b = m.key b := by
  unfold key setColor upd; dsimp only; split <;> rfl
@[simp] theorem val_setColor (m : Map K V) (a b : Nat) (v : Color) :
    (m.setColor a v).val b = m.val b := by
  unfold val setColor upd; dsimp only; split <;> rfl
@[simp] theorem left_setColor (m : Map K V) (a b : Nat) (v : Color) :
    (m.setColor a v).left b = m.left b := by
  unfold left setColor upd; dsimp only; split <;> rfl
@[simp] theorem right_setColor (m : Map K V) (a b : Nat) (v : Color) :
    (m.setColor a v).right b = m.right b := by
  unfold right setColor upd; dsimp only; split <;> rfl
@[simp] theorem parent_setColor (m : Map K V) (a b : Nat) (v : Color) :
    (m.setColor a v).parent b = m.parent b := by
  unfold parent setColor upd; dsimp only; split <;> rfl
theorem color_setColor (m : Map K V) (a b : Nat) (v : Color) :
    (m.setColor a v).color b = if b = a then v else m.color b := by
  unfold color setColor upd; dsimp only; split <;> rfl
@[simp] theorem color_setColor_same (m : Map K V) (a : Nat) (v : Color) :
    (m.setColor a v).color a = v := by
  simp [color_setColor]
@[simp] theorem color_setColor_ne (m : Map K V) {a b : Nat} (v : Color) (h : b ≠ a) :
    (m.setColor a v).color b = m.color b := by
  simp [color_setColor, h]
@[simp] theorem key_setRoot (m : Map K V) (a b : Nat) : (m.setRoot a).key b = m.key b := rfl
@[simp] theorem val_setRoot (m : Map K V) (a b : Nat) : (m.setRoot a).val b = m.val b := rfl
@[simp] theorem left_setRoot (m : Map K V) (a b : Nat) : (m.setRoot a).left b = m.left b := rfl
@[simp] theorem right_setRoot (m : Map K V) (a b : Nat) : (m.setRoot a).right b = m.right b := rfl
@[simp] theorem parent_setRoot (m : Map K V) (a b : Nat) : (m.setRoot a).parent b = m.parent b := rfl
@[simp] theorem color_setRoot (m : Map K V) (a b : Nat) : (m.setRoot a).color b = m.color b := rfl

end Map

/-! ## Reading the node in focus -/

theorem abs_parent_eq {m : Map K V} (p : Path K V) {l r : Tree K V} {a c k v}
    (h : Abs m (p.plug (Tree.node l a c k v r))) : m.parent a = p.ptr m.nil := by
  simp [Map.parent, abs_read h]

theorem abs_left_eq {m : Map K V} (p : Path K V) {l r : Tree K V} {a c k v}
    (h : Abs m (p.plug (Tree.node l a c k v r))) : m.left a = l.ptr m.nil := by
  simp [Map.left, abs_read h]

theorem abs_right_eq {m : Map K V} (p : Path K V) {l r : Tree K V} {a c k v}
    (h : Abs m (p.plug (Tree.node l a c k v r))) : m.right a = r.ptr m.nil := by
  simp [Map.right, abs_read h]

theorem abs_color_eq {m : Map K V} (p : Path K V) {l r : Tree K V} {a c k v}
    (h : Abs m (p.plug (Tree.node l a c k v r))) : m.color a = c := by
  simp [Map.color, abs_read h]

theorem abs_key_eq {m : Map K V} (p : Path K V) {l r : Tree K V} {a c k v}
    (h : Abs m (p.plug (Tree.node l a c k v r))) : m.key a = k := by
  simp [Map.key, abs_read h]

theorem abs_val_eq {m : Map K V} (p : Path K V) {l r : Tree K V} {a c k v}
    (h : Abs m (p.plug (Tree.node l a c k v r))) : m.val a = v := by
  simp [Map.val, abs_read h]

/-- The colour stored at the root pointer of a subtree is the colour of the subtree: the
sentinel is BLACK. -/
theorem abs_color_ptr {m : Map K V} (p : Path K V) {t : Tree K V}
    (h : Abs m (p.plug t)) : m.color (t.ptr m.nil) = t.color := by
  cases t with
  | leaf => simpa [Map.color] using h.nil_black
  | node l a c k v r => exact abs_color_eq p h

/-- The root of a subtree in focus is not the root of a sibling subtree. -/
theorem abs_ne_ptr_right {m : Map K V} (p : Path K V) {l r s : Tree K V} {a b c cb k kb v vb}
    (h : Abs m (p.plug (Tree.node (Tree.node l a c k v r) b cb kb vb s))) :
    a ≠ s.ptr m.nil := by
  have hz := zrep_iff.1 h
  obtain ⟨-, -, -, -, -, -, -, f8, -, -⟩ := zrep_facts hz
  have ha := f8 a (by simp)
  rcases tree_ptr_cases m.nil s with ⟨_, e⟩ | ⟨_, e⟩
  · rw [e]; exact ha.2.2.2
  · intro e2; exact ha.2.1 (e2 ▸ e)

theorem abs_ne_ptr_left {m : Map K V} (p : Path K V) {l r s : Tree K V} {a b c cb k kb v vb}
    (h : Abs m (p.plug (Tree.node s b cb kb vb (Tree.node l a c k v r)))) :
    a ≠ s.ptr m.nil := by
  have hz := zrep_iff.1 h
  obtain ⟨-, -, -, -, -, -, -, -, f9, -⟩ := zrep_facts hz
  have ha := f9 a (by simp)
  rcases tree_ptr_cases m.nil s with ⟨_, e⟩ | ⟨_, e⟩
  · rw [e]; exact ha.2.2.2
  · intro e2; exact ha.2.1 (e2 ▸ e)

/-- The cell of the sentinel is not written by `leftRotate(x)` when `x->right` is a node. -/
theorem abs_leftRotate_cell {m : Map K V} {p : Path K V} {α β γ : Tree K V}
    {x y cx cy kx ky vx vy}
    (h : Abs m (p.plug (Tree.node α x cx kx vx (Tree.node β y cy ky vy γ)))) :
    (m.leftRotate x).mem m.nil = m.mem m.nil :=
  (zrep_leftRotate (zrep_iff.1 h)).2

/-- The cell of the sentinel is not written by `rightRotate(y)` when `y->left` is a node. -/
theorem abs_rightRotate_cell {m : Map K V} {p : Path K V} {α β γ : Tree K V}
    {x y cx cy kx ky vx vy}
    (h : Abs m (p.plug (Tree.node (Tree.node α x cx kx vx β) y cy ky vy γ))) :
    (m.rightRotate y).mem m.nil = m.mem m.nil :=
  (zrep_rightRotate (zrep_iff.1 h)).2

/-- The cell of the sentinel is not written by recolouring a node of the tree. -/
theorem abs_setColor_cell {m : Map K V} (p : Path K V) {l r : Tree K V} {a c k v}
    (h : Abs m (p.plug (Tree.node l a c k v r))) (c2 : Color) :
    (m.setColor a c2).mem m.nil = m.mem m.nil :=
  Map.setColor_mem_ne m c2 (Ne.symm (zrep_facts (zrep_iff.1 h)).1)

/-! ## The cases of `insertFixup` -/

/-- The loop body with its log moves the state as the loop body does. -/
theorem insertFixupBodyT_fst (m : Map K V) (z : Nat) :
    (m.insertFixupBodyT z).1 = m.insertFixupBody z := by
  unfold Map.insertFixupBodyT Map.insertFixupBody
  simp only [Map.setColorL, Map.leftRotateL, Map.rightRotateL]
  split_ifs <;> rfl

/-- Lines 76-80: the parent is a left child and the uncle is RED. -/
theorem insertFixupBody_left_red {m : Map K V} {up : Path K V} {pl pr ul ur : Tree K V}
    {z pa g u cp cg kp kg ku vp vg vu}
    (h : Abs m (up.plug (Tree.node (Tree.node pl pa cp kp vp pr) g cg kg vg
      (Tree.node ul u Color.RED ku vu ur))))
    (hz : m.parent z = pa) :
    (m.insertFixupBody z).2 = g ∧
    Abs (m.insertFixupBody z).1 (up.plug (Tree.node (Tree.node pl pa Color.BLACK kp vp pr) g
      Color.RED kg vg (Tree.node ul u Color.BLACK ku vu ur))) ∧
    (m.insertFixupBody z).1.nil = m.nil ∧ (m.insertFixupBody z).1.next = m.next ∧
    (m.insertFixupBody z).1.self = m.self ∧ (m.insertFixupBody z).1.map_size = m.map_size ∧
    (m.insertFixupBody z).1.mem m.nil = m.mem m.nil ∧
    (∀ e ∈ (m.insertFixupBodyT z).2, e.Safe m.nil) := by
  have e1 : m.parent pa = g := abs_parent_eq (Path.L g cg kg vg _ up) h
  have e2 : m.left g = pa := abs_left_eq up h
  have e3 : m.right g = u := abs_right_eq up h
  have e4 : m.color u = Color.RED := abs_color_eq (Path.R _ g cg kg vg up) h
  have hb : m.insertFixupBody z = (((m.setColor pa Color.BLACK).setColor u Color.BLACK).setColor g
      Color.RED, g) := by
    unfold Map.insertFixupBody
    simp [hz, e1, e2, e3, e4]
  have hlog : ∀ e ∈ (m.insertFixupBodyT z).2, e.Safe m.nil := by
    have n1 : g ≠ m.nil := abs_ne_nil (p := up) h
    unfold Map.insertFixupBodyT
    simp [Map.setColorL, Event.Safe, hz, e1, e2, e3, e4, n1]
  rw [hb]
  have a1 := abs_setColor (p := Path.L g cg kg vg _ up) h Color.BLACK
  have a2 := abs_setColor (p := Path.R _ g cg kg vg up) a1 Color.BLACK
  refine ⟨rfl, abs_setColor (p := up) a2 Color.RED, rfl, rfl, rfl, rfl, ?_, hlog⟩
  have c1 := abs_setColor_cell (Path.L g cg kg vg _ up) h Color.BLACK
  have c2 := abs_setColor_cell (Path.R _ g cg kg vg up) a1 Color.BLACK
  have c3 := abs_setColor_cell up a2 Color.RED
  simp only [Map.setColor_nil] at c1 c2 c3 ⊢
  rw [c3, c2, c1]

/-- Lines 86-88 with the parent a left child, the uncle BLACK and `z` a left child. -/
theorem insertFixupBody_left_outer {m : Map K V} {up : Path K V} {l r sib unc : Tree K V}
    {z pa g cz cp cg k kp kg v vp vg}
    (h : Abs m (up.plug (Tree.node (Tree.node (Tree.node l z cz k v r) pa cp kp vp sib) g cg kg vg
      unc)))
    (hu : unc.color = Color.BLACK) :
    (m.insertFixupBody z).2 = z ∧
    Abs (m.insertFixupBody z).1 (up.plug (Tree.node (Tree.node l z cz k v r) pa Color.BLACK kp vp
      (Tree.node sib g Color.RED kg vg unc))) ∧
    (m.insertFixupBody z).1.nil = m.nil ∧ (m.insertFixupBody z).1.next = m.next ∧
    (m.insertFixupBody z).1.self = m.self ∧ (m.insertFixupBody z).1.map_size = m.map_size ∧
    (m.insertFixupBody z).1.mem m.nil = m.mem m.nil ∧
    (∀ e ∈ (m.insertFixupBodyT z).2, e.Safe m.nil) := by
  have e0 : m.parent z = pa :=
    abs_parent_eq (Path.L pa cp kp vp sib (Path.L g cg kg vg unc up)) h
  have e1 : m.parent pa = g := abs_parent_eq (Path.L g cg kg vg _ up) h
  have e2 : m.left g = pa := abs_left_eq up h
  have e3 : m.right g = unc.ptr m.nil := abs_right_eq up h
  have e4 : m.color (unc.ptr m.nil) = Color.BLACK := by
    rw [abs_color_ptr (Path.R _ g cg kg vg up) h, hu]
  have e5 : m.right pa = sib.ptr m.nil := abs_right_eq (Path.L g cg kg vg _ up) h
  have e6 : z ≠ sib.ptr m.nil := abs_ne_ptr_right (Path.L g cg kg vg _ up) h
  have hb : m.insertFixupBody z =
      (((m.setColor pa Color.BLACK).setColor g Color.RED).rightRotate g, z) := by
    unfold Map.insertFixupBody
    simp [e0, e1, e2, e3, e4, e5, e6]
  have hlog : ∀ e ∈ (m.insertFixupBodyT z).2, e.Safe m.nil := by
    have n1 : g ≠ m.nil := abs_ne_nil (p := up) h
    have n2 : pa ≠ m.nil := abs_ne_nil (p := Path.L g cg kg vg _ up) h
    unfold Map.insertFixupBodyT
    simp [Map.setColorL, Map.leftRotateL, Map.rightRotateL, Event.Safe, e0, e1, e2, e3, e4, e5,
      e6, n1, n2]
  rw [hb]
  have a1 := abs_setColor (p := Path.L g cg kg vg _ up) h Color.BLACK
  have a2 := abs_setColor (p := up) a1 Color.RED
  refine ⟨rfl, abs_rightRotate a2, by simp, by simp, by simp, by simp, ?_, hlog⟩
  have c1 := abs_setColor_cell (Path.L g cg kg vg _ up) h Color.BLACK
  have c2 := abs_setColor_cell up a1 Color.RED
  have c3 := abs_rightRotate_cell a2
  simp only [Map.setColor_nil] at c1 c2 c3 ⊢
  rw [c3, c2, c1]

/-- Lines 82-88 with the parent a left child, the uncle BLACK and `z` a right child. -/
theorem insertFixupBody_left_inner {m : Map K V} {up : Path K V} {l r sib unc : Tree K V}
    {z pa g cz cp cg k kp kg v vp vg}
    (h : Abs m (up.plug (Tree.node (Tree.node sib pa cp kp vp (Tree.node l z cz k v r)) g cg kg vg
      unc)))
    (hu : unc.color = Color.BLACK) :
    (m.insertFixupBody z).2 = pa ∧
    Abs (m.insertFixupBody z).1 (up.plug (Tree.node (Tree.node sib pa cp kp vp l) z Color.BLACK k v
      (Tree.node r g Color.RED kg vg unc))) ∧
    (m.insertFixupBody z).1.nil = m.nil ∧ (m.insertFixupBody z).1.next = m.next ∧
    (m.insertFixupBody z).1.self = m.self ∧ (m.insertFixupBody z).1.map_size = m.map_size ∧
    (m.insertFixupBody z).1.mem m.nil = m.mem m.nil ∧
    (∀ e ∈ (m.insertFixupBodyT z).2, e.Safe m.nil) := by
  have e0 : m.parent z = pa :=
    abs_parent_eq (Path.R sib pa cp kp vp (Path.L g cg kg vg unc up)) h
  have e1 : m.parent pa = g := abs_parent_eq (Path.L g cg kg vg _ up) h
  have e2 : m.left g = pa := abs_left_eq up h
  have e3 : m.right g = unc.ptr m.nil := abs_right_eq up h
  have e4 : m.color (unc.ptr m.nil) = Color.BLACK := by
    rw [abs_color_ptr (Path.R _ g cg kg vg up) h, hu]
  have e5 : m.right pa = z := abs_right_eq (Path.L g cg kg vg _ up) h
  have a1 := abs_leftRotate (p := Path.L g cg kg vg unc up) h
  have f0 : (m.leftRotate pa).parent pa = z :=
    abs_parent_eq (Path.L z cz k v r (Path.L g cg kg vg unc up)) a1
  have f1 : (m.leftRotate pa).parent z = g := abs_parent_eq (Path.L g cg kg vg _ up) a1
  have hb : m.insertFixupBody z =
      ((((m.leftRotate pa).setColor z Color.BLACK).setColor g Color.RED).rightRotate g, pa) := by
    unfold Map.insertFixupBody
    simp [e0, e1, e2, e3, e4, e5, f0, f1]
  have hlog : ∀ e ∈ (m.insertFixupBodyT z).2, e.Safe m.nil := by
    have f2 : (m.leftRotate pa).left g = z := abs_left_eq up a1
    have n1 : g ≠ m.nil := abs_ne_nil (p := up) h
    have n2 : pa ≠ m.nil := abs_ne_nil (p := Path.L g cg kg vg _ up) h
    have n3 : z ≠ m.nil :=
      abs_ne_nil (p := Path.R sib pa cp kp vp (Path.L g cg kg vg unc up)) h
    unfold Map.insertFixupBodyT
    simp [Map.setColorL, Map.leftRotateL, Map.rightRotateL, Event.Safe, e0, e1, e2, e3, e4, e5,
      f0, f1, f2, n1, n2, n3]
  rw [hb]
  have a2 := abs_setColor (p := Path.L g cg kg vg _ up) a1 Color.BLACK
  have a3 := abs_setColor (p := up) a2 Color.RED
  refine ⟨rfl, abs_rightRotate a3, by simp, by simp, by simp, by simp, ?_, hlog⟩
  have c0 := abs_leftRotate_cell (p := Path.L g cg kg vg unc up) h
  have c1 := abs_setColor_cell (Path.L g cg kg vg _ up) a1 Color.BLACK
  have c2 := abs_setColor_cell up a2 Color.RED
  have c3 := abs_rightRotate_cell a3
  simp only [Map.setColor_nil, Map.leftRotate_nil, Map.rightRotate_nil] at c0 c1 c2 c3 ⊢
  rw [c3, c2, c1, c0]

/-- Lines 92-96: the parent is a right child and the uncle is RED. -/
theorem insertFixupBody_right_red {m : Map K V} {up : Path K V} {pl pr ul ur : Tree K V}
    {z pa g u cp cg kp kg ku vp vg vu}
    (h : Abs m (up.plug (Tree.node (Tree.node ul u Color.RED ku vu ur) g cg kg vg
      (Tree.node pl pa cp kp vp pr))))
    (hz : m.parent z = pa) :
    (m.insertFixupBody z).2 = g ∧
    Abs (m.insertFixupBody z).1 (up.plug (Tree.node (Tree.node ul u Color.BLACK ku vu ur) g
      Color.RED kg vg (Tree.node pl pa Color.BLACK kp vp pr))) ∧
    (m.insertFixupBody z).1.nil = m.nil ∧ (m.insertFixupBody z).1.next = m.next ∧
    (m.insertFixupBody z).1.self = m.self ∧ (m.insertFixupBody z).1.map_size = m.map_size ∧
    (m.insertFixupBody z).1.mem m.nil = m.mem m.nil ∧
    (∀ e ∈ (m.insertFixupBodyT z).2, e.Safe m.nil) := by
  have e1 : m.parent pa = g := abs_parent_eq (Path.R _ g cg kg vg up) h
  have e2 : m.left g = u := abs_left_eq up h
  have e3 : pa ≠ u := abs_ne_ptr_left up h
  have e4 : m.color u = Color.RED := abs_color_eq (Path.L g cg kg vg _ up) h
  have hb : m.insertFixupBody z = (((m.setColor pa Color.BLACK).setColor u Color.BLACK).setColor g
      Color.RED, g) := by
    unfold Map.insertFixupBody
    simp [hz, e1, e2, e3, e4]
  have hlog : ∀ e ∈ (m.insertFixupBodyT z).2, e.Safe m.nil := by
    have n1 : g ≠ m.nil := abs_ne_nil (p := up) h
    unfold Map.insertFixupBodyT
    simp [Map.setColorL, Event.Safe, hz, e1, e2, e3, e4, n1]
  rw [hb]
  have a1 := abs_setColor (p := Path.R _ g cg kg vg up) h Color.BLACK
  have a2 := abs_setColor (p := Path.L g cg kg vg _ up) a1 Color.BLACK
  refine ⟨rfl, abs_setColor (p := up) a2 Color.RED, rfl, rfl, rfl, rfl, ?_, hlog⟩
  have c1 := abs_setColor_cell (Path.R _ g cg kg vg up) h Color.BLACK
  have c2 := abs_setColor_cell (Path.L g cg kg vg _ up) a1 Color.BLACK
  have c3 := abs_setColor_cell up a2 Color.RED
  simp only [Map.setColor_nil] at c1 c2 c3 ⊢
  rw [c3, c2, c1]

/-- Lines 102-104 with the parent a right child, the uncle BLACK and `z` a right child. -/
theorem insertFixupBody_right_outer {m : Map K V} {up : Path K V} {l r sib unc : Tree K V}
    {z pa g cz cp cg k kp kg v vp vg}
    (h : Abs m (up.plug (Tree.node unc g cg kg vg (Tree.node sib pa cp kp vp
      (Tree.node l z cz k v r)))))
    (hu : unc.color = Color.BLACK) :
    (m.insertFixupBody z).2 = z ∧
    Abs (m.insertFixupBody z).1 (up.plug (Tree.node (Tree.node unc g Color.RED kg vg sib) pa
      Color.BLACK kp vp (Tree.node l z cz k v r))) ∧
    (m.insertFixupBody z).1.nil = m.nil ∧ (m.insertFixupBody z).1.next = m.next ∧
    (m.insertFixupBody z).1.self = m.self ∧ (m.insertFixupBody z).1.map_size = m.map_size ∧
    (m.insertFixupBody z).1.mem m.nil = m.mem m.nil ∧
    (∀ e ∈ (m.insertFixupBodyT z).2, e.Safe m.nil) := by
  have e0 : m.parent z = pa :=
    abs_parent_eq (Path.R sib pa cp kp vp (Path.R unc g cg kg vg up)) h
  have e1 : m.parent pa = g := abs_parent_eq (Path.R _ g cg kg vg up) h
  have e2 : m.left g = unc.ptr m.nil := abs_left_eq up h
  have e3 : pa ≠ unc.ptr m.nil := abs_ne_ptr_left up h
  have e4 : m.color (unc.ptr m.nil) = Color.BLACK := by
    rw [abs_color_ptr (Path.L g cg kg vg _ up) h, hu]
  have e5 : m.left pa = sib.ptr m.nil := abs_left_eq (Path.R _ g cg kg vg up) h
  have e6 : z ≠ sib.ptr m.nil := abs_ne_ptr_left (Path.R _ g cg kg vg up) h
  have hb : m.insertFixupBody z =
      (((m.setColor pa Color.BLACK).setColor g Color.RED).leftRotate g, z) := by
    unfold Map.insertFixupBody
    simp [e0, e1, e2, e3, e4, e5, e6]
  have hlog : ∀ e ∈ (m.insertFixupBodyT z).2, e.Safe m.nil := by
    have e7 : m.right g = pa := abs_right_eq up h
    have n1 : g ≠ m.nil := abs_ne_nil (p := up) h
    have n2 : pa ≠ m.nil := abs_ne_nil (p := Path.R _ g cg kg vg up) h
    unfold Map.insertFixupBodyT
    simp [Map.setColorL, Map.leftRotateL, Map.rightRotateL, Event.Safe, e0, e1, e2, e3, e4, e5,
      e6, e7, n1, n2]
  rw [hb]
  have a1 := abs_setColor (p := Path.R _ g cg kg vg up) h Color.BLACK
  have a2 := abs_setColor (p := up) a1 Color.RED
  refine ⟨rfl, abs_leftRotate a2, by simp, by simp, by simp, by simp, ?_, hlog⟩
  have c1 := abs_setColor_cell (Path.R _ g cg kg vg up) h Color.BLACK
  have c2 := abs_setColor_cell up a1 Color.RED
  have c3 := abs_leftRotate_cell a2
  simp only [Map.setColor_nil] at c1 c2 c3 ⊢
  rw [c3, c2, c1]

/-- Lines 98-104 with the parent a right child, the uncle BLACK and `z` a left child. -/
theorem insertFixupBody_right_inner {m : Map K V} {up : Path K V} {l r sib unc : Tree K V}
    {z pa g cz cp cg k kp kg v vp vg}
    (h : Abs m (up.plug (Tree.node unc g cg kg vg (Tree.node (Tree.node l z cz k v r) pa cp kp vp
      sib))))
    (hu : unc.color = Color.BLACK) :
    (m.insertFixupBody z).2 = pa ∧
    Abs (m.insertFixupBody z).1 (up.plug (Tree.node (Tree.node unc g Color.RED kg vg l) z
      Color.BLACK k v (Tree.node r pa cp kp vp sib))) ∧
    (m.insertFixupBody z).1.nil = m.nil ∧ (m.insertFixupBody z).1.next = m.next ∧
    (m.insertFixupBody z).1.self = m.self ∧ (m.insertFixupBody z).1.map_size = m.map_size ∧
    (m.insertFixupBody z).1.mem m.nil = m.mem m.nil ∧
    (∀ e ∈ (m.insertFixupBodyT z).2, e.Safe m.nil) := by
  have e0 : m.parent z = pa :=
    abs_parent_eq (Path.L pa cp kp vp sib (Path.R unc g cg kg vg up)) h
  have e1 : m.parent pa = g := abs_parent_eq (Path.R _ g cg kg vg up) h
  have e2 : m.left g = unc.ptr m.nil := abs_left_eq up h
  have e3 : pa ≠ unc.ptr m.nil := abs_ne_ptr_left up h
  have e4 : m.color (unc.ptr m.nil) = Color.BLACK := by
    rw [abs_color_ptr (Path.L g cg kg vg _ up) h, hu]
  have e5 : m.left pa = z := abs_left_eq (Path.R _ g cg kg vg up) h
  have a1 := abs_rightRotate (p := Path.R unc g cg kg vg up) h
  have f0 : (m.rightRotate pa).parent pa = z :=
    abs_parent_eq (Path.R l z cz k v (Path.R unc g cg kg vg up)) a1
  have f1 : (m.rightRotate pa).parent z = g := abs_parent_eq (Path.R _ g cg kg vg up) a1
  have hb : m.insertFixupBody z =
      ((((m.rightRotate pa).setColor z Color.BLACK).setColor g Color.RED).leftRotate g, pa) := by
    unfold Map.insertFixupBody
    simp [e0, e1, e2, e3, e4, e5, f0, f1]
  have hlog : ∀ e ∈ (m.insertFixupBodyT z).2, e.Safe m.nil := by
    have f2 : (m.rightRotate pa).right g = z := abs_right_eq up a1
    have n1 : g ≠ m.nil := abs_ne_nil (p := up) h
    have n2 : pa ≠ m.nil := abs_ne_nil (p := Path.R _ g cg kg vg up) h
    have n3 : z ≠ m.nil :=
      abs_ne_nil (p := Path.L pa cp kp vp sib (Path.R unc g cg kg vg up)) h
    unfold Map.insertFixupBodyT
    simp [Map.setColorL, Map.leftRotateL, Map.rightRotateL, Event.Safe, e0, e1, e2, e3, e4, e5,
      f0, f1, f2, n1, n2, n3]
  rw [hb]
  have a2 := abs_setColor (p := Path.R _ g cg kg vg up) a1 Color.BLACK
  have a3 := abs_setColor (p := up) a2 Color.RED
  refine ⟨rfl, abs_leftRotate a3, by simp, by simp, by simp, by simp, ?_, hlog⟩
  have c0 := abs_rightRotate_cell (p := Path.R unc g cg kg vg up) h
  have c1 := abs_setColor_cell (Path.R _ g cg kg vg up) a1 Color.BLACK
  have c2 := abs_setColor_cell up a2 Color.RED
  have c3 := abs_leftRotate_cell a3
  simp only [Map.setColor_nil, Map.leftRotate_nil, Map.rightRotate_nil] at c0 c1 c2 c3 ⊢
  rw [c3, c2, c1, c0]

end sjtu

namespace sjtu

variable {K V : Type}

/-! ## The loop of `insertFixup` -/

theorem abs_color_path_ptr {m : Map K V} (p : Path K V) {t : Tree K V}
    (h : Abs m (p.plug t)) : m.color (p.ptr m.nil) = p.color := by
  cases p with
  | top => simpa [Map.color] using h.nil_black
  | L a c k v r up => exact abs_color_eq up h
  | R l a c k v up => exact abs_color_eq up h

theorem abs_blacken {m : Map K V} {t : Tree K V} (h : Abs m t) :
    Abs (m.setColor m.root Color.BLACK) t.blacken := by
  cases t with
  | leaf =>
    refine ⟨trivial, h.root, h.nodup, h.bound, h.nil_lt, ?_, ?_⟩
    · have hr : m.root = m.nil := h.root
      simp [hr]
    · have hr : m.root = m.nil := h.root
      simp [hr, h.nil_links]
  | node l a c k v r =>
    have hr : m.root = a := h.root
    rw [hr]
    exact abs_setColor (p := Path.top) h Color.BLACK

theorem fixupResult_step {m : Map K V} {z d : Nat} {E : List (Nat × K × V)}
    (hc : m.color (m.parent z) = Color.RED)
    (hn : (m.insertFixupBody z).1.nil = m.nil ∧ (m.insertFixupBody z).1.next = m.next ∧
      (m.insertFixupBody z).1.self = m.self ∧ (m.insertFixupBody z).1.map_size = m.map_size ∧
      (m.insertFixupBody z).1.mem m.nil = m.mem m.nil ∧
      (∀ e ∈ (m.insertFixupBodyT z).2, e.Safe m.nil))
    (h : FixupResult (m.insertFixupBody z).1 (m.insertFixupBody z).2 d E) :
    FixupResult m z (d + 1) E := by
  obtain ⟨m2, T, h1, h2, h3, h4, h5, h6, h7, h8, h9, tr, h10, h11⟩ := h
  refine ⟨m2, T, ?_, h2, h3, h4, h5.trans hn.1, h6.trans hn.2.1, h7.trans hn.2.2.1,
    h8.trans hn.2.2.2.1, ?_, (m.insertFixupBodyT z).2 ++ tr, ?_, ?_⟩
  · intro fuel hf
    obtain ⟨f, rfl⟩ : ∃ f, fuel = f + 1 := ⟨fuel - 1, by omega⟩
    rw [Map.insertFixup, if_pos hc]
    exact h1 f (by omega)
  · rw [hn.1] at h9
    exact h9.trans hn.2.2.2.2.1
  · intro fuel hf
    obtain ⟨f, rfl⟩ : ∃ f, fuel = f + 1 := ⟨fuel - 1, by omega⟩
    rw [Map.insertFixupT, if_pos hc, insertFixupBodyT_fst, h10 f (by omega)]
  · intro e he
    rcases List.mem_append.1 he with he | he
    · exact hn.2.2.2.2.2 e he
    · rw [hn.1] at h11; exact h11 e he

theorem fixupResult_mono {m : Map K V} {z d d2 : Nat} {E : List (Nat × K × V)}
    (h : FixupResult m z d E) (hd : d ≤ d2) : FixupResult m z d2 E := by
  obtain ⟨m2, T, h1, h2, h3, h4, h5, h6, h7, h8, h9, tr, h10, h11⟩ := h
  exact ⟨m2, T, fun fuel hf => h1 fuel (by omega), h2, h3, h4, h5, h6, h7, h8, h9, tr,
    fun fuel hf => h10 fuel (by omega), h11⟩

theorem fixupResult_exit {m : Map K V} {p : Path K V} {l r : Tree K V} {z k v n}
    (h : Abs m (p.plug (Tree.node l z Color.RED k v r)))
    (hc : p.color = Color.BLACK)
    (hp : p.OK n) (hl : l.BH n) (hr : r.BH n) (hl2 : l.NoRedRed) (hr2 : r.NoRedRed)
    (hl3 : l.color = Color.BLACK) (hr3 : r.color = Color.BLACK) :
    FixupResult m z 0 (p.plug (Tree.node l z Color.RED k v r)).elems := by
  have e0 : m.parent z = p.ptr m.nil := abs_parent_eq p h
  have e1 : m.color (m.parent z) ≠ Color.RED := by
    rw [e0, abs_color_path_ptr p h, hc]; simp
  obtain ⟨g1, N, g2⟩ := Path.plug_ok p (Tree.node l z Color.RED k v r) n hp
    ((Tree.BH_red ..).2 ⟨hl, hr⟩) ⟨fun _ => ⟨hl3, hr3⟩, hl2, hr2⟩ (by simp [hc])
  refine ⟨m.setColor m.root Color.BLACK, _, ?_, abs_blacken h, Tree.RB_blacken g1 g2, by simp,
    rfl, rfl, rfl, rfl, ?_, [Event.recolour m.root Color.BLACK], ?_, ?_⟩
  · intro fuel hf
    obtain ⟨f, rfl⟩ : ∃ f, fuel = f + 1 := ⟨fuel - 1, by omega⟩
    rw [Map.insertFixup, if_neg e1]
  rotate_left
  · intro fuel hf
    obtain ⟨f, rfl⟩ : ∃ f, fuel = f + 1 := ⟨fuel - 1, by omega⟩
    rw [Map.insertFixupT, if_neg e1]
  · intro e he
    simp only [List.mem_singleton] at he
    subst he
    simp [Event.Safe]
  · have hne : m.root ≠ m.nil := by
      rw [h.root]
      rcases tree_ptr_cases m.nil (p.plug (Tree.node l z Color.RED k v r)) with ⟨e, _⟩ | ⟨_, e⟩
      · have := congrArg Tree.elems e
        simp [Path.elems_plug] at this
      · intro e2; exact Rep_nil_not_mem h.rep (e2 ▸ e)
    exact Map.setColor_mem_ne m Color.BLACK (Ne.symm hne)

/-- `insertFixup` restores the colouring invariants: started at a RED node `z` with BLACK
children whose only possible violation is a RED parent, it terminates and leaves a red-black
tree with the same in-order content. -/
theorem insertFixup_spec : ∀ (d : Nat) (m : Map K V) (p : Path K V) (l r : Tree K V)
    (z : Nat) (k : K) (v : V) (n : Nat),
    p.depth ≤ d → Abs m (p.plug (Tree.node l z Color.RED k v r)) → p.OK n → l.BH n → r.BH n →
    l.NoRedRed → r.NoRedRed → l.color = Color.BLACK → r.color = Color.BLACK →
    p.rootColor Color.BLACK = Color.BLACK →
    FixupResult m z p.depth (p.plug (Tree.node l z Color.RED k v r)).elems := by
  intro d
  induction d using Nat.strong_induction_on with
  | _ d ih =>
    intro m p l r z k v n hd h hp hl hr hl2 hr2 hl3 hr3 hroot
    cases hc : p.color with
    | BLACK =>
      exact fixupResult_mono (fixupResult_exit h hc hp hl hr hl2 hr2 hl3 hr3) (Nat.zero_le _)
    | RED =>
      have e0 : m.parent z = p.ptr m.nil := abs_parent_eq p h
      have hcond : m.color (m.parent z) = Color.RED := by
        rw [e0, abs_color_path_ptr p h, hc]
      have ht2 : (Tree.node l z Color.RED k v r).NoRedRed := ⟨fun _ => ⟨hl3, hr3⟩, hl2, hr2⟩
      have ht1 : (Tree.node l z Color.RED k v r).BH n := (Tree.BH_red ..).2 ⟨hl, hr⟩
      cases p with
      | top => simp at hc
      | L pa cp kp vp sib up =>
        simp only [Path.color_L] at hc; subst hc
        obtain ⟨o1, o2, o3, o4⟩ := hp
        obtain ⟨o5, o6⟩ := o3 rfl
        simp only [if_neg (by decide : ¬ Color.RED = Color.BLACK), Nat.add_zero] at o4
        simp only [Path.ptr_L] at e0
        cases up with
        | top => simp at hroot
        | L g cg kg vg unc up2 =>
          simp only [Path.color_L] at o6; subst o6
          obtain ⟨u1, u2, -, u4⟩ := o4
          simp only [if_true] at u4
          simp only [Path.rootColor_L, Path.rootColor_R] at hroot
          simp only [Path.depth_L, Path.depth_R] at hd ⊢
          cases hu : unc.color with
          | RED =>
            cases unc with
            | leaf => simp at hu
            | node ul u cu ku vu ur =>
              simp only [Tree.color_node] at hu; subst hu
              have h2 : Abs m (up2.plug (Tree.node (Tree.node (Tree.node l z Color.RED k v r) pa
                Color.RED kp vp sib) g Color.BLACK kg vg (Tree.node ul u Color.RED ku vu ur))) := h
              obtain ⟨b1, b2, b3⟩ := insertFixupBody_left_red h2 e0
              refine fixupResult_step hcond b3 ?_
              rw [b1]
              have := ih (up2.depth) (by omega) _ up2 _ _ g kg vg (n + 1) (le_refl _) b2 u4
                ((Tree.BH_black_succ ..).2 ⟨ht1, o1⟩) ((Tree.BH_black_succ ..).2 u1)
                ⟨by simp, ht2, o2⟩ ⟨by simp, u2.2⟩ rfl rfl hroot
              refine fixupResult_mono ?_ (Nat.le_succ _)
              simpa [Path.elems_plug] using this
          | BLACK =>
            have h2 : Abs m (up2.plug (Tree.node (Tree.node (Tree.node l z Color.RED k v r) pa
              Color.RED kp vp sib) g Color.BLACK kg vg unc)) := h
            obtain ⟨b1, b2, b3⟩ := insertFixupBody_left_outer h2 hu
            refine fixupResult_step hcond b3 ?_
            rw [b1]
            have b4 : Abs (m.insertFixupBody z).1 ((Path.L pa Color.BLACK kp vp
              (Tree.node sib g Color.RED kg vg unc) up2).plug (Tree.node l z Color.RED k v r)) :=
              b2
            have := ih (up2.depth + 1) (by omega) _ (Path.L pa Color.BLACK kp vp
              (Tree.node sib g Color.RED kg vg unc) up2) _ _ z k v n (le_refl _) b4
              ⟨(Tree.BH_red ..).2 ⟨o1, u1⟩, ⟨fun _ => ⟨o5, hu⟩, o2, u2⟩, by simp,
                by simpa using u4⟩ hl hr hl2 hr2 hl3 hr3 hroot
            simpa [Path.elems_plug, Path.pre, Path.post] using this
        | R unc g cg kg vg up2 =>
          simp only [Path.color_R] at o6; subst o6
          obtain ⟨u1, u2, -, u4⟩ := o4
          simp only [if_true] at u4
          simp only [Path.rootColor_L, Path.rootColor_R] at hroot
          simp only [Path.depth_L, Path.depth_R] at hd ⊢
          cases hu : unc.color with
          | RED =>
            cases unc with
            | leaf => simp at hu
            | node ul u cu ku vu ur =>
              simp only [Tree.color_node] at hu; subst hu
              have h2 : Abs m (up2.plug (Tree.node (Tree.node ul u Color.RED ku vu ur) g
                Color.BLACK kg vg (Tree.node (Tree.node l z Color.RED k v r) pa
                Color.RED kp vp sib))) := h
              obtain ⟨b1, b2, b3⟩ := insertFixupBody_right_red h2 e0
              refine fixupResult_step hcond b3 ?_
              rw [b1]
              have := ih (up2.depth) (by omega) _ up2 _ _ g kg vg (n + 1) (le_refl _) b2 u4
                ((Tree.BH_black_succ ..).2 u1) ((Tree.BH_black_succ ..).2 ⟨ht1, o1⟩)
                ⟨by simp, u2.2⟩ ⟨by simp, ht2, o2⟩ rfl rfl hroot
              refine fixupResult_mono ?_ (Nat.le_succ _)
              simpa [Path.elems_plug] using this
          | BLACK =>
            have h2 : Abs m (up2.plug (Tree.node unc g Color.BLACK kg vg (Tree.node
              (Tree.node l z Color.RED k v r) pa Color.RED kp vp sib))) := h
            obtain ⟨b1, b2, b3⟩ := insertFixupBody_right_inner h2 hu
            refine fixupResult_step hcond b3 ?_
            rw [b1]
            have b4 : Abs (m.insertFixupBody z).1 ((Path.R (Tree.node unc g Color.RED kg vg l) z
              Color.BLACK k v up2).plug (Tree.node r pa Color.RED kp vp sib)) := b2
            have := ih (up2.depth + 1) (by omega) _ (Path.R (Tree.node unc g Color.RED kg vg l) z
              Color.BLACK k v up2) _ _ pa kp vp n (le_refl _) b4
              ⟨(Tree.BH_red ..).2 ⟨u1, hl⟩, ⟨fun _ => ⟨hu, hl3⟩, u2, hl2⟩, by simp,
                by simpa using u4⟩ hr o1 hr2 o2 hr3 o5 hroot
            simpa [Path.elems_plug, Path.pre, Path.post] using this
      | R sib pa cp kp vp up =>
        simp only [Path.color_R] at hc; subst hc
        obtain ⟨o1, o2, o3, o4⟩ := hp
        obtain ⟨o5, o6⟩ := o3 rfl
        simp only [if_neg (by decide : ¬ Color.RED = Color.BLACK), Nat.add_zero] at o4
        simp only [Path.ptr_R] at e0
        cases up with
        | top => simp at hroot
        | L g cg kg vg unc up2 =>
          simp only [Path.color_L] at o6; subst o6
          obtain ⟨u1, u2, -, u4⟩ := o4
          simp only [if_true] at u4
          simp only [Path.rootColor_L, Path.rootColor_R] at hroot
          simp only [Path.depth_L, Path.depth_R] at hd ⊢
          cases hu : unc.color with
          | RED =>
            cases unc with
            | leaf => simp at hu
            | node ul u cu ku vu ur =>
              simp only [Tree.color_node] at hu; subst hu
              have h2 : Abs m (up2.plug (Tree.node (Tree.node sib pa Color.RED kp vp
                (Tree.node l z Color.RED k v r)) g Color.BLACK kg vg
                (Tree.node ul u Color.RED ku vu ur))) := h
              obtain ⟨b1, b2, b3⟩ := insertFixupBody_left_red h2 e0
              refine fixupResult_step hcond b3 ?_
              rw [b1]
              have := ih (up2.depth) (by omega) _ up2 _ _ g kg vg (n + 1) (le_refl _) b2 u4
                ((Tree.BH_black_succ ..).2 ⟨o1, ht1⟩) ((Tree.BH_black_succ ..).2 u1)
                ⟨by simp, o2, ht2⟩ ⟨by simp, u2.2⟩ rfl rfl hroot
              refine fixupResult_mono ?_ (Nat.le_succ _)
              simpa [Path.elems_plug] using this
          | BLACK =>
            have h2 : Abs m (up2.plug (Tree.node (Tree.node sib pa Color.RED kp vp
              (Tree.node l z Color.RED k v r)) g Color.BLACK kg vg unc)) := h
            obtain ⟨b1, b2, b3⟩ := insertFixupBody_left_inner h2 hu
            refine fixupResult_step hcond b3 ?_
            rw [b1]
            have b4 : Abs (m.insertFixupBody z).1 ((Path.L z Color.BLACK k v
              (Tree.node r g Color.RED kg vg unc) up2).plug (Tree.node sib pa Color.RED kp vp l)) :=
              b2
            have := ih (up2.depth + 1) (by omega) _ (Path.L z Color.BLACK k v
              (Tree.node r g Color.RED kg vg unc) up2) _ _ pa kp vp n (le_refl _) b4
              ⟨(Tree.BH_red ..).2 ⟨hr, u1⟩, ⟨fun _ => ⟨hr3, hu⟩, hr2, u2⟩, by simp,
                by simpa using u4⟩ o1 hl o2 hl2 o5 hl3 hroot
            simpa [Path.elems_plug, Path.pre, Path.post] using this
        | R unc g cg kg vg up2 =>
          simp only [Path.color_R] at o6; subst o6
          obtain ⟨u1, u2, -, u4⟩ := o4
          simp only [if_true] at u4
          simp only [Path.rootColor_L, Path.rootColor_R] at hroot
          simp only [Path.depth_L, Path.depth_R] at hd ⊢
          cases hu : unc.color with
          | RED =>
            cases unc with
            | leaf => simp at hu
            | node ul u cu ku vu ur =>
              simp only [Tree.color_node] at hu; subst hu
              have h2 : Abs m (up2.plug (Tree.node (Tree.node ul u Color.RED ku vu ur) g
                Color.BLACK kg vg (Tree.node sib pa Color.RED kp vp
                (Tree.node l z Color.RED k v r)))) := h
              obtain ⟨b1, b2, b3⟩ := insertFixupBody_right_red h2 e0
              refine fixupResult_step hcond b3 ?_
              rw [b1]
              have := ih (up2.depth) (by omega) _ up2 _ _ g kg vg (n + 1) (le_refl _) b2 u4
                ((Tree.BH_black_succ ..).2 u1) ((Tree.BH_black_succ ..).2 ⟨o1, ht1⟩)
                ⟨by simp, u2.2⟩ ⟨by simp, o2, ht2⟩ rfl rfl hroot
              refine fixupResult_mono ?_ (Nat.le_succ _)
              simpa [Path.elems_plug] using this
          | BLACK =>
            have h2 : Abs m (up2.plug (Tree.node unc g Color.BLACK kg vg (Tree.node sib pa
              Color.RED kp vp (Tree.node l z Color.RED k v r)))) := h
            obtain ⟨b1, b2, b3⟩ := insertFixupBody_right_outer h2 hu
            refine fixupResult_step hcond b3 ?_
            rw [b1]
            have b4 : Abs (m.insertFixupBody z).1 ((Path.R (Tree.node unc g Color.RED kg vg sib) pa
              Color.BLACK kp vp up2).plug (Tree.node l z Color.RED k v r)) := b2
            have := ih (up2.depth + 1) (by omega) _ (Path.R (Tree.node unc g Color.RED kg vg sib)
              pa Color.BLACK kp vp up2) _ _ z k v n (le_refl _) b4
              ⟨(Tree.BH_red ..).2 ⟨u1, o1⟩, ⟨fun _ => ⟨hu, o5⟩, u2, o2⟩, by simp,
                by simpa using u4⟩ hl hr hl2 hr2 hl3 hr3 hroot
            simpa [Path.elems_plug, Path.pre, Path.post] using this

end sjtu

namespace sjtu

variable {K V : Type}

/-! ## Searching -/

theorem descend_plug (lt : K → K → Bool) (key : K) (t : Tree K V) :
    ∀ p : Path K V, (descend lt key t p).1.plug (descend lt key t p).2 = p.plug t := by
  induction t with
  | leaf => intro p; rfl
  | node l a c k v r ihl ihr =>
    intro p
    simp only [descend]
    split_ifs
    · rw [ihl]; rfl
    · rw [ihr]; rfl
    · rfl

theorem descend_stop (lt : K → K → Bool) (key : K) (t : Tree K V) :
    ∀ p : Path K V, (descend lt key t p).2 = Tree.leaf ∨
      ∃ l a c k v r, (descend lt key t p).2 = Tree.node l a c k v r ∧ Equiv lt key k := by
  induction t with
  | leaf => intro p; left; rfl
  | node l a c k v r ihl ihr =>
    intro p
    simp only [descend]
    split_ifs with h1 h2
    · exact ihl _
    · exact ihr _
    · right; exact ⟨l, a, c, k, v, r, rfl, by simpa using h1, by simpa using h2⟩

theorem descend_depth (lt : K → K → Bool) (key : K) (t : Tree K V) :
    ∀ p : Path K V, (descend lt key t p).1.depth ≤ p.depth + t.height := by
  induction t with
  | leaf => intro p; simp [descend]
  | node l a c k v r ihl ihr =>
    intro p
    simp only [descend, Tree.height]
    split_ifs
    · have := ihl (Path.L a c k v r p); simp only [Path.depth_L] at this; omega
    · have := ihr (Path.R l a c k v p); simp only [Path.depth_R] at this; omega
    · simp only []; omega

theorem descend_turns (lt : K → K → Bool) (key : K) (t : Tree K V) :
    ∀ p : Path K V, p.Turns lt key → (descend lt key t p).1.Turns lt key := by
  induction t with
  | leaf => intro p h; exact h
  | node l a c k v r ihl ihr =>
    intro p h
    simp only [descend]
    split_ifs with h1 h2
    · exact ihl _ ⟨h1, h⟩
    · exact ihr _ ⟨by simpa using h1, h2, h⟩
    · exact h

@[simp] theorem isLeaf_leaf : (Tree.leaf : Tree K V).isLeaf = true := rfl
@[simp] theorem isLeaf_node (l : Tree K V) (a c k v r) :
    (Tree.node l a c k v r).isLeaf = false := rfl

/-- The heap loops follow the search on the tree. -/
theorem walk_spec (lt : K → K → Bool) (key : K) {m : Map K V} (t : Tree K V) :
    ∀ (p : Path K V), Abs m (p.plug t) → ∀ fuel, t.height + 1 ≤ fuel →
      m.findHelper lt key fuel (t.ptr m.nil) = some ((descend lt key t p).2.ptr m.nil) ∧
      m.insertWalk lt key fuel (p.ptr m.nil) (t.ptr m.nil) =
        some (if (descend lt key t p).2.isLeaf then (descend lt key t p).1.ptr m.nil
              else (descend lt key t p).2.ptr m.nil, (descend lt key t p).2.ptr m.nil) := by
  induction t with
  | leaf =>
    intro p _ fuel hf
    obtain ⟨f, rfl⟩ : ∃ f, fuel = f + 1 := ⟨fuel - 1, by omega⟩
    simp [Map.findHelper, Map.insertWalk, descend]
  | node l a c k v r ihl ihr =>
    intro p h fuel hf
    obtain ⟨f, rfl⟩ : ∃ f, fuel = f + 1 := ⟨fuel - 1, by omega⟩
    simp only [Tree.height] at hf
    have e1 : a ≠ m.nil := abs_ne_nil h
    have e2 : m.key a = k := abs_key_eq p h
    have e3 : m.left a = l.ptr m.nil := abs_left_eq p h
    have e4 : m.right a = r.ptr m.nil := abs_right_eq p h
    simp only [Map.findHelper, Map.insertWalk, descend, Tree.ptr_node, e1, ne_eq,
      not_false_eq_true, if_true, e2, e3, e4]
    by_cases h1 : lt key k = true
    · simp only [h1, if_true]
      have := ihl (Path.L a c k v r p) h f (by omega)
      simpa using this
    · by_cases h2 : lt k key = true
      · simp only [h1, h2, if_true, if_false]
        have := ihr (Path.R l a c k v p) h f (by omega)
        simpa using this
      · simp [h1, h2]

end sjtu

namespace sjtu

variable {K V : Type}

/-! ## Linking the new node (lines 568-573) -/

namespace Map

@[simp] theorem newNode_snd (m : Map K V) (k v c p) : (m.newNode k v c p).2 = m.next := rfl
@[simp] theorem newNode_nil (m : Map K V) (k v c p) : (m.newNode k v c p).1.nil = m.nil := rfl
@[simp] theorem newNode_root (m : Map K V) (k v c p) : (m.newNode k v c p).1.root = m.root := rfl
@[simp] theorem newNode_next (m : Map K V) (k v c p) :
    (m.newNode k v c p).1.next = m.next + 1 := rfl
@[simp] theorem newNode_self (m : Map K V) (k v c p) : (m.newNode k v c p).1.self = m.self := rfl
@[simp] theorem newNode_map_size (m : Map K V) (k v c p) :
    (m.newNode k v c p).1.map_size = m.map_size := rfl
@[simp] theorem newNode_mem_same (m : Map K V) (k v c p) :
    (m.newNode k v c p).1.mem m.next = ⟨k, v, 0, 0, p, c⟩ := by
  simp [newNode]
@[simp] theorem newNode_mem_ne (m : Map K V) (k v c p) {b : Nat} (h : b ≠ m.next) :
    (m.newNode k v c p).1.mem b = m.mem b := by
  simp [newNode, h]

theorem insertLink_frame (lt : K → K → Bool) (m : Map K V) (value : K × V) (y : Nat) :
    (insertLink lt m value y).nil = m.nil ∧ (insertLink lt m value y).next = m.next + 1 ∧
    (insertLink lt m value y).self = m.self ∧
    (insertLink lt m value y).map_size = m.map_size := by
  unfold insertLink
  simp only []
  split_ifs <;> simp

end Map

/-- After the new node is linked at the leaf where the search stopped, the heap holds the
tree with the new RED node in place of that leaf. -/
theorem insertLink_spec (lt : K → K → Bool) {m : Map K V} {p : Path K V} (k : K) (v : V)
    (h : Abs m (p.plug Tree.leaf)) (ht : p.Turns lt k) :
    Abs (Map.insertLink lt m (k, v) (p.ptr m.nil))
      (p.plug (Tree.node Tree.leaf m.next Color.RED k v Tree.leaf)) := by
  have hz := zrep_iff.1 h
  have hb := hz.bound
  have hnl := hz.nil_lt
  have hzn : m.next ≠ m.nil := by omega
  obtain ⟨n1, n2, n3, n4⟩ := Map.insertLink_frame lt m (k, v) (p.ptr m.nil)
  have hnd := hz.nodup
  simp only [Tree.addrs_leaf, List.append_nil] at hnd hb
  have hzp : m.next ∉ p.addrs := fun hm => by have := hb _ hm; omega
  have hnp : m.nil ∉ p.addrs := RepPath_nil_not_mem hz.path
  have hnd2 : (p.addrs ++ (Tree.node Tree.leaf m.next Color.RED k v Tree.leaf).addrs).Nodup := by
    simp only [Tree.addrs_node, Tree.addrs_leaf, List.nil_append]
    rw [List.nodup_append]
    refine ⟨hnd, List.nodup_singleton _, ?_⟩
    intro a ha ha2
    simp only [List.mem_singleton] at ha2
    subst ha2; exact hzp ha
  have hb2 : ∀ b ∈ p.addrs ++ (Tree.node Tree.leaf m.next Color.RED k v Tree.leaf).addrs,
      b < m.next + 1 := by
    intro b hb2
    simp only [Tree.addrs_node, Tree.addrs_leaf, List.nil_append, List.mem_append,
      List.mem_singleton] at hb2
    rcases hb2 with hb2 | rfl
    · have := hb _ hb2; omega
    · omega
  apply zrep_iff.2
  have hpath := hz.path
  have hroot := hz.root
  simp only [Tree.ptr_leaf] at hpath hroot
  cases p with
  | top =>
    have hm : Map.insertLink lt m (k, v) m.nil =
        ((((m.newNode k v Color.RED m.nil).1.setRight m.next m.nil).setLeft m.next m.nil).setRoot
          m.next) := by
      unfold Map.insertLink; simp
    simp only [Path.ptr_top]
    rw [hm]
    refine ⟨trivial, ?_, by simp, hnd2, by simpa using hb2, by simp; omega, ?_, ?_⟩
    · simp [hzn]
    · simp [Ne.symm hzn, hz.nil_black]
    · simp [Ne.symm hzn, hz.nil_links]
  | L a c ka va r up =>
    simp only [Path.ptr_L, Path.rootPtr_L] at *
    simp only [RepPath] at hpath
    obtain ⟨p1, p2, p3, p4⟩ := hpath
    obtain ⟨q1, q2, q3, q4, q5⟩ := path_addrs_nodup_L hnd
    have haz : a ≠ m.next := fun e => hzp (by rw [← e]; simp [Path.mem_addrs_L])
    have hk : lt k ka = true := ht.1
    have hm : Map.insertLink lt m (k, v) a =
        ((((m.newNode k v Color.RED a).1.setRight m.next m.nil).setLeft m.next m.nil).setLeft
          a m.next) := by
      unfold Map.insertLink; simp [p1, Map.key, haz, p2, hk]
    rw [hm]
    have same : ∀ b, b ≠ a → b ≠ m.next →
        (((((m.newNode k v Color.RED a).1.setRight m.next m.nil).setLeft m.next m.nil).setLeft
          a m.next)).mem b = m.mem b := by
      intro b h1 h2; simp [h1, h2]
    refine ⟨⟨p1, by simp [haz, p2], ?_, ?_⟩, ?_, by simpa using hroot, hnd2, by simpa using hb2,
      by simp; omega, ?_, ?_⟩
    · refine Rep_congr (fun b hb3 => same b ?_ ?_) p3
      · rintro rfl; exact q1 hb3
      · rintro rfl; exact hzp (by simp [Path.mem_addrs_L, hb3])
    · refine RepPath_congr (fun b hb3 => same b ?_ ?_) p4
      · rintro rfl; exact q2 hb3
      · rintro rfl; exact hzp (by simp [Path.mem_addrs_L, hb3])
    · simp [hzn, Ne.symm haz]
    · have : m.nil ≠ a := fun e => hnp (by rw [e]; simp [Path.mem_addrs_L])
      simp [this, Ne.symm hzn, hz.nil_black]
    · have : m.nil ≠ a := fun e => hnp (by rw [e]; simp [Path.mem_addrs_L])
      simp [this, Ne.symm hzn, hz.nil_links]
  | R l a c ka va up =>
    simp only [Path.ptr_R, Path.rootPtr_R] at *
    simp only [RepPath] at hpath
    obtain ⟨p1, p2, p3, p4⟩ := hpath
    obtain ⟨q1, q2, q3, q4, q5⟩ := path_addrs_nodup_R hnd
    have haz : a ≠ m.next := fun e => hzp (by rw [← e]; simp [Path.mem_addrs_R])
    have hk : lt k ka = false := ht.1
    have hm : Map.insertLink lt m (k, v) a =
        ((((m.newNode k v Color.RED a).1.setRight m.next m.nil).setLeft m.next m.nil).setRight
          a m.next) := by
      unfold Map.insertLink; simp [p1, Map.key, haz, p2, hk]
    rw [hm]
    have same : ∀ b, b ≠ a → b ≠ m.next →
        (((((m.newNode k v Color.RED a).1.setRight m.next m.nil).setLeft m.next m.nil).setRight
          a m.next)).mem b = m.mem b := by
      intro b h1 h2; simp [h1, h2]
    refine ⟨⟨p1, by simp [haz, p2], ?_, ?_⟩, ?_, by simpa using hroot, hnd2, by simpa using hb2,
      by simp; omega, ?_, ?_⟩
    · refine Rep_congr (fun b hb3 => same b ?_ ?_) p3
      · rintro rfl; exact q1 hb3
      · rintro rfl; exact hzp (by simp [Path.mem_addrs_R, hb3])
    · refine RepPath_congr (fun b hb3 => same b ?_ ?_) p4
      · rintro rfl; exact q2 hb3
      · rintro rfl; exact hzp (by simp [Path.mem_addrs_R, hb3])
    · simp [hzn, Ne.symm haz]
    · have : m.nil ≠ a := fun e => hnp (by rw [e]; simp [Path.mem_addrs_R])
      simp [this, Ne.symm hzn, hz.nil_black]
    · have : m.nil ≠ a := fun e => hnp (by rw [e]; simp [Path.mem_addrs_R])
      simp [this, Ne.symm hzn, hz.nil_links]

/-- Linking the new node writes its own cell and the cell of its parent, never the cell of
the sentinel. -/
theorem insertLink_cell (lt : K → K → Bool) {m : Map K V} {p : Path K V} (k : K) (v : V)
    (h : Abs m (p.plug Tree.leaf)) :
    (Map.insertLink lt m (k, v) (p.ptr m.nil)).mem m.nil = m.mem m.nil := by
  have hz := zrep_iff.1 h
  have hnl := hz.nil_lt
  have hzn : m.nil ≠ m.next := by omega
  have hnp : m.nil ∉ p.addrs := RepPath_nil_not_mem hz.path
  unfold Map.insertLink
  cases p with
  | top => simp [hzn]
  | L a c ka va r up =>
    have : m.nil ≠ a := fun e => hnp (by rw [e]; simp [Path.mem_addrs_L])
    simp only [Path.ptr_L]
    split_ifs <;> simp [this, hzn]
  | R l a c ka va up =>
    have : m.nil ≠ a := fun e => hnp (by rw [e]; simp [Path.mem_addrs_R])
    simp only [Path.ptr_R]
    split_ifs <;> simp [this, hzn]

theorem insert_eq (lt : K → K → Bool) (fuel : Nat) (m : Map K V) (value : K × V) :
    m.insert lt fuel value =
      match m.insertWalk lt value.1 fuel m.nil m.root with
      | none => none
      | some (y, x) =>
        if x ≠ m.nil then some (m, ⟨x, m.self⟩, false)
        else
          match (Map.insertLink lt m value y).insertFixup fuel m.next with
          | none => none
          | some m2 => some ({ m2 with map_size := m2.map_size + 1 }, ⟨m.next, m2.self⟩, true) :=
  rfl

theorem insertT_eq (lt : K → K → Bool) (fuel : Nat) (m : Map K V) (value : K × V) :
    m.insertT lt fuel value =
      match m.insertWalk lt value.1 fuel m.nil m.root with
      | none => none
      | some (y, x) =>
        if x ≠ m.nil then some ((m, ⟨x, m.self⟩, false), [])
        else
          match (Map.insertLink lt m value y).insertFixupT fuel m.next with
          | none => none
          | some (m2, tr) =>
            some (({ m2 with map_size := m2.map_size + 1 }, ⟨m.next, m2.self⟩, true), tr) :=
  rfl

theorem descend_ptr_ne_nil (lt : K → K → Bool) (key : K) {m : Map K V} {T : Tree K V}
    (h : Abs m T) (hd : (descend lt key T Path.top).2 ≠ Tree.leaf) :
    (descend lt key T Path.top).2.ptr m.nil ≠ m.nil := by
  have hp := descend_plug lt key T Path.top
  cases hd2 : (descend lt key T Path.top).2 with
  | leaf => exact absurd hd2 hd
  | node l a c k v r =>
    rw [hd2] at hp
    simp only [Path.plug_top] at hp
    rw [← hp] at h
    exact abs_ne_nil h

/-- `insert` of a key that the search finds: nothing is written. -/
theorem insert_found (lt : K → K → Bool) {m : Map K V} {T : Tree K V} (h : Abs m T)
    (value : K × V) (hd : (descend lt value.1 T Path.top).2 ≠ Tree.leaf) :
    ∀ fuel, T.height + 1 ≤ fuel → m.insert lt fuel value =
      some (m, ⟨(descend lt value.1 T Path.top).2.ptr m.nil, m.self⟩, false) := by
  intro fuel hf
  have hw := (walk_spec lt value.1 T Path.top h fuel hf).2
  have hne := descend_ptr_ne_nil lt value.1 h hd
  have hr : m.root = T.ptr m.nil := h.root
  rw [insert_eq, hr]
  simp only [Path.ptr_top] at hw
  rw [hw]
  simp [hne]

/-- With a key that the search finds `insert` calls no fixup: the log is empty. -/
theorem insertT_found (lt : K → K → Bool) {m : Map K V} {T : Tree K V} (h : Abs m T)
    (value : K × V) (hd : (descend lt value.1 T Path.top).2 ≠ Tree.leaf) :
    ∀ fuel, T.height + 1 ≤ fuel → m.insertT lt fuel value =
      some ((m, ⟨(descend lt value.1 T Path.top).2.ptr m.nil, m.self⟩, false), []) := by
  intro fuel hf
  have hw := (walk_spec lt value.1 T Path.top h fuel hf).2
  have hne := descend_ptr_ne_nil lt value.1 h hd
  have hr : m.root = T.ptr m.nil := h.root
  rw [insertT_eq, hr]
  simp only [Path.ptr_top] at hw
  rw [hw]
  simp [hne]

/-- `insert` of a key that the search does not find: a node is added at the leaf where the
search stops and `insertFixup` restores the colouring. -/
theorem insert_fresh (lt : K → K → Bool) {m : Map K V} {T : Tree K V} (h : Abs m T)
    (hrb : T.RB) (k : K) (v : V) (hd : (descend lt k T Path.top).2 = Tree.leaf) :
    ∃ m2 T2, (∀ fuel, T.height + 2 ≤ fuel →
        m.insert lt fuel (k, v) = some (m2, ⟨m.next, m.self⟩, true)) ∧
      Abs m2 T2 ∧ T2.RB ∧
      T2.elems = (descend lt k T Path.top).1.pre ++ (m.next, k, v) ::
        (descend lt k T Path.top).1.post ∧
      T.elems = (descend lt k T Path.top).1.pre ++ (descend lt k T Path.top).1.post ∧
      m2.map_size = m.map_size + 1 ∧ m2.nil = m.nil ∧ m2.self = m.self ∧
      m2.next = m.next + 1 ∧ m2.mem m.nil = m.mem m.nil ∧
      ∃ tr, (∀ fuel, T.height + 2 ≤ fuel →
          m.insertT lt fuel (k, v) = some ((m2, ⟨m.next, m.self⟩, true), tr)) ∧
        ∀ e ∈ tr, e.Safe m.nil := by
  have hp := descend_plug lt k T Path.top
  rw [hd] at hp
  simp only [Path.plug_top] at hp
  have hturn := descend_turns lt k T Path.top trivial
  have hdep := descend_depth lt k T Path.top
  simp only [Path.depth_top, Nat.zero_add] at hdep
  have hw : ∀ fuel, T.height + 1 ≤ fuel → m.insertWalk lt k fuel m.nil (T.ptr m.nil) =
      some ((descend lt k T Path.top).1.ptr m.nil, m.nil) := by
    intro fuel hf
    have := (walk_spec lt k T Path.top h fuel hf).2
    simpa [hd] using this
  generalize (descend lt k T Path.top).1 = p at hp hturn hdep hw
  have hA : Abs m (p.plug Tree.leaf) := by rw [hp]; exact h
  have hlink := insertLink_spec lt k v hA hturn
  obtain ⟨n1, n2, n3, n4⟩ := Map.insertLink_frame lt m (k, v) (p.ptr m.nil)
  obtain ⟨N, hN⟩ := (Tree.equalBlackHeight_iff T).1 hrb.balanced
  have hnr := hrb.no_red_red
  rw [← hp] at hN hnr
  obtain ⟨n, o1, o2, -, -⟩ := Path.ok_of_plug p Tree.leaf N hnr hN
  have hn0 : n = 0 := o2
  subst hn0
  have hroot : p.rootColor Color.BLACK = Color.BLACK := by
    have := Path.color_plug p (Tree.leaf : Tree K V)
    rw [hp, hrb.root_black] at this
    exact this.symm
  obtain ⟨m2, T2, f1, f2, f3, f4, f5, f6, f7, f8, f9, tr, f10, f11⟩ :=
    insertFixup_spec p.depth _ p Tree.leaf Tree.leaf m.next k v 0 (le_refl _) hlink o1 rfl rfl
      trivial trivial rfl rfl hroot
  refine ⟨{ m2 with map_size := m2.map_size + 1 }, T2, ?_, ?_, f3, ?_, ?_, ?_, ?_, ?_, ?_, ?_,
    tr, ?_, ?_⟩
  · intro fuel hf
    have hr : m.root = T.ptr m.nil := h.root
    rw [insert_eq, hr, hw fuel (by omega)]
    simp only [ne_eq, not_true_eq_false, if_false]
    rw [f1 fuel (by omega)]
    simp [f7, n3]
  · exact ⟨f2.rep, f2.root, f2.nodup, f2.bound, f2.nil_lt, f2.nil_black, f2.nil_links⟩
  · rw [f4, Path.elems_plug]; simp
  · rw [← hp, Path.elems_plug]; simp
  · simp [f8, n4]
  · simp [f5, n1]
  · simp [f7, n3]
  · simp [f6, n2]
  · rw [n1] at f9
    exact f9.trans (insertLink_cell lt k v hA)
  · intro fuel hf
    have hr : m.root = T.ptr m.nil := h.root
    rw [insertT_eq, hr, hw fuel (by omega)]
    simp only [ne_eq, not_true_eq_false, if_false]
    rw [f10 fuel (by omega)]
    simp [f7, n3]
  · rw [n1] at f11; exact f11

end sjtu

namespace sjtu

variable {K V : Type}

/-! ## Search trees and ascending key lists -/

theorem ascending_append {lt : K → K → Bool} {l1 l2 : List K} :
    Ascending lt (l1 ++ l2) ↔
      (Ascending lt l1 ∧ Ascending lt l2 ∧ ∀ a ∈ l1, ∀ b ∈ l2, lt a b = true) := by
  unfold Ascending
  exact List.pairwise_append

theorem ascending_cons {lt : K → K → Bool} {a : K} {l : List K} :
    Ascending lt (a :: l) ↔ ((∀ b ∈ l, lt a b = true) ∧ Ascending lt l) := by
  unfold Ascending
  exact List.pairwise_cons

/-- A search tree lists its keys in strictly ascending order. -/
theorem ascending_of_bst {lt : K → K → Bool} (htrans : ∀ a b c, lt a b = true → lt b c = true →
    lt a c = true) : ∀ {t : Tree K V}, t.BST lt → Ascending lt t.keys := by
  intro t
  induction t with
  | leaf => intro _; exact List.Pairwise.nil
  | node l a c k v r ihl ihr =>
    intro h
    obtain ⟨h1, h2, h3, h4⟩ := h
    rw [Tree.keys_node, ascending_append, ascending_cons]
    refine ⟨ihl h3, ⟨h2, ihr h4⟩, ?_⟩
    intro x hx y hy
    rcases List.mem_cons.1 hy with rfl | hy
    · exact h1 x hx
    · exact htrans _ _ _ (h1 x hx) (h2 y hy)

/-- A tree whose in-order key list is strictly ascending is a search tree. -/
theorem bst_of_ascending {lt : K → K → Bool} : ∀ {t : Tree K V},
    Ascending lt t.keys → t.BST lt := by
  intro t
  induction t with
  | leaf => intro _; trivial
  | node l a c k v r ihl ihr =>
    intro h
    rw [Tree.keys_node, ascending_append, ascending_cons] at h
    obtain ⟨h1, ⟨h2, h3⟩, h4⟩ := h
    exact ⟨fun x hx => h4 x hx k (by simp), h2, ihl h1, ihr h3⟩

theorem keys_eq_map (t : Tree K V) : t.keys = t.elems.map (fun e => e.2.1) := rfl

theorem toList_eq_map (t : Tree K V) : t.toList = t.elems.map (fun e => e.2) := rfl

theorem mem_keys_of_mem_elems {t : Tree K V} {e : Nat × K × V} (h : e ∈ t.elems) :
    e.2.1 ∈ t.keys := by
  rw [keys_eq_map]; exact List.mem_map_of_mem _ h

theorem bst_of_plug {lt : K → K → Bool} (p : Path K V) : ∀ {t : Tree K V},
    (p.plug t).BST lt → t.BST lt := by
  induction p with
  | top => intro t h; exact h
  | L a c k v r up ih => intro t h; exact (ih h).2.2.1
  | R l a c k v up ih => intro t h; exact (ih h).2.2.2

/-- The keys before the position where the search stops are smaller than the searched key,
the keys after it are greater. -/
theorem turns_brackets {lt : K → K → Bool} (htrans : ∀ a b c, lt a b = true → lt b c = true →
    lt a c = true) (key : K) (p : Path K V) : ∀ {t : Tree K V}, (p.plug t).BST lt →
    p.Turns lt key →
    (∀ e ∈ p.pre, lt e.2.1 key = true) ∧ (∀ e ∈ p.post, lt key e.2.1 = true) := by
  induction p with
  | top => intro t _ _; simp [Path.pre, Path.post]
  | L a c k v r up ih =>
    intro t h ht
    obtain ⟨i1, i2⟩ := ih h ht.2
    have hb := bst_of_plug up h
    refine ⟨i1, ?_⟩
    intro e he
    simp only [Path.post, List.cons_append, List.mem_cons, List.mem_append] at he
    rcases he with rfl | he | he
    · exact ht.1
    · exact htrans _ _ _ ht.1 (hb.2.1 _ (mem_keys_of_mem_elems he))
    · exact i2 e he
  | R l a c k v up ih =>
    intro t h ht
    obtain ⟨i1, i2⟩ := ih h ht.2.2
    have hb := bst_of_plug up h
    refine ⟨?_, i2⟩
    intro e he
    simp only [Path.pre, List.mem_append, List.mem_singleton] at he
    rcases he with he | he | rfl
    · exact i1 e he
    · exact htrans _ _ _ (hb.1 _ (mem_keys_of_mem_elems he)) ht.2.1
    · exact ht.2.1

theorem ascending_insert {lt : K → K → Bool} {pre post : List K} {k : K}
    (h : Ascending lt (pre ++ post)) (h1 : ∀ x ∈ pre, lt x k = true)
    (h2 : ∀ x ∈ post, lt k x = true) : Ascending lt (pre ++ k :: post) := by
  rw [ascending_append] at h
  rw [ascending_append, ascending_cons]
  refine ⟨h.1, ⟨h2, h.2.1⟩, ?_⟩
  intro a ha b hb
  rcases List.mem_cons.1 hb with rfl | hb
  · exact h1 a ha
  · exact h.2.2 a ha b hb

theorem ascending_remove {lt : K → K → Bool} {pre post : List K} {k : K}
    (h : Ascending lt (pre ++ k :: post)) : Ascending lt (pre ++ post) := by
  rw [ascending_append, ascending_cons] at h
  rw [ascending_append]
  exact ⟨h.1, h.2.1.2, fun a ha b hb => h.2.2 a ha b (List.mem_cons_of_mem _ hb)⟩

/-- In a strictly ascending list two distinct entries are ordered one way or the other. -/
theorem ascending_total {lt : K → K → Bool} {α : Type} (f : α → K) : ∀ {l : List α},
    Ascending lt (l.map f) → l.Nodup → ∀ a ∈ l, ∀ b ∈ l, a ≠ b →
      (lt (f a) (f b) = true ∨ lt (f b) (f a) = true) := by
  intro l
  induction l with
  | nil => intro _ _ a ha; simp at ha
  | cons x xs ih =>
    intro h hn a ha b hb hab
    rw [List.map_cons, ascending_cons] at h
    rcases List.mem_cons.1 ha with ha1 | ha1
    · rcases List.mem_cons.1 hb with hb1 | hb1
      · exact absurd (ha1.trans hb1.symm) hab
      · rw [ha1]; exact Or.inl (h.1 _ (List.mem_map_of_mem _ hb1))
    · rcases List.mem_cons.1 hb with hb1 | hb1
      · rw [hb1]; exact Or.inr (h.1 _ (List.mem_map_of_mem _ ha1))
      · exact ih h.2 (List.nodup_cons.1 hn).2 a ha1 b hb1 hab

theorem nodup_elems {t : Tree K V} (h : t.addrs.Nodup) : t.elems.Nodup :=
  List.Nodup.of_map _ h

/-- Keys are unique: two nodes with equivalent keys are the same node. -/
theorem equiv_unique {lt : K → K → Bool} {t : Tree K V} (hasc : Ascending lt t.keys)
    (hn : t.addrs.Nodup) {e1 e2 : Nat × K × V} (h1 : e1 ∈ t.elems) (h2 : e2 ∈ t.elems)
    (he : lt e1.2.1 e2.2.1 = false ∧ lt e2.2.1 e1.2.1 = false) : e1 = e2 := by
  by_contra hne
  rcases ascending_total (fun e : Nat × K × V => e.2.1) hasc (nodup_elems hn) e1 h1 e2 h2 hne
    with h | h
  · rw [he.1] at h; cases h
  · rw [he.2] at h; cases h

theorem descend_sub (lt : K → K → Bool) (key : K) (t : Tree K V) :
    ∀ (p : Path K V) (e : Nat × K × V), e ∈ (descend lt key t p).2.elems → e ∈ t.elems := by
  induction t with
  | leaf => intro p e he; exact he
  | node l a c k v r ihl ihr =>
    intro p e he
    simp only [descend] at he
    split_ifs at he
    · simp [ihl _ e he]
    · simp [ihr _ e he]
    · exact he

/-- A key with no equivalent key in the tree: the search stops at a leaf. -/
theorem descend_absent (lt : K → K → Bool) (key : K) (t : Tree K V) (p : Path K V)
    (h : ∀ x ∈ t.keys, ¬ Equiv lt key x) : (descend lt key t p).2 = Tree.leaf := by
  rcases descend_stop lt key t p with h1 | ⟨l, a, c, k, v, r, h1, h2⟩
  · exact h1
  · exfalso
    have : (a, k, v) ∈ (descend lt key t p).2.elems := by rw [h1]; simp
    exact h k (mem_keys_of_mem_elems (descend_sub lt key t p _ this)) h2

/-- A key with an equivalent key in a search tree: the search stops at a node. -/
theorem descend_present {lt : K → K → Bool} (htrans : ∀ a b c, lt a b = true → lt b c = true →
    lt a c = true) (key : K) (t : Tree K V) : ∀ (p : Path K V), t.BST lt →
    (∃ x ∈ t.keys, Equiv lt key x) → (descend lt key t p).2 ≠ Tree.leaf := by
  induction t with
  | leaf => intro p _ h; simp at h
  | node l a c k v r ihl ihr =>
    intro p hb h
    obtain ⟨x, hx, he1, he2⟩ := h
    obtain ⟨b1, b2, b3, b4⟩ := hb
    simp only [descend]
    split_ifs with h1 h2
    · refine ihl _ b3 ⟨x, ?_, he1, he2⟩
      simp only [Tree.keys_node, List.mem_append, List.mem_cons] at hx
      rcases hx with hx | rfl | hx
      · exact hx
      · rw [h1] at he1; cases he1
      · have := htrans _ _ _ h1 (b2 x hx); rw [he1] at this; cases this
    · refine ihr _ b4 ⟨x, ?_, he1, he2⟩
      simp only [Tree.keys_node, List.mem_append, List.mem_cons] at hx
      rcases hx with hx | rfl | hx
      · have := htrans _ _ _ (b1 x hx) h2; rw [he2] at this; cases this
      · rw [h2] at he2; cases he2
      · exact hx
    · simp

end sjtu

namespace sjtu

variable {K V : Type}

/-! ## `transplant` -/

namespace Map

@[simp] theorem transplant_nil (m : Map K V) (u v : Nat) : (m.transplant u v).nil = m.nil := by
  unfold transplant; simp only []; split_ifs <;> rfl
@[simp] theorem transplant_next (m : Map K V) (u v : Nat) : (m.transplant u v).next = m.next := by
  unfold transplant; simp only []; split_ifs <;> rfl
@[simp] theorem transplant_self (m : Map K V) (u v : Nat) : (m.transplant u v).self = m.self := by
  unfold transplant; simp only []; split_ifs <;> rfl
@[simp] theorem transplant_map_size (m : Map K V) (u v : Nat) :
    (m.transplant u v).map_size = m.map_size := by
  unfold transplant; simp only []; split_ifs <;> rfl

end Map

/-- What `transplant(u, w)` stores: the child link of the parent of `u` (or `root`) and the
parent link of `w`. -/
theorem transplant_mem {m : Map K V} {p : Path K V} {u : Nat}
    (hpath : RepPath m.mem m.nil p u) (hroot : m.root = p.rootPtr u)
    (hpar : (m.mem u).parent = p.ptr m.nil) (hun : u ≠ m.nil) (hup : u ∉ p.addrs)
    (hnd : p.addrs.Nodup) (w : Nat) (hwu : w ≠ u)
    (hwp : p ≠ Path.top → w ≠ p.ptr m.nil) :
    (m.transplant u w).mem w = { m.mem w with parent := p.ptr m.nil } ∧
    (p ≠ Path.top → (m.transplant u w).mem (p.ptr m.nil) =
        (if u = (m.mem (p.ptr m.nil)).left then { m.mem (p.ptr m.nil) with left := w }
         else { m.mem (p.ptr m.nil) with right := w })) ∧
    (∀ b, b ≠ w → (p ≠ Path.top → b ≠ p.ptr m.nil) → (m.transplant u w).mem b = m.mem b) ∧
    (m.transplant u w).root = p.rootPtr w := by
  cases p with
  | top =>
    simp only [Path.ptr_top, Path.rootPtr_top] at *
    unfold Map.transplant
    simp [Map.left, Map.right, Map.parent, hpar]
    intro b h1
    simp [h1]
  | L a c2 k2 v2 r2 up =>
    simp only [RepPath] at hpath
    obtain ⟨han, ha, -, -⟩ := hpath
    have hau : a ≠ u := by intro e; subst e; simp [Path.mem_addrs_L] at hup
    have hwa := hwp (by simp)
    simp only [Path.ptr_L, Path.rootPtr_L] at *
    unfold Map.transplant
    simp [Map.left, Map.right, Map.parent, hpar, ha, han, hau, hau.symm, hwa, hwa.symm]
    exact ⟨fun b h1 h2 => by simp [h1, h2], hroot⟩
  | R l2 a c2 k2 v2 up =>
    simp only [RepPath] at hpath
    obtain ⟨han, ha, -, -⟩ := hpath
    have hau : a ≠ u := by intro e; subst e; simp [Path.mem_addrs_R] at hup
    have hlu : u ≠ l2.ptr m.nil := by
      rcases tree_ptr_cases m.nil l2 with ⟨_, e⟩ | ⟨_, e⟩
      · rw [e]; exact hun
      · intro e2; apply hup; rw [e2]; simp [Path.mem_addrs_R, e]
    have hwa := hwp (by simp)
    simp only [Path.ptr_R, Path.rootPtr_R] at *
    unfold Map.transplant
    simp [Map.left, Map.right, Map.parent, hpar, ha, han, hau, hau.symm, hwa, hwa.symm, hlu]
    exact ⟨fun b h1 h2 => by simp [h1, h2], hroot⟩

theorem zrep_transplant_mem {m : Map K V} {p : Path K V} {l r : Tree K V} {u c k v}
    (h : ZRep m p (Tree.node l u c k v r)) (w : Nat) (hwu : w ≠ u)
    (hwp : p ≠ Path.top → w ≠ p.ptr m.nil) :
    (m.transplant u w).mem w = { m.mem w with parent := p.ptr m.nil } ∧
    (p ≠ Path.top → (m.transplant u w).mem (p.ptr m.nil) =
        (if u = (m.mem (p.ptr m.nil)).left then { m.mem (p.ptr m.nil) with left := w }
         else { m.mem (p.ptr m.nil) with right := w })) ∧
    (∀ b, b ≠ w → (p ≠ Path.top → b ≠ p.ptr m.nil) → (m.transplant u w).mem b = m.mem b) ∧
    (m.transplant u w).root = p.rootPtr w := by
  obtain ⟨f1, f2, -, -, f5, -, -, -, -, -⟩ := zrep_facts h
  have hp0 := h.path
  have hr0 := h.root
  simp only [Tree.ptr_node] at hp0 hr0
  exact transplant_mem hp0 hr0 (by rw [zrep_read h]) f1 f2 f5 w hwu hwp

theorem path_ptr_mem {p : Path K V} (nilp : Nat) (h : p ≠ Path.top) : p.ptr nilp ∈ p.addrs := by
  rcases path_ptr_cases nilp p with ⟨e, _⟩ | ⟨_, e⟩
  · exact absurd e h
  · exact e

theorem tree_ptr_mem {t : Tree K V} (nilp : Nat) (h : t ≠ Tree.leaf) : t.ptr nilp ∈ t.addrs := by
  rcases tree_ptr_cases nilp t with ⟨e, _⟩ | ⟨_, e⟩
  · exact absurd e h
  · exact e

/-- `transplant(u, u->right)`: the right subtree takes the place of `u`. -/
theorem zrep_transplant_right {m : Map K V} {p : Path K V} {l r : Tree K V} {u c k v}
    (h : ZRep m p (Tree.node l u c k v r)) :
    ZRep (m.transplant u (r.ptr m.nil)) p r ∧
    (m.transplant u (r.ptr m.nil)).parent (r.ptr m.nil) = p.ptr m.nil ∧
    (m.transplant u (r.ptr m.nil)).mem u = m.mem u ∧
    (∀ b ∈ l.addrs, (m.transplant u (r.ptr m.nil)).mem b = m.mem b) ∧
    (r ≠ Tree.leaf → (m.transplant u (r.ptr m.nil)).mem m.nil = m.mem m.nil) := by
  obtain ⟨f1, f2, f3, f4, f5, f6, f7, f8, f9, f10⟩ := zrep_facts h
  have hwu : r.ptr m.nil ≠ u := by
    rcases tree_ptr_cases m.nil r with ⟨_, e⟩ | ⟨_, e⟩
    · rw [e]; exact Ne.symm f1
    · exact (f9 _ e).2.2.1
  have hwp : p ≠ Path.top → r.ptr m.nil ≠ p.ptr m.nil := by
    intro hp
    have hm := path_ptr_mem m.nil hp
    rcases tree_ptr_cases m.nil r with ⟨_, e⟩ | ⟨_, e⟩
    · rw [e]; exact Ne.symm (f10 _ hm).2
    · intro e2; exact (f9 _ e).1 (e2 ▸ hm)
  obtain ⟨e1, e2, e3, e4⟩ := zrep_transplant_mem h (r.ptr m.nil) hwu hwp
  have ht := h.tree
  simp only [Rep_node] at ht
  obtain ⟨-, -, hl, hr⟩ := ht
  have sl : ∀ b ∈ l.addrs, (m.transplant u (r.ptr m.nil)).mem b = m.mem b := by
    intro b hb
    refine e3 b ?_ (fun hp e => (f8 b hb).1 (e ▸ path_ptr_mem m.nil hp))
    rcases tree_ptr_cases m.nil r with ⟨_, e⟩ | ⟨_, e⟩
    · rw [e]; exact (f8 b hb).2.2.2
    · intro e2; exact (f8 b hb).2.1 (e2 ▸ e)
  refine ⟨⟨?_, ?_, ?_, ?_, ?_, ?_, ?_, ?_⟩, ?_, ?_, sl, ?_⟩
  · simp only [Map.transplant_nil]
    have hp0 := h.path
    simp only [Tree.ptr_node] at hp0
    refine RepPath_relink hp0 f5 f1 f2 (fun b hb hne => ?_) e2
    refine e3 b ?_ (fun _ => hne)
    rcases tree_ptr_cases m.nil r with ⟨_, e⟩ | ⟨_, e⟩
    · rw [e]; exact (f10 b hb).2
    · intro e5; exact (f9 _ e).1 (e5 ▸ hb)
  · simp only [Map.transplant_nil]
    refine Rep_congr (fun b hb => ?_) (Rep_setParent f7 hr)
    by_cases hb2 : b = r.ptr m.nil
    · rw [if_pos hb2, hb2, e1]
    · rw [if_neg hb2]
      exact e3 b hb2 (fun hp e => (f9 b hb).1 (e ▸ path_ptr_mem m.nil hp))
  · simp only [Map.transplant_nil]; exact e4
  · have := h.nodup
    simp only [Tree.addrs_node, List.nodup_append, List.nodup_cons, List.disjoint_append_right,
      List.disjoint_cons_right] at this ⊢
    exact ⟨this.1, this.2.1.2.1.2, this.2.2.2.2⟩
  · intro a ha
    simp only [Map.transplant_next]
    refine h.bound a ?_
    simp only [Tree.addrs_node, List.mem_append, List.mem_cons] at ha ⊢
    tauto
  · simpa using h.nil_lt
  · simp only [Map.transplant_nil]
    by_cases hb2 : m.nil = r.ptr m.nil
    · have hcol : ∀ b, b = r.ptr m.nil →
          ((m.transplant u (r.ptr m.nil)).mem b).color = (m.mem b).color := by
        intro b hb; subst hb; rw [e1]
      rw [hcol _ hb2]; exact h.nil_black
    · rw [e3 _ hb2 (fun hp e => (f10 _ (path_ptr_mem m.nil hp)).2 e.symm)]
      exact h.nil_black
  · simp only [Map.transplant_nil]
    by_cases hb2 : m.nil = r.ptr m.nil
    · have hlk : ∀ b, b = r.ptr m.nil →
          ((m.transplant u (r.ptr m.nil)).mem b).left = (m.mem b).left ∧
          ((m.transplant u (r.ptr m.nil)).mem b).right = (m.mem b).right := by
        intro b hb; subst hb; rw [e1]; exact ⟨rfl, rfl⟩
      rw [(hlk _ hb2).1, (hlk _ hb2).2]; exact h.nil_links
    · rw [e3 _ hb2 (fun hp e => (f10 _ (path_ptr_mem m.nil hp)).2 e.symm)]
      exact h.nil_links
  · simp [Map.parent, e1]
  · exact e3 u (Ne.symm hwu) (fun hp e => f2 (e ▸ path_ptr_mem m.nil hp))
  · intro hr2
    refine e3 _ (fun e => ?_) (fun hp e => (f10 _ (path_ptr_mem m.nil hp)).2 e.symm)
    exact (f9 _ (tree_ptr_mem m.nil hr2)).2.2.2 e.symm

/-- `transplant(u, u->left)`: the left subtree takes the place of `u`. -/
theorem zrep_transplant_left {m : Map K V} {p : Path K V} {l r : Tree K V} {u c k v}
    (h : ZRep m p (Tree.node l u c k v r)) :
    ZRep (m.transplant u (l.ptr m.nil)) p l ∧
    (m.transplant u (l.ptr m.nil)).parent (l.ptr m.nil) = p.ptr m.nil ∧
    (m.transplant u (l.ptr m.nil)).mem u = m.mem u ∧
    (∀ b ∈ r.addrs, (m.transplant u (l.ptr m.nil)).mem b = m.mem b) ∧
    (l ≠ Tree.leaf → (m.transplant u (l.ptr m.nil)).mem m.nil = m.mem m.nil) := by
  obtain ⟨f1, f2, f3, f4, f5, f6, f7, f8, f9, f10⟩ := zrep_facts h
  have hwu : l.ptr m.nil ≠ u := by
    rcases tree_ptr_cases m.nil l with ⟨_, e⟩ | ⟨_, e⟩
    · rw [e]; exact Ne.symm f1
    · exact (f8 _ e).2.2.1
  have hwp : p ≠ Path.top → l.ptr m.nil ≠ p.ptr m.nil := by
    intro hp
    have hm := path_ptr_mem m.nil hp
    rcases tree_ptr_cases m.nil l with ⟨_, e⟩ | ⟨_, e⟩
    · rw [e]; exact Ne.symm (f10 _ hm).2
    · intro e2; exact (f8 _ e).1 (e2 ▸ hm)
  obtain ⟨e1, e2, e3, e4⟩ := zrep_transplant_mem h (l.ptr m.nil) hwu hwp
  have ht := h.tree
  simp only [Rep_node] at ht
  obtain ⟨-, -, hl, hr⟩ := ht
  have sr : ∀ b ∈ r.addrs, (m.transplant u (l.ptr m.nil)).mem b = m.mem b := by
    intro b hb
    refine e3 b ?_ (fun hp e => (f9 b hb).1 (e ▸ path_ptr_mem m.nil hp))
    rcases tree_ptr_cases m.nil l with ⟨_, e⟩ | ⟨_, e⟩
    · rw [e]; exact (f9 b hb).2.2.2
    · intro e2; exact (f9 b hb).2.1 (e2 ▸ e)
  refine ⟨⟨?_, ?_, ?_, ?_, ?_, ?_, ?_, ?_⟩, ?_, ?_, sr, ?_⟩
  · simp only [Map.transplant_nil]
    have hp0 := h.path
    simp only [Tree.ptr_node] at hp0
    refine RepPath_relink hp0 f5 f1 f2 (fun b hb hne => ?_) e2
    refine e3 b ?_ (fun _ => hne)
    rcases tree_ptr_cases m.nil l with ⟨_, e⟩ | ⟨_, e⟩
    · rw [e]; exact (f10 b hb).2
    · intro e5; exact (f8 _ e).1 (e5 ▸ hb)
  · simp only [Map.transplant_nil]
    refine Rep_congr (fun b hb => ?_) (Rep_setParent f6 hl)
    by_cases hb2 : b = l.ptr m.nil
    · rw [if_pos hb2, hb2, e1]
    · rw [if_neg hb2]
      exact e3 b hb2 (fun hp e => (f8 b hb).1 (e ▸ path_ptr_mem m.nil hp))
  · simp only [Map.transplant_nil]; exact e4
  · have := h.nodup
    simp only [Tree.addrs_node, List.nodup_append, List.nodup_cons, List.disjoint_append_right,
      List.disjoint_cons_right] at this ⊢
    exact ⟨this.1, this.2.1.1, this.2.2.1⟩
  · intro a ha
    simp only [Map.transplant_next]
    refine h.bound a ?_
    simp only [Tree.addrs_node, List.mem_append, List.mem_cons] at ha ⊢
    tauto
  · simpa using h.nil_lt
  · simp only [Map.transplant_nil]
    by_cases hb2 : m.nil = l.ptr m.nil
    · have hcol : ∀ b, b = l.ptr m.nil →
          ((m.transplant u (l.ptr m.nil)).mem b).color = (m.mem b).color := by
        intro b hb; subst hb; rw [e1]
      rw [hcol _ hb2]; exact h.nil_black
    · rw [e3 _ hb2 (fun hp e => (f10 _ (path_ptr_mem m.nil hp)).2 e.symm)]
      exact h.nil_black
  · simp only [Map.transplant_nil]
    by_cases hb2 : m.nil = l.ptr m.nil
    · have hlk : ∀ b, b = l.ptr m.nil →
          ((m.transplant u (l.ptr m.nil)).mem b).left = (m.mem b).left ∧
          ((m.transplant u (l.ptr m.nil)).mem b).right = (m.mem b).right := by
        intro b hb; subst hb; rw [e1]; exact ⟨rfl, rfl⟩
      rw [(hlk _ hb2).1, (hlk _ hb2).2]; exact h.nil_links
    · rw [e3 _ hb2 (fun hp e => (f10 _ (path_ptr_mem m.nil hp)).2 e.symm)]
      exact h.nil_links
  · simp [Map.parent, e1]
  · exact e3 u (Ne.symm hwu) (fun hp e => f2 (e ▸ path_ptr_mem m.nil hp))
  · intro hr2
    refine e3 _ (fun e => ?_) (fun hp e => (f10 _ (path_ptr_mem m.nil hp)).2 e.symm)
    exact (f8 _ (tree_ptr_mem m.nil hr2)).2.2.2 e.symm

/-- Lines 610-613 of `erase`: the node `y`, whose right subtree is in place, takes the
position, the left subtree and the colour of `z`. -/
theorem erase_splice {m : Map K V} {p : Path K V} {l r2 : Tree K V} {z y : Nat} {c : Color}
    {ky : K} {vy : V}
    (hpath : RepPath m.mem m.nil p z) (hroot : m.root = p.rootPtr z)
    (hz : (m.mem z).parent = p.ptr m.nil) (hzl : (m.mem z).left = l.ptr m.nil)
    (hzc : (m.mem z).color = c) (hzn : z ≠ m.nil) (hyn : y ≠ m.nil)
    (hy : (m.mem y).key = ky ∧ (m.mem y).val = vy ∧ (m.mem y).right = r2.ptr m.nil)
    (hl : Rep m.mem m.nil l z) (hll : l ≠ Tree.leaf) (hr : Rep m.mem m.nil r2 y)
    (hnd : (p.addrs ++ (l.addrs ++ z :: y :: r2.addrs)).Nodup)
    (hbound : ∀ a ∈ p.addrs ++ (l.addrs ++ z :: y :: r2.addrs), a < m.next)
    (hnl : m.nil < m.next) (hnb : (m.mem m.nil).color = Color.BLACK)
    (hnk : (m.mem m.nil).left = m.nil ∧ (m.mem m.nil).right = m.nil) :
    (m.transplant z y).left z = l.ptr m.nil ∧
    (((m.transplant z y).setLeft y (l.ptr m.nil)).setParent (l.ptr m.nil) y).color z = c ∧
    ZRep ((((m.transplant z y).setLeft y (l.ptr m.nil)).setParent (l.ptr m.nil) y).setColor y c)
      p (Tree.node l y c ky vy r2) ∧
    ((((m.transplant z y).setLeft y (l.ptr m.nil)).setParent (l.ptr m.nil) y).setColor y c).mem
      m.nil = m.mem m.nil := by
  have hnp : m.nil ∉ p.addrs := RepPath_nil_not_mem hpath
  have hnlm : m.nil ∉ l.addrs := Rep_nil_not_mem hl
  simp only [List.nodup_append, List.nodup_cons, List.mem_append, List.mem_cons, not_or,
    List.disjoint_append_right, List.disjoint_cons_right] at hnd
  obtain ⟨n1, ⟨n2, ⟨⟨n3, n4⟩, ⟨n5, n6⟩⟩, n7, n8, n9⟩, n10, n11, n12, n13⟩ := hnd
  have hlp := tree_ptr_mem m.nil hll
  have hlpy : l.ptr m.nil ≠ y := fun e => n8 (e ▸ hlp)
  have hlpz : l.ptr m.nil ≠ z := fun e => n7 (e ▸ hlp)
  have hlpn : l.ptr m.nil ≠ m.nil := fun e => hnlm (e ▸ hlp)
  have hpy : p ≠ Path.top → y ≠ p.ptr m.nil := fun hp e => n12 (e ▸ path_ptr_mem m.nil hp)
  have hpz : p ≠ Path.top → z ≠ p.ptr m.nil := fun hp e => n11 (e ▸ path_ptr_mem m.nil hp)
  have hpl : p ≠ Path.top → l.ptr m.nil ≠ p.ptr m.nil :=
    fun hp e => n10 (path_ptr_mem m.nil hp) (e ▸ hlp)
  have hpn : p ≠ Path.top → m.nil ≠ p.ptr m.nil := fun hp e => hnp (e ▸ path_ptr_mem m.nil hp)
  obtain ⟨e1, e2, e3, e4⟩ := transplant_mem hpath hroot hz hzn n11 n1 y (Ne.symm n3) hpy
  have ez : (m.transplant z y).mem z = m.mem z := e3 z n3 hpz
  have same : ∀ b, b ≠ y → b ≠ l.ptr m.nil → (p ≠ Path.top → b ≠ p.ptr m.nil) →
      ((((m.transplant z y).setLeft y (l.ptr m.nil)).setParent (l.ptr m.nil) y).setColor y c).mem
        b = m.mem b := by
    intro b h1 h2 h3
    simp [h1, h2, e3 b h1 h3]
  refine ⟨by simp [Map.left, ez, hzl], by simp [Map.color, n3, Ne.symm hlpz, ez, hzc],
    ⟨?_, ?_, ?_, ?_, ?_, by simpa using hnl, ?_, ?_⟩, ?_⟩
  · simp only [Map.setColor_nil, Map.setParent_nil, Map.setLeft_nil, Map.transplant_nil,
      Tree.ptr_node]
    refine RepPath_relink hpath n1 hzn n11 (fun b hb hne => ?_) ?_
    · exact same b (fun e => n12 (e ▸ hb)) (fun e => n10 hb (e ▸ hlp)) (fun _ => hne)
    · intro hp
      have a1 := hpy hp
      have a2 := hpl hp
      simp [Ne.symm a1, Ne.symm a2, e2 hp]
  · simp only [Map.setColor_nil, Map.setParent_nil, Map.setLeft_nil, Map.transplant_nil,
      Rep_node]
    refine ⟨hyn, ?_, ?_, ?_⟩
    · simp [Ne.symm hlpy, e1, ← hy.1, ← hy.2.1, ← hy.2.2]
    · refine Rep_congr (fun b hb => ?_) (Rep_setParent n2 hl)
      by_cases hb2 : b = l.ptr m.nil
      · rw [if_pos hb2, hb2]
        simp [hlpy, e3 _ hlpy hpl]
      · rw [if_neg hb2]
        exact same b (fun e => n8 (e ▸ hb)) hb2 (fun hp e => n10 (path_ptr_mem m.nil hp) (e ▸ hb))
    · refine Rep_congr (fun b hb => ?_) hr
      exact same b (fun e => n5 (e ▸ hb)) (fun e => n9 hlp (e ▸ hb))
        (fun hp e => n13 (path_ptr_mem m.nil hp) (e ▸ hb))
  · simp only [Map.setColor_nil, Map.setParent_nil, Map.setLeft_nil, Map.transplant_nil,
      Tree.ptr_node, Map.setColor_root, Map.setParent_root, Map.setLeft_root]
    exact e4
  · simp only [Tree.addrs_node, List.nodup_append, List.nodup_cons, List.mem_append,
      List.mem_cons, not_or, List.disjoint_append_right, List.disjoint_cons_right]
    exact ⟨n1, ⟨n2, ⟨n5, n6⟩, n8, n9⟩, n10, n12, n13⟩
  · intro a ha
    simp only [Map.setColor_next, Map.setParent_next, Map.setLeft_next, Map.transplant_next]
    refine hbound a ?_
    simp only [Tree.addrs_node, List.mem_append, List.mem_cons] at ha ⊢
    rcases ha with h | h | h | h <;> simp [h]
  · simp only [Map.setColor_nil, Map.setParent_nil, Map.setLeft_nil, Map.transplant_nil]
    rw [same _ (Ne.symm hyn) (Ne.symm hlpn) hpn]; exact hnb
  · simp only [Map.setColor_nil, Map.setParent_nil, Map.setLeft_nil, Map.transplant_nil]
    rw [same _ (Ne.symm hyn) (Ne.symm hlpn) hpn]; exact hnk
  · exact same _ (Ne.symm hyn) (Ne.symm hlpn) hpn

end sjtu

namespace sjtu

variable {K V : Type}

/-! ## The cases of `eraseFixup` -/

namespace Map

theorem eraseFixupBody_eq (m : Map K V) (x : Nat) :
    m.eraseFixupBody x =
      if x = m.left (m.parent x) then
        eraseFixupRestL (eraseFixupSibL m x).1 x (eraseFixupSibL m x).2
      else eraseFixupRestR (eraseFixupSibR m x).1 x (eraseFixupSibR m x).2 := rfl

theorem eraseFixupSibLT_fst (m : Map K V) (x : Nat) :
    (m.eraseFixupSibLT x).1 = m.eraseFixupSibL x := by
  unfold eraseFixupSibLT eraseFixupSibL
  simp only [setColorL, leftRotateL, rightRotateL, siblingL]
  split_ifs <;> rfl

theorem eraseFixupSibRT_fst (m : Map K V) (x : Nat) :
    (m.eraseFixupSibRT x).1 = m.eraseFixupSibR x := by
  unfold eraseFixupSibRT eraseFixupSibR
  simp only [setColorL, leftRotateL, rightRotateL, siblingL]
  split_ifs <;> rfl

theorem eraseFixupRestLT_fst (m : Map K V) (x w : Nat) :
    (m.eraseFixupRestLT x w).1 = m.eraseFixupRestL x w := by
  unfold eraseFixupRestLT eraseFixupRestL
  simp only [setColorL, leftRotateL, rightRotateL, siblingL]
  split_ifs <;> rfl

theorem eraseFixupRestRT_fst (m : Map K V) (x w : Nat) :
    (m.eraseFixupRestRT x w).1 = m.eraseFixupRestR x w := by
  unfold eraseFixupRestRT eraseFixupRestR
  simp only [setColorL, leftRotateL, rightRotateL, siblingL]
  split_ifs <;> rfl

/-- The loop body with its log moves the state as the loop body does, and its log is the
log of the part that reads the sibling followed by the log of the rest. -/
theorem eraseFixupBodyT_eq (m : Map K V) (x : Nat) :
    m.eraseFixupBodyT x =
      if x = m.left (m.parent x) then
        (eraseFixupRestL (eraseFixupSibL m x).1 x (eraseFixupSibL m x).2,
          (m.eraseFixupSibLT x).2 ++
            (eraseFixupRestLT (eraseFixupSibL m x).1 x (eraseFixupSibL m x).2).2)
      else
        (eraseFixupRestR (eraseFixupSibR m x).1 x (eraseFixupSibR m x).2,
          (m.eraseFixupSibRT x).2 ++
            (eraseFixupRestRT (eraseFixupSibR m x).1 x (eraseFixupSibR m x).2).2) := by
  unfold eraseFixupBodyT
  split_ifs
  · simp only [eraseFixupSibLT_fst, eraseFixupRestLT_fst]
  · simp only [eraseFixupSibRT_fst, eraseFixupRestRT_fst]

theorem eraseFixupBodyT_fst (m : Map K V) (x : Nat) :
    (m.eraseFixupBodyT x).1 = m.eraseFixupBody x := by
  rw [eraseFixupBodyT_eq, eraseFixupBody_eq]
  split_ifs <;> rfl

end Map

/-- The root of a subtree that is not empty is not the sentinel. -/
theorem abs_ptr_ne_nil {m : Map K V} (p : Path K V) {t : Tree K V} (h : Abs m (p.plug t))
    (ht : t ≠ Tree.leaf) : t.ptr m.nil ≠ m.nil := by
  cases t with
  | leaf => exact absurd rfl ht
  | node l a c k v r => exact abs_ne_nil h

theorem abs_leftRotate_nil {m : Map K V} {p : Path K V} {α β γ : Tree K V}
    {x y cx cy kx ky vx vy}
    (h : Abs m (p.plug (Tree.node α x cx kx vx (Tree.node β y cy ky vy γ)))) :
    (m.leftRotate x).parent m.nil = m.parent m.nil := by
  simp [Map.parent, (zrep_leftRotate (zrep_iff.1 h)).2]

theorem abs_rightRotate_nil {m : Map K V} {p : Path K V} {α β γ : Tree K V}
    {x y cx cy kx ky vx vy}
    (h : Abs m (p.plug (Tree.node (Tree.node α x cx kx vx β) y cy ky vy γ))) :
    (m.rightRotate y).parent m.nil = m.parent m.nil := by
  simp [Map.parent, (zrep_rightRotate (zrep_iff.1 h)).2]

/-- The parent link of the root of the subtree in focus; for an empty subtree it is the
parent link stored in the sentinel. -/
theorem parent_focus {m : Map K V} (p : Path K V) {X : Tree K V} (h : Abs m (p.plug X))
    (hn : X = Tree.leaf → m.parent m.nil = p.ptr m.nil) :
    m.parent (X.ptr m.nil) = p.ptr m.nil := by
  cases X with
  | leaf => exact hn rfl
  | node l a c k v r => exact abs_parent_eq p h

/-- Lines 127-132: the RED sibling of a left child is rotated away. -/
theorem eraseFixupSibL_red {m : Map K V} {up : Path K V} {X wl wr : Tree K V}
    {pa w cp kp kw vp vw}
    (h : Abs m (up.plug (Tree.node X pa cp kp vp (Tree.node wl w Color.RED kw vw wr))))
    (hx : m.parent (X.ptr m.nil) = pa) :
    (m.eraseFixupSibL (X.ptr m.nil)).2 = wl.ptr m.nil ∧
    Abs (m.eraseFixupSibL (X.ptr m.nil)).1
      (up.plug (Tree.node (Tree.node X pa Color.RED kp vp wl) w Color.BLACK kw vw wr)) ∧
    (m.eraseFixupSibL (X.ptr m.nil)).1.parent (X.ptr m.nil) = pa ∧
    (m.eraseFixupSibL (X.ptr m.nil)).1.nil = m.nil ∧
    (m.eraseFixupSibL (X.ptr m.nil)).1.next = m.next ∧
    (m.eraseFixupSibL (X.ptr m.nil)).1.self = m.self ∧
    (m.eraseFixupSibL (X.ptr m.nil)).1.map_size = m.map_size ∧
    (wl ≠ Tree.leaf → ∀ e ∈ (m.eraseFixupSibLT (X.ptr m.nil)).2, e.Safe m.nil) := by
  have e1 : m.right pa = w := abs_right_eq up h
  have e2 : m.color w = Color.RED := abs_color_eq (Path.R X pa cp kp vp up) h
  have a1 := abs_setColor (p := Path.R X pa cp kp vp up) h Color.BLACK
  have a2 := abs_setColor (p := up) a1 Color.RED
  have a3 := abs_leftRotate a2
  have f0 : (((m.setColor w Color.BLACK).setColor pa Color.RED).leftRotate pa).parent
      (X.ptr m.nil) = pa := by
    have := parent_focus (Path.L pa Color.RED kp vp wl (Path.L w Color.BLACK kw vw wr up))
      (X := X) a3 (fun _ => by
        have := abs_leftRotate_nil a2
        simp only [Map.leftRotate_nil, Map.setColor_nil, Map.parent_setColor] at this ⊢
        rw [this]; simpa [*] using hx)
    simpa using this
  have f1 : (((m.setColor w Color.BLACK).setColor pa Color.RED).leftRotate pa).right pa =
      wl.ptr m.nil := by
    have := abs_right_eq (Path.L w Color.BLACK kw vw wr up) a3
    simpa using this
  have hb : m.eraseFixupSibL (X.ptr m.nil) =
      (((m.setColor w Color.BLACK).setColor pa Color.RED).leftRotate pa, wl.ptr m.nil) := by
    unfold Map.eraseFixupSibL
    simp [hx, e1, e2, f0, f1]
  have hlog : wl ≠ Tree.leaf → ∀ e ∈ (m.eraseFixupSibLT (X.ptr m.nil)).2, e.Safe m.nil := by
    intro hwl
    have n1 : pa ≠ m.nil := abs_ne_nil (p := up) h
    have n2 : w ≠ m.nil := abs_ne_nil (p := Path.R X pa cp kp vp up) h
    have n3 : wl.ptr m.nil ≠ m.nil :=
      abs_ptr_ne_nil (Path.L w Color.RED kw vw wr (Path.R X pa cp kp vp up)) h hwl
    unfold Map.eraseFixupSibLT
    simp [Map.setColorL, Map.leftRotateL, Map.rightRotateL, Map.siblingL, Event.Safe, hx, e1, e2, f0, f1, n1, n2, n3]
  rw [hb]
  exact ⟨rfl, a3, f0, by simp, by simp, by simp, by simp, hlog⟩

/-- Lines 133-135: the sibling of a left child is BLACK with two BLACK children. -/
theorem eraseFixupRestL_case2 {m : Map K V} {up : Path K V} {X wl wr : Tree K V}
    {pa w cp kp kw vp vw}
    (h : Abs m (up.plug (Tree.node X pa cp kp vp (Tree.node wl w Color.BLACK kw vw wr))))
    (hx : m.parent (X.ptr m.nil) = pa)
    (hwl : wl.color = Color.BLACK) (hwr : wr.color = Color.BLACK) :
    (m.eraseFixupRestL (X.ptr m.nil) w).2 = pa ∧
    Abs (m.eraseFixupRestL (X.ptr m.nil) w).1
      (up.plug (Tree.node X pa cp kp vp (Tree.node wl w Color.RED kw vw wr))) ∧
    (m.eraseFixupRestL (X.ptr m.nil) w).1.nil = m.nil ∧
    (m.eraseFixupRestL (X.ptr m.nil) w).1.next = m.next ∧
    (m.eraseFixupRestL (X.ptr m.nil) w).1.self = m.self ∧
    (m.eraseFixupRestL (X.ptr m.nil) w).1.map_size = m.map_size ∧
    (∀ e ∈ (m.eraseFixupRestLT (X.ptr m.nil) w).2, e.Safe m.nil) := by
  have e1 : m.left w = wl.ptr m.nil := abs_left_eq (Path.R X pa cp kp vp up) h
  have e2 : m.right w = wr.ptr m.nil := abs_right_eq (Path.R X pa cp kp vp up) h
  have e3 : m.color (wl.ptr m.nil) = Color.BLACK := by
    rw [abs_color_ptr (Path.L w Color.BLACK kw vw wr (Path.R X pa cp kp vp up)) h, hwl]
  have e4 : m.color (wr.ptr m.nil) = Color.BLACK := by
    rw [abs_color_ptr (Path.R wl w Color.BLACK kw vw (Path.R X pa cp kp vp up)) h, hwr]
  have hb : m.eraseFixupRestL (X.ptr m.nil) w = (m.setColor w Color.RED, pa) := by
    unfold Map.eraseFixupRestL
    simp [hx, e1, e2, e3, e4]
  have hlog : ∀ e ∈ (m.eraseFixupRestLT (X.ptr m.nil) w).2, e.Safe m.nil := by
    have n2 : w ≠ m.nil := abs_ne_nil (p := Path.R X pa cp kp vp up) h
    unfold Map.eraseFixupRestLT
    simp [Map.setColorL, Map.leftRotateL, Map.rightRotateL, Map.siblingL, Event.Safe, hx, e1, e2, e3, e4, n2]
  rw [hb]
  exact ⟨rfl, abs_setColor (p := Path.R X pa cp kp vp up) h Color.RED, rfl, rfl, rfl, rfl,
    hlog⟩

/-- Lines 143-147: the sibling of a left child is BLACK with a RED right child. -/
theorem eraseFixupRestL_case4 {m : Map K V} {up : Path K V} {X wl wrl wrr : Tree K V}
    {pa w wr cp kp kw kwr vp vw vwr}
    (h : Abs m (up.plug (Tree.node X pa cp kp vp (Tree.node wl w Color.BLACK kw vw
      (Tree.node wrl wr Color.RED kwr vwr wrr)))))
    (hx : m.parent (X.ptr m.nil) = pa) :
    (m.eraseFixupRestL (X.ptr m.nil) w).2 = (m.eraseFixupRestL (X.ptr m.nil) w).1.root ∧
    Abs (m.eraseFixupRestL (X.ptr m.nil) w).1
      (up.plug (Tree.node (Tree.node X pa Color.BLACK kp vp wl) w cp kw vw
        (Tree.node wrl wr Color.BLACK kwr vwr wrr))) ∧
    (m.eraseFixupRestL (X.ptr m.nil) w).1.nil = m.nil ∧
    (m.eraseFixupRestL (X.ptr m.nil) w).1.next = m.next ∧
    (m.eraseFixupRestL (X.ptr m.nil) w).1.self = m.self ∧
    (m.eraseFixupRestL (X.ptr m.nil) w).1.map_size = m.map_size ∧
    (∀ e ∈ (m.eraseFixupRestLT (X.ptr m.nil) w).2, e.Safe m.nil) := by
  have e2 : m.right w = wr := abs_right_eq (Path.R X pa cp kp vp up) h
  have e4 : m.color wr = Color.RED :=
    abs_color_eq (Path.R wl w Color.BLACK kw vw (Path.R X pa cp kp vp up)) h
  have e5 : m.color pa = cp := abs_color_eq up h
  obtain ⟨mf, hmf, hb⟩ : ∃ mf, mf = (((m.setColor w cp).setColor pa Color.BLACK).setColor wr
      Color.BLACK).leftRotate pa ∧ m.eraseFixupRestL (X.ptr m.nil) w = (mf, mf.root) := by
    refine ⟨_, rfl, ?_⟩
    unfold Map.eraseFixupRestL
    simp [hx, e2, e4, e5]
  have hlog : ∀ e ∈ (m.eraseFixupRestLT (X.ptr m.nil) w).2, e.Safe m.nil := by
    have e6 : m.right pa = w := abs_right_eq up h
    have n1 : pa ≠ m.nil := abs_ne_nil (p := up) h
    have n2 : w ≠ m.nil := abs_ne_nil (p := Path.R X pa cp kp vp up) h
    unfold Map.eraseFixupRestLT
    simp [Map.setColorL, Map.leftRotateL, Map.rightRotateL, Map.siblingL, Event.Safe, hx, e2, e4, e5, e6, n1, n2]
  rw [hb, hmf]
  refine ⟨rfl, ?_, by simp, by simp, by simp, by simp, hlog⟩
  have a1 := abs_setColor (p := Path.R X pa cp kp vp up) h cp
  have a2 := abs_setColor (p := up) a1 Color.BLACK
  have a3 := abs_setColor (p := Path.R wl w cp kw vw (Path.R X pa Color.BLACK kp vp up)) a2
    Color.BLACK
  exact abs_leftRotate a3

/-- Lines 137-147: the sibling of a left child is BLACK with a BLACK right child and a RED
left child. -/
theorem eraseFixupRestL_case3 {m : Map K V} {up : Path K V} {X wll wlr wr : Tree K V}
    {pa w wl cp kp kw kwl vp vw vwl}
    (h : Abs m (up.plug (Tree.node X pa cp kp vp (Tree.node
      (Tree.node wll wl Color.RED kwl vwl wlr) w Color.BLACK kw vw wr))))
    (hx : m.parent (X.ptr m.nil) = pa) (hwr : wr.color = Color.BLACK) :
    (m.eraseFixupRestL (X.ptr m.nil) w).2 = (m.eraseFixupRestL (X.ptr m.nil) w).1.root ∧
    Abs (m.eraseFixupRestL (X.ptr m.nil) w).1
      (up.plug (Tree.node (Tree.node X pa Color.BLACK kp vp wll) wl cp kwl vwl
        (Tree.node wlr w Color.BLACK kw vw wr))) ∧
    (m.eraseFixupRestL (X.ptr m.nil) w).1.nil = m.nil ∧
    (m.eraseFixupRestL (X.ptr m.nil) w).1.next = m.next ∧
    (m.eraseFixupRestL (X.ptr m.nil) w).1.self = m.self ∧
    (m.eraseFixupRestL (X.ptr m.nil) w).1.map_size = m.map_size ∧
    (∀ e ∈ (m.eraseFixupRestLT (X.ptr m.nil) w).2, e.Safe m.nil) := by
  have e1 : m.left w = wl := abs_left_eq (Path.R X pa cp kp vp up) h
  have e2 : m.right w = wr.ptr m.nil := abs_right_eq (Path.R X pa cp kp vp up) h
  have e3 : m.color wl = Color.RED :=
    abs_color_eq (Path.L w Color.BLACK kw vw wr (Path.R X pa cp kp vp up)) h
  have e4 : m.color (wr.ptr m.nil) = Color.BLACK := by
    rw [abs_color_ptr (Path.R _ w Color.BLACK kw vw (Path.R X pa cp kp vp up)) h, hwr]
  have a1 := abs_setColor (p := Path.L w Color.BLACK kw vw wr (Path.R X pa cp kp vp up)) h
    Color.BLACK
  have a2 := abs_setColor (p := Path.R X pa cp kp vp up) a1 Color.RED
  have a3 := abs_rightRotate (p := Path.R X pa cp kp vp up) a2
  have f0 : (((m.setColor wl Color.BLACK).setColor w Color.RED).rightRotate w).parent
      (X.ptr m.nil) = pa := by
    have := parent_focus (Path.L pa cp kp vp _ up) (X := X) a3 (fun _ => by
        have := abs_rightRotate_nil a2
        simp only [Map.rightRotate_nil, Map.setColor_nil, Map.parent_setColor] at this ⊢
        rw [this]; simpa [*] using hx)
    simpa using this
  have f1 : (((m.setColor wl Color.BLACK).setColor w Color.RED).rightRotate w).right pa = wl :=
    abs_right_eq up a3
  have f2 : (((m.setColor wl Color.BLACK).setColor w Color.RED).rightRotate w).color pa = cp :=
    abs_color_eq up a3
  have f3 : (((m.setColor wl Color.BLACK).setColor w Color.RED).rightRotate w).right wl = w :=
    abs_right_eq (Path.R X pa cp kp vp up) a3
  obtain ⟨mf, hmf, hb⟩ : ∃ mf, mf = ((((((m.setColor wl Color.BLACK).setColor w
      Color.RED).rightRotate w).setColor wl cp).setColor pa Color.BLACK).setColor w
      Color.BLACK).leftRotate pa ∧ m.eraseFixupRestL (X.ptr m.nil) w = (mf, mf.root) := by
    refine ⟨_, rfl, ?_⟩
    unfold Map.eraseFixupRestL
    simp [hx, e1, e2, e3, e4, f0, f1, f2, f3]
  have hlog : ∀ e ∈ (m.eraseFixupRestLT (X.ptr m.nil) w).2, e.Safe m.nil := by
    have n1 : pa ≠ m.nil := abs_ne_nil (p := up) h
    have n2 : w ≠ m.nil := abs_ne_nil (p := Path.R X pa cp kp vp up) h
    have n3 : wl ≠ m.nil :=
      abs_ne_nil (p := Path.L w Color.BLACK kw vw wr (Path.R X pa cp kp vp up)) h
    unfold Map.eraseFixupRestLT
    simp [Map.setColorL, Map.leftRotateL, Map.rightRotateL, Map.siblingL, Event.Safe, hx, e1, e2, e3, e4, f0, f1, f2, f3, n1, n2, n3]
  rw [hb, hmf]
  refine ⟨rfl, ?_, by simp, by simp, by simp, by simp, hlog⟩
  have a4 := abs_setColor (p := Path.R X pa cp kp vp up) a3 cp
  have a5 := abs_setColor (p := up) a4 Color.BLACK
  have a6 := abs_setColor (p := Path.R wll wl cp kwl vwl (Path.R X pa Color.BLACK kp vp up)) a5
    Color.BLACK
  exact abs_leftRotate a6

/-- Lines 151-156: the RED sibling of a right child is rotated away. -/
theorem eraseFixupSibR_red {m : Map K V} {up : Path K V} {X wl wr : Tree K V}
    {pa w cp kp kw vp vw}
    (h : Abs m (up.plug (Tree.node (Tree.node wl w Color.RED kw vw wr) pa cp kp vp X)))
    (hx : m.parent (X.ptr m.nil) = pa) :
    (m.eraseFixupSibR (X.ptr m.nil)).2 = wr.ptr m.nil ∧
    Abs (m.eraseFixupSibR (X.ptr m.nil)).1
      (up.plug (Tree.node wl w Color.BLACK kw vw (Tree.node wr pa Color.RED kp vp X))) ∧
    (m.eraseFixupSibR (X.ptr m.nil)).1.parent (X.ptr m.nil) = pa ∧
    (m.eraseFixupSibR (X.ptr m.nil)).1.nil = m.nil ∧
    (m.eraseFixupSibR (X.ptr m.nil)).1.next = m.next ∧
    (m.eraseFixupSibR (X.ptr m.nil)).1.self = m.self ∧
    (m.eraseFixupSibR (X.ptr m.nil)).1.map_size = m.map_size ∧
    (wr ≠ Tree.leaf → ∀ e ∈ (m.eraseFixupSibRT (X.ptr m.nil)).2, e.Safe m.nil) := by
  have e1 : m.left pa = w := abs_left_eq up h
  have e2 : m.color w = Color.RED := abs_color_eq (Path.L pa cp kp vp X up) h
  have a1 := abs_setColor (p := Path.L pa cp kp vp X up) h Color.BLACK
  have a2 := abs_setColor (p := up) a1 Color.RED
  have a3 := abs_rightRotate a2
  have f0 : (((m.setColor w Color.BLACK).setColor pa Color.RED).rightRotate pa).parent
      (X.ptr m.nil) = pa := by
    have := parent_focus (Path.R wr pa Color.RED kp vp (Path.R wl w Color.BLACK kw vw up))
      (X := X) a3 (fun _ => by
        have := abs_rightRotate_nil a2
        simp only [Map.rightRotate_nil, Map.setColor_nil, Map.parent_setColor] at this ⊢
        rw [this]; simpa [*] using hx)
    simpa using this
  have f1 : (((m.setColor w Color.BLACK).setColor pa Color.RED).rightRotate pa).left pa =
      wr.ptr m.nil := by
    have := abs_left_eq (Path.R wl w Color.BLACK kw vw up) a3
    simpa using this
  have hb : m.eraseFixupSibR (X.ptr m.nil) =
      (((m.setColor w Color.BLACK).setColor pa Color.RED).rightRotate pa, wr.ptr m.nil) := by
    unfold Map.eraseFixupSibR
    simp [hx, e1, e2, f0, f1]
  have hlog : wr ≠ Tree.leaf → ∀ e ∈ (m.eraseFixupSibRT (X.ptr m.nil)).2, e.Safe m.nil := by
    intro hwr
    have n1 : pa ≠ m.nil := abs_ne_nil (p := up) h
    have n2 : w ≠ m.nil := abs_ne_nil (p := Path.L pa cp kp vp X up) h
    have n3 : wr.ptr m.nil ≠ m.nil :=
      abs_ptr_ne_nil (Path.R wl w Color.RED kw vw (Path.L pa cp kp vp X up)) h hwr
    unfold Map.eraseFixupSibRT
    simp [Map.setColorL, Map.leftRotateL, Map.rightRotateL, Map.siblingL, Event.Safe, hx, e1, e2, f0, f1, n1, n2, n3]
  rw [hb]
  exact ⟨rfl, a3, f0, by simp, by simp, by simp, by simp, hlog⟩

/-- Lines 157-159: the sibling of a right child is BLACK with two BLACK children. -/
theorem eraseFixupRestR_case2 {m : Map K V} {up : Path K V} {X wl wr : Tree K V}
    {pa w cp kp kw vp vw}
    (h : Abs m (up.plug (Tree.node (Tree.node wl w Color.BLACK kw vw wr) pa cp kp vp X)))
    (hx : m.parent (X.ptr m.nil) = pa)
    (hwl : wl.color = Color.BLACK) (hwr : wr.color = Color.BLACK) :
    (m.eraseFixupRestR (X.ptr m.nil) w).2 = pa ∧
    Abs (m.eraseFixupRestR (X.ptr m.nil) w).1
      (up.plug (Tree.node (Tree.node wl w Color.RED kw vw wr) pa cp kp vp X)) ∧
    (m.eraseFixupRestR (X.ptr m.nil) w).1.nil = m.nil ∧
    (m.eraseFixupRestR (X.ptr m.nil) w).1.next = m.next ∧
    (m.eraseFixupRestR (X.ptr m.nil) w).1.self = m.self ∧
    (m.eraseFixupRestR (X.ptr m.nil) w).1.map_size = m.map_size ∧
    (∀ e ∈ (m.eraseFixupRestRT (X.ptr m.nil) w).2, e.Safe m.nil) := by
  have e1 : m.left w = wl.ptr m.nil := abs_left_eq (Path.L pa cp kp vp X up) h
  have e2 : m.right w = wr.ptr m.nil := abs_right_eq (Path.L pa cp kp vp X up) h
  have e3 : m.color (wl.ptr m.nil) = Color.BLACK := by
    rw [abs_color_ptr (Path.L w Color.BLACK kw vw wr (Path.L pa cp kp vp X up)) h, hwl]
  have e4 : m.color (wr.ptr m.nil) = Color.BLACK := by
    rw [abs_color_ptr (Path.R wl w Color.BLACK kw vw (Path.L pa cp kp vp X up)) h, hwr]
  have hb : m.eraseFixupRestR (X.ptr m.nil) w = (m.setColor w Color.RED, pa) := by
    unfold Map.eraseFixupRestR
    simp [hx, e1, e2, e3, e4]
  have hlog : ∀ e ∈ (m.eraseFixupRestRT (X.ptr m.nil) w).2, e.Safe m.nil := by
    have n2 : w ≠ m.nil := abs_ne_nil (p := Path.L pa cp kp vp X up) h
    unfold Map.eraseFixupRestRT
    simp [Map.setColorL, Map.leftRotateL, Map.rightRotateL, Map.siblingL, Event.Safe, hx, e1, e2, e3, e4, n2]
  rw [hb]
  exact ⟨rfl, abs_setColor (p := Path.L pa cp kp vp X up) h Color.RED, rfl, rfl, rfl, rfl,
    hlog⟩

/-- Lines 167-171: the sibling of a right child is BLACK with a RED left child. -/
theorem eraseFixupRestR_case4 {m : Map K V} {up : Path K V} {X wr wll wlr : Tree K V}
    {pa w wl cp kp kw kwl vp vw vwl}
    (h : Abs m (up.plug (Tree.node (Tree.node (Tree.node wll wl Color.RED kwl vwl wlr) w
      Color.BLACK kw vw wr) pa cp kp vp X)))
    (hx : m.parent (X.ptr m.nil) = pa) :
    (m.eraseFixupRestR (X.ptr m.nil) w).2 = (m.eraseFixupRestR (X.ptr m.nil) w).1.root ∧
    Abs (m.eraseFixupRestR (X.ptr m.nil) w).1
      (up.plug (Tree.node (Tree.node wll wl Color.BLACK kwl vwl wlr) w cp kw vw
        (Tree.node wr pa Color.BLACK kp vp X))) ∧
    (m.eraseFixupRestR (X.ptr m.nil) w).1.nil = m.nil ∧
    (m.eraseFixupRestR (X.ptr m.nil) w).1.next = m.next ∧
    (m.eraseFixupRestR (X.ptr m.nil) w).1.self = m.self ∧
    (m.eraseFixupRestR (X.ptr m.nil) w).1.map_size = m.map_size ∧
    (∀ e ∈ (m.eraseFixupRestRT (X.ptr m.nil) w).2, e.Safe m.nil) := by
  have e2 : m.left w = wl := abs_left_eq (Path.L pa cp kp vp X up) h
  have e4 : m.color wl = Color.RED :=
    abs_color_eq (Path.L w Color.BLACK kw vw wr (Path.L pa cp kp vp X up)) h
  have e5 : m.color pa = cp := abs_color_eq up h
  obtain ⟨mf, hmf, hb⟩ : ∃ mf, mf = (((m.setColor w cp).setColor pa Color.BLACK).setColor wl
      Color.BLACK).rightRotate pa ∧ m.eraseFixupRestR (X.ptr m.nil) w = (mf, mf.root) := by
    refine ⟨_, rfl, ?_⟩
    unfold Map.eraseFixupRestR
    simp [hx, e2, e4, e5]
  have hlog : ∀ e ∈ (m.eraseFixupRestRT (X.ptr m.nil) w).2, e.Safe m.nil := by
    have e6 : m.left pa = w := abs_left_eq up h
    have n1 : pa ≠ m.nil := abs_ne_nil (p := up) h
    have n2 : w ≠ m.nil := abs_ne_nil (p := Path.L pa cp kp vp X up) h
    unfold Map.eraseFixupRestRT
    simp [Map.setColorL, Map.leftRotateL, Map.rightRotateL, Map.siblingL, Event.Safe, hx, e2, e4, e5, e6, n1, n2]
  rw [hb, hmf]
  refine ⟨rfl, ?_, by simp, by simp, by simp, by simp, hlog⟩
  have a1 := abs_setColor (p := Path.L pa cp kp vp X up) h cp
  have a2 := abs_setColor (p := up) a1 Color.BLACK
  have a3 := abs_setColor (p := Path.L w cp kw vw wr (Path.L pa Color.BLACK kp vp X up)) a2
    Color.BLACK
  exact abs_rightRotate a3

/-- Lines 161-171: the sibling of a right child is BLACK with a BLACK left child and a RED
right child. -/
theorem eraseFixupRestR_case3 {m : Map K V} {up : Path K V} {X wl wrl wrr : Tree K V}
    {pa w wr cp kp kw kwr vp vw vwr}
    (h : Abs m (up.plug (Tree.node (Tree.node wl w Color.BLACK kw vw
      (Tree.node wrl wr Color.RED kwr vwr wrr)) pa cp kp vp X)))
    (hx : m.parent (X.ptr m.nil) = pa) (hwl : wl.color = Color.BLACK) :
    (m.eraseFixupRestR (X.ptr m.nil) w).2 = (m.eraseFixupRestR (X.ptr m.nil) w).1.root ∧
    Abs (m.eraseFixupRestR (X.ptr m.nil) w).1
      (up.plug (Tree.node (Tree.node wl w Color.BLACK kw vw wrl) wr cp kwr vwr
        (Tree.node wrr pa Color.BLACK kp vp X))) ∧
    (m.eraseFixupRestR (X.ptr m.nil) w).1.nil = m.nil ∧
    (m.eraseFixupRestR (X.ptr m.nil) w).1.next = m.next ∧
    (m.eraseFixupRestR (X.ptr m.nil) w).1.self = m.self ∧
    (m.eraseFixupRestR (X.ptr m.nil) w).1.map_size = m.map_size ∧
    (∀ e ∈ (m.eraseFixupRestRT (X.ptr m.nil) w).2, e.Safe m.nil) := by
  have e1 : m.right w = wr := abs_right_eq (Path.L pa cp kp vp X up) h
  have e2 : m.left w = wl.ptr m.nil := abs_left_eq (Path.L pa cp kp vp X up) h
  have e3 : m.color wr = Color.RED :=
    abs_color_eq (Path.R wl w Color.BLACK kw vw (Path.L pa cp kp vp X up)) h
  have e4 : m.color (wl.ptr m.nil) = Color.BLACK := by
    rw [abs_color_ptr (Path.L w Color.BLACK kw vw _ (Path.L pa cp kp vp X up)) h, hwl]
  have a1 := abs_setColor (p := Path.R wl w Color.BLACK kw vw (Path.L pa cp kp vp X up)) h
    Color.BLACK
  have a2 := abs_setColor (p := Path.L pa cp kp vp X up) a1 Color.RED
  have a3 := abs_leftRotate (p := Path.L pa cp kp vp X up) a2
  have f0 : (((m.setColor wr Color.BLACK).setColor w Color.RED).leftRotate w).parent
      (X.ptr m.nil) = pa := by
    have := parent_focus (Path.R _ pa cp kp vp up) (X := X) a3 (fun _ => by
        have := abs_leftRotate_nil a2
        simp only [Map.leftRotate_nil, Map.setColor_nil, Map.parent_setColor] at this ⊢
        rw [this]; simpa [*] using hx)
    simpa using this
  have f1 : (((m.setColor wr Color.BLACK).setColor w Color.RED).leftRotate w).left pa = wr :=
    abs_left_eq up a3
  have f2 : (((m.setColor wr Color.BLACK).setColor w Color.RED).leftRotate w).color pa = cp :=
    abs_color_eq up a3
  have f3 : (((m.setColor wr Color.BLACK).setColor w Color.RED).leftRotate w).left wr = w :=
    abs_left_eq (Path.L pa cp kp vp X up) a3
  obtain ⟨mf, hmf, hb⟩ : ∃ mf, mf = ((((((m.setColor wr Color.BLACK).setColor w
      Color.RED).leftRotate w).setColor wr cp).setColor pa Color.BLACK).setColor w
      Color.BLACK).rightRotate pa ∧ m.eraseFixupRestR (X.ptr m.nil) w = (mf, mf.root) := by
    refine ⟨_, rfl, ?_⟩
    unfold Map.eraseFixupRestR
    simp [hx, e1, e2, e3, e4, f0, f1, f2, f3]
  have hlog : ∀ e ∈ (m.eraseFixupRestRT (X.ptr m.nil) w).2, e.Safe m.nil := by
    have n1 : pa ≠ m.nil := abs_ne_nil (p := up) h
    have n2 : w ≠ m.nil := abs_ne_nil (p := Path.L pa cp kp vp X up) h
    have n3 : wr ≠ m.nil :=
      abs_ne_nil (p := Path.R wl w Color.BLACK kw vw (Path.L pa cp kp vp X up)) h
    unfold Map.eraseFixupRestRT
    simp [Map.setColorL, Map.leftRotateL, Map.rightRotateL, Map.siblingL, Event.Safe, hx, e1, e2, e3, e4, f0, f1, f2, f3, n1, n2, n3]
  rw [hb, hmf]
  refine ⟨rfl, ?_, by simp, by simp, by simp, by simp, hlog⟩
  have a4 := abs_setColor (p := Path.L pa cp kp vp X up) a3 cp
  have a5 := abs_setColor (p := up) a4 Color.BLACK
  have a6 := abs_setColor (p := Path.L wr cp kwr vwr wrr (Path.L pa Color.BLACK kp vp X up)) a5
    Color.BLACK
  exact abs_rightRotate a6

end sjtu

namespace sjtu

variable {K V : Type}

/-! ## The loop of `eraseFixup` -/

theorem efResult_step {m : Map K V} {x d : Nat} {E : List (Nat × K × V)}
    (hc : x ≠ m.root ∧ m.color x = Color.BLACK)
    (hn : (m.eraseFixupBody x).1.nil = m.nil ∧ (m.eraseFixupBody x).1.next = m.next ∧
      (m.eraseFixupBody x).1.self = m.self ∧ (m.eraseFixupBody x).1.map_size = m.map_size ∧
      (∀ e ∈ (m.eraseFixupBodyT x).2, e.Safe m.nil))
    (h : EFResult (m.eraseFixupBody x).1 (m.eraseFixupBody x).2 d E) :
    EFResult m x (d + 1) E := by
  obtain ⟨m2, T, h1, h2, h3, h4, h5, h6, h7, h8, tr, h9, h10⟩ := h
  refine ⟨m2, T, ?_, h2, h3, h4, h5.trans hn.1, h6.trans hn.2.1, h7.trans hn.2.2.1,
    h8.trans hn.2.2.2.1, (m.eraseFixupBodyT x).2 ++ tr, ?_, ?_⟩
  · intro fuel hf
    obtain ⟨f, rfl⟩ : ∃ f, fuel = f + 1 := ⟨fuel - 1, by omega⟩
    rw [Map.eraseFixup, if_pos hc]
    exact h1 f (by omega)
  · intro fuel hf
    obtain ⟨f, rfl⟩ : ∃ f, fuel = f + 1 := ⟨fuel - 1, by omega⟩
    rw [Map.eraseFixupT, if_pos hc, Map.eraseFixupBodyT_fst, h9 f (by omega)]
  · intro e he
    rcases List.mem_append.1 he with he | he
    · exact hn.2.2.2.2 e he
    · rw [hn.1] at h10; exact h10 e he

theorem efResult_mono {m : Map K V} {x d d2 : Nat} {E : List (Nat × K × V)}
    (h : EFResult m x d E) (hd : d ≤ d2) : EFResult m x d2 E := by
  obtain ⟨m2, T, h1, h2, h3, h4, h5, h6, h7, h8, tr, h9, h10⟩ := h
  exact ⟨m2, T, fun fuel hf => h1 fuel (by omega), h2, h3, h4, h5, h6, h7, h8, tr,
    fun fuel hf => h9 fuel (by omega), h10⟩

/-- The last step `x->color = BLACK` keeps off the sentinel. -/
theorem safe_blacken (nilp x : Nat) :
    ∀ e ∈ [Event.recolour x Color.BLACK], e.Safe nilp := by
  intro e he
  simp only [List.mem_singleton] at he
  subst he
  simp [Event.Safe]

/-- The loop is left because `x` is the root. -/
theorem efResult_root {m : Map K V} {T : Tree K V} {x N : Nat} (h : Abs m T) (hx : x = m.root)
    (h1 : T.NoRedRed) (h2 : T.BH N) : EFResult m x 0 T.elems := by
  refine ⟨m.setColor m.root Color.BLACK, _, ?_, abs_blacken h, Tree.RB_blacken h1 h2, by simp,
    rfl, rfl, rfl, rfl, [Event.recolour m.root Color.BLACK], ?_, safe_blacken _ _⟩
  · intro fuel hf
    obtain ⟨f, rfl⟩ : ∃ f, fuel = f + 1 := ⟨fuel - 1, by omega⟩
    rw [Map.eraseFixup, if_neg (by simp [hx]), hx]
  · intro fuel hf
    obtain ⟨f, rfl⟩ : ∃ f, fuel = f + 1 := ⟨fuel - 1, by omega⟩
    rw [Map.eraseFixupT, if_neg (by simp [hx]), hx]

/-- The loop is left because `x` is RED: colouring it BLACK restores the black height. -/
theorem efResult_red {m : Map K V} {p : Path K V} {l r : Tree K V} {x k v n}
    (h : Abs m (p.plug (Tree.node l x Color.RED k v r)))
    (hp : p.OK (n + 1)) (hl : l.BH n) (hr : r.BH n) (hl2 : l.NoRedRed) (hr2 : r.NoRedRed)
    (hroot : p.rootColor Color.BLACK = Color.BLACK) :
    EFResult m x 0 (p.plug (Tree.node l x Color.RED k v r)).elems := by
  have e1 : m.color x = Color.RED := abs_color_eq p h
  obtain ⟨g1, N, g2⟩ := Path.plug_ok p (Tree.node l x Color.BLACK k v r) (n + 1) hp
    ((Tree.BH_black_succ ..).2 ⟨hl, hr⟩) ⟨by simp, hl2, hr2⟩ (by simp)
  refine ⟨m.setColor x Color.BLACK, _, ?_, abs_setColor h Color.BLACK,
    ⟨?_, g1, (Tree.equalBlackHeight_iff _).2 ⟨N, g2⟩⟩, by simp [Path.elems_plug],
    rfl, rfl, rfl, rfl, [Event.recolour x Color.BLACK], ?_, safe_blacken _ _⟩
  · intro fuel hf
    obtain ⟨f, rfl⟩ : ∃ f, fuel = f + 1 := ⟨fuel - 1, by omega⟩
    rw [Map.eraseFixup, if_neg (by simp [e1])]
  · rw [Path.color_plug]; exact hroot
  · intro fuel hf
    obtain ⟨f, rfl⟩ : ∃ f, fuel = f + 1 := ⟨fuel - 1, by omega⟩
    rw [Map.eraseFixupT, if_neg (by simp [e1])]

theorem noRedRed_of_blacken {t : Tree K V} (hc : t.color = Color.BLACK)
    (h : t.blacken.NoRedRed) : t.NoRedRed := by
  cases t with
  | leaf => trivial
  | node l a c k v r =>
    simp only [Tree.color_node] at hc
    subst hc
    exact h

theorem path_rootPtr_mem {p : Path K V} (h : p ≠ Path.top) : ∀ hp : Nat, p.rootPtr hp ∈ p.addrs := by
  induction p with
  | top => exact absurd rfl h
  | L a c k v r up ih =>
    intro hp
    simp only [Path.rootPtr_L, Path.mem_addrs_L]
    cases up with
    | top => left; rfl
    | _ => right; right; exact ih (by simp) a
  | R l a c k v up ih =>
    intro hp
    simp only [Path.rootPtr_R, Path.mem_addrs_R]
    cases up with
    | top => left; rfl
    | _ => right; right; exact ih (by simp) a

/-- Below the root the node in focus is not the root. -/
theorem ptr_ne_root {m : Map K V} {p : Path K V} {X : Tree K V} (h : Abs m (p.plug X))
    (hp : p ≠ Path.top) : X.ptr m.nil ≠ m.root := by
  have hz := zrep_iff.1 h
  rw [hz.root]
  have hm := path_rootPtr_mem hp (X.ptr m.nil)
  have hnil := zrep_nil_not_mem hz
  have hnd := hz.nodup
  simp only [List.mem_append, not_or] at hnil
  rcases tree_ptr_cases m.nil X with ⟨_, e⟩ | ⟨_, e⟩
  · rw [e]; intro e2; rw [e, ← e2] at hm; exact hnil.1 hm
  · intro e2
    rw [← e2] at hm
    exact (List.disjoint_of_nodup_append hnd) hm e

theorem rootColor_up {p : Path K V} {c : Color} (h : p.rootColor c = Color.BLACK)
    (hc : p = Path.top → True) : p.rootColor Color.BLACK = Color.BLACK := by
  cases p with
  | top => rfl
  | L a c2 k v r up => exact h
  | R l a c2 k v up => exact h

/-- Lines 133-148: the loop body for a left child `x` whose sibling `w` is BLACK.  Either the
loop ends with the colouring restored, or the sibling is recoloured RED and the loop goes on
at the parent (`hk`). -/
theorem ef_restL {m : Map K V} {up : Path K V} {X wl wr : Tree K V} {pa w cp kp kw vp vw}
    {n d : Nat}
    (h : Abs m (up.plug (Tree.node X pa cp kp vp (Tree.node wl w Color.BLACK kw vw wr))))
    (hx : m.parent (X.ptr m.nil) = pa)
    (hX1 : X.BH n) (hX2 : X.NoRedRed) (hwl1 : wl.BH n) (hwr1 : wr.BH n)
    (hwl2 : wl.NoRedRed) (hwr2 : wr.NoRedRed)
    (hup : up.OK (n + 1 + (if cp = Color.BLACK then 1 else 0)))
    (hcp : cp = Color.RED → up.color = Color.BLACK)
    (hk : ∀ m2 : Map K V,
      Abs m2 (up.plug (Tree.node X pa cp kp vp (Tree.node wl w Color.RED kw vw wr))) →
      wl.color = Color.BLACK → wr.color = Color.BLACK →
      EFResult m2 pa d
        (up.plug (Tree.node X pa cp kp vp (Tree.node wl w Color.BLACK kw vw wr))).elems) :
    EFResult (m.eraseFixupRestL (X.ptr m.nil) w).1 (m.eraseFixupRestL (X.ptr m.nil) w).2 d
      (up.plug (Tree.node X pa cp kp vp (Tree.node wl w Color.BLACK kw vw wr))).elems ∧
    (m.eraseFixupRestL (X.ptr m.nil) w).1.nil = m.nil ∧
    (m.eraseFixupRestL (X.ptr m.nil) w).1.next = m.next ∧
    (m.eraseFixupRestL (X.ptr m.nil) w).1.self = m.self ∧
    (m.eraseFixupRestL (X.ptr m.nil) w).1.map_size = m.map_size ∧
    (∀ e ∈ (m.eraseFixupRestLT (X.ptr m.nil) w).2, e.Safe m.nil) := by
  have hupc : up.color = Color.RED → cp = Color.BLACK := by
    intro hu
    cases cp with
    | RED => rw [hcp rfl] at hu; cases hu
    | BLACK => rfl
  cases hwr : wr.color with
  | RED =>
    cases wr with
    | leaf => simp at hwr
    | node wrl wr1 cwr kwr vwr wrr =>
      simp only [Tree.color_node] at hwr; subst hwr
      obtain ⟨b1, b2, b3⟩ := eraseFixupRestL_case4 h hx
      refine ⟨?_, b3⟩
      rw [Tree.BH_red] at hwr1
      obtain ⟨g1, N, g2⟩ := Path.plug_ok up (Tree.node (Tree.node X pa Color.BLACK kp vp wl) w cp
        kw vw (Tree.node wrl wr1 Color.BLACK kwr vwr wrr))
        (n + 1 + (if cp = Color.BLACK then 1 else 0)) hup
        (by
          cases cp with
          | RED => exact (Tree.BH_red ..).2 ⟨(Tree.BH_black_succ ..).2 ⟨hX1, hwl1⟩,
              (Tree.BH_black_succ ..).2 hwr1⟩
          | BLACK => exact (Tree.BH_black_succ ..).2 ⟨(Tree.BH_black_succ ..).2 ⟨hX1, hwl1⟩,
              (Tree.BH_black_succ ..).2 hwr1⟩)
        ⟨by simp, ⟨by simp, hX2, hwl2⟩, ⟨by simp, hwr2.2⟩⟩ hupc
      have := efResult_root b2 b1 g1 g2
      refine efResult_mono ?_ (Nat.zero_le d)
      simpa [Path.elems_plug] using this
  | BLACK =>
    cases hwl : wl.color with
    | RED =>
      cases wl with
      | leaf => simp at hwl
      | node wll wl1 cwl kwl vwl wlr =>
        simp only [Tree.color_node] at hwl; subst hwl
        obtain ⟨b1, b2, b3⟩ := eraseFixupRestL_case3 h hx hwr
        refine ⟨?_, b3⟩
        rw [Tree.BH_red] at hwl1
        obtain ⟨g1, N, g2⟩ := Path.plug_ok up (Tree.node (Tree.node X pa Color.BLACK kp vp wll)
          wl1 cp kwl vwl (Tree.node wlr w Color.BLACK kw vw wr))
          (n + 1 + (if cp = Color.BLACK then 1 else 0)) hup
          (by
            cases cp with
            | RED => exact (Tree.BH_red ..).2 ⟨(Tree.BH_black_succ ..).2 ⟨hX1, hwl1.1⟩,
                (Tree.BH_black_succ ..).2 ⟨hwl1.2, hwr1⟩⟩
            | BLACK => exact (Tree.BH_black_succ ..).2 ⟨(Tree.BH_black_succ ..).2 ⟨hX1, hwl1.1⟩,
                (Tree.BH_black_succ ..).2 ⟨hwl1.2, hwr1⟩⟩)
          ⟨by simp, ⟨by simp, hX2, hwl2.2.1⟩, ⟨by simp, hwl2.2.2, hwr2⟩⟩ hupc
        have := efResult_root b2 b1 g1 g2
        refine efResult_mono ?_ (Nat.zero_le d)
        simpa [Path.elems_plug] using this
    | BLACK =>
      obtain ⟨b1, b2, b3⟩ := eraseFixupRestL_case2 h hx hwl hwr
      refine ⟨?_, b3⟩
      rw [b1]
      exact hk _ b2 hwl hwr

/-- Lines 157-172: the loop body for a right child `x` whose sibling `w` is BLACK. -/
theorem ef_restR {m : Map K V} {up : Path K V} {X wl wr : Tree K V} {pa w cp kp kw vp vw}
    {n d : Nat}
    (h : Abs m (up.plug (Tree.node (Tree.node wl w Color.BLACK kw vw wr) pa cp kp vp X)))
    (hx : m.parent (X.ptr m.nil) = pa)
    (hX1 : X.BH n) (hX2 : X.NoRedRed) (hwl1 : wl.BH n) (hwr1 : wr.BH n)
    (hwl2 : wl.NoRedRed) (hwr2 : wr.NoRedRed)
    (hup : up.OK (n + 1 + (if cp = Color.BLACK then 1 else 0)))
    (hcp : cp = Color.RED → up.color = Color.BLACK)
    (hk : ∀ m2 : Map K V,
      Abs m2 (up.plug (Tree.node (Tree.node wl w Color.RED kw vw wr) pa cp kp vp X)) →
      wl.color = Color.BLACK → wr.color = Color.BLACK →
      EFResult m2 pa d
        (up.plug (Tree.node (Tree.node wl w Color.BLACK kw vw wr) pa cp kp vp X)).elems) :
    EFResult (m.eraseFixupRestR (X.ptr m.nil) w).1 (m.eraseFixupRestR (X.ptr m.nil) w).2 d
      (up.plug (Tree.node (Tree.node wl w Color.BLACK kw vw wr) pa cp kp vp X)).elems ∧
    (m.eraseFixupRestR (X.ptr m.nil) w).1.nil = m.nil ∧
    (m.eraseFixupRestR (X.ptr m.nil) w).1.next = m.next ∧
    (m.eraseFixupRestR (X.ptr m.nil) w).1.self = m.self ∧
    (m.eraseFixupRestR (X.ptr m.nil) w).1.map_size = m.map_size ∧
    (∀ e ∈ (m.eraseFixupRestRT (X.ptr m.nil) w).2, e.Safe m.nil) := by
  have hupc : up.color = Color.RED → cp = Color.BLACK := by
    intro hu
    cases cp with
    | RED => rw [hcp rfl] at hu; cases hu
    | BLACK => rfl
  cases hwl : wl.color with
  | RED =>
    cases wl with
    | leaf => simp at hwl
    | node wll wl1 cwl kwl vwl wlr =>
      simp only [Tree.color_node] at hwl; subst hwl
      obtain ⟨b1, b2, b3⟩ := eraseFixupRestR_case4 h hx
      refine ⟨?_, b3⟩
      rw [Tree.BH_red] at hwl1
      obtain ⟨g1, N, g2⟩ := Path.plug_ok up (Tree.node (Tree.node wll wl1 Color.BLACK kwl vwl wlr)
        w cp kw vw (Tree.node wr pa Color.BLACK kp vp X))
        (n + 1 + (if cp = Color.BLACK then 1 else 0)) hup
        (by
          cases cp with
          | RED => exact (Tree.BH_red ..).2 ⟨(Tree.BH_black_succ ..).2 hwl1,
              (Tree.BH_black_succ ..).2 ⟨hwr1, hX1⟩⟩
          | BLACK => exact (Tree.BH_black_succ ..).2 ⟨(Tree.BH_black_succ ..).2 hwl1,
              (Tree.BH_black_succ ..).2 ⟨hwr1, hX1⟩⟩)
        ⟨by simp, ⟨by simp, hwl2.2⟩, ⟨by simp, hwr2, hX2⟩⟩ hupc
      have := efResult_root b2 b1 g1 g2
      refine efResult_mono ?_ (Nat.zero_le d)
      simpa [Path.elems_plug] using this
  | BLACK =>
    cases hwr : wr.color with
    | RED =>
      cases wr with
      | leaf => simp at hwr
      | node wrl wr1 cwr kwr vwr wrr =>
        simp only [Tree.color_node] at hwr; subst hwr
        obtain ⟨b1, b2, b3⟩ := eraseFixupRestR_case3 h hx hwl
        refine ⟨?_, b3⟩
        rw [Tree.BH_red] at hwr1
        obtain ⟨g1, N, g2⟩ := Path.plug_ok up (Tree.node (Tree.node wl w Color.BLACK kw vw wrl)
          wr1 cp kwr vwr (Tree.node wrr pa Color.BLACK kp vp X))
          (n + 1 + (if cp = Color.BLACK then 1 else 0)) hup
          (by
            cases cp with
            | RED => exact (Tree.BH_red ..).2 ⟨(Tree.BH_black_succ ..).2 ⟨hwl1, hwr1.1⟩,
                (Tree.BH_black_succ ..).2 ⟨hwr1.2, hX1⟩⟩
            | BLACK => exact (Tree.BH_black_succ ..).2 ⟨(Tree.BH_black_succ ..).2 ⟨hwl1, hwr1.1⟩,
                (Tree.BH_black_succ ..).2 ⟨hwr1.2, hX1⟩⟩)
          ⟨by simp, ⟨by simp, hwl2, hwr2.2.1⟩, ⟨by simp, hwr2.2.2, hX2⟩⟩ hupc
        have := efResult_root b2 b1 g1 g2
        refine efResult_mono ?_ (Nat.zero_le d)
        simpa [Path.elems_plug] using this
    | BLACK =>
      obtain ⟨b1, b2, b3⟩ := eraseFixupRestR_case2 h hx hwl hwr
      refine ⟨?_, b3⟩
      rw [b1]
      exact hk _ b2 hwl hwr

theorem eraseFixupSibL_black {m : Map K V} {up : Path K V} {X wl wr : Tree K V}
    {pa w cp kp kw vp vw}
    (h : Abs m (up.plug (Tree.node X pa cp kp vp (Tree.node wl w Color.BLACK kw vw wr))))
    (hx : m.parent (X.ptr m.nil) = pa) :
    m.eraseFixupSibL (X.ptr m.nil) = (m, w) := by
  have e1 : m.right pa = w := abs_right_eq up h
  have e2 : m.color w = Color.BLACK := abs_color_eq (Path.R X pa cp kp vp up) h
  unfold Map.eraseFixupSibL
  simp [hx, e1, e2]

theorem eraseFixupSibR_black {m : Map K V} {up : Path K V} {X wl wr : Tree K V}
    {pa w cp kp kw vp vw}
    (h : Abs m (up.plug (Tree.node (Tree.node wl w Color.BLACK kw vw wr) pa cp kp vp X)))
    (hx : m.parent (X.ptr m.nil) = pa) :
    m.eraseFixupSibR (X.ptr m.nil) = (m, w) := by
  have e1 : m.left pa = w := abs_left_eq up h
  have e2 : m.color w = Color.BLACK := abs_color_eq (Path.L pa cp kp vp X up) h
  unfold Map.eraseFixupSibR
  simp [hx, e1, e2]

theorem eraseFixupSibLT_black {m : Map K V} {up : Path K V} {X wl wr : Tree K V}
    {pa w cp kp kw vp vw}
    (h : Abs m (up.plug (Tree.node X pa cp kp vp (Tree.node wl w Color.BLACK kw vw wr))))
    (hx : m.parent (X.ptr m.nil) = pa) :
    (m.eraseFixupSibLT (X.ptr m.nil)).2 = [Event.sibling w] := by
  have e1 : m.right pa = w := abs_right_eq up h
  have e2 : m.color w = Color.BLACK := abs_color_eq (Path.R X pa cp kp vp up) h
  unfold Map.eraseFixupSibLT
  simp [Map.siblingL, hx, e1, e2]

theorem eraseFixupSibRT_black {m : Map K V} {up : Path K V} {X wl wr : Tree K V}
    {pa w cp kp kw vp vw}
    (h : Abs m (up.plug (Tree.node (Tree.node wl w Color.BLACK kw vw wr) pa cp kp vp X)))
    (hx : m.parent (X.ptr m.nil) = pa) :
    (m.eraseFixupSibRT (X.ptr m.nil)).2 = [Event.sibling w] := by
  have e1 : m.left pa = w := abs_left_eq up h
  have e2 : m.color w = Color.BLACK := abs_color_eq (Path.L pa cp kp vp X up) h
  unfold Map.eraseFixupSibRT
  simp [Map.siblingL, hx, e1, e2]

theorem black_node_of_BH {t : Tree K V} {n : Nat} (h1 : t.BH (n + 1))
    (h2 : t.color = Color.BLACK) :
    ∃ l a k v r, t = Tree.node l a Color.BLACK k v r ∧ l.BH n ∧ r.BH n := by
  cases t with
  | leaf => simp at h1
  | node l a c k v r =>
    simp only [Tree.color_node] at h2
    subst h2
    exact ⟨l, a, k, v, r, rfl, (Tree.BH_black_succ ..).1 h1⟩

theorem ptr_ne_sibling_R {m : Map K V} {up : Path K V} {X W : Tree K V} {pa cp kp vp}
    (h : Abs m (up.plug (Tree.node W pa cp kp vp X))) (hW : W ≠ Tree.leaf) :
    X.ptr m.nil ≠ W.ptr m.nil := by
  cases X with
  | leaf =>
    have hz := zrep_iff.1 h
    obtain ⟨-, -, -, -, -, -, -, f8, -, -⟩ := zrep_facts hz
    exact Ne.symm (f8 _ (tree_ptr_mem m.nil hW)).2.2.2
  | node l a c k v r => exact abs_ne_ptr_left up h

/-- `eraseFixup` restores the colouring invariants: started at a position whose subtree
lacks one BLACK node on every path, it terminates and leaves a red-black tree with the same
in-order content. -/
theorem eraseFixup_spec : ∀ (d : Nat) (m : Map K V) (p : Path K V) (X : Tree K V) (n : Nat),
    p.depth ≤ d → Abs m (p.plug X) → m.parent (X.ptr m.nil) = p.ptr m.nil → X.BH n →
    X.blacken.NoRedRed → p.OK (n + 1) → p.rootColor Color.BLACK = Color.BLACK →
    EFResult m (X.ptr m.nil) p.depth (p.plug X).elems := by
  intro d
  induction d using Nat.strong_induction_on with
  | _ d ih =>
    intro m p X n hd h hx hX1 hXb hp hroot
    cases hc : X.color with
    | RED =>
      cases X with
      | leaf => simp at hc
      | node l x c k v r =>
        simp only [Tree.color_node] at hc; subst hc
        rw [Tree.BH_red] at hX1
        exact efResult_mono (efResult_red h hp hX1.1 hX1.2 hXb.2.1 hXb.2.2 hroot) (Nat.zero_le _)
    | BLACK =>
      have hX2 := noRedRed_of_blacken hc hXb
      cases p with
      | top =>
        have hr : m.root = X.ptr m.nil := h.root
        exact efResult_root h hr.symm hX2 hX1
      | L pa cp kp vp W up =>
        have hcond : X.ptr m.nil ≠ m.root ∧ m.color (X.ptr m.nil) = Color.BLACK :=
          ⟨ptr_ne_root h (by simp), by rw [abs_color_ptr _ h, hc]⟩
        simp only [Path.ptr_L] at hx
        obtain ⟨o1, o2, o3, o4⟩ := hp
        have e : X.ptr m.nil = m.left (m.parent (X.ptr m.nil)) := by
          rw [hx]; exact (abs_left_eq up h).symm
        have hbody := Map.eraseFixupBody_eq m (X.ptr m.nil)
        rw [if_pos e] at hbody
        simp only [Path.depth_L] at hd ⊢
        simp only [Path.rootColor_L] at hroot
        cases W with
        | leaf => simp at o1
        | node wl w cw kw vw wr =>
          cases cw with
          | BLACK =>
            have hW := (Tree.BH_black_succ ..).1 o1
            have hs := eraseFixupSibL_black h hx
            rw [hs] at hbody
            have key := ef_restL (d := up.depth) h hx hX1 hX2 hW.1 hW.2 o2.2.1 o2.2.2 o4
              (fun hcp => (o3 hcp).2) (fun m2 a2 hwl hwr => by
                have := ih up.depth (by omega) m2 up _ (n + (if cp = Color.BLACK then 1 else 0))
                  (le_refl _) a2 (abs_parent_eq up a2)
                  (by
                    cases cp with
                    | RED => exact (Tree.BH_red ..).2 ⟨hX1, (Tree.BH_red ..).2 hW⟩
                    | BLACK => exact (Tree.BH_black_succ ..).2 ⟨hX1, (Tree.BH_red ..).2 hW⟩)
                  ⟨by simp, hX2, ⟨fun _ => ⟨hwl, hwr⟩, o2.2.1, o2.2.2⟩⟩
                  (by rw [Nat.add_right_comm]; exact o4) (rootColor_up hroot (fun _ => trivial))
                simpa [Path.elems_plug] using this)
            refine efResult_step hcond ?_ ?_
            · rw [hbody]
              refine ⟨key.2.1, key.2.2.1, key.2.2.2.1, key.2.2.2.2.1, ?_⟩
              rw [Map.eraseFixupBodyT_eq, if_pos e, hs, eraseFixupSibLT_black h hx]
              intro ev hev
              rcases List.mem_append.1 hev with h1 | h1
              · simp only [List.mem_singleton] at h1
                subst h1
                exact abs_ne_nil (p := Path.R X pa cp kp vp up) h
              · exact key.2.2.2.2.2 ev h1
            · rw [hbody]; exact key.1
          | RED =>
            have hcp : cp = Color.BLACK := by
              cases cp with
              | RED => have := (o3 rfl).1; simp at this
              | BLACK => rfl
            subst hcp
            simp only [if_true] at o4
            rw [Tree.BH_red] at o1
            obtain ⟨wll, wl1, kwl, vwl, wlr, rfl, hwll, hwlr⟩ :=
              black_node_of_BH o1.1 (o2.1 rfl).1
            obtain ⟨b1, b2, b3, b4⟩ := eraseFixupSibL_red h hx
            have hT := Map.eraseFixupBodyT_eq m (X.ptr m.nil)
            rw [if_pos e, b1] at hT
            simp only [Tree.ptr_node] at hT
            rw [b1] at hbody
            simp only [Tree.ptr_node] at hbody
            have b2' : Abs (m.eraseFixupSibL (X.ptr m.nil)).1 ((Path.L w Color.BLACK kw vw wr
                up).plug (Tree.node X pa Color.RED kp vp
                  (Tree.node wll wl1 Color.BLACK kwl vwl wlr))) := b2
            have hnil : (m.eraseFixupSibL (X.ptr m.nil)).1.nil = m.nil := b4.1
            have key := @ef_restL K V _ (Path.L w Color.BLACK kw vw wr up)
              X _ _ _ _ _ _ _ _ _ n up.depth b2' (by rw [hnil]; exact b3) hX1 hX2 hwll hwlr o2.2.1.2.1
              o2.2.1.2.2 ⟨o1.2, o2.2.2, by simp, by simpa using o4⟩ (fun _ => rfl)
              (fun m2 a2 hwl hwr => by
                have := efResult_red (p := Path.L w Color.BLACK kw vw wr up) (n := n) a2
                  ⟨o1.2, o2.2.2, by simp, by simpa using o4⟩ hX1
                  ((Tree.BH_red ..).2 ⟨hwll, hwlr⟩) hX2
                  ⟨fun _ => ⟨hwl, hwr⟩, o2.2.1.2.1, o2.2.1.2.2⟩ hroot
                simpa [Path.elems_plug] using efResult_mono this (Nat.zero_le up.depth))
            rw [hnil] at key
            refine efResult_step hcond ?_ ?_
            · rw [hbody]
              refine ⟨key.2.1, key.2.2.1.trans b4.2.1, key.2.2.2.1.trans b4.2.2.1,
                key.2.2.2.2.1.trans b4.2.2.2.1, ?_⟩
              rw [hT]
              intro ev hev
              rcases List.mem_append.1 hev with h1 | h1
              · exact b4.2.2.2.2 (by simp) ev h1
              · exact key.2.2.2.2.2 ev h1
            · rw [hbody]
              simpa [Path.elems_plug] using key.1
      | R W pa cp kp vp up =>
        have hcond : X.ptr m.nil ≠ m.root ∧ m.color (X.ptr m.nil) = Color.BLACK :=
          ⟨ptr_ne_root h (by simp), by rw [abs_color_ptr _ h, hc]⟩
        simp only [Path.ptr_R] at hx
        obtain ⟨o1, o2, o3, o4⟩ := hp
        simp only [Path.depth_R] at hd ⊢
        simp only [Path.rootColor_R] at hroot
        cases W with
        | leaf => simp at o1
        | node wl w cw kw vw wr =>
          have e : ¬ (X.ptr m.nil = m.left (m.parent (X.ptr m.nil))) := by
            rw [hx, abs_left_eq up h]
            exact @ptr_ne_sibling_R K V _ up _ _ _ _ _ _ h (by simp)
          have hbody := Map.eraseFixupBody_eq m (X.ptr m.nil)
          rw [if_neg e] at hbody
          cases cw with
          | BLACK =>
            have hW := (Tree.BH_black_succ ..).1 o1
            have hs := eraseFixupSibR_black h hx
            rw [hs] at hbody
            have key := ef_restR (d := up.depth) h hx hX1 hX2 hW.1 hW.2 o2.2.1 o2.2.2 o4
              (fun hcp => (o3 hcp).2) (fun m2 a2 hwl hwr => by
                have := ih up.depth (by omega) m2 up _ (n + (if cp = Color.BLACK then 1 else 0))
                  (le_refl _) a2 (abs_parent_eq up a2)
                  (by
                    cases cp with
                    | RED => exact (Tree.BH_red ..).2 ⟨(Tree.BH_red ..).2 hW, hX1⟩
                    | BLACK => exact (Tree.BH_black_succ ..).2 ⟨(Tree.BH_red ..).2 hW, hX1⟩)
                  ⟨by simp, ⟨fun _ => ⟨hwl, hwr⟩, o2.2.1, o2.2.2⟩, hX2⟩
                  (by rw [Nat.add_right_comm]; exact o4) (rootColor_up hroot (fun _ => trivial))
                simpa [Path.elems_plug] using this)
            refine efResult_step hcond ?_ ?_
            · rw [hbody]
              refine ⟨key.2.1, key.2.2.1, key.2.2.2.1, key.2.2.2.2.1, ?_⟩
              rw [Map.eraseFixupBodyT_eq, if_neg e, hs, eraseFixupSibRT_black h hx]
              intro ev hev
              rcases List.mem_append.1 hev with h1 | h1
              · simp only [List.mem_singleton] at h1
                subst h1
                exact abs_ne_nil (p := Path.L pa cp kp vp X up) h
              · exact key.2.2.2.2.2 ev h1
            · rw [hbody]; exact key.1
          | RED =>
            have hcp : cp = Color.BLACK := by
              cases cp with
              | RED => have := (o3 rfl).1; simp at this
              | BLACK => rfl
            subst hcp
            simp only [if_true] at o4
            rw [Tree.BH_red] at o1
            obtain ⟨wrl, wr1, kwr, vwr, wrr, rfl, hwrl, hwrr⟩ :=
              black_node_of_BH o1.2 (o2.1 rfl).2
            obtain ⟨b1, b2, b3, b4⟩ := eraseFixupSibR_red h hx
            have hT := Map.eraseFixupBodyT_eq m (X.ptr m.nil)
            rw [if_neg e, b1] at hT
            simp only [Tree.ptr_node] at hT
            rw [b1] at hbody
            simp only [Tree.ptr_node] at hbody
            have b2' : Abs (m.eraseFixupSibR (X.ptr m.nil)).1 ((Path.R wl w Color.BLACK kw vw
                up).plug (Tree.node (Tree.node wrl wr1 Color.BLACK kwr vwr wrr) pa Color.RED kp vp
                  X)) := b2
            have hnil : (m.eraseFixupSibR (X.ptr m.nil)).1.nil = m.nil := b4.1
            have key := @ef_restR K V _ (Path.R wl w Color.BLACK kw vw up)
              X _ _ _ _ _ _ _ _ _ n up.depth b2' (by rw [hnil]; exact b3) hX1 hX2 hwrl hwrr o2.2.2.2.1
              o2.2.2.2.2 ⟨o1.1, o2.2.1, by simp, by simpa using o4⟩ (fun _ => rfl)
              (fun m2 a2 hwl hwr => by
                have := efResult_red (p := Path.R wl w Color.BLACK kw vw up) (n := n) a2
                  ⟨o1.1, o2.2.1, by simp, by simpa using o4⟩
                  ((Tree.BH_red ..).2 ⟨hwrl, hwrr⟩) hX1
                  ⟨fun _ => ⟨hwl, hwr⟩, o2.2.2.2.1, o2.2.2.2.2⟩ hX2 hroot
                simpa [Path.elems_plug] using efResult_mono this (Nat.zero_le up.depth))
            rw [hnil] at key
            refine efResult_step hcond ?_ ?_
            · rw [hbody]
              refine ⟨key.2.1, key.2.2.1.trans b4.2.1, key.2.2.2.1.trans b4.2.2.1,
                key.2.2.2.2.1.trans b4.2.2.2.1, ?_⟩
              rw [hT]
              intro ev hev
              rcases List.mem_append.1 hev with h1 | h1
              · exact b4.2.2.2.2 (by simp) ev h1
              · exact key.2.2.2.2.2 ev h1
            · rw [hbody]
              simpa [Path.elems_plug] using key.1

end sjtu

namespace sjtu

variable {K V : Type}

/-! ## Composition of paths, `minimum`, locating a node -/

namespace Path

@[simp] theorem comp_top (q : Path K V) : (top : Path K V).comp q = q := rfl
@[simp] theorem comp_L (a : Nat) (c k v) (r : Tree K V) (up q : Path K V) :
    (L a c k v r up).comp q = L a c k v r (up.comp q) := rfl
@[simp] theorem comp_R (a : Nat) (c k v) (l : Tree K V) (up q : Path K V) :
    (R l a c k v up).comp q = R l a c k v (up.comp q) := rfl

theorem pre_comp (p q : Path K V) : (p.comp q).pre = q.pre ++ p.pre := by
  induction p with
  | top => simp [pre]
  | L a c k v r up ih => simp [pre, ih]
  | R l a c k v up ih => simp [pre, ih]

theorem post_comp (p q : Path K V) : (p.comp q).post = p.post ++ q.post := by
  induction p with
  | top => simp [post]
  | L a c k v r up ih => simp [post, ih]
  | R l a c k v up ih => simp [post, ih]

theorem depth_comp (p q : Path K V) : (p.comp q).depth = p.depth + q.depth := by
  induction p with
  | top => simp
  | L a c k v r up ih => simp [ih]; omega
  | R l a c k v up ih => simp [ih]; omega

theorem ptr_comp_of_ne_top {p : Path K V} (h : p ≠ top) (q : Path K V) (nilp : Nat) :
    (p.comp q).ptr nilp = p.ptr nilp := by
  cases p with
  | top => exact absurd rfl h
  | L a c k v r up => rfl
  | R l a c k v up => rfl

theorem color_comp_congr (p : Path K V) {q q2 : Path K V} (h : q.color = q2.color) :
    (p.comp q).color = (p.comp q2).color := by
  cases p with
  | top => exact h
  | L a c k v r up => rfl
  | R l a c k v up => rfl

theorem ok_comp_congr (p : Path K V) {q q2 : Path K V} (hc : q.color = q2.color)
    (h : ∀ n, q.OK n → q2.OK n) : ∀ n, (p.comp q).OK n → (p.comp q2).OK n := by
  induction p with
  | top => exact h
  | L a c k v r up ih =>
    intro n ho
    obtain ⟨o1, o2, o3, o4⟩ := ho
    exact ⟨o1, o2, fun hcr => ⟨(o3 hcr).1, by rw [← color_comp_congr up hc]; exact (o3 hcr).2⟩,
      ih _ o4⟩
  | R l a c k v up ih =>
    intro n ho
    obtain ⟨o1, o2, o3, o4⟩ := ho
    exact ⟨o1, o2, fun hcr => ⟨(o3 hcr).1, by rw [← color_comp_congr up hc]; exact (o3 hcr).2⟩,
      ih _ o4⟩

theorem rootColor_comp (p q : Path K V) (c : Color) :
    (p.comp q).rootColor c = q.rootColor (p.rootColor c) := by
  induction p generalizing c with
  | top => rfl
  | L a c2 k v r up ih => simp [ih]
  | R l a c2 k v up ih => simp [ih]

end Path

/-- The leftmost node of a non-empty subtree: `minimum` walks down the left spine. -/
theorem minimum_spec {m : Map K V} (r : Tree K V) : ∀ (P : Path K V), r ≠ Tree.leaf →
    Abs m (P.plug r) →
    ∃ (q : Path K V) (ry : Tree K V) (y : Nat) (cy : Color) (ky : K) (vy : V),
      r = q.plug (Tree.node Tree.leaf y cy ky vy ry) ∧ q.pre = [] ∧ q.depth < r.height ∧
      (q ≠ Path.top → (q.plug ry).ptr m.nil = r.ptr m.nil ∧ q.plug ry ≠ Tree.leaf) ∧
      ∀ fuel, r.height ≤ fuel → m.minimum fuel (r.ptr m.nil) = some y := by
  induction r with
  | leaf => intro P h; exact absurd rfl h
  | node l a c k v r2 ihl _ =>
    intro P _ h
    have e1 : m.left a = l.ptr m.nil := abs_left_eq P h
    cases hl : l with
    | leaf =>
      subst hl
      refine ⟨Path.top, r2, a, c, k, v, rfl, rfl, by simp [Tree.height], by simp, ?_⟩
      intro fuel hf
      obtain ⟨f, rfl⟩ : ∃ f, fuel = f + 1 := ⟨fuel - 1, by simp [Tree.height] at hf; omega⟩
      simp [Map.minimum, e1]
    | node ll la lc lk lv lr =>
      have hne : l ≠ Tree.leaf := by rw [hl]; simp
      have h2 : Abs m ((Path.L a c k v r2 P).plug l) := h
      obtain ⟨q, ry, y, cy, ky, vy, i1, i2, i3, i4, i5⟩ := ihl (Path.L a c k v r2 P) hne h2
      have e2 : l.ptr m.nil ≠ m.nil := by
        rw [hl] at h2 ⊢
        exact abs_ne_nil h2
      rw [← hl]
      refine ⟨q.comp (Path.L a c k v r2 Path.top), ry, y, cy, ky, vy, ?_, ?_, ?_, ?_, ?_⟩
      · rw [Path.plug_comp, ← i1]; rfl
      · rw [Path.pre_comp, i2]; rfl
      · rw [Path.depth_comp]; simp [Tree.height]; omega
      · intro _
        rw [Path.plug_comp]
        simp
      · intro fuel hf
        obtain ⟨f, rfl⟩ : ∃ f, fuel = f + 1 := ⟨fuel - 1, by simp [Tree.height] at hf; omega⟩
        simp only [Tree.ptr_node, Map.minimum, e1, ne_eq, e2, not_false_eq_true, if_true]
        exact i5 f (by simp [Tree.height] at hf; omega)

/-- Every node of the tree is the focus of a path. -/
theorem locate (z : Nat) (t : Tree K V) : ∀ (P : Path K V), z ∈ t.addrs →
    ∃ (p : Path K V) (l : Tree K V) (c : Color) (k : K) (v : V) (r : Tree K V),
      P.plug t = p.plug (Tree.node l z c k v r) := by
  induction t with
  | leaf => intro P h; simp at h
  | node l a c k v r ihl ihr =>
    intro P h
    simp only [Tree.addrs_node, List.mem_append, List.mem_cons] at h
    rcases h with h | rfl | h
    · exact ihl (Path.L a c k v r P) h
    · exact ⟨P, l, c, k, v, r, rfl⟩
    · exact ihr (Path.R l a c k v P) h

end sjtu

namespace sjtu

variable {K V : Type}

/-! ## `erase`: the splice and the fixup -/

namespace Map

theorem eraseNode_left_nil (fuel : Nat) (m : Map K V) (z : Nat) (h : m.left z = m.nil) :
    m.eraseNode fuel z =
      eraseFinish fuel (m.transplant z (m.right z)) (m.right z) (m.color z) := by
  unfold eraseNode eraseFinish
  simp only [h, if_true] <;> rfl

theorem eraseNode_right_nil (fuel : Nat) (m : Map K V) (z : Nat) (h : m.left z ≠ m.nil)
    (h2 : m.right z = m.nil) :
    m.eraseNode fuel z =
      eraseFinish fuel (m.transplant z (m.left z)) (m.left z) (m.color z) := by
  unfold eraseNode eraseFinish
  simp only [h, h2, if_true, if_false] <;> rfl

theorem eraseNode_two (fuel : Nat) (m : Map K V) (z y : Nat) (h : m.left z ≠ m.nil)
    (h2 : m.right z ≠ m.nil) (h3 : m.minimum fuel (m.right z) = some y) :
    m.eraseNode fuel z = eraseFinish fuel (m.eraseSplice z y) (m.right y) (m.color y) := by
  unfold eraseNode eraseFinish eraseSplice
  simp only [h, h2, h3, if_true, if_false] <;> rfl

theorem eraseNodeT_left_nil (fuel : Nat) (m : Map K V) (z : Nat) (h : m.left z = m.nil) :
    m.eraseNodeT fuel z =
      eraseFinishT fuel (m.transplant z (m.right z)) (m.right z) (m.color z) := by
  unfold eraseNodeT eraseFinishT
  simp only [h, if_true] <;> rfl

theorem eraseNodeT_right_nil (fuel : Nat) (m : Map K V) (z : Nat) (h : m.left z ≠ m.nil)
    (h2 : m.right z = m.nil) :
    m.eraseNodeT fuel z =
      eraseFinishT fuel (m.transplant z (m.left z)) (m.left z) (m.color z) := by
  unfold eraseNodeT eraseFinishT
  simp only [h, h2, if_true, if_false] <;> rfl

theorem eraseNodeT_two (fuel : Nat) (m : Map K V) (z y : Nat) (h : m.left z ≠ m.nil)
    (h2 : m.right z ≠ m.nil) (h3 : m.minimum fuel (m.right z) = some y) :
    m.eraseNodeT fuel z = eraseFinishT fuel (m.eraseSplice z y) (m.right y) (m.color y) := by
  unfold eraseNodeT eraseFinishT eraseSplice
  simp only [h, h2, h3, if_true, if_false] <;> rfl

end Map

theorem height_plug (p : Path K V) : ∀ t : Tree K V, p.depth + t.height ≤ (p.plug t).height := by
  induction p with
  | top => intro t; simp
  | L a c k v r up ih =>
    intro t
    have := ih (Tree.node t a c k v r)
    simp only [Path.depth_L, Path.plug_L, Tree.height] at this ⊢
    omega
  | R l a c k v up ih =>
    intro t
    have := ih (Tree.node l a c k v t)
    simp only [Path.depth_R, Path.plug_R, Tree.height] at this ⊢
    omega

/-- The end of `erase`: the node spliced out had colour `yc` and the subtree `X` is now in
its place `P`.  The colouring is restored and `map_size` decremented. -/
theorem eraseFinish_spec {m : Map K V} {P : Path K V} {X : Tree K V} {yc : Color} {n : Nat}
    (h : Abs m (P.plug X)) (hx : m.parent (X.ptr m.nil) = P.ptr m.nil)
    (hP : P.OK (n + (if yc = Color.BLACK then 1 else 0))) (hX1 : X.BH n) (hX2 : X.NoRedRed)
    (hc : P.color = Color.RED → yc = Color.BLACK) (hroot : P.rootColor yc = Color.BLACK) :
    ∃ m2 T2, (∀ fuel, P.depth + 2 ≤ fuel →
        Map.eraseFinish fuel m (X.ptr m.nil) yc = some m2) ∧
      Abs m2 T2 ∧ T2.RB ∧ T2.elems = (P.plug X).elems ∧ m2.map_size = m.map_size - 1 ∧
      m2.nil = m.nil ∧ m2.self = m.self ∧ m2.next = m.next ∧
      ∃ tr, (∀ fuel, P.depth + 2 ≤ fuel →
          Map.eraseFinishT fuel m (X.ptr m.nil) yc = some (m2, tr)) ∧
        ∀ e ∈ tr, e.Safe m.nil := by
  cases yc with
  | BLACK =>
    simp only [if_true] at hP
    have hb : X.blacken.NoRedRed := by
      cases X with
      | leaf => trivial
      | node l a c k v r => exact ⟨by simp, hX2.2⟩
    obtain ⟨m2, T2, f1, f2, f3, f4, f5, f6, f7, f8, tr, f9, f10⟩ :=
      eraseFixup_spec P.depth m P X n (le_refl _) h hx hX1 hb hP hroot
    refine ⟨{ m2 with map_size := m2.map_size - 1 }, T2, ?_, ?_, f3, f4, by simp [f8], f5, f7, f6,
      tr, ?_, f10⟩
    · intro fuel hf
      simp [Map.eraseFinish, f1 fuel hf]
    · exact ⟨f2.rep, f2.root, f2.nodup, f2.bound, f2.nil_lt, f2.nil_black, f2.nil_links⟩
    · intro fuel hf
      simp [Map.eraseFinishT, f9 fuel hf]
  | RED =>
    simp only [if_neg (by decide : ¬ Color.RED = Color.BLACK), Nat.add_zero] at hP
    have hpc : P.color = Color.RED → X.color = Color.BLACK := by
      intro hr; have := hc hr; cases this
    obtain ⟨g1, N, g2⟩ := Path.plug_ok P X n hP hX1 hX2 hpc
    have hpt : P ≠ Path.top := by
      rintro rfl
      simp at hroot
    refine ⟨{ m with map_size := m.map_size - 1 }, P.plug X, ?_, ?_,
      ⟨?_, g1, (Tree.equalBlackHeight_iff _).2 ⟨N, g2⟩⟩, rfl, rfl, rfl, rfl, rfl, [], ?_, ?_⟩
    · intro fuel _
      simp [Map.eraseFinish]
    · exact ⟨h.rep, h.root, h.nodup, h.bound, h.nil_lt, h.nil_black, h.nil_links⟩
    · rw [Path.color_plug, Path.rootColor_of_ne_top hpt X.color Color.RED]
      exact hroot
    · intro fuel _
      simp [Map.eraseFinishT]
    · intro e he; simp at he

theorem node_with_parent {n : Node K V} {y : Nat} (h : n.parent = y) :
    { n with parent := y } = n := by
  cases n; simp at h; simp [h]

/-- Lines 603-613 when the successor `y` is the right child of `z`. -/
theorem eraseSplice_child {m : Map K V} {p : Path K V} {l ry : Tree K V} {z y c cy k ky v vy}
    (h : Abs m (p.plug (Tree.node l z c k v (Tree.node Tree.leaf y cy ky vy ry))))
    (hl : l ≠ Tree.leaf) :
    Abs (m.eraseSplice z y) (p.plug (Tree.node l y c ky vy ry)) ∧
    (m.eraseSplice z y).parent (ry.ptr m.nil) = y ∧
    (m.eraseSplice z y).nil = m.nil ∧ (m.eraseSplice z y).next = m.next ∧
    (m.eraseSplice z y).self = m.self ∧ (m.eraseSplice z y).map_size = m.map_size := by
  have hz := zrep_iff.1 h
  have e1 : m.parent y = z := abs_parent_eq (Path.R l z c k v p) h
  have e2 : m.right y = ry.ptr m.nil := abs_right_eq (Path.R l z c k v p) h
  have hzc := zrep_read hz
  have ht := hz.tree
  simp only [Rep_node, Tree.ptr_node, Tree.ptr_leaf] at ht
  obtain ⟨hzn, -, hlr, hyn, hyc, -, hryr⟩ := ht
  have hnilry : m.nil ∉ ry.addrs := Rep_nil_not_mem hryr
  -- the state after `x->parent = y`
  have same1 : ∀ b, b ≠ m.nil → (m.setParent (ry.ptr m.nil) y).mem b = m.mem b := by
    intro b hb
    by_cases hb2 : b = ry.ptr m.nil
    · subst hb2
      rw [Map.setParent_mem_same]
      cases ry with
      | leaf => exact absurd rfl hb
      | node rl a rc rk rv rr =>
        simp only [Rep_node] at hryr
        exact node_with_parent (by simp [hryr.2.1])
    · exact Map.setParent_mem_ne _ _ hb2
  have hcol1 : ((m.setParent (ry.ptr m.nil) y).mem m.nil).color = Color.BLACK := by
    by_cases hb2 : m.nil = ry.ptr m.nil
    · have : ∀ b, b = ry.ptr m.nil →
          ((m.setParent (ry.ptr m.nil) y).mem b).color = (m.mem b).color := by
        intro b hb; subst hb; simp
      rw [this _ hb2]; exact hz.nil_black
    · rw [Map.setParent_mem_ne _ _ hb2]; exact hz.nil_black
  have hlk1 : ((m.setParent (ry.ptr m.nil) y).mem m.nil).left = m.nil ∧
      ((m.setParent (ry.ptr m.nil) y).mem m.nil).right = m.nil := by
    by_cases hb2 : m.nil = ry.ptr m.nil
    · have : ∀ b, b = ry.ptr m.nil →
          ((m.setParent (ry.ptr m.nil) y).mem b).left = (m.mem b).left ∧
          ((m.setParent (ry.ptr m.nil) y).mem b).right = (m.mem b).right := by
        intro b hb; subst hb; simp
      rw [(this _ hb2).1, (this _ hb2).2]; exact hz.nil_links
    · rw [Map.setParent_mem_ne _ _ hb2]; exact hz.nil_links
  have hpar1 : ((m.setParent (ry.ptr m.nil) y).mem (ry.ptr m.nil)).parent = y := by simp
  obtain ⟨f1, f2, f3, f4, f5, f6, f7, f8, f9, f10⟩ := zrep_facts hz
  have hnd := hz.nodup
  have hbd := hz.bound
  simp only [Tree.addrs_node, Tree.addrs_leaf, List.nil_append] at hnd hbd
  obtain ⟨s1, s2, s3, s4⟩ := @erase_splice K V (m.setParent (ry.ptr m.nil) y) p l
    ry z y c ky vy
    (RepPath_congr (fun b hb => same1 b (f10 b hb).2) hz.path)
    (by simpa using hz.root)
    (by rw [same1 z hzn, hzc]; rfl) (by rw [same1 z hzn, hzc]; rfl)
    (by rw [same1 z hzn, hzc])
    (by simpa using hzn) (by simpa using hyn)
    (by rw [same1 y hyn, hyc]; simp)
    (Rep_congr (fun b hb => same1 b (f8 b hb).2.2.2) hlr) hl
    (Rep_congr (fun b hb => same1 b (fun e => hnilry (e ▸ hb))) hryr)
    (by simpa using hnd) (by simpa using hbd) (by simpa using hz.nil_lt)
    (by simpa using hcol1) (by simpa using hlk1)
  simp only [Map.setParent_nil] at s1 s2 s3 s4
  have hm : m.eraseSplice z y =
      (((((m.setParent (ry.ptr m.nil) y).transplant z y).setLeft y (l.ptr m.nil)).setParent
        (l.ptr m.nil) y).setColor y c) := by
    unfold Map.eraseSplice
    simp only [e1, e2, if_true, s1, Map.left_setLeft_same, s2]
  rw [hm]
  refine ⟨zrep_iff.2 s3, ?_, by simp, by simp, by simp, by simp⟩
  have a3 : Abs (((((m.setParent (ry.ptr m.nil) y).transplant z y).setLeft y
      (l.ptr m.nil)).setParent (l.ptr m.nil) y).setColor y c)
      ((Path.R l y c ky vy p).plug ry) :=
    (@zrep_iff K V _ p (Tree.node l y c ky vy ry)).2 s3
  have := parent_focus (Path.R l y c ky vy p) (X := ry) a3 (fun _ => by
    simp only [Map.parent, Map.setColor_nil, Map.setParent_nil, Map.setLeft_nil,
      Map.transplant_nil, s4, Path.ptr_R]
    have hb2 : m.nil = ry.ptr m.nil := by simp [*]
    have : ∀ b, b = ry.ptr m.nil →
          ((m.setParent (ry.ptr m.nil) y).mem b).parent = y := by
        intro b hb; subst hb; simp
    exact this _ hb2)
  simpa using this

theorem plug_ne_leaf {q : Path K V} (hq : q ≠ Path.top) : ∀ t : Tree K V, q.plug t ≠ Tree.leaf := by
  induction q with
  | top => exact absurd rfl hq
  | L a c k v r up ih =>
    intro t
    cases up with
    | top => simp
    | _ => exact ih (by simp) _
  | R l a c k v up ih =>
    intro t
    cases up with
    | top => simp
    | _ => exact ih (by simp) _

theorem rootPtr_of_ne_top {q : Path K V} (hq : q ≠ Path.top) (a b : Nat) :
    q.rootPtr a = q.rootPtr b := by
  cases q with
  | top => exact absurd rfl hq
  | L _ _ _ _ _ _ => rfl
  | R _ _ _ _ _ _ => rfl

/-- Lines 607-613: the detached node `y` adopts the right subtree of `z`, then takes the
position, the left subtree and the colour of `z`. -/
theorem erase_splice_adopt {m : Map K V} {p : Path K V} {l r2 : Tree K V} {z y c k ky v vy}
    (z1 : ZRep m p (Tree.node l z c k v r2)) (hl : l ≠ Tree.leaf) (hr : r2 ≠ Tree.leaf)
    (hyn : y ≠ m.nil) (hyout : y ∉ p.addrs ++ (Tree.node l z c k v r2).addrs)
    (hyb : y < m.next) (hyk : (m.mem y).key = ky ∧ (m.mem y).val = vy) :
    (((m.setRight y (r2.ptr m.nil)).setParent (r2.ptr m.nil) y).transplant z y).left z =
      l.ptr m.nil ∧
    (((((m.setRight y (r2.ptr m.nil)).setParent (r2.ptr m.nil) y).transplant z y).setLeft y
      (l.ptr m.nil)).setParent (l.ptr m.nil) y).color z = c ∧
    ZRep ((((((m.setRight y (r2.ptr m.nil)).setParent (r2.ptr m.nil) y).transplant z y).setLeft y
      (l.ptr m.nil)).setParent (l.ptr m.nil) y).setColor y c) p (Tree.node l y c ky vy r2) ∧
    ((((((m.setRight y (r2.ptr m.nil)).setParent (r2.ptr m.nil) y).transplant z y).setLeft y
      (l.ptr m.nil)).setParent (l.ptr m.nil) y).setColor y c).mem m.nil = m.mem m.nil := by
  have hrp := tree_ptr_mem m.nil hr
  simp only [Tree.addrs_node, List.mem_append, List.mem_cons, not_or] at hyout
  obtain ⟨o1, o2, o3, o4⟩ := hyout
  obtain ⟨f1, f2, f3, f4, f5, f6, f7, f8, f9, f10⟩ := zrep_facts z1
  have hrpn : r2.ptr m.nil ≠ m.nil := (f9 _ hrp).2.2.2
  have hrpz : r2.ptr m.nil ≠ z := (f9 _ hrp).2.2.1
  have hrpy : r2.ptr m.nil ≠ y := fun e => o4 (e ▸ hrp)
  have ht := z1.tree
  simp only [Rep_node] at ht
  obtain ⟨-, hzc, hlr, hrr⟩ := ht
  have same3 : ∀ b, b ≠ y → b ≠ r2.ptr m.nil →
      ((m.setRight y (r2.ptr m.nil)).setParent (r2.ptr m.nil) y).mem b = m.mem b := by
    intro b h1 h2; simp [h1, h2]
  obtain ⟨s1, s2, s3, s4⟩ := @erase_splice K V
    ((m.setRight y (r2.ptr m.nil)).setParent (r2.ptr m.nil) y) p l
    r2 z y c ky vy
    (RepPath_congr (fun b hb => same3 b (fun e => o1 (e ▸ hb))
      (fun e => (f9 _ hrp).1 (e ▸ hb))) (by simpa using z1.path))
    (by simpa using z1.root)
    (by rw [same3 z (Ne.symm o3) (Ne.symm hrpz), hzc]; rfl)
    (by rw [same3 z (Ne.symm o3) (Ne.symm hrpz), hzc]; rfl)
    (by rw [same3 z (Ne.symm o3) (Ne.symm hrpz), hzc])
    f1 hyn
    (by simp [hrpy, Ne.symm hrpy, hyk])
    (Rep_congr (fun b hb => same3 b (fun e => o2 (e ▸ hb))
      (fun e => (f8 b hb).2.1 (e ▸ hrp))) hlr) hl
    (by
      refine Rep_congr (fun b hb => ?_) (Rep_setParent f7 hrr)
      have hby : b ≠ y := fun e => o4 (e ▸ hb)
      simp only [Map.setParent_nil, Map.setRight_nil]
      by_cases hb2 : b = r2.ptr m.nil
      · rw [if_pos hb2, hb2]; simp [hrpy]
      · rw [if_neg hb2]; exact same3 b hby hb2)
    (by
      have hnd := z1.nodup
      simp only [Tree.addrs_node, List.nodup_append, List.nodup_cons, List.mem_append,
        List.mem_cons, not_or, List.disjoint_append_right, List.disjoint_cons_right] at hnd ⊢
      obtain ⟨n1, ⟨n2, ⟨n3, n4⟩, n5, n6⟩, n7, n8, n9⟩ := hnd
      exact ⟨n1, ⟨n2, ⟨⟨Ne.symm o3, n3⟩, o4, n4⟩, n5, fun e => o2 e, n6⟩, n7, n8,
        fun e => o1 e, n9⟩)
    (by
      intro a ha
      simp only [Map.setParent_next, Map.setRight_next]
      simp only [List.mem_append, List.mem_cons] at ha
      rcases ha with ha | ha | rfl | rfl | ha
      · exact z1.bound a (by simp [ha])
      · exact z1.bound a (by simp [ha])
      · exact z1.bound a (by simp)
      · exact hyb
      · exact z1.bound a (by simp [ha]))
    z1.nil_lt
    (by
      have := z1.nil_black
      show (((m.setRight y (r2.ptr m.nil)).setParent (r2.ptr m.nil) y).mem m.nil).color = _
      rw [same3 _ (Ne.symm hyn) (Ne.symm hrpn)]; exact this)
    (by
      have := z1.nil_links
      show (((m.setRight y (r2.ptr m.nil)).setParent (r2.ptr m.nil) y).mem m.nil).left = m.nil ∧
        (((m.setRight y (r2.ptr m.nil)).setParent (r2.ptr m.nil) y).mem m.nil).right = m.nil
      rw [same3 _ (Ne.symm hyn) (Ne.symm hrpn)]; exact this)
  refine ⟨s1, s2, s3, ?_⟩
  rw [show ((m.setRight y (r2.ptr m.nil)).setParent (r2.ptr m.nil) y).nil = m.nil from rfl] at s4
  rw [s4]
  exact same3 _ (Ne.symm hyn) (Ne.symm hrpn)

/-- Lines 606-613 when the successor `y` lies deeper in the right subtree of `z`. -/
theorem eraseSplice_deep {m : Map K V} {p q : Path K V} {l ry : Tree K V}
    {z y c cy k ky v vy}
    (h : Abs m (p.plug (Tree.node l z c k v (q.plug (Tree.node Tree.leaf y cy ky vy ry)))))
    (hl : l ≠ Tree.leaf) (hq : q ≠ Path.top) :
    Abs (m.eraseSplice z y) (p.plug (Tree.node l y c ky vy (q.plug ry))) ∧
    (m.eraseSplice z y).parent (ry.ptr m.nil) = q.ptr m.nil ∧
    (m.eraseSplice z y).nil = m.nil ∧ (m.eraseSplice z y).next = m.next ∧
    (m.eraseSplice z y).self = m.self ∧ (m.eraseSplice z y).map_size = m.map_size := by
  have hQ : Abs m ((q.comp (Path.R l z c k v p)).plug (Tree.node Tree.leaf y cy ky vy ry)) := by
    rw [Path.plug_comp]; exact h
  have zQ := zrep_iff.1 hQ
  obtain ⟨y1, y2, -, y4, -, -, -, -, -, -⟩ := zrep_facts zQ
  have e1 : m.parent y = q.ptr m.nil := by
    rw [abs_parent_eq _ hQ, Path.ptr_comp_of_ne_top hq]
  have e2 : m.right y = ry.ptr m.nil := abs_right_eq _ hQ
  have hyc := zrep_read zQ
  obtain ⟨t1, t2, t3, -, t5⟩ := zrep_transplant_right zQ
  have hpc : p.plug (Tree.node l z c k v (q.plug ry)) =
      (q.comp (Path.R l z c k v p)).plug ry := by
    rw [Path.plug_comp]; rfl
  have a1 : Abs (m.transplant y (ry.ptr m.nil)) (p.plug (Tree.node l z c k v (q.plug ry))) := by
    rw [hpc]; exact zrep_iff.2 t1
  have z1 := zrep_iff.1 a1
  have hr1 : (q.plug ry) ≠ Tree.leaf := plug_ne_leaf hq ry
  have hy_out : y ∉ p.addrs ++ (Tree.node l z c k v (q.plug ry)).addrs := by
    intro hm
    have : y ∈ (p.plug (Tree.node l z c k v (q.plug ry))).addrs :=
      (path_addrs_plug_perm _ _).mem_iff.2 hm
    rw [hpc, path_mem_addrs_plug] at this
    rcases this with h1 | h1
    · exact y2 h1
    · exact y4 h1
  have hn1 : (m.transplant y (ry.ptr m.nil)).nil = m.nil := Map.transplant_nil _ _ _
  have e3 : (m.transplant y (ry.ptr m.nil)).right z =
      (q.plug ry).ptr (m.transplant y (ry.ptr m.nil)).nil := abs_right_eq p a1
  have hzq : z ≠ q.ptr m.nil := by
    intro e
    obtain ⟨-, -, -, f4, -, -, -, -, -, -⟩ := zrep_facts z1
    have h1 : q.ptr m.nil ∈ (q.plug ry).addrs := by
      rw [path_mem_addrs_plug]; exact Or.inl (path_ptr_mem m.nil hq)
    exact f4 (e ▸ h1)
  obtain ⟨s1, s2, s3, s4⟩ := @erase_splice_adopt K V _ _ _ _ _ _ _ _ ky _ vy z1 hl hr1
    (by rw [hn1]; exact y1) hy_out
    (by simpa using zQ.bound y (by simp)) (by rw [t3, hyc]; exact ⟨rfl, rfl⟩)
  simp only [hn1] at s1 s2 s3 s4 e3
  have hm : m.eraseSplice z y =
      ((((((m.transplant y (ry.ptr m.nil)).setRight y ((q.plug ry).ptr m.nil)).setParent
        ((q.plug ry).ptr m.nil) y).transplant z y).setLeft y (l.ptr m.nil)).setParent
        (l.ptr m.nil) y).setColor y c := by
    unfold Map.eraseSplice
    simp only [e1, e2, if_neg (Ne.symm hzq), e3, Map.right_setRight_same, s1,
      Map.left_setLeft_same, s2]
  rw [hm]
  refine ⟨?_, ?_, by simp, by simp, by simp, by simp⟩
  · exact zrep_iff.2 s3
  · have a3 := (@zrep_iff K V _ p (Tree.node l y c ky vy (q.plug ry))).2 s3
    have hpc2 : p.plug (Tree.node l y c ky vy (q.plug ry)) =
        (q.comp (Path.R l y c ky vy p)).plug ry := by
      rw [Path.plug_comp]; rfl
    rw [hpc2] at a3
    have := parent_focus (q.comp (Path.R l y c ky vy p)) (X := ry) a3 (fun hleaf => by
      subst hleaf
      have hnf : ∀ mm : Map K V, mm.parent m.nil = (mm.mem m.nil).parent := fun _ => rfl
      simp only [Map.setColor_nil, Map.setParent_nil, Map.setLeft_nil,
        Map.transplant_nil, Map.setRight_nil]
      rw [hnf, s4, Path.ptr_comp_of_ne_top hq]
      have := t2
      rw [Path.ptr_comp_of_ne_top hq] at this
      exact this)
    rw [Path.ptr_comp_of_ne_top hq] at this
    simpa using this

end sjtu

namespace sjtu

variable {K V : Type}

/-! ## `erase` of a node of a red-black tree -/

/-- The colouring facts around one node of a red-black tree. -/
theorem rb_focus {p : Path K V} {l r : Tree K V} {a : Nat} {c : Color} {k : K} {v : V}
    (hrb : (p.plug (Tree.node l a c k v r)).RB) :
    ∃ n, p.OK (n + (if c = Color.BLACK then 1 else 0)) ∧ l.BH n ∧ r.BH n ∧ l.NoRedRed ∧
      r.NoRedRed ∧ (p.color = Color.RED → c = Color.BLACK) ∧
      p.rootColor c = Color.BLACK := by
  obtain ⟨hroot, hnr, hbh⟩ := hrb
  obtain ⟨N, hN⟩ := (Tree.equalBlackHeight_iff _).1 hbh
  obtain ⟨n0, o1, o2, o3, o4⟩ := Path.ok_of_plug p _ N hnr hN
  rw [Path.color_plug] at hroot
  simp only [Tree.color_node] at hroot o4
  simp only [Tree.NoRedRed_node] at o3
  cases c with
  | RED =>
    rw [Tree.BH_red] at o2
    exact ⟨n0, by simpa using o1, o2.1, o2.2, o3.2.1, o3.2.2, o4, hroot⟩
  | BLACK =>
    rw [Tree.BH_black] at o2
    obtain ⟨n2, rfl, j1, j2⟩ := o2
    exact ⟨n2, by simpa using o1, j1, j2, o3.2.1, o3.2.2, o4, hroot⟩

theorem abs_child_ne_nil_left {m : Map K V} {p : Path K V} {l r : Tree K V} {a c k v}
    (h : Abs m (p.plug (Tree.node l a c k v r))) (hl : l ≠ Tree.leaf) : m.left a ≠ m.nil := by
  rw [abs_left_eq p h]
  obtain ⟨-, -, -, -, -, -, -, f8, -, -⟩ := zrep_facts (zrep_iff.1 h)
  exact (f8 _ (tree_ptr_mem m.nil hl)).2.2.2

theorem abs_child_ne_nil_right {m : Map K V} {p : Path K V} {l r : Tree K V} {a c k v}
    (h : Abs m (p.plug (Tree.node l a c k v r))) (hr : r ≠ Tree.leaf) : m.right a ≠ m.nil := by
  rw [abs_right_eq p h]
  obtain ⟨-, -, -, -, -, -, -, -, f9, -⟩ := zrep_facts (zrep_iff.1 h)
  exact (f9 _ (tree_ptr_mem m.nil hr)).2.2.2

/-- Lines 588-618 of `erase` on a node `z` of a red-black tree: the node is removed, every
other element stays in place, and the result is a red-black tree again. -/
theorem eraseNode_spec {m : Map K V} {p : Path K V} {l r : Tree K V} {z : Nat} {c : Color}
    {k : K} {v : V}
    (h : Abs m (p.plug (Tree.node l z c k v r))) (hrb : (p.plug (Tree.node l z c k v r)).RB) :
    ∃ m2 T2, (∀ fuel, (p.plug (Tree.node l z c k v r)).height + 2 ≤ fuel →
        m.eraseNode fuel z = some m2) ∧
      Abs m2 T2 ∧ T2.RB ∧ T2.elems = p.pre ++ (l.elems ++ r.elems) ++ p.post ∧
      m2.map_size = m.map_size - 1 ∧ m2.nil = m.nil ∧ m2.self = m.self ∧
      m2.next = m.next ∧
      ∃ tr, (∀ fuel, (p.plug (Tree.node l z c k v r)).height + 2 ≤ fuel →
          m.eraseNodeT fuel z = some (m2, tr)) ∧
        ∀ e ∈ tr, e.Safe m.nil := by
  have hz := zrep_iff.1 h
  have hht := height_plug p (Tree.node l z c k v r)
  by_cases hl : l = Tree.leaf
  · subst hl
    obtain ⟨n, o1, -, o3, -, o5, o7, o8⟩ := rb_focus hrb
    obtain ⟨t1, t2, -, -, -⟩ := zrep_transplant_right hz
    have a1 : Abs (m.transplant z (r.ptr m.nil)) (p.plug r) := zrep_iff.2 t1
    have hn : (m.transplant z (r.ptr m.nil)).nil = m.nil := Map.transplant_nil _ _ _
    obtain ⟨m2, T2, g1, g2, g3, g4, g5, g6, g7, g8, tr, g9, g10⟩ :=
      @eraseFinish_spec K V _ _ _ c n a1 (by rw [hn]; exact t2) o1 o3 o5 o7 o8
    refine ⟨m2, T2, ?_, g2, g3, ?_, ?_, ?_, ?_, ?_, tr, ?_, ?_⟩
    · intro fuel hf
      rw [Map.eraseNode_left_nil fuel m z (abs_left_eq p h), abs_right_eq p h,
        abs_color_eq p h]
      have := g1 fuel (by simp only [Tree.height] at hht; omega)
      rw [hn] at this; exact this
    · rw [g4, Path.elems_plug]; simp
    · rw [g5, Map.transplant_map_size]
    · rw [g6, hn]
    · rw [g7, Map.transplant_self]
    · rw [g8, Map.transplant_next]
    · intro fuel hf
      rw [Map.eraseNodeT_left_nil fuel m z (abs_left_eq p h), abs_right_eq p h,
        abs_color_eq p h]
      have := g9 fuel (by simp only [Tree.height] at hht; omega)
      rw [hn] at this; exact this
    · rw [hn] at g10; exact g10
  by_cases hr : r = Tree.leaf
  · subst hr
    obtain ⟨n, o1, o3, -, o5, -, o7, o8⟩ := rb_focus hrb
    obtain ⟨t1, t2, -, -, -⟩ := zrep_transplant_left hz
    have a1 : Abs (m.transplant z (l.ptr m.nil)) (p.plug l) := zrep_iff.2 t1
    have hn : (m.transplant z (l.ptr m.nil)).nil = m.nil := Map.transplant_nil _ _ _
    obtain ⟨m2, T2, g1, g2, g3, g4, g5, g6, g7, g8, tr, g9, g10⟩ :=
      @eraseFinish_spec K V _ _ _ c n a1 (by rw [hn]; exact t2) o1 o3 o5 o7 o8
    refine ⟨m2, T2, ?_, g2, g3, ?_, ?_, ?_, ?_, ?_, tr, ?_, ?_⟩
    · intro fuel hf
      rw [Map.eraseNode_right_nil fuel m z (abs_child_ne_nil_left h hl) (abs_right_eq p h),
        abs_left_eq p h, abs_color_eq p h]
      have := g1 fuel (by simp only [Tree.height] at hht; omega)
      rw [hn] at this; exact this
    · rw [g4, Path.elems_plug]; simp
    · rw [g5, Map.transplant_map_size]
    · rw [g6, hn]
    · rw [g7, Map.transplant_self]
    · rw [g8, Map.transplant_next]
    · intro fuel hf
      rw [Map.eraseNodeT_right_nil fuel m z (abs_child_ne_nil_left h hl) (abs_right_eq p h),
        abs_left_eq p h, abs_color_eq p h]
      have := g9 fuel (by simp only [Tree.height] at hht; omega)
      rw [hn] at this; exact this
    · rw [hn] at g10; exact g10
  obtain ⟨q, ry, y, cy, ky, vy, hr_eq, hqpre, hqd, -, hmin⟩ :=
    minimum_spec r (Path.R l z c k v p) hr h
  have hnl := abs_child_ne_nil_left h hl
  have hnr := abs_child_ne_nil_right h hr
  have hrz := abs_right_eq p h
  subst hr_eq
  have hQ : Abs m ((q.comp (Path.R l z c k v p)).plug (Tree.node Tree.leaf y cy ky vy ry)) := by
    rw [Path.plug_comp]; exact h
  have hrbQ : ((q.comp (Path.R l z c k v p)).plug (Tree.node Tree.leaf y cy ky vy ry)).RB := by
    rw [Path.plug_comp]; exact hrb
  obtain ⟨n, o1, -, o3, -, o5, o7, o8⟩ := rb_focus hrbQ
  have o1b : (q.comp (Path.R l y c ky vy p)).OK (n + (if cy = Color.BLACK then 1 else 0)) :=
    @Path.ok_comp_congr K V q (Path.R l z c k v p) (Path.R l y c ky vy p) rfl
      (fun _ hh => hh) _ o1
  have o7b : (q.comp (Path.R l y c ky vy p)).color = Color.RED → cy = Color.BLACK := by
    rw [@Path.color_comp_congr K V q (Path.R l y c ky vy p) (Path.R l z c k v p) rfl]
    exact o7
  have o8b : (q.comp (Path.R l y c ky vy p)).rootColor cy = Color.BLACK := by
    rw [Path.rootColor_comp] at o8 ⊢
    exact o8
  have hcomb : Abs (m.eraseSplice z y) ((q.comp (Path.R l y c ky vy p)).plug ry) ∧
      (m.eraseSplice z y).parent (ry.ptr m.nil) = (q.comp (Path.R l y c ky vy p)).ptr m.nil ∧
      (m.eraseSplice z y).nil = m.nil ∧ (m.eraseSplice z y).next = m.next ∧
      (m.eraseSplice z y).self = m.self ∧ (m.eraseSplice z y).map_size = m.map_size := by
    by_cases hq : q = Path.top
    · subst hq
      exact eraseSplice_child h hl
    · obtain ⟨a, b, c⟩ := eraseSplice_deep h hl hq
      exact ⟨by rw [Path.plug_comp]; exact a, by rw [Path.ptr_comp_of_ne_top hq]; exact b, c⟩
  obtain ⟨a1, a2, hn, hnx, hsf, hsz⟩ := hcomb
  obtain ⟨m2, T2, g1, g2, g3, g4, g5, g6, g7, g8, tr, g9, g10⟩ :=
    @eraseFinish_spec K V _ _ _ cy n a1 (by rw [hn]; exact a2) o1b o3 o5 o7b o8b
  refine ⟨m2, T2, ?_, g2, g3, ?_, ?_, ?_, ?_, ?_, tr, ?_, ?_⟩
  · intro fuel hf
    have hmin2 := hmin fuel (by
      simp only [Tree.height] at hht; omega)
    rw [← hrz] at hmin2
    rw [Map.eraseNode_two fuel m z y hnl hnr hmin2, abs_right_eq _ hQ, abs_color_eq _ hQ]
    have := g1 fuel (by
      rw [Path.depth_comp]
      simp only [Tree.height, Path.depth_R] at hht ⊢; omega)
    rw [hn] at this; exact this
  · rw [g4, Path.plug_comp]
    simp [Path.elems_plug, hqpre]
  · rw [g5, hsz]
  · rw [g6, hn]
  · rw [g7, hsf]
  · rw [g8, hnx]
  · intro fuel hf
    have hmin2 := hmin fuel (by
      simp only [Tree.height] at hht; omega)
    rw [← hrz] at hmin2
    rw [Map.eraseNodeT_two fuel m z y hnl hnr hmin2, abs_right_eq _ hQ, abs_color_eq _ hQ]
    have := g9 fuel (by
      rw [Path.depth_comp]
      simp only [Tree.height, Path.depth_R] at hht ⊢; omega)
    rw [hn] at this; exact this
  · rw [hn] at g10; exact g10

end sjtu

namespace sjtu

variable {K V : Type}

/-! ## Fuel: a loop that returns with some fuel returns the same with more -/

theorem fuelMono_le {α : Type} {f : Nat → Option α} (hf : FuelMono f) {n n2 : Nat} {r : α}
    (hle : n ≤ n2) (h : f n = some r) : f n2 = some r := by
  induction hle with
  | refl => exact h
  | step _ ih => exact hf _ _ ih

/-- Two runs that both return give the same result. -/
theorem fuelMono_unique {α : Type} {f : Nat → Option α} (hf : FuelMono f) {n n2 : Nat}
    {r r2 : α} (h : f n = some r) (h2 : f n2 = some r2) : r = r2 := by
  have a := fuelMono_le hf (Nat.le_max_left n n2) h
  have b := fuelMono_le hf (Nat.le_max_right n n2) h2
  rw [a] at b
  exact Option.some.inj b

namespace Map

theorem insertWalk_mono (lt : K → K → Bool) (m : Map K V) (key : K) :
    ∀ y x, ∀ n r, m.insertWalk lt key n y x = some r → m.insertWalk lt key (n + 1) y x = some r := by
  intro y x n
  induction n generalizing y x with
  | zero => intro r h; simp [insertWalk] at h
  | succ n ih =>
    intro r h
    rw [insertWalk] at h ⊢
    split_ifs at h ⊢
    · exact ih _ _ _ h
    · exact ih _ _ _ h
    · exact h
    · exact h

theorem findHelper_mono (lt : K → K → Bool) (m : Map K V) (key : K) :
    ∀ x, ∀ n r, m.findHelper lt key n x = some r → m.findHelper lt key (n + 1) x = some r := by
  intro x n
  induction n generalizing x with
  | zero => intro r h; simp [findHelper] at h
  | succ n ih =>
    intro r h
    rw [findHelper] at h ⊢
    split_ifs at h ⊢
    · exact ih _ _ h
    · exact ih _ _ h
    · exact h
    · exact h

theorem insertFixup_mono : ∀ (m : Map K V) (z : Nat),
    ∀ n r, insertFixup n m z = some r → insertFixup (n + 1) m z = some r := by
  intro m z n
  induction n generalizing m z with
  | zero => intro r h; simp [insertFixup] at h
  | succ n ih =>
    intro r h
    rw [insertFixup] at h ⊢
    split_ifs at h ⊢
    · exact ih _ _ _ h
    · exact h

theorem eraseFixup_mono : ∀ (m : Map K V) (x : Nat),
    ∀ n r, eraseFixup n m x = some r → eraseFixup (n + 1) m x = some r := by
  intro m x n
  induction n generalizing m x with
  | zero => intro r h; simp [eraseFixup] at h
  | succ n ih =>
    intro r h
    rw [eraseFixup] at h ⊢
    split_ifs at h ⊢
    · exact ih _ _ _ h
    · exact h

theorem minimum_mono (m : Map K V) : ∀ x,
    ∀ n r, m.minimum n x = some r → m.minimum (n + 1) x = some r := by
  intro x n
  induction n generalizing x with
  | zero => intro r h; simp [minimum] at h
  | succ n ih =>
    intro r h
    rw [minimum] at h ⊢
    split_ifs at h ⊢
    · exact ih _ _ h
    · exact h

theorem climbRight_mono (m : Map K V) :
    ∀ c p, ∀ n r, m.climbRight n c p = some r → m.climbRight (n + 1) c p = some r := by
  intro c p n
  induction n generalizing c p with
  | zero => intro r h; simp [climbRight] at h
  | succ n ih =>
    intro r h
    rw [climbRight] at h ⊢
    split_ifs at h ⊢
    · exact ih _ _ _ h
    · exact h

theorem clearHelper_mono (m : Map K V) : ∀ x,
    ∀ n r, m.clearHelper n x = some r → m.clearHelper (n + 1) x = some r := by
  intro x n
  induction n generalizing x with
  | zero => intro r h; simp [clearHelper] at h
  | succ n ih =>
    intro r h
    rw [clearHelper] at h ⊢
    split_ifs at h ⊢
    · exact h
    · cases h1 : m.clearHelper n (m.left x) with
      | none => rw [h1] at h; cases h
      | some u =>
        rw [h1] at h
        rw [ih _ _ h1]
        exact ih _ _ h

theorem insert_mono (lt : K → K → Bool) (m : Map K V) (value : K × V) :
    ∀ n r, m.insert lt n value = some r → m.insert lt (n + 1) value = some r := by
  intro n r h
  rw [insert_eq] at h ⊢
  cases h1 : m.insertWalk lt value.1 n m.nil m.root with
  | none => rw [h1] at h; cases h
  | some yx =>
    obtain ⟨y, x⟩ := yx
    rw [h1] at h
    rw [insertWalk_mono lt m value.1 _ _ n _ h1]
    simp only at h ⊢
    split_ifs at h ⊢ with hx
    · exact h
    · cases h2 : (Map.insertLink lt m value y).insertFixup n m.next with
      | none => rw [h2] at h; cases h
      | some m4 =>
        rw [h2] at h
        rw [insertFixup_mono _ _ n _ h2]
        exact h

theorem eraseNode_mono (m : Map K V) (z : Nat) :
    ∀ n r, m.eraseNode n z = some r → m.eraseNode (n + 1) z = some r := by
  intro n r h
  have hfin : ∀ (m1 : Map K V) (x : Nat) (c : Color),
      ∀ n r, eraseFinish n m1 x c = some r → eraseFinish (n + 1) m1 x c = some r := by
    intro m1 x c n r h
    simp only [eraseFinish] at h ⊢
    split_ifs at h ⊢ with hc
    · cases h1 : eraseFixup n m1 x with
      | none => rw [h1] at h; cases h
      | some m2 => rw [h1] at h; rw [eraseFixup_mono _ _ n _ h1]; exact h
    · exact h
  by_cases hl : m.left z = m.nil
  · rw [eraseNode_left_nil _ _ _ hl] at h ⊢
    exact hfin _ _ _ _ _ h
  by_cases hr : m.right z = m.nil
  · rw [eraseNode_right_nil _ _ _ hl hr] at h ⊢
    exact hfin _ _ _ _ _ h
  cases h1 : m.minimum n (m.right z) with
  | none =>
    exfalso
    unfold eraseNode at h
    simp only [hl, hr, h1, if_false] at h
    cases h
  | some y =>
    rw [eraseNode_two _ _ _ y hl hr h1] at h
    rw [eraseNode_two _ _ _ y hl hr (minimum_mono m _ n _ h1)]
    exact hfin _ _ _ _ _ h

theorem erase_mono (m : Map K V) (pos : Iter) :
    ∀ n r, m.erase n pos = some r → m.erase (n + 1) pos = some r := by
  intro n r h
  simp only [erase] at h ⊢
  split_ifs at h ⊢ with hc
  · exact h
  · cases h1 : m.eraseNode n pos.current with
    | none => rw [h1] at h; cases h
    | some m2 => rw [h1] at h; rw [eraseNode_mono m _ n _ h1]; exact h

theorem clear_mono (m : Map K V) : ∀ n r, m.clear n = some r → m.clear (n + 1) = some r := by
  intro n r h
  simp only [clear] at h ⊢
  cases h1 : m.clearHelper n m.root with
  | none => rw [h1] at h; cases h
  | some u => rw [h1] at h; rw [clearHelper_mono m _ n _ h1]; exact h

theorem index_mono (lt : K → K → Bool) (dflt : V) (m : Map K V) (key : K) :
    ∀ n r, m.index lt dflt n key = some r → m.index lt dflt (n + 1) key = some r := by
  intro n r h
  simp only [index] at h ⊢
  cases h1 : m.findHelper lt key n m.root with
  | none => rw [h1] at h; cases h
  | some x =>
    rw [h1] at h
    rw [findHelper_mono lt m key _ n _ h1]
    simp only at h ⊢
    split_ifs at h ⊢ with hx
    · exact h
    · cases h2 : m.insert lt n (key, dflt) with
      | none => rw [h2] at h; cases h
      | some res => rw [h2] at h; rw [insert_mono lt m _ n _ h2]; exact h

theorem at_mono (lt : K → K → Bool) (m : Map K V) (key : K) :
    ∀ n r, m.at_ lt n key = some r → m.at_ lt (n + 1) key = some r := by
  intro n r h
  simp only [at_] at h ⊢
  cases h1 : m.findHelper lt key n m.root with
  | none => rw [h1] at h; cases h
  | some x => rw [h1] at h; rw [findHelper_mono lt m key _ n _ h1]; exact h

theorem find_mono (lt : K → K → Bool) (m : Map K V) (key : K) :
    ∀ n r, m.find lt n key = some r → m.find lt (n + 1) key = some r := by
  intro n r h
  simp only [find] at h ⊢
  cases h1 : m.findHelper lt key n m.root with
  | none => rw [h1] at h; cases h
  | some x => rw [h1] at h; rw [findHelper_mono lt m key _ n _ h1]; exact h

theorem count_mono (lt : K → K → Bool) (m : Map K V) (key : K) :
    ∀ n r, m.count lt n key = some r → m.count lt (n + 1) key = some r := by
  intro n r h
  simp only [count] at h ⊢
  cases h1 : m.findHelper lt key n m.root with
  | none => rw [h1] at h; cases h
  | some x => rw [h1] at h; rw [findHelper_mono lt m key _ n _ h1]; exact h

end Map

end sjtu

namespace sjtu

variable {K V : Type}

/-! ## Elements of the represented tree -/

/-- Every element of the tree is the focus of a path. -/
theorem locate_elem (e : Nat × K × V) (t : Tree K V) : ∀ (P : Path K V), e ∈ t.elems →
    ∃ (p : Path K V) (l : Tree K V) (c : Color) (r : Tree K V),
      P.plug t = p.plug (Tree.node l e.1 c e.2.1 e.2.2 r) := by
  induction t with
  | leaf => intro P h; simp at h
  | node l a c k v r ihl ihr =>
    intro P h
    simp only [Tree.elems_node, List.mem_append, List.mem_cons] at h
    rcases h with h | rfl | h
    · exact ihl (Path.L a c k v r P) h
    · exact ⟨P, l, c, r, rfl⟩
    · exact ihr (Path.R l a c k v P) h

/-- The heap holds the key and the value of every element at its address. -/
theorem abs_elem {m : Map K V} {T : Tree K V} (h : Abs m T) {e : Nat × K × V}
    (he : e ∈ T.elems) : e.1 ≠ m.nil ∧ m.key e.1 = e.2.1 ∧ m.val e.1 = e.2.2 := by
  obtain ⟨p, l, c, r, hp⟩ := locate_elem e T Path.top he
  simp only [Path.plug_top] at hp
  rw [hp] at h
  exact ⟨abs_ne_nil h, abs_key_eq p h, abs_val_eq p h⟩

theorem mem_addrs_iff {t : Tree K V} {a : Nat} : a ∈ t.addrs ↔ ∃ e ∈ t.elems, e.1 = a := by
  simp [Tree.addrs]

theorem tree_ptr_ne_nil {m : Map K V} {p : Path K V} {t : Tree K V} (h : Abs m (p.plug t))
    (ht : t ≠ Tree.leaf) : t.ptr m.nil ≠ m.nil := by
  cases t with
  | leaf => exact absurd rfl ht
  | node l a c k v r => exact abs_ne_nil h

theorem tree_ptr_eq_nil_iff {m : Map K V} {p : Path K V} {t : Tree K V} (h : Abs m (p.plug t)) :
    t.ptr m.nil = m.nil ↔ t = Tree.leaf := by
  constructor
  · intro e
    by_contra hne
    exact tree_ptr_ne_nil h hne e
  · rintro rfl; rfl

/-- Every subtree that is not a leaf hangs below `root`. -/
theorem inTree_of_plug {m : Map K V} (p : Path K V) : ∀ (t : Tree K V), Abs m (p.plug t) →
    t ≠ Tree.leaf → m.InTree (t.ptr m.nil) := by
  induction p with
  | top =>
    intro t h ht
    have hr : m.root = t.ptr m.nil := h.root
    rw [← hr]
    exact Map.InTree.root (by rw [hr]; exact tree_ptr_ne_nil (p := Path.top) h ht)
  | L a c k v r up ih =>
    intro t h ht
    have h2 : Abs m (up.plug (Tree.node t a c k v r)) := h
    have := ih _ h2 (by simp)
    simp only [Tree.ptr_node] at this
    have e := abs_left_eq up h2
    rw [← e]
    exact Map.InTree.left this (by rw [e]; exact tree_ptr_ne_nil h ht)
  | R l a c k v up ih =>
    intro t h ht
    have h2 : Abs m (up.plug (Tree.node l a c k v t)) := h
    have := ih _ h2 (by simp)
    simp only [Tree.ptr_node] at this
    have e := abs_right_eq up h2
    rw [← e]
    exact Map.InTree.right this (by rw [e]; exact tree_ptr_ne_nil h ht)

theorem mem_addrs_plug_of_mem {p : Path K V} {t : Tree K V} {a : Nat} (h : a ∈ t.addrs) :
    a ∈ (p.plug t).addrs := by
  rw [path_mem_addrs_plug]; exact Or.inr h

/-- The elements of the container are the nodes of the represented tree. -/
theorem inTree_iff {m : Map K V} {T : Tree K V} (h : Abs m T) (x : Nat) :
    m.InTree x ↔ x ∈ T.addrs := by
  constructor
  · intro hx
    induction hx with
    | root hr =>
      rw [h.root] at hr ⊢
      exact tree_ptr_mem m.nil (fun e => hr (by rw [e]; rfl))
    | left _ hl ih =>
      obtain ⟨p, l, c, k, v, r, hp⟩ := locate _ T Path.top ih
      simp only [Path.plug_top] at hp
      rw [hp] at h ⊢
      rw [abs_left_eq p h] at hl ⊢
      have hne : l ≠ Tree.leaf := fun e => hl (by rw [e]; rfl)
      exact mem_addrs_plug_of_mem (by simp [tree_ptr_mem m.nil hne])
    | right _ hl ih =>
      obtain ⟨p, l, c, k, v, r, hp⟩ := locate _ T Path.top ih
      simp only [Path.plug_top] at hp
      rw [hp] at h ⊢
      rw [abs_right_eq p h] at hl ⊢
      have hne : r ≠ Tree.leaf := fun e => hl (by rw [e]; rfl)
      exact mem_addrs_plug_of_mem (by simp [tree_ptr_mem m.nil hne])
  · intro hx
    obtain ⟨p, l, c, k, v, r, hp⟩ := locate _ T Path.top hx
    simp only [Path.plug_top] at hp
    rw [hp] at h
    exact inTree_of_plug p _ h (by simp)

/-! ## Search -/

theorem equiv_symm {lt : K → K → Bool} {a b : K} (h : Equiv lt a b) : Equiv lt b a :=
  ⟨h.2, h.1⟩

/-- Lines 193-201, `findHelper` from `root` in a search tree: the one node with a key
equivalent to `key`, the sentinel when there is none. -/
theorem findHelper_spec {lt : K → K → Bool} (hswo : StrictWeakOrder lt) {m : Map K V}
    {T : Tree K V} (h : Abs m T) (hb : T.BST lt) (key : K) :
    ∃ res, (∀ fuel, T.height + 1 ≤ fuel → m.findHelper lt key fuel m.root = some res) ∧
      (∀ e ∈ T.elems, Equiv lt key e.2.1 → res = e.1) ∧
      ((∀ x ∈ T.keys, ¬ Equiv lt key x) → res = m.nil) ∧
      (res ≠ m.nil → ∃ e ∈ T.elems, e.1 = res ∧ Equiv lt key e.2.1) := by
  refine ⟨(descend lt key T Path.top).2.ptr m.nil, ?_, ?_, ?_, ?_⟩
  · intro fuel hf
    rw [h.root]
    exact (walk_spec lt key T Path.top h fuel hf).1
  · intro e he heq
    have hne := descend_present hswo.trans key T Path.top hb
      ⟨e.2.1, mem_keys_of_mem_elems he, heq⟩
    rcases descend_stop lt key T Path.top with h1 | ⟨l, a, c, k, v, r, h1, h2⟩
    · exact absurd h1 hne
    · have hin : (a, k, v) ∈ T.elems :=
        descend_sub lt key T Path.top _ (by rw [h1]; simp)
      have := equiv_unique (ascending_of_bst hswo.trans hb) h.nodup he hin
        (hswo.equiv_trans _ _ _ (equiv_symm heq) h2)
      rw [h1, this]; rfl
  · intro habs
    rw [descend_absent lt key T Path.top habs]; rfl
  · intro hres
    rcases descend_stop lt key T Path.top with h1 | ⟨l, a, c, k, v, r, h1, h2⟩
    · rw [h1] at hres; exact absurd rfl hres
    · exact ⟨(a, k, v), descend_sub lt key T Path.top _ (by rw [h1]; simp), by rw [h1]; rfl, h2⟩

end sjtu

namespace sjtu

variable {K V : Type}

/-! ## The operations on a well-formed container -/

theorem tree_size_of_elems {t t2 : Tree K V} {n : Nat}
    (h : t2.elems.length = t.elems.length + n) : t2.size = t.size + n := by
  rw [← Tree.length_elems, ← Tree.length_elems]; exact h

/-- The default constructor gives a well-formed empty container. -/
theorem empty_wf (lt : K → K → Bool) {self : Nat} (cell : Node K V) (hself : self ≠ 0) :
    WF lt (Map.empty self cell) Tree.leaf := by
  refine ⟨⟨trivial, rfl, List.nodup_nil, ?_, ?_, ?_, ?_⟩, trivial, ?_, rfl, hself, ?_⟩
  · intro a ha; simp at ha
  · show 1 < 2; decide
  · simp [Map.empty, Map.newNode, Map.setParent, Map.setRight, Map.setLeft, Map.setRoot, Map.upd]
  · simp [Map.empty, Map.newNode, Map.setParent, Map.setRight, Map.setLeft, Map.setRoot, Map.upd]
  · exact ⟨rfl, trivial, (Tree.equalBlackHeight_iff _).2 ⟨0, rfl⟩⟩
  · show (1 : Nat) ≠ 0; decide

/-- The search stops at the element with a key equivalent to the searched one. -/
theorem descend_found {lt : K → K → Bool} (hswo : StrictWeakOrder lt) {T : Tree K V}
    (hn : T.addrs.Nodup) (hb : T.BST lt) {key : K} {e : Nat × K × V} (he : e ∈ T.elems)
    (heq : Equiv lt key e.2.1) :
    ∃ l c r, (descend lt key T Path.top).2 = Tree.node l e.1 c e.2.1 e.2.2 r := by
  have hne := descend_present hswo.trans key T Path.top hb
    ⟨e.2.1, mem_keys_of_mem_elems he, heq⟩
  rcases descend_stop lt key T Path.top with h1 | ⟨l, a, c, k, v, r, h1, h2⟩
  · exact absurd h1 hne
  · have hin : (a, k, v) ∈ T.elems :=
      descend_sub lt key T Path.top _ (by rw [h1]; simp)
    have := equiv_unique (ascending_of_bst hswo.trans hb) hn he hin
      (hswo.equiv_trans _ _ _ (equiv_symm heq) h2)
    subst this
    exact ⟨l, c, r, h1⟩

/-- Lines 557-566 of `insert` with a key that is present: nothing is written. -/
theorem insert_present_spec {lt : K → K → Bool} (hswo : StrictWeakOrder lt) {m : Map K V}
    {T : Tree K V} (hwf : WF lt m T) (k : K) (v : V) {e : Nat × K × V} (he : e ∈ T.elems)
    (heq : Equiv lt k e.2.1) :
    ∀ fuel, T.height + 1 ≤ fuel → m.insert lt fuel (k, v) = some (m, ⟨e.1, m.self⟩, false) := by
  obtain ⟨l, c, r, hd⟩ := descend_found hswo hwf.abs.nodup hwf.bst he heq
  intro fuel hf
  have := insert_found lt hwf.abs (k, v) (by rw [hd]; simp) fuel hf
  rw [this, hd]; rfl

/-- Lines 557-578 of `insert` with a key that is absent: the element is added at its
place in the order. -/
theorem insert_absent_wf {lt : K → K → Bool} (hswo : StrictWeakOrder lt) {m : Map K V}
    {T : Tree K V} (hwf : WF lt m T) (k : K) (v : V) (habs : ∀ x ∈ T.keys, ¬ Equiv lt k x) :
    ∃ m2 T2 pre post,
      (∀ fuel, T.height + 2 ≤ fuel →
        m.insert lt fuel (k, v) = some (m2, ⟨m.next, m.self⟩, true)) ∧
      WF lt m2 T2 ∧ T.elems = pre ++ post ∧ T2.elems = pre ++ (m.next, k, v) :: post ∧
      (∀ e ∈ pre, lt e.2.1 k = true) ∧ (∀ e ∈ post, lt k e.2.1 = true) ∧
      m2.map_size = m.map_size + 1 ∧ m2.nil = m.nil ∧ m2.self = m.self ∧
      m2.next = m.next + 1 ∧ m2.mem m.nil = m.mem m.nil ∧
      ∃ tr, (∀ fuel, T.height + 2 ≤ fuel →
          m.insertT lt fuel (k, v) = some ((m2, ⟨m.next, m.self⟩, true), tr)) ∧
        ∀ e ∈ tr, e.Safe m.nil := by
  have hd := descend_absent lt k T Path.top habs
  obtain ⟨m2, T2, g1, g2, g3, g4, g5, g6, g7, g8, g9⟩ := insert_fresh lt hwf.abs hwf.rb k v hd
  have hp := descend_plug lt k T Path.top
  rw [hd] at hp
  simp only [Path.plug_top] at hp
  have hturn := descend_turns lt k T Path.top trivial
  have hbr := turns_brackets hswo.trans k (descend lt k T Path.top).1
    (t := Tree.leaf) (by rw [hp]; exact hwf.bst) hturn
  have hasc := ascending_of_bst hswo.trans hwf.bst
  rw [keys_eq_map, g5, List.map_append] at hasc
  have hasc2 : Ascending lt T2.keys := by
    rw [keys_eq_map, g4, List.map_append, List.map_cons]
    refine ascending_insert hasc ?_ ?_
    · intro x hx
      obtain ⟨e, he, rfl⟩ := List.mem_map.1 hx
      exact hbr.1 e he
    · intro x hx
      obtain ⟨e, he, rfl⟩ := List.mem_map.1 hx
      exact hbr.2 e he
  refine ⟨m2, T2, _, _, g1, ⟨g2, bst_of_ascending hasc2, g3, ?_, ?_, ?_⟩, g5, g4, hbr.1, hbr.2,
    g6, g7, g8, g9⟩
  · rw [g6, hwf.size_eq]
    exact (tree_size_of_elems (by rw [g4, g5]; simp; omega)).symm
  · rw [g8]; exact hwf.self_ne
  · rw [g7]; exact hwf.nil_ne

/-- Lines 588-618 of `erase` on an element of a well-formed container. -/
theorem erase_wf {lt : K → K → Bool} (hswo : StrictWeakOrder lt) {m : Map K V}
    {T : Tree K V} (hwf : WF lt m T) {z : Nat} (hz : z ∈ T.addrs) :
    ∃ m2 T2 pre k v post,
      (∀ fuel, T.height + 2 ≤ fuel → m.eraseNode fuel z = some m2) ∧
      WF lt m2 T2 ∧ T.elems = pre ++ (z, k, v) :: post ∧ T2.elems = pre ++ post ∧
      m2.map_size = m.map_size - 1 ∧ m2.nil = m.nil ∧ m2.self = m.self ∧
      m2.next = m.next ∧
      ∃ tr, (∀ fuel, T.height + 2 ≤ fuel → m.eraseNodeT fuel z = some (m2, tr)) ∧
        ∀ e ∈ tr, e.Safe m.nil := by
  obtain ⟨p, l, c, k, v, r, hp⟩ := locate z T Path.top hz
  simp only [Path.plug_top] at hp
  have hA := hwf.abs
  have hR := hwf.rb
  rw [hp] at hA hR
  obtain ⟨m2, T2, g1, g2, g3, g4, g5, g6, g7, g8, tr, g9, g10⟩ := eraseNode_spec hA hR
  have hT : T.elems = (p.pre ++ l.elems) ++ (z, k, v) :: (r.elems ++ p.post) := by
    rw [hp, Path.elems_plug]; simp
  have hT2 : T2.elems = (p.pre ++ l.elems) ++ (r.elems ++ p.post) := by
    rw [g4]; simp
  have hasc := ascending_of_bst hswo.trans hwf.bst
  rw [keys_eq_map, hT, List.map_append, List.map_cons] at hasc
  have hasc2 : Ascending lt T2.keys := by
    rw [keys_eq_map, hT2, List.map_append]
    exact ascending_remove hasc
  refine ⟨m2, T2, _, k, v, _, ?_, ⟨g2, bst_of_ascending hasc2, g3, ?_, ?_, ?_⟩, hT, hT2,
    g5, g6, g7, g8, tr, ?_, g10⟩
  · intro fuel hf
    exact g1 fuel (by rw [← hp]; exact hf)
  · rw [g5, hwf.size_eq]
    have : T.size = T2.size + 1 := tree_size_of_elems (by rw [hT, hT2]; simp; omega)
    omega
  · rw [g7]; exact hwf.self_ne
  · rw [g6]; exact hwf.nil_ne
  · intro fuel hf
    exact g9 fuel (by rw [← hp]; exact hf)

/-- Lines 178-183: `clearHelper` visits a subtree and returns. -/
theorem clearHelper_spec {m : Map K V} (t : Tree K V) : ∀ (p : Path K V), Abs m (p.plug t) →
    ∀ fuel, t.height + 1 ≤ fuel → m.clearHelper fuel (t.ptr m.nil) = some () := by
  induction t with
  | leaf =>
    intro p _ fuel hf
    obtain ⟨f, rfl⟩ : ∃ f, fuel = f + 1 := ⟨fuel - 1, by omega⟩
    simp [Map.clearHelper]
  | node l a c k v r ihl ihr =>
    intro p h fuel hf
    obtain ⟨f, rfl⟩ : ∃ f, fuel = f + 1 := ⟨fuel - 1, by omega⟩
    simp only [Tree.height] at hf
    have e1 : a ≠ m.nil := abs_ne_nil h
    rw [Tree.ptr_node, Map.clearHelper, if_neg e1, abs_left_eq p h, abs_right_eq p h,
      ihl (Path.L a c k v r p) h f (by omega)]
    exact ihr (Path.R l a c k v p) h f (by omega)

/-- Lines 545-549: `clear` leaves a well-formed empty container. -/
theorem clear_wf {lt : K → K → Bool} {m : Map K V} {T : Tree K V} (hwf : WF lt m T) :
    ∃ m2, (∀ fuel, T.height + 1 ≤ fuel → m.clear fuel = some m2) ∧ WF lt m2 Tree.leaf ∧
      m2.map_size = 0 ∧ m2.nil = m.nil ∧ m2.self = m.self ∧ m2.next = m.next := by
  refine ⟨{ m.setRoot m.nil with map_size := 0 }, ?_, ?_, rfl, rfl, rfl, rfl⟩
  · intro fuel hf
    have := clearHelper_spec T Path.top hwf.abs fuel hf
    rw [← hwf.abs.root] at this
    simp [Map.clear, this]
  · refine ⟨⟨trivial, rfl, List.nodup_nil, ?_, hwf.abs.nil_lt, hwf.abs.nil_black,
      hwf.abs.nil_links⟩, trivial,
      ⟨rfl, trivial, (Tree.equalBlackHeight_iff _).2 ⟨0, rfl⟩⟩, rfl, hwf.self_ne, hwf.nil_ne⟩
    intro a ha; simp at ha

end sjtu

namespace sjtu

variable {K V : Type}

/-! ## Cursors: `begin`, `operator++` and the forward traversal -/

theorem headPtr_append (nilp : Nat) {l : List (Nat × K × V)} (h : l ≠ []) (l2) :
    headPtr nilp (l ++ l2) = headPtr nilp l := by
  cases l with
  | nil => exact absurd rfl h
  | cons e l => rfl

theorem elems_ne_nil {t : Tree K V} (h : t ≠ Tree.leaf) : t.elems ≠ [] := by
  cases t with
  | leaf => exact absurd rfl h
  | node l a c k v r => simp

/-- Lines 118-121: `minimum` of a subtree is its first element in order. -/
theorem minimum_head {m : Map K V} (r : Tree K V) (P : Path K V) (hr : r ≠ Tree.leaf)
    (h : Abs m (P.plug r)) :
    ∀ fuel, r.height ≤ fuel → m.minimum fuel (r.ptr m.nil) = some (headPtr m.nil r.elems) := by
  obtain ⟨q, ry, y, cy, ky, vy, hr_eq, hqpre, -, -, hmin⟩ := minimum_spec r P hr h
  intro fuel hf
  rw [hmin fuel hf]
  have : r.elems = (y, ky, vy) :: (ry.elems ++ q.post) := by
    rw [hr_eq, Path.elems_plug, hqpre]; simp
  rw [this]; rfl

/-- Lines 240-243: the climbing loop of `operator++` stops at the first ancestor reached
from its left subtree. -/
theorem climbRight_spec {m : Map K V} (p : Path K V) : ∀ (t : Tree K V), Abs m (p.plug t) →
    t ≠ Tree.leaf → ∀ fuel, p.depth + 1 ≤ fuel →
      m.climbRight fuel (t.ptr m.nil) (p.ptr m.nil) = some (headPtr m.nil p.post) := by
  induction p with
  | top =>
    intro t _ _ fuel hf
    obtain ⟨f, rfl⟩ : ∃ f, fuel = f + 1 := ⟨fuel - 1, by omega⟩
    simp [Map.climbRight, Path.post, headPtr]
  | L a c k v r up ih =>
    intro t h ht fuel hf
    obtain ⟨f, rfl⟩ : ∃ f, fuel = f + 1 := ⟨fuel - 1, by omega⟩
    have h2 : Abs m (up.plug (Tree.node t a c k v r)) := h
    obtain ⟨-, -, -, -, -, -, -, f8, -, -⟩ := zrep_facts (zrep_iff.1 h2)
    have hmem := tree_ptr_mem m.nil ht
    have hne : t.ptr m.nil ≠ m.right a := by
      rw [abs_right_eq up h2]
      rcases tree_ptr_cases m.nil r with ⟨_, e⟩ | ⟨_, e⟩
      · rw [e]; exact (f8 _ hmem).2.2.2
      · intro e2; exact (f8 _ hmem).2.1 (e2 ▸ e)
    simp [Map.climbRight, Path.post, headPtr, hne]
  | R l a c k v up ih =>
    intro t h ht fuel hf
    obtain ⟨f, rfl⟩ : ∃ f, fuel = f + 1 := ⟨fuel - 1, by omega⟩
    have h2 : Abs m (up.plug (Tree.node l a c k v t)) := h
    have e1 : a ≠ m.nil := abs_ne_nil h2
    have e2 : m.right a = t.ptr m.nil := abs_right_eq up h2
    have := ih _ h2 (by simp) f (by simp only [Path.depth_R] at hf; omega)
    simp only [Tree.ptr_node] at this
    rw [Map.climbRight, Path.ptr_R, if_pos ⟨e1, e2.symm⟩, abs_parent_eq up h2, this]
    rfl

/-- Prefix `operator++` at an element moves to the next element in order, to `end()` from
the last one. -/
theorem iter_next_spec {m : Map K V} {p : Path K V} {l r : Tree K V} {a : Nat} {c : Color}
    {k : K} {v : V} (h : Abs m (p.plug (Tree.node l a c k v r))) (s : Nat) :
    ∀ fuel, (p.plug (Tree.node l a c k v r)).height + 1 ≤ fuel →
      Map.Iter_next fuel m ⟨a, s⟩ = some (Except.ok ⟨headPtr m.nil (r.elems ++ p.post), s⟩) := by
  intro fuel hf
  have hht := height_plug p (Tree.node l a c k v r)
  simp only [Tree.height] at hht
  have e1 : a ≠ m.nil := abs_ne_nil h
  have e2 : m.right a = r.ptr m.nil := abs_right_eq p h
  have hR : Abs m ((Path.R l a c k v p).plug r) := h
  by_cases hr : r = Tree.leaf
  · subst hr
    have hc := climbRight_spec p _ h (by simp) fuel (by omega)
    simp only [Tree.ptr_node] at hc
    simp only [Map.Iter_next, if_neg e1, e2, Tree.ptr_leaf, ne_eq, not_true_eq_false, if_false,
      abs_parent_eq p h, hc]
    rfl
  · have hn := tree_ptr_ne_nil hR hr
    have hm := minimum_head r (Path.R l a c k v p) hr hR fuel (by omega)
    simp only [Map.Iter_next, if_neg e1, e2, ne_eq, hn, not_false_eq_true, if_true, hm,
      headPtr_append m.nil (elems_ne_nil hr)]

/-- Lines 505-513: `begin()` is at the first element in order, `end()` when empty. -/
theorem begin_spec {m : Map K V} {T : Tree K V} (h : Abs m T) :
    ∀ fuel, T.height ≤ fuel → m.begin fuel = some ⟨headPtr m.nil T.elems, m.self⟩ := by
  intro fuel hf
  by_cases hT : T = Tree.leaf
  · subst hT
    have : m.root = m.nil := h.root
    simp [Map.begin, this, headPtr]
  · have hn := tree_ptr_ne_nil (p := Path.top) h hT
    have hm := minimum_head T Path.top hT h fuel hf
    rw [← h.root] at hn hm
    simp [Map.begin, hn, hm]

/-- The loop `for (it = begin(); it != end(); ++it)` from any element visits the rest of
the in-order sequence and stops. -/
theorem traverse_spec {m : Map K V} {T : Tree K V} (h : Abs m T) :
    ∀ (suf pre : List (Nat × K × V)), T.elems = pre ++ suf →
      ∀ fuel, suf.length + T.height + 1 ≤ fuel →
        m.walk fuel ⟨headPtr m.nil suf, m.self⟩ = some (suf.map (fun e => e.1)) := by
  intro suf
  induction suf with
  | nil =>
    intro pre _ fuel hf
    obtain ⟨f, rfl⟩ : ∃ f, fuel = f + 1 := ⟨fuel - 1, by omega⟩
    simp [Map.walk, Map.end_, headPtr]
  | cons e rest ih =>
    intro pre hsplit fuel hf
    obtain ⟨f, rfl⟩ : ∃ f, fuel = f + 1 := ⟨fuel - 1, by omega⟩
    have he : e ∈ T.elems := by rw [hsplit]; simp
    have hnd := nodup_elems h.nodup
    rw [hsplit] at hnd
    have hnd2 := List.nodup_append.1 hnd
    have hd3 := List.nodup_cons.1 hnd2.2.1
    have hpre : e ∉ pre := fun hm => hnd2.2.2 hm (List.mem_cons_self _ _) 
    obtain ⟨p, l, c, r, hp⟩ := locate_elem e T Path.top he
    simp only [Path.plug_top] at hp
    have hA := h
    rw [hp] at hA
    have hT : T.elems = (p.pre ++ l.elems) ++ e :: (r.elems ++ p.post) := by
      rw [hp, Path.elems_plug]; simp
    rw [hsplit] at hT
    obtain ⟨-, -, hrest⟩ := (List.append_cons_inj_of_not_mem hpre hd3.1).1 hT
    have hnext := iter_next_spec hA m.self (f + 1) (by rw [← hp]; simp at hf; omega)
    have hne : e.1 ≠ m.nil := (abs_elem h he).1
    have hw := ih (pre ++ [e]) (by rw [hsplit]; simp) f (by simp at hf; omega)
    rw [Map.walk]
    simp only [headPtr, Map.end_, hne, false_and, not_false_eq_true, if_true]
    rw [hnext, ← hrest]
    simp only [hw, List.map_cons]

/-- The forward traversal from `begin()` to `end()` visits every node once, in order. -/
theorem traversalCount_spec {m : Map K V} {T : Tree K V} (h : Abs m T) :
    ∀ fuel, T.size + T.height + 1 ≤ fuel → m.traversalCount fuel = some T.size := by
  intro fuel hf
  have hb := begin_spec h fuel (by omega)
  have hw := traverse_spec h T.elems [] rfl fuel (by rw [Tree.length_elems]; exact hf)
  simp [Map.traversalCount, hb, hw, Tree.length_elems]

end sjtu

namespace sjtu

variable {K V : Type}

/-! ## Results do not depend on the fuel -/

/-- A run that returns with enough fuel fixes the result of every run that returns. -/
theorem fuel_determined {α : Type} {f : Nat → Option α} {N : Nat} {r0 : α}
    (hm : ∀ n r, f n = some r → f (n + 1) = some r)
    (h : ∀ fuel, N ≤ fuel → f fuel = some r0) : ∀ fuel r, f fuel = some r → r = r0 := by
  intro fuel r hr
  have h1 := fuelMono_le (f := f) hm (Nat.le_max_left fuel N) hr
  rw [h (max fuel N) (Nat.le_max_right fuel N)] at h1
  exact (Option.some.inj h1).symm

namespace Map

theorem iter_next_mono (m : Map K V) (it : Iter) :
    ∀ n r, Iter_next n m it = some r → Iter_next (n + 1) m it = some r := by
  intro n r h
  simp only [Iter_next] at h ⊢
  split_ifs at h ⊢
  · exact h
  · cases h1 : m.minimum n (m.right it.current) with
    | none => rw [h1] at h; cases h
    | some y => rw [h1] at h; rw [minimum_mono m _ n _ h1]; exact h
  · cases h1 : m.climbRight n it.current (m.parent it.current) with
    | none => rw [h1] at h; cases h
    | some y => rw [h1] at h; rw [climbRight_mono m _ _ n _ h1]; exact h

theorem walk_mono (m : Map K V) :
    ∀ n it r, m.walk n it = some r → m.walk (n + 1) it = some r := by
  intro n
  induction n with
  | zero => intro it r h; simp [walk] at h
  | succ n ih =>
    intro it r h
    rw [walk] at h ⊢
    split_ifs at h ⊢ with hc
    · exact h
    · cases h1 : Iter_next (n + 1) m it with
      | none => rw [h1] at h; cases h
      | some res =>
        rw [h1] at h
        rw [iter_next_mono m it _ _ h1]
        cases res with
        | error e => cases h
        | ok it2 =>
          simp only at h ⊢
          cases h2 : m.walk n it2 with
          | none => rw [h2] at h; cases h
          | some l => rw [h2] at h; rw [ih _ _ h2]; exact h

theorem begin_mono (m : Map K V) :
    ∀ n r, m.begin n = some r → m.begin (n + 1) = some r := by
  intro n r h
  simp only [begin] at h ⊢
  split_ifs at h ⊢
  · exact h
  · cases h1 : m.minimum n m.root with
    | none => rw [h1] at h; cases h
    | some y => rw [h1] at h; rw [minimum_mono m _ n _ h1]; exact h

theorem traversalCount_mono (m : Map K V) :
    ∀ n r, m.traversalCount n = some r → m.traversalCount (n + 1) = some r := by
  intro n r h
  simp only [traversalCount] at h ⊢
  cases h1 : m.begin n with
  | none => rw [h1] at h; cases h
  | some it =>
    rw [h1] at h
    rw [begin_mono m _ _ h1]
    simp only [Option.map_eq_some'] at h ⊢
    obtain ⟨l, hl, hr⟩ := h
    exact ⟨l, walk_mono m _ _ _ hl, hr⟩

end Map

/-! ## Mutable `operator[]` -/

/-- Lines 485-493: `operator[]` returns the value of the element with an equivalent key,
and first inserts `(key, dflt)` when there is none, `dflt` being what the local
`default_value` holds. -/
theorem index_wf {lt : K → K → Bool} (hswo : StrictWeakOrder lt) (dflt : V) {m : Map K V}
    {T : Tree K V} (hwf : WF lt m T) (key : K) :
    ∃ m2 T2 v, (∀ fuel, T.height + 2 ≤ fuel →
        m.index lt dflt fuel key = some (m2, Outcome.value v)) ∧
      WF lt m2 T2 ∧ m2.self = m.self ∧ m2.nil = m.nil ∧
      ((∃ e ∈ T.elems, Equiv lt key e.2.1 ∧ v = e.2.2 ∧ m2 = m ∧ T2 = T) ∨
       ((∀ x ∈ T.keys, ¬ Equiv lt key x) ∧ v = dflt ∧ m2.map_size = m.map_size + 1 ∧
          ∃ pre post, T.elems = pre ++ post ∧ T2.elems = pre ++ (m.next, key, dflt) :: post)) := by
  obtain ⟨res, f1, f2, f3, f4⟩ := findHelper_spec hswo hwf.abs hwf.bst key
  by_cases hex : ∃ e ∈ T.elems, Equiv lt key e.2.1
  · obtain ⟨e, he, heq⟩ := hex
    have hres := f2 e he heq
    obtain ⟨a1, a2, a3⟩ := abs_elem hwf.abs he
    refine ⟨m, T, e.2.2, ?_, hwf, rfl, rfl, Or.inl ⟨e, he, heq, rfl, rfl, rfl⟩⟩
    intro fuel hf
    simp only [Map.index, f1 fuel (by omega), hres, ne_eq, a1, not_false_eq_true, if_true, a3]
  · have habs : ∀ x ∈ T.keys, ¬ Equiv lt key x := by
      intro x hx heq
      obtain ⟨e, he, rfl⟩ := List.mem_map.1 hx
      exact hex ⟨e, he, heq⟩
    have hres := f3 habs
    obtain ⟨m2, T2, pre, post, g1, g2, g3, g4, g5, g6, g7, g8, g9, g10⟩ :=
      insert_absent_wf hswo hwf key dflt habs
    have hin : (m.next, key, dflt) ∈ T2.elems := by rw [g4]; simp
    obtain ⟨a1, -, a3⟩ := abs_elem g2.abs hin
    refine ⟨m2, T2, dflt, ?_, g2, g9, g8, Or.inr ⟨habs, rfl, g7, pre, post, g3, g4⟩⟩
    intro fuel hf
    simp only [Map.index, f1 fuel (by omega), hres, ne_eq, not_true_eq_false, if_false,
      g1 fuel hf, Map.arrow, a1, Outcome.map, a3]

end sjtu

namespace sjtu

variable {K V : Type}

/-! ## Sequences of operations -/

/-! ### A concrete container, for the examples -/

theorem ltN_swo : StrictWeakOrder ltN := by
  refine ⟨?_, ?_, ?_⟩
  · intro a; simp [ltN]
  · intro a b c; simp only [ltN, decide_eq_true_eq]; omega
  · intro a b c; simp only [Equiv, ltN, decide_eq_false_iff_not]; omega

theorem exMap3_wf : WF ltN exMap3 exTree3 := by
  refine ⟨⟨?_, rfl, ?_, ?_, ?_, rfl, ⟨rfl, rfl⟩⟩, ?_, ⟨rfl, ?_, ?_⟩, rfl, ?_, ?_⟩
  · exact ⟨by decide, rfl, ⟨by decide, rfl, trivial, trivial⟩, ⟨by decide, rfl, trivial, trivial⟩⟩
  · decide
  · intro a ha
    simp [exTree3] at ha
    rcases ha with rfl | rfl | rfl <;> decide
  · decide
  · simp [exTree3, Tree.BST, Tree.keys, Tree.elems, ltN]
  · simp [exTree3, Tree.NoRedRed, Tree.color]
  · exact (Tree.equalBlackHeight_iff _).2 ⟨1, by simp [exTree3, Tree.BH]⟩
  · decide
  · decide

theorem exMap3_reachable : Reachable ltN 0 7 cell0 exMap3 :=
  @Reachable.insert _ _ ltN 0 7 cell0 _ _ 10 (8, 80) ⟨4, 7⟩ true
    (@Reachable.insert _ _ ltN 0 7 cell0 _ _ 10 (3, 30) ⟨3, 7⟩ true
      (@Reachable.insert _ _ ltN 0 7 cell0 _ _ 10 (5, 50) ⟨2, 7⟩ true
        Reachable.init rfl) rfl) rfl

/-! ### The invariant -/

theorem inTree_ne_nil {m : Map K V} {T : Tree K V} (h : Abs m T) {x : Nat}
    (hx : x ∈ T.addrs) : x ≠ m.nil := by
  obtain ⟨e, he, rfl⟩ := mem_addrs_iff.1 hx
  exact (abs_elem h he).1

theorem erase_eq_eraseNode {m : Map K V} {pos : Iter} (hc : pos.container = m.self)
    (hn : pos.current ≠ m.nil) (fuel : Nat) :
    m.erase fuel pos = (m.eraseNode fuel pos.current).map Except.ok := by
  simp only [Map.erase, hc, hn, ne_eq, not_true_eq_false, or_self, if_false]
  cases m.eraseNode fuel pos.current <;> rfl

/-- A well-formed container answers every operation. -/
theorem wf_responsive {lt : K → K → Bool} (hswo : StrictWeakOrder lt) (dflt : V) {m : Map K V}
    {T : Tree K V} (hwf : WF lt m T) : Responsive lt dflt m := by
  refine ⟨T.height + 2, fun fuel hf => ⟨?_, ?_, ?_, ?_⟩⟩
  · intro value
    obtain ⟨k, v⟩ := value
    by_cases hex : ∃ e ∈ T.elems, Equiv lt k e.2.1
    · obtain ⟨e, he, heq⟩ := hex
      exact ⟨_, _, _, insert_present_spec hswo hwf k v he heq fuel (by omega)⟩
    · have habs : ∀ x ∈ T.keys, ¬ Equiv lt k x := by
        intro x hx heq
        obtain ⟨e, he, rfl⟩ := List.mem_map.1 hx
        exact hex ⟨e, he, heq⟩
      obtain ⟨m2, T2, pre, post, g1, -⟩ := insert_absent_wf hswo hwf k v habs
      exact ⟨_, _, _, g1 fuel hf⟩
  · intro pos hc hin
    have hz := (inTree_iff hwf.abs _).1 hin
    obtain ⟨m2, T2, pre, k, v, post, g1, -⟩ := erase_wf hswo hwf hz
    refine ⟨m2, ?_⟩
    rw [erase_eq_eraseNode hc (inTree_ne_nil hwf.abs hz), g1 fuel hf]; rfl
  · obtain ⟨m2, g1, -⟩ := clear_wf hwf
    exact ⟨m2, g1 fuel (by omega)⟩
  · intro key
    obtain ⟨m2, T2, v, g1, -⟩ := index_wf hswo dflt hwf key
    exact ⟨m2, v, g1 fuel hf⟩

/-- Every reachable state is well formed. -/
theorem reachable_wf {lt : K → K → Bool} (hswo : StrictWeakOrder lt) (dflt : V) {self : Nat}
    (cell : Node K V) (hself : self ≠ 0) {m : Map K V}
    (hr : Reachable lt dflt self cell m) : ∃ T, WF lt m T := by
  induction hr with
  | init => exact ⟨Tree.leaf, empty_wf lt cell hself⟩
  | @insert m m2 fuel value it b _ hop ih =>
    obtain ⟨T, hwf⟩ := ih
    obtain ⟨k, v⟩ := value
    by_cases hex : ∃ e ∈ T.elems, Equiv lt k e.2.1
    · obtain ⟨e, he, heq⟩ := hex
      have := fuel_determined (Map.insert_mono lt m (k, v))
        (insert_present_spec hswo hwf k v he heq) fuel _ hop
      simp only [Prod.mk.injEq] at this
      rw [this.1]
      exact ⟨T, hwf⟩
    · have habs : ∀ x ∈ T.keys, ¬ Equiv lt k x := by
        intro x hx heq
        obtain ⟨e, he, rfl⟩ := List.mem_map.1 hx
        exact hex ⟨e, he, heq⟩
      obtain ⟨m3, T2, pre, post, g1, g2, -⟩ := insert_absent_wf hswo hwf k v habs
      have := fuel_determined (Map.insert_mono lt m (k, v)) g1 fuel _ hop
      simp only [Prod.mk.injEq] at this
      rw [this.1]
      exact ⟨T2, g2⟩
  | @erase m m2 fuel pos _ hc hin hop ih =>
    obtain ⟨T, hwf⟩ := ih
    have hz := (inTree_iff hwf.abs _).1 hin
    obtain ⟨m3, T2, pre, k, v, post, g1, g2, -⟩ := erase_wf hswo hwf hz
    rw [erase_eq_eraseNode hc (inTree_ne_nil hwf.abs hz)] at hop
    simp only [Option.map_eq_some'] at hop
    obtain ⟨m4, h4, h5⟩ := hop
    have := fuel_determined (Map.eraseNode_mono m pos.current) g1 fuel _ h4
    cases h5
    rw [this]
    exact ⟨T2, g2⟩
  | @clear m m2 fuel _ hop ih =>
    obtain ⟨T, hwf⟩ := ih
    obtain ⟨m3, g1, g2, -⟩ := clear_wf hwf
    have := fuel_determined (Map.clear_mono m) g1 fuel _ hop
    rw [this]
    exact ⟨Tree.leaf, g2⟩
  | @index m m2 fuel key v _ hop ih =>
    obtain ⟨T, hwf⟩ := ih
    obtain ⟨m3, T2, v3, g1, g2, -⟩ := index_wf hswo dflt hwf key
    have := fuel_determined (Map.index_mono lt dflt m key) g1 fuel _ hop
    simp only [Prod.mk.injEq] at this
    rw [this.1]
    exact ⟨T2, g2⟩

end sjtu

namespace sjtu

variable {K V : Type}

/-! ## The invariants of the container -/

theorem not_equiv_of_ascending {lt : K → K → Bool} {l : List K} (h : Ascending lt l) :
    l.Pairwise (fun a b => ¬ Equiv lt a b) := by
  refine List.Pairwise.imp ?_ h
  intro a b hab heq
  rw [heq.1] at hab
  cases hab

/-- C1: from the empty container, under a strict weak order, after every finite sequence of
`insert`, `erase` at a valid cursor of the container, `clear` (and mutable `operator[]`)
the container represents a tree with the search-tree property whose in-order key sequence
is strictly ascending, so that no two keys are equivalent; and in every such state each
further operation returns. -/
theorem reachable_sorted {lt : K → K → Bool} (hswo : StrictWeakOrder lt) (dflt : V)
    {self : Nat} (cell : Node K V) (hself : self ≠ 0) {m : Map K V}
    (hr : Reachable lt dflt self cell m) :
    (∃ T, Abs m T ∧ T.BST lt ∧ Ascending lt T.keys ∧
      T.keys.Pairwise (fun a b => ¬ Equiv lt a b)) ∧ Responsive lt dflt m := by
  obtain ⟨T, hwf⟩ := reachable_wf hswo dflt cell hself hr
  have hasc := ascending_of_bst hswo.trans hwf.bst
  exact ⟨⟨T, hwf.abs, hwf.bst, hasc, not_equiv_of_ascending hasc⟩, wf_responsive hswo dflt hwf⟩

theorem reachable_sorted_witness :
    StrictWeakOrder ltN ∧ Reachable ltN 0 7 cell0 exMap3 ∧
    ((∃ T, Abs exMap3 T ∧ T.BST ltN ∧ Ascending ltN T.keys ∧
      T.keys.Pairwise (fun a b => ¬ Equiv ltN a b)) ∧ Responsive ltN 0 exMap3) :=
  ⟨ltN_swo, exMap3_reachable,
    reachable_sorted ltN_swo 0 cell0 (by decide) exMap3_reachable⟩

/-- C2: `insert` preserves the colouring invariants.  For a container that represents a
tree with a BLACK root (or empty), no RED node with a RED child and equal black height on
all root-to-leaf paths, `insert value` returns (with fuel above the height of the tree, and
with the same result whenever it returns) a state that represents a tree with the same
three properties, whether or not a node was added. -/
theorem insert_preserves_rb (lt : K → K → Bool) {m : Map K V} {T : Tree K V} (h : Abs m T)
    (hrb : T.RB) (value : K × V) :
    ∃ m2 T2 it b,
      (∀ fuel, T.height + 2 ≤ fuel → m.insert lt fuel value = some (m2, it, b)) ∧
      (∀ fuel r, m.insert lt fuel value = some r → r = (m2, it, b)) ∧
      Abs m2 T2 ∧ T2.color = Color.BLACK ∧ T2.NoRedRed ∧ T2.EqualBlackHeight := by
  obtain ⟨k, v⟩ := value
  by_cases hd : (descend lt k T Path.top).2 = Tree.leaf
  · obtain ⟨m2, T2, g1, g2, g3, -⟩ := insert_fresh lt h hrb k v hd
    exact ⟨m2, T2, _, true, g1, fuel_determined (Map.insert_mono lt m (k, v)) g1, g2,
      g3.root_black, g3.no_red_red, g3.balanced⟩
  · have g1 := insert_found lt h (k, v) hd
    exact ⟨m, T, _, false, fun fuel hf => g1 fuel (by omega),
      fuel_determined (Map.insert_mono lt m (k, v)) g1, h,
      hrb.root_black, hrb.no_red_red, hrb.balanced⟩

theorem insert_preserves_rb_witness :
    Abs exMap3 exTree3 ∧ exTree3.RB ∧
    ∃ m2 T2 it b,
      (∀ fuel, exTree3.height + 2 ≤ fuel → exMap3.insert ltN fuel (4, 40) = some (m2, it, b)) ∧
      (∀ fuel r, exMap3.insert ltN fuel (4, 40) = some r → r = (m2, it, b)) ∧
      Abs m2 T2 ∧ T2.color = Color.BLACK ∧ T2.NoRedRed ∧ T2.EqualBlackHeight :=
  ⟨exMap3_wf.abs, exMap3_wf.rb, insert_preserves_rb ltN exMap3_wf.abs exMap3_wf.rb (4, 40)⟩

/-- Lines 585-619 at a cursor of this container positioned at an element. -/
theorem erase_valid_spec {m : Map K V} {T : Tree K V} (h : Abs m T) (hrb : T.RB) {pos : Iter}
    (hpos : ValidCursor m T pos) :
    ∃ m2 T2, (∀ fuel, T.height + 2 ≤ fuel → m.erase fuel pos = some (Except.ok m2)) ∧
      Abs m2 T2 ∧ T2.RB := by
  obtain ⟨hc, hz⟩ := hpos
  obtain ⟨p, l, c, k, v, r, hp⟩ := locate _ T Path.top hz
  simp only [Path.plug_top] at hp
  have hA := h
  rw [hp] at hA hrb
  obtain ⟨m2, T2, g1, g2, g3, -⟩ := eraseNode_spec hA hrb
  refine ⟨m2, T2, ?_, g2, g3⟩
  intro fuel hf
  rw [erase_eq_eraseNode hc (inTree_ne_nil h hz), g1 fuel (by rw [← hp]; exact hf)]
  rfl

/-- C3: `erase` preserves the colouring invariants.  For a container that represents a
red-black tree and a cursor of this container positioned at one of its elements (with
zero, one or two children), `erase pos` returns (with fuel above the height of the tree,
and with the same result whenever it returns) a state that represents a tree with a BLACK
root (or empty), no RED node with a RED child and equal black height on all root-to-leaf
paths. -/
theorem erase_preserves_rb {m : Map K V} {T : Tree K V} (h : Abs m T) (hrb : T.RB)
    (pos : Iter) (hpos : ValidCursor m T pos) :
    ∃ m2 T2, (∀ fuel, T.height + 2 ≤ fuel → m.erase fuel pos = some (Except.ok m2)) ∧
      (∀ fuel r, m.erase fuel pos = some r → r = Except.ok m2) ∧
      Abs m2 T2 ∧ T2.color = Color.BLACK ∧ T2.NoRedRed ∧ T2.EqualBlackHeight := by
  obtain ⟨m2, T2, g1, g2, g3⟩ := erase_valid_spec h hrb hpos
  exact ⟨m2, T2, g1, fuel_determined (Map.erase_mono m pos) g1, g2,
    g3.root_black, g3.no_red_red, g3.balanced⟩

theorem erase_preserves_rb_witness :
    Abs exMap3 exTree3 ∧ exTree3.RB ∧ ValidCursor exMap3 exTree3 ⟨2, 7⟩ ∧
    ∃ m2 T2, (∀ fuel, exTree3.height + 2 ≤ fuel →
        exMap3.erase fuel ⟨2, 7⟩ = some (Except.ok m2)) ∧
      (∀ fuel r, exMap3.erase fuel ⟨2, 7⟩ = some r → r = Except.ok m2) ∧
      Abs m2 T2 ∧ T2.color = Color.BLACK ∧ T2.NoRedRed ∧ T2.EqualBlackHeight :=
  ⟨exMap3_wf.abs, exMap3_wf.rb, ⟨rfl, by decide⟩,
    erase_preserves_rb exMap3_wf.abs exMap3_wf.rb ⟨2, 7⟩ ⟨rfl, by decide⟩⟩

/-- The nodes below `root`, their number, and the forward traversal. -/
theorem wf_traversal {lt : K → K → Bool} {m : Map K V} {T : Tree K V} (hwf : WF lt m T) :
    ∃ l : List Nat, l.Nodup ∧ (∀ x, m.InTree x ↔ x ∈ l) ∧ m.size = l.length ∧
      (∃ N, ∀ fuel, N ≤ fuel → m.traversalCount fuel = some m.size ∧
        ∃ it, m.begin fuel = some it ∧ m.walk fuel it = some l) ∧
      (∀ fuel n, m.traversalCount fuel = some n → n = m.size) ∧
      (m.isEmpty = true ↔ l.length = 0) := by
  have hlen : T.addrs.length = T.size := by simp [Tree.addrs, Tree.length_elems]
  have hsz : m.size = T.size := hwf.size_eq
  have htc : ∀ fuel, T.size + T.height + 1 ≤ fuel → m.traversalCount fuel = some m.size := by
    intro fuel hf
    rw [hsz]; exact traversalCount_spec hwf.abs fuel hf
  refine ⟨T.addrs, hwf.abs.nodup, inTree_iff hwf.abs, by rw [hlen]; exact hsz,
    ⟨T.size + T.height + 1, fun fuel hf => ⟨htc fuel hf, _, begin_spec hwf.abs fuel (by omega),
      traverse_spec hwf.abs T.elems [] rfl fuel (by rw [Tree.length_elems]; exact hf)⟩⟩,
    fuel_determined (Map.traversalCount_mono m) htc, ?_⟩
  rw [hlen, ← hsz]
  simp [Map.isEmpty, Map.size]

/-- C4: size consistency.  From the empty container, after every finite sequence of
`insert`, `erase` at a valid cursor, mutable `operator[]` and `clear`, `size()` is the
number of nodes reached from `root` before the sentinel (`l` lists them, without
repetition); the loop from `begin()` that advances the cursor until it equals `end()`
returns, visits exactly the nodes of `l` and so counts `size()` steps; and `empty()` holds
exactly when that number is 0. -/
theorem size_consistency {lt : K → K → Bool} (hswo : StrictWeakOrder lt) (dflt : V)
    {self : Nat} (cell : Node K V) (hself : self ≠ 0) {m : Map K V}
    (hr : Reachable lt dflt self cell m) :
    ∃ l : List Nat, l.Nodup ∧ (∀ x, m.InTree x ↔ x ∈ l) ∧ m.size = l.length ∧
      (∃ N, ∀ fuel, N ≤ fuel → m.traversalCount fuel = some m.size ∧
        ∃ it, m.begin fuel = some it ∧ m.walk fuel it = some l) ∧
      (∀ fuel n, m.traversalCount fuel = some n → n = m.size) ∧
      (m.isEmpty = true ↔ l.length = 0) := by
  obtain ⟨T, hwf⟩ := reachable_wf hswo dflt cell hself hr
  exact wf_traversal hwf

theorem size_consistency_witness :
    StrictWeakOrder ltN ∧ Reachable ltN 0 7 cell0 exMap3 ∧
    ∃ l : List Nat, l.Nodup ∧ (∀ x, exMap3.InTree x ↔ x ∈ l) ∧ exMap3.size = l.length ∧
      (∃ N, ∀ fuel, N ≤ fuel → exMap3.traversalCount fuel = some exMap3.size ∧
        ∃ it, exMap3.begin fuel = some it ∧ exMap3.walk fuel it = some l) ∧
      (∀ fuel n, exMap3.traversalCount fuel = some n → n = exMap3.size) ∧
      (exMap3.isEmpty = true ↔ l.length = 0) :=
  ⟨ltN_swo, exMap3_reachable,
    size_consistency ltN_swo 0 cell0 (by decide) exMap3_reachable⟩

end sjtu

namespace sjtu

variable {K V : Type}

/-! ## Lookup, insertion and removal of one key -/

theorem equiv_refl {lt : K → K → Bool} (hswo : StrictWeakOrder lt) (k : K) : Equiv lt k k :=
  ⟨hswo.irrefl k, hswo.irrefl k⟩

theorem absent_of_not_exists {lt : K → K → Bool} {T : Tree K V} {k : K}
    (h : ¬ ∃ e ∈ T.elems, Equiv lt k e.2.1) : ∀ x ∈ T.keys, ¬ Equiv lt k x := by
  intro x hx heq
  obtain ⟨e, he, rfl⟩ := List.mem_map.1 hx
  exact h ⟨e, he, heq⟩

/-- The search for a key that is present ends at its node. -/
theorem findHelper_present {lt : K → K → Bool} (hswo : StrictWeakOrder lt) {m : Map K V}
    {T : Tree K V} (h : Abs m T) (hb : T.BST lt) {key : K} {e : Nat × K × V}
    (he : e ∈ T.elems) (heq : Equiv lt key e.2.1) :
    ∀ fuel, T.height + 1 ≤ fuel → m.findHelper lt key fuel m.root = some e.1 := by
  obtain ⟨res, f1, f2, -⟩ := findHelper_spec hswo h hb key
  intro fuel hf
  rw [f1 fuel hf, f2 e he heq]

/-- The search for a key that is absent ends at the sentinel. -/
theorem findHelper_absent {lt : K → K → Bool} (hswo : StrictWeakOrder lt) {m : Map K V}
    {T : Tree K V} (h : Abs m T) (hb : T.BST lt) {key : K}
    (habs : ∀ x ∈ T.keys, ¬ Equiv lt key x) :
    ∀ fuel, T.height + 1 ≤ fuel → m.findHelper lt key fuel m.root = some m.nil := by
  obtain ⟨res, f1, -, f3, -⟩ := findHelper_spec hswo h hb key
  intro fuel hf
  rw [f1 fuel hf, f3 habs]

theorem deref_elem {m : Map K V} {T : Tree K V} (h : Abs m T) {e : Nat × K × V}
    (he : e ∈ T.elems) (s : Nat) : m.deref ⟨e.1, s⟩ = Except.ok (e.2.1, e.2.2) := by
  obtain ⟨a1, a2, a3⟩ := abs_elem h he
  simp [Map.deref, a1, a2, a3]

/-- The lookups `find`, `count`, `at` for a key that is present. -/
theorem lookup_present {lt : K → K → Bool} (hswo : StrictWeakOrder lt) {m : Map K V}
    {T : Tree K V} (h : Abs m T) (hb : T.BST lt) {key : K} {e : Nat × K × V}
    (he : e ∈ T.elems) (heq : Equiv lt key e.2.1) :
    ∀ fuel, T.height + 1 ≤ fuel →
      m.find lt fuel key = some ⟨e.1, m.self⟩ ∧ m.count lt fuel key = some 1 ∧
      m.at_ lt fuel key = some (Except.ok e.2.2) := by
  intro fuel hf
  have hfh := findHelper_present hswo h hb he heq fuel hf
  obtain ⟨a1, -, a3⟩ := abs_elem h he
  simp [Map.find, Map.count, Map.at_, hfh, a1, a3]

/-- The lookups `find`, `count`, `at` for a key that is absent. -/
theorem lookup_absent {lt : K → K → Bool} (hswo : StrictWeakOrder lt) {m : Map K V}
    {T : Tree K V} (h : Abs m T) (hb : T.BST lt) {key : K}
    (habs : ∀ x ∈ T.keys, ¬ Equiv lt key x) :
    ∀ fuel, T.height + 1 ≤ fuel →
      m.find lt fuel key = some m.end_ ∧ m.count lt fuel key = some 0 ∧
      m.at_ lt fuel key = some (Except.error Exn.index_out_of_bound) := by
  intro fuel hf
  have hfh := findHelper_absent hswo h hb habs fuel hf
  simp [Map.find, Map.count, Map.at_, Map.end_, hfh]

/-- C5: `insert` of an absent key.  In a well-formed container with no key equivalent to
`k`, `insert (k, v)` returns `(it, true)` with `it` dereferencing to `(k, v)`; afterwards
the container is well formed, `size()` is one more, `find k` is the cursor of the new
element, and the in-order sequence of pairs is the old one with `(k, v)` added between the
smaller and the greater keys, so that every old pair is still there.  Conversely a
returned flag `true` says that no key was equivalent to `k`. -/
theorem insert_absent_key {lt : K → K → Bool} (hswo : StrictWeakOrder lt) {m : Map K V}
    {T : Tree K V} (hwf : WF lt m T) (k : K) (v : V) :
    ((∀ x ∈ T.keys, ¬ Equiv lt k x) →
      ∃ m2 T2 it pre post,
        (∀ fuel, T.height + 2 ≤ fuel → m.insert lt fuel (k, v) = some (m2, it, true)) ∧
        (∀ fuel r, m.insert lt fuel (k, v) = some r → r = (m2, it, true)) ∧
        m2.deref it = Except.ok (k, v) ∧ WF lt m2 T2 ∧ m2.size = m.size + 1 ∧
        (∀ fuel, T2.height + 1 ≤ fuel → m2.find lt fuel k = some it) ∧
        T.toList = pre ++ post ∧ T2.toList = pre ++ (k, v) :: post ∧
        (∀ e ∈ pre, lt e.1 k = true) ∧ (∀ e ∈ post, lt k e.1 = true)) ∧
    (∀ fuel m2 it, m.insert lt fuel (k, v) = some (m2, it, true) →
      ∀ x ∈ T.keys, ¬ Equiv lt k x) := by
  constructor
  · intro habs
    obtain ⟨m2, T2, pre, post, g1, g2, g3, g4, g5, g6, g7, g8, g9, g10⟩ :=
      insert_absent_wf hswo hwf k v habs
    have hin : (m.next, k, v) ∈ T2.elems := by rw [g4]; simp
    refine ⟨m2, T2, ⟨m.next, m.self⟩, pre.map (fun e => e.2), post.map (fun e => e.2), g1,
      fuel_determined (Map.insert_mono lt m (k, v)) g1, deref_elem g2.abs hin m.self, g2, g7,
      ?_, ?_, ?_, ?_, ?_⟩
    · intro fuel hf
      rw [(lookup_present hswo g2.abs g2.bst hin (equiv_refl hswo k) fuel hf).1, g9]
    · rw [toList_eq_map, g3, List.map_append]
    · rw [toList_eq_map, g4, List.map_append, List.map_cons]
    · intro e he
      obtain ⟨e2, he2, rfl⟩ := List.mem_map.1 he
      exact g5 e2 he2
    · intro e he
      obtain ⟨e2, he2, rfl⟩ := List.mem_map.1 he
      exact g6 e2 he2
  · intro fuel m2 it hop
    by_contra hcon
    have hex : ∃ e ∈ T.elems, Equiv lt k e.2.1 := by
      by_contra hne
      exact hcon (absent_of_not_exists hne)
    obtain ⟨e, he, heq⟩ := hex
    have := fuel_determined (Map.insert_mono lt m (k, v))
      (insert_present_spec hswo hwf k v he heq) fuel _ hop
    simp at this

theorem insert_absent_key_witness :
    StrictWeakOrder ltN ∧ WF ltN exMap3 exTree3 ∧ (∀ x ∈ exTree3.keys, ¬ Equiv ltN 4 x) ∧
    ∃ m2 T2 it pre post,
      (∀ fuel, exTree3.height + 2 ≤ fuel →
        exMap3.insert ltN fuel (4, 40) = some (m2, it, true)) ∧
      (∀ fuel r, exMap3.insert ltN fuel (4, 40) = some r → r = (m2, it, true)) ∧
      m2.deref it = Except.ok (4, 40) ∧ WF ltN m2 T2 ∧ m2.size = exMap3.size + 1 ∧
      (∀ fuel, T2.height + 1 ≤ fuel → m2.find ltN fuel 4 = some it) ∧
      exTree3.toList = pre ++ post ∧ T2.toList = pre ++ (4, 40) :: post ∧
      (∀ e ∈ pre, ltN e.1 4 = true) ∧ (∀ e ∈ post, ltN 4 e.1 = true) :=
  ⟨ltN_swo, exMap3_wf, by simp [exTree3, Tree.keys, Tree.elems, Equiv, ltN],
    (insert_absent_key ltN_swo exMap3_wf 4 40).1
      (by simp [exTree3, Tree.keys, Tree.elems, Equiv, ltN])⟩

/-- C6: insert idempotence.  In a well-formed container that holds an element `e` with a
key equivalent to `k`, `insert (k, v2)` returns the cursor of `e` and `false`, and the
state it returns is the state it was given (tree, colours, size and the stored value,
which is `e.2.2` and not `v2`).  Hence a second `insert` of a pair returns the state and
the cursor of the first one, with `false`. -/
theorem insert_idempotent {lt : K → K → Bool} (hswo : StrictWeakOrder lt) {m : Map K V}
    {T : Tree K V} (hwf : WF lt m T) (k : K) (v2 : V) :
    (∀ e ∈ T.elems, Equiv lt k e.2.1 →
      (∀ fuel, T.height + 1 ≤ fuel →
        m.insert lt fuel (k, v2) = some (m, ⟨e.1, m.self⟩, false)) ∧
      (∀ fuel r, m.insert lt fuel (k, v2) = some r → r = (m, ⟨e.1, m.self⟩, false)) ∧
      m.deref ⟨e.1, m.self⟩ = Except.ok (e.2.1, e.2.2)) ∧
    (∀ fuel m1 it1 b1, m.insert lt fuel (k, v2) = some (m1, it1, b1) →
      (∃ N, ∀ fuel2, N ≤ fuel2 → m1.insert lt fuel2 (k, v2) = some (m1, it1, false)) ∧
      (∀ fuel2 r, m1.insert lt fuel2 (k, v2) = some r → r = (m1, it1, false))) := by
  constructor
  · intro e he heq
    have g1 := insert_present_spec hswo hwf k v2 he heq
    exact ⟨g1, fuel_determined (Map.insert_mono lt m (k, v2)) g1, deref_elem hwf.abs he m.self⟩
  · intro fuel m1 it1 b1 hop
    by_cases hex : ∃ e ∈ T.elems, Equiv lt k e.2.1
    · obtain ⟨e, he, heq⟩ := hex
      have g1 := insert_present_spec hswo hwf k v2 he heq
      have := fuel_determined (Map.insert_mono lt m (k, v2)) g1 fuel _ hop
      simp only [Prod.mk.injEq] at this
      obtain ⟨rfl, rfl, -⟩ := this
      exact ⟨⟨T.height + 1, g1⟩, fuel_determined (Map.insert_mono lt m1 (k, v2)) g1⟩
    · obtain ⟨m2, T2, pre, post, g1, g2, g3, g4, g5, g6, g7, g8, g9, g10⟩ :=
        insert_absent_wf hswo hwf k v2 (absent_of_not_exists hex)
      have := fuel_determined (Map.insert_mono lt m (k, v2)) g1 fuel _ hop
      simp only [Prod.mk.injEq] at this
      obtain ⟨rfl, rfl, -⟩ := this
      have hin : (m.next, k, v2) ∈ T2.elems := by rw [g4]; simp
      have h1 := insert_present_spec hswo g2 k v2 hin (equiv_refl hswo k)
      rw [g9] at h1
      exact ⟨⟨T2.height + 1, h1⟩, fuel_determined (Map.insert_mono lt m1 (k, v2)) h1⟩

theorem insert_idempotent_witness :
    StrictWeakOrder ltN ∧ WF ltN exMap3 exTree3 ∧ (3, 3, 30) ∈ exTree3.elems ∧
    Equiv ltN 3 3 ∧
    (∀ fuel, exTree3.height + 1 ≤ fuel →
      exMap3.insert ltN fuel (3, 99) = some (exMap3, ⟨3, exMap3.self⟩, false)) ∧
    (∀ fuel r, exMap3.insert ltN fuel (3, 99) = some r →
      r = (exMap3, ⟨3, exMap3.self⟩, false)) ∧
    exMap3.deref ⟨3, exMap3.self⟩ = Except.ok (3, 30) :=
  ⟨ltN_swo, exMap3_wf, by simp [exTree3], by simp [Equiv, ltN],
    (insert_idempotent ltN_swo exMap3_wf 3 99).1 (3, 3, 30) (by simp [exTree3])
      (by simp [Equiv, ltN])⟩

end sjtu

namespace sjtu

variable {K V : Type}

/-! ## `erase`, its error contract, and the lookups -/

/-- In a strictly ascending sequence the key at a position has no equivalent key at any
other position. -/
theorem absent_of_removed {lt : K → K → Bool} {pre post : List K} {k : K}
    (h : Ascending lt (pre ++ k :: post)) : ∀ x ∈ pre ++ post, ¬ Equiv lt k x := by
  rw [ascending_append, ascending_cons] at h
  intro x hx heq
  rcases List.mem_append.1 hx with hx | hx
  · have := h.2.2 x hx k (List.mem_cons_self _ _)
    rw [heq.2] at this; cases this
  · have := h.2.1.1 x hx
    rw [heq.1] at this; cases this

/-- C7: `erase` removes exactly the referenced element.  In a well-formed container, for a
cursor `pos` of this container at the element `(k, v)` (its node may have zero, one or two
children), `erase pos` returns a well-formed container in which `find k` is `end()`,
`count k` is 0, `size()` is one less, the in-order sequence of pairs is the old one without
`(k, v)`, and every other element is found at its old node with its old value. -/
theorem erase_removes_element {lt : K → K → Bool} (hswo : StrictWeakOrder lt) {m : Map K V}
    {T : Tree K V} (hwf : WF lt m T) (pos : Iter) (hpos : ValidCursor m T pos) :
    ∃ m2 T2 pre k v post,
      (∀ fuel, T.height + 2 ≤ fuel → m.erase fuel pos = some (Except.ok m2)) ∧
      (∀ fuel r, m.erase fuel pos = some r → r = Except.ok m2) ∧
      m.deref pos = Except.ok (k, v) ∧ WF lt m2 T2 ∧
      T.toList = pre ++ (k, v) :: post ∧ T2.toList = pre ++ post ∧
      m2.size + 1 = m.size ∧
      (∀ fuel, T2.height + 1 ≤ fuel →
        m2.find lt fuel k = some m2.end_ ∧ m2.count lt fuel k = some 0) ∧
      (∀ e ∈ T.elems, e.1 ≠ pos.current → ∀ fuel, T2.height + 1 ≤ fuel →
        m2.find lt fuel e.2.1 = some ⟨e.1, m2.self⟩ ∧
        m2.deref ⟨e.1, m2.self⟩ = Except.ok (e.2.1, e.2.2)) := by
  obtain ⟨hc, hz⟩ := hpos
  obtain ⟨m2, T2, pre, k, v, post, g1, g2, g3, g4, g5, g6, g7, g8⟩ := erase_wf hswo hwf hz
  have hne := inTree_ne_nil hwf.abs hz
  have he1 : ∀ fuel, T.height + 2 ≤ fuel → m.erase fuel pos = some (Except.ok m2) := by
    intro fuel hf
    rw [erase_eq_eraseNode hc hne, g1 fuel hf]; rfl
  have hin : (pos.current, k, v) ∈ T.elems := by rw [g3]; simp
  have hasc := ascending_of_bst hswo.trans hwf.bst
  rw [keys_eq_map, g3, List.map_append, List.map_cons] at hasc
  have habs : ∀ x ∈ T2.keys, ¬ Equiv lt k x := by
    intro x hx
    rw [keys_eq_map, g4, List.map_append] at hx
    exact absent_of_removed hasc x hx
  obtain ⟨pc, pk⟩ := pos
  refine ⟨m2, T2, pre.map (fun e => e.2), k, v, post.map (fun e => e.2), he1,
    fuel_determined (Map.erase_mono m _) he1, deref_elem hwf.abs hin _, g2, ?_, ?_, ?_, ?_, ?_⟩
  · rw [toList_eq_map, g3, List.map_append, List.map_cons]
  · rw [toList_eq_map, g4, List.map_append]
  · have h1 : m.map_size = T.size := hwf.size_eq
    have h2 : T.size = T2.size + 1 := tree_size_of_elems (by rw [g3, g4]; simp; omega)
    show m2.map_size + 1 = m.map_size
    omega
  · intro fuel hf
    have := lookup_absent hswo g2.abs g2.bst habs fuel hf
    exact ⟨this.1, this.2.1⟩
  · intro e he hne2 fuel hf
    have he2 : e ∈ T2.elems := by
      rw [g3] at he
      rw [g4]
      simp only [List.mem_append, List.mem_cons] at he ⊢
      rcases he with h | rfl | h
      · exact Or.inl h
      · exact absurd rfl hne2
      · exact Or.inr h
    exact ⟨(lookup_present hswo g2.abs g2.bst he2 (equiv_refl hswo _) fuel hf).1,
      deref_elem g2.abs he2 _⟩

theorem erase_removes_element_witness :
    StrictWeakOrder ltN ∧ WF ltN exMap3 exTree3 ∧ ValidCursor exMap3 exTree3 ⟨2, 7⟩ ∧
    ∃ m2 T2 pre k v post,
      (∀ fuel, exTree3.height + 2 ≤ fuel → exMap3.erase fuel ⟨2, 7⟩ = some (Except.ok m2)) ∧
      (∀ fuel r, exMap3.erase fuel ⟨2, 7⟩ = some r → r = Except.ok m2) ∧
      exMap3.deref ⟨2, 7⟩ = Except.ok (k, v) ∧ WF ltN m2 T2 ∧
      exTree3.toList = pre ++ (k, v) :: post ∧ T2.toList = pre ++ post ∧
      m2.size + 1 = exMap3.size ∧
      (∀ fuel, T2.height + 1 ≤ fuel →
        m2.find ltN fuel k = some m2.end_ ∧ m2.count ltN fuel k = some 0) ∧
      (∀ e ∈ exTree3.elems, e.1 ≠ (⟨2, 7⟩ : Iter).current → ∀ fuel, T2.height + 1 ≤ fuel →
        m2.find ltN fuel e.2.1 = some ⟨e.1, m2.self⟩ ∧
        m2.deref ⟨e.1, m2.self⟩ = Except.ok (e.2.1, e.2.2)) :=
  ⟨ltN_swo, exMap3_wf, ⟨rfl, by decide⟩,
    erase_removes_element ltN_swo exMap3_wf ⟨2, 7⟩ ⟨rfl, by decide⟩⟩

/-- C8: the error contract of `erase`.  With any fuel, `erase pos` throws
`invalid_iterator` exactly when `pos` belongs to another container object or is at the
sentinel, the past-the-end position; it throws nothing else; `erase (end())` throws, and so
does `erase` of a default-constructed cursor (both fields `nullptr`) when the container is
not at `nullptr`.  The check of line 586 precedes every write: a throwing `erase` returns
no new state, the container is the one it was given. -/
theorem erase_error_contract (fuel : Nat) (m : Map K V) (pos : Iter) :
    (m.erase fuel pos = some (Except.error Exn.invalid_iterator) ↔
      (pos.container ≠ m.self ∨ pos.current = m.nil)) ∧
    (∀ e, m.erase fuel pos = some (Except.error e) → e = Exn.invalid_iterator) ∧
    m.erase fuel m.end_ = some (Except.error Exn.invalid_iterator) ∧
    (m.self ≠ 0 → m.erase fuel ⟨0, 0⟩ = some (Except.error Exn.invalid_iterator)) := by
  refine ⟨?_, ?_, ?_, ?_⟩
  · constructor
    · intro h
      by_contra hc
      simp only [Map.erase, if_neg hc] at h
      cases h2 : m.eraseNode fuel pos.current with
      | none => rw [h2] at h; cases h
      | some m2 => rw [h2] at h; cases h
    · intro hc
      simp only [Map.erase, if_pos hc]
  · intro e h
    by_cases hc : pos.container ≠ m.self ∨ pos.current = m.nil
    · simp only [Map.erase, if_pos hc] at h
      cases h; rfl
    · simp only [Map.erase, if_neg hc] at h
      cases h2 : m.eraseNode fuel pos.current with
      | none => rw [h2] at h; cases h
      | some m2 => rw [h2] at h; cases h
  · simp [Map.erase, Map.end_]
  · intro hs
    have : (0 : Nat) ≠ m.self := fun e => hs e.symm
    simp [Map.erase, this]

theorem erase_error_contract_witness :
    exMap3.erase 10 ⟨2, 8⟩ = some (Except.error Exn.invalid_iterator) ∧
    exMap3.erase 10 exMap3.end_ = some (Except.error Exn.invalid_iterator) ∧
    exMap3.erase 10 ⟨0, 0⟩ = some (Except.error Exn.invalid_iterator) :=
  ⟨(erase_error_contract 10 exMap3 ⟨2, 8⟩).1.2 (Or.inl (by decide)),
    (erase_error_contract 10 exMap3 ⟨2, 8⟩).2.2.1,
    (erase_error_contract 10 exMap3 ⟨2, 8⟩).2.2.2 (by decide)⟩

/-- C9: search correctness.  In a container that represents a search tree under a strict
weak order, `findHelper key` from `root` returns (with fuel above the height, and with the
same result whenever it returns) the node of the element whose key is equivalent to `key`,
which is unique, and the sentinel when there is none; `find key` is `end()` exactly when
no key is equivalent, `count key` is 1 when one is and 0 otherwise.  Both are functions of
the state and return no new state: the container is not changed. -/
theorem search_correct {lt : K → K → Bool} (hswo : StrictWeakOrder lt) {m : Map K V}
    {T : Tree K V} (h : Abs m T) (hb : T.BST lt) (key : K) :
    ∃ res,
      (∀ fuel, T.height + 1 ≤ fuel →
        m.findHelper lt key fuel m.root = some res ∧
        m.find lt fuel key = some ⟨res, m.self⟩ ∧
        m.count lt fuel key = some (if res = m.nil then 0 else 1)) ∧
      (∀ fuel r, m.findHelper lt key fuel m.root = some r → r = res) ∧
      (∀ e ∈ T.elems, Equiv lt key e.2.1 → res = e.1 ∧ res ≠ m.nil) ∧
      (∀ e1 ∈ T.elems, ∀ e2 ∈ T.elems, Equiv lt key e1.2.1 → Equiv lt key e2.2.1 → e1 = e2) ∧
      ((∀ x ∈ T.keys, ¬ Equiv lt key x) ↔ res = m.nil) ∧
      ((∀ x ∈ T.keys, ¬ Equiv lt key x) ↔ (⟨res, m.self⟩ : Iter) = m.end_) := by
  obtain ⟨res, f1, f2, f3, f4⟩ := findHelper_spec hswo h hb key
  have hiff : (∀ x ∈ T.keys, ¬ Equiv lt key x) ↔ res = m.nil := by
    constructor
    · exact f3
    · intro hres x hx heq
      obtain ⟨e, he, rfl⟩ := List.mem_map.1 hx
      have := f2 e he heq
      exact (abs_elem h he).1 (this ▸ hres)
  refine ⟨res, ?_, fuel_determined (Map.findHelper_mono lt m key m.root) f1, ?_, ?_, hiff, ?_⟩
  · intro fuel hf
    have := f1 fuel hf
    refine ⟨this, by simp [Map.find, this], ?_⟩
    by_cases hr : res = m.nil <;> simp [Map.count, this, hr]
  · intro e he heq
    have := f2 e he heq
    exact ⟨this, this ▸ (abs_elem h he).1⟩
  · intro e1 he1 e2 he2 h1 h2
    exact equiv_unique (ascending_of_bst hswo.trans hb) h.nodup he1 he2
      (hswo.equiv_trans _ _ _ (equiv_symm h1) h2)
  · rw [hiff]
    simp [Map.end_]

theorem search_correct_witness :
    StrictWeakOrder ltN ∧ Abs exMap3 exTree3 ∧ exTree3.BST ltN ∧
    ∃ res,
      (∀ fuel, exTree3.height + 1 ≤ fuel →
        exMap3.findHelper ltN 8 fuel exMap3.root = some res ∧
        exMap3.find ltN fuel 8 = some ⟨res, exMap3.self⟩ ∧
        exMap3.count ltN fuel 8 = some (if res = exMap3.nil then 0 else 1)) ∧
      (∀ fuel r, exMap3.findHelper ltN 8 fuel exMap3.root = some r → r = res) ∧
      (∀ e ∈ exTree3.elems, Equiv ltN 8 e.2.1 → res = e.1 ∧ res ≠ exMap3.nil) ∧
      (∀ e1 ∈ exTree3.elems, ∀ e2 ∈ exTree3.elems, Equiv ltN 8 e1.2.1 → Equiv ltN 8 e2.2.1 →
        e1 = e2) ∧
      ((∀ x ∈ exTree3.keys, ¬ Equiv ltN 8 x) ↔ res = exMap3.nil) ∧
      ((∀ x ∈ exTree3.keys, ¬ Equiv ltN 8 x) ↔ (⟨res, exMap3.self⟩ : Iter) = exMap3.end_) :=
  ⟨ltN_swo, exMap3_wf.abs, exMap3_wf.bst,
    search_correct ltN_swo exMap3_wf.abs exMap3_wf.bst 8⟩

/-- C10: `at key` (lines 467-477, mutable and const) and the const `operator[]` return the
value mapped to the key equivalent to `key` when there is one, and throw
`index_out_of_bound` exactly when there is none; they throw nothing else.  They are
functions of the state and return no new state: tree and size are not changed. -/
theorem at_contract {lt : K → K → Bool} (hswo : StrictWeakOrder lt) {m : Map K V}
    {T : Tree K V} (h : Abs m T) (hb : T.BST lt) (key : K) :
    ∃ res,
      (∀ fuel, T.height + 1 ≤ fuel →
        m.at_ lt fuel key = some res ∧ m.indexConst lt fuel key = some res) ∧
      (∀ fuel r, m.at_ lt fuel key = some r → r = res) ∧
      (∀ fuel r, m.indexConst lt fuel key = some r → r = res) ∧
      (∀ e ∈ T.elems, Equiv lt key e.2.1 → res = Except.ok e.2.2) ∧
      ((∀ x ∈ T.keys, ¬ Equiv lt key x) ↔ res = Except.error Exn.index_out_of_bound) ∧
      (∀ ex, res = Except.error ex → ex = Exn.index_out_of_bound) := by
  by_cases hex : ∃ e ∈ T.elems, Equiv lt key e.2.1
  · obtain ⟨e, he, heq⟩ := hex
    have g1 : ∀ fuel, T.height + 1 ≤ fuel → m.at_ lt fuel key = some (Except.ok e.2.2) :=
      fun fuel hf => (lookup_present hswo h hb he heq fuel hf).2.2
    refine ⟨Except.ok e.2.2, fun fuel hf => ⟨g1 fuel hf, g1 fuel hf⟩,
      fuel_determined (Map.at_mono lt m key) g1, fuel_determined (Map.at_mono lt m key) g1,
      ?_, ?_, ?_⟩
    · intro e2 he2 heq2
      have := equiv_unique (ascending_of_bst hswo.trans hb) h.nodup he he2
        (hswo.equiv_trans _ _ _ (equiv_symm heq) heq2)
      rw [this]
    · constructor
      · intro habs
        exact absurd heq (habs _ (mem_keys_of_mem_elems he))
      · intro hc; cases hc
    · intro ex hc; cases hc
  · have habs := absent_of_not_exists hex
    have g1 : ∀ fuel, T.height + 1 ≤ fuel →
        m.at_ lt fuel key = some (Except.error Exn.index_out_of_bound) :=
      fun fuel hf => (lookup_absent hswo h hb habs fuel hf).2.2
    refine ⟨Except.error Exn.index_out_of_bound, fun fuel hf => ⟨g1 fuel hf, g1 fuel hf⟩,
      fuel_determined (Map.at_mono lt m key) g1, fuel_determined (Map.at_mono lt m key) g1,
      ?_, ?_, ?_⟩
    · intro e he heq
      exact absurd ⟨e, he, heq⟩ hex
    · exact ⟨fun _ => rfl, fun _ => habs⟩
    · intro ex hc; cases hc; rfl

theorem at_contract_witness :
    StrictWeakOrder ltN ∧ Abs exMap3 exTree3 ∧ exTree3.BST ltN ∧
    ∃ res,
      (∀ fuel, exTree3.height + 1 ≤ fuel →
        exMap3.at_ ltN fuel 100 = some res ∧ exMap3.indexConst ltN fuel 100 = some res) ∧
      (∀ fuel r, exMap3.at_ ltN fuel 100 = some r → r = res) ∧
      (∀ fuel r, exMap3.indexConst ltN fuel 100 = some r → r = res) ∧
      (∀ e ∈ exTree3.elems, Equiv ltN 100 e.2.1 → res = Except.ok e.2.2) ∧
      ((∀ x ∈ exTree3.keys, ¬ Equiv ltN 100 x) ↔
        res = Except.error Exn.index_out_of_bound) ∧
      (∀ ex, res = Except.error ex → ex = Exn.index_out_of_bound) :=
  ⟨ltN_swo, exMap3_wf.abs, exMap3_wf.bst,
    at_contract ltN_swo exMap3_wf.abs exMap3_wf.bst 100⟩

end sjtu

namespace sjtu

variable {K V : Type}

/-! ## Mutable `operator[]` -/

theorem exMap6_wf : WF ltN exMap6 exTree6 := by
  refine ⟨⟨?_, by decide!, ?_, ?_, by decide!, by decide!, ⟨by decide!, by decide!⟩⟩, ?_,
    ⟨rfl, ?_, ?_⟩, by decide!,
    by decide!, by decide!⟩
  · exact ⟨by decide!, by decide!,
      ⟨by decide!, by decide!, ⟨by decide!, by decide!, trivial, trivial⟩, trivial⟩,
      ⟨by decide!, by decide!, ⟨by decide!, by decide!, trivial, trivial⟩,
        ⟨by decide!, by decide!, trivial, trivial⟩⟩⟩
  · decide
  · intro a ha
    simp [exTree6] at ha
    rcases ha with rfl | rfl | rfl | rfl | rfl | rfl <;> decide!
  · simp [exTree6, Tree.BST, Tree.keys, Tree.elems, ltN]
  · simp [exTree6, Tree.NoRedRed, Tree.color]
  · exact (Tree.equalBlackHeight_iff _).2 ⟨2, by simp [exTree6, Tree.BH]⟩

/-- C11 (the code does not do this when `T` is a scalar type): what the mutable
`operator[]` does.  `held` is what the local `default_value` holds when line 491 copies it:
line 490 reads `T default_value;`, which leaves a scalar `T` such as `int` uninitialised, so
`held` is any value and not `T()` (the model lets the read of the local yield it).  On a
well-formed container every run that returns ends with a value, no exception and no
`std::terminate`.  If an element has a key equivalent to `key` the value is that element's
and the state is the one given; if none has, the state afterwards is well formed with
`(key, held)` added at its place in the order, `size()` is one more, the value returned is
`held`, and `find key` is then a cursor that dereferences to `(key, held)`.  Wherever `held`
is not the default value `dflt`, the value returned is not the default value and the
container does not hold `(key, dflt)`. -/
theorem index_contract {lt : K → K → Bool} (hswo : StrictWeakOrder lt) (held : V)
    {m : Map K V} {T : Tree K V} (hwf : WF lt m T) (key : K) :
    ∃ m2 T2 v,
      (∀ fuel, T.height + 2 ≤ fuel → m.index lt held fuel key = some (m2, Outcome.value v)) ∧
      (∀ fuel r, m.index lt held fuel key = some r → r = (m2, Outcome.value v)) ∧
      WF lt m2 T2 ∧
      (∀ e ∈ T.elems, Equiv lt key e.2.1 → v = e.2.2 ∧ m2 = m) ∧
      ((∀ x ∈ T.keys, ¬ Equiv lt key x) →
        v = held ∧ m2.size = m.size + 1 ∧
        (∃ pre post, T.toList = pre ++ post ∧ T2.toList = pre ++ (key, held) :: post) ∧
        (∃ it, (∀ fuel, T2.height + 1 ≤ fuel → m2.find lt fuel key = some it) ∧
          m2.deref it = Except.ok (key, held)) ∧
        ∀ dflt, held ≠ dflt → v ≠ dflt ∧ (key, dflt) ∉ T2.toList) := by
  obtain ⟨m2, T2, v, g1, g2, g3, g4, g5⟩ := index_wf hswo held hwf key
  refine ⟨m2, T2, v, g1, fuel_determined (Map.index_mono lt held m key) g1, g2, ?_, ?_⟩
  · intro e he heq
    rcases g5 with ⟨e2, he2, heq2, hv, hm, -⟩ | ⟨habs, -⟩
    · have := equiv_unique (ascending_of_bst hswo.trans hwf.bst) hwf.abs.nodup he he2
        (hswo.equiv_trans _ _ _ (equiv_symm heq) heq2)
      rw [this]; exact ⟨hv, hm⟩
    · exact absurd heq (habs _ (mem_keys_of_mem_elems he))
  · intro habs
    rcases g5 with ⟨e2, he2, heq2, -⟩ | ⟨-, hv, hs, pre, post, h1, h2⟩
    · exact absurd heq2 (habs _ (mem_keys_of_mem_elems he2))
    · have hin : (m.next, key, held) ∈ T2.elems := by rw [h2]; simp
      have hT : T.toList = pre.map (fun e => e.2) ++ post.map (fun e => e.2) := by
        rw [toList_eq_map, h1, List.map_append]
      have hT2 : T2.toList =
          pre.map (fun e => e.2) ++ (key, held) :: post.map (fun e => e.2) := by
        rw [toList_eq_map, h2, List.map_append, List.map_cons]
      refine ⟨hv, hs, ⟨pre.map (fun e => e.2), post.map (fun e => e.2), hT, hT2⟩,
        ⟨⟨m.next, m2.self⟩, ?_, deref_elem g2.abs hin _⟩, ?_⟩
      · intro fuel hf
        exact (lookup_present hswo g2.abs g2.bst hin (equiv_refl hswo key) fuel hf).1
      · intro dflt hne
        refine ⟨fun e => hne (hv.symm.trans e), ?_⟩
        intro hmem
        rw [hT2, List.mem_append, List.mem_cons] at hmem
        have hold : (key, dflt) ∈ T.toList → False := by
          intro hm
          rw [toList_eq_map] at hm
          obtain ⟨e, he, hee⟩ := List.mem_map.1 hm
          have hk : e.2.1 = key := congrArg Prod.fst hee
          have := habs _ (mem_keys_of_mem_elems he)
          rw [hk] at this
          exact this (equiv_refl hswo key)
        rcases hmem with hm | hm | hm
        · exact hold (by rw [hT]; exact List.mem_append.2 (Or.inl hm))
        · exact hne (congrArg Prod.snd hm).symm
        · exact hold (by rw [hT]; exact List.mem_append.2 (Or.inr hm))

theorem index_contract_witness :
    StrictWeakOrder ltN ∧ WF ltN exMap6 exTree6 ∧ (∀ x ∈ exTree6.keys, ¬ Equiv ltN 2 x) ∧
    exMap6.size = 6 ∧ exMap6.val exMap6.nil = 0 ∧
    (exMap6.index ltN 12345 10 2).map (fun r => r.2) = some (Outcome.value 12345) ∧
    ∃ m2 T2, (∀ fuel, exTree6.height + 2 ≤ fuel →
        exMap6.index ltN 12345 fuel 2 = some (m2, Outcome.value 12345)) ∧
      m2.size = 7 ∧ (2, 12345) ∈ T2.toList ∧ (2, 0) ∉ T2.toList ∧ WF ltN m2 T2 := by
  obtain ⟨m2, T2, v, g1, -, g3, -, g5⟩ := index_contract ltN_swo 12345 exMap6_wf 2
  have habs : ∀ x ∈ exTree6.keys, ¬ Equiv ltN 2 x := by
    simp [exTree6, Tree.keys, Tree.elems, Equiv, ltN]
  obtain ⟨hv, hs, ⟨pre, post, -, hT2⟩, -, hd⟩ := g5 habs
  subst hv
  have h6 : exMap6.size = 6 := by decide!
  exact ⟨ltN_swo, exMap6_wf, habs, h6, by decide!, by decide!, m2, T2, g1,
    by rw [hs, h6], by rw [hT2]; simp, (hd 0 (by decide)).2, g3⟩

end sjtu

namespace sjtu

variable {K V : Type}

/-! ## Copy construction and copy assignment -/

/-- `copyHelper` at a node that is not the sentinel of the caller and whose `left` link is
the node itself never returns. -/
theorem copyHelper_loops : ∀ (fuel : Nat) (m : Map K V) (s parent : Nat), s ≠ m.nil →
    s < m.next → (m.mem s).left = s → Map.copyHelper fuel m s parent = none := by
  intro fuel
  induction fuel with
  | zero => intro m s parent _ _ _; rfl
  | succ n ih =>
    intro m s parent h1 h2 h3
    have hs : s ≠ m.next := by omega
    have hl : (m.newNode (m.key s) (m.val s) (m.color s) parent).1.left s = s := by
      simp [Map.left, hs, h3]
    rw [Map.copyHelper, if_neg h1]
    simp only [hl]
    rw [ih (m.newNode (m.key s) (m.val s) (m.color s) parent).1 s
      (m.newNode (m.key s) (m.val s) (m.color s) parent).2 h1 (by simp; omega)
      (by simp [hs, h3])]

/-- `copyHelper` at the root of a tree whose leaves are a sentinel `sn` other than the
sentinel of the caller never returns: it descends along the `left` links to `sn`, copies
it as if it were a node, and goes on from `sn->left`, which is `sn`. -/
theorem copyHelper_diverges {sn : Nat} (t : Tree K V) : ∀ (par : Nat) (m : Map K V)
    (parent fuel : Nat), Rep m.mem sn t par → (∀ a ∈ t.addrs, a < m.next) → sn ≠ m.nil →
    sn < m.next → (m.mem sn).left = sn → m.nil ∉ t.addrs →
    Map.copyHelper fuel m (t.ptr sn) parent = none := by
  induction t with
  | leaf =>
    intro par m parent fuel _ _ h1 h2 h3 _
    exact copyHelper_loops fuel m sn parent h1 h2 h3
  | node l a c k v r ihl _ =>
    intro par m parent fuel hrep hb h1 h2 h3 h4
    cases fuel with
    | zero => rfl
    | succ n =>
      simp only [Rep_node] at hrep
      obtain ⟨-, ha, hl, -⟩ := hrep
      simp only [Tree.addrs_node, List.mem_append, List.mem_cons, not_or] at h4
      have hb2 : ∀ b ∈ l.addrs, b < m.next := fun b hb3 => hb b (by simp [hb3])
      have han : a ≠ m.next := by have := hb a (by simp); omega
      have hsn : sn ≠ m.next := by omega
      have hleft : (m.newNode (m.key a) (m.val a) (m.color a) parent).1.left a =
          l.ptr sn := by
        simp [Map.left, han, ha]
      rw [Tree.ptr_node, Map.copyHelper, if_neg (Ne.symm h4.2.1)]
      simp only [hleft]
      rw [ihl a (m.newNode (m.key a) (m.val a) (m.color a) parent).1
        (m.newNode (m.key a) (m.val a) (m.color a) parent).2 n (Rep_congr (fun b hb3 => by
          have : b ≠ m.next := by have := hb2 b hb3; omega
          simp [this]) hl) (fun b hb3 => by simp; have := hb2 b hb3; omega) h1
        (by simp; omega) (by simp [hsn, h3]) h4.1]

/-- `copyHelper` called by a container `d` on the root of another container: `d` has the
heap of `other` with nodes of its own allocated later, its sentinel among them. -/
theorem copyHelper_of_source {other : Map K V} {T : Tree K V} (hs : Abs other T)
    (d : Map K V)
    (hmem : ∀ a, a < other.next → d.mem a = other.mem a) (hnext : other.next ≤ d.next)
    (hnil : other.next ≤ d.nil) :
    ∀ fuel parent, Map.copyHelper fuel d other.root parent = none := by
  intro fuel parent
  have hn := hs.nil_lt
  rw [hs.root]
  refine copyHelper_diverges T other.nil d parent fuel
    (Rep_congr (fun a ha => hmem a (hs.bound a ha)) hs.rep) ?_ (by omega) (by omega) ?_ ?_
  · intro a ha; have := hs.bound a ha; omega
  · rw [hmem _ hn]; exact hs.nil_links.1
  · intro hc; have := hs.bound _ hc; omega

end sjtu

namespace sjtu

variable {K V : Type}

theorem freshSentinel_frame (m : Map K V) (cell : Node K V) :
    (m.freshSentinel cell).nil = m.next ∧ (m.freshSentinel cell).next = m.next + 1 ∧
    ∀ a, a < m.next → (m.freshSentinel cell).mem a = m.mem a := by
  refine ⟨rfl, rfl, ?_⟩
  intro a ha
  have h1 : a ≠ m.next := by omega
  simp [Map.freshSentinel, Map.setLeft, Map.setRight, Map.setParent, Map.upd, Map.newNode, h1]

/-- The copy constructor on a source that represents a tree. -/
theorem copyConstruct_of_source {other : Map K V} {T : Tree K V} (hs : Abs other T)
    (fuel self : Nat) (cell : Node K V) :
    Map.copyConstruct fuel self cell other = none := by
  obtain ⟨f1, f2, f3⟩ := freshSentinel_frame
    (⟨other.mem, 0, 0, other.map_size, self, other.next⟩ : Map K V) cell
  have := copyHelper_of_source hs _ f3 (by rw [f2]; exact Nat.le_succ _)
    (by rw [f1]) fuel
    (Map.freshSentinel ⟨other.mem, 0, 0, other.map_size, self, other.next⟩ cell).nil
  simp only [Map.copyConstruct, this]

/-- C12 (the code does not do this): copying never produces a container.  For every source
`other` that represents a tree (its sentinel then has its `left` link at itself), the copy
constructor returns for no fuel, and neither does copy assignment to another container `m`
whose heap holds the nodes of `other`: line 186 of `copyHelper` compares with the sentinel
of the destination, the leaves of the source are the sentinel of the source. -/
theorem copy_never_returns {other : Map K V} {T : Tree K V} (hs : Abs other T) :
    (∀ fuel self (cell : Node K V), Map.copyConstruct fuel self cell other = none) ∧
    (∀ fuel (cell : Node K V) (m : Map K V), (∀ a, a < other.next → m.mem a = other.mem a) →
      other.next ≤ m.next → m.self ≠ other.self → Map.copyAssign fuel cell m other = none) := by
  constructor
  · intro fuel self cell
    exact copyConstruct_of_source hs fuel self cell
  · intro fuel cell m hmem hnext hne
    unfold Map.copyAssign
    rw [if_pos hne]
    cases hc : m.clear fuel with
    | none => rfl
    | some m1 =>
      have hm1 : m1 = { m.setRoot m.nil with map_size := 0 } := by
        unfold Map.clear at hc
        cases h2 : m.clearHelper fuel m.root with
        | none => rw [h2] at hc; cases hc
        | some u => rw [h2] at hc; exact (Option.some.inj hc).symm
      obtain ⟨f1, f2, f3⟩ := freshSentinel_frame m1 cell
      have hmem1 : ∀ a, a < other.next → m1.mem a = other.mem a := by
        intro a ha; rw [hm1]; exact hmem a ha
      have hnext1 : other.next ≤ m1.next := by rw [hm1]; exact hnext
      have := copyHelper_of_source hs (m1.freshSentinel cell)
        (fun a ha => by rw [f3 a (by omega)]; exact hmem1 a ha)
        (by rw [f2]; omega) (by rw [f1]; exact hnext1) fuel (m1.freshSentinel cell).nil
      simp only [this]

theorem copy_never_returns_witness :
    Abs exMap3 exTree3 ∧
    (∀ fuel, Map.copyConstruct fuel 9 cell0 exMap3 = none) ∧
    (∀ fuel, Map.copyAssign fuel cell0 exBeside exMap3 = none) :=
  ⟨exMap3_wf.abs,
    fun fuel => (copy_never_returns exMap3_wf.abs).1 fuel 9 cell0,
    fun fuel => (copy_never_returns exMap3_wf.abs).2 fuel cell0 exBeside
      (by decide!) (by decide!) (by decide!)⟩

/-- C13 (the code does not do this): `copyHelper` does not run to completion.  Called by a
destination `d` (the heap of the source with later allocations, the sentinel of `d` among
them) on the root of a source that represents a tree (its sentinel then has its `left`
link at itself), it returns for no fuel, and so creates no bounded number of nodes: the
recursion does not stop at the leaves of the source, it copies the sentinel of the source
and goes on from its `left` link.  This holds for the empty source as well. -/
theorem copyHelper_never_returns {other : Map K V} {T : Tree K V} (hs : Abs other T)
    (d : Map K V)
    (hmem : ∀ a, a < other.next → d.mem a = other.mem a) (hnext : other.next ≤ d.next)
    (hnil : other.next ≤ d.nil) :
    (∀ fuel parent, Map.copyHelper fuel d other.root parent = none) ∧
    (∀ fuel self (cell : Node K V),
      Map.copyConstruct fuel self cell (Map.empty other.self cell) = none) := by
  refine ⟨copyHelper_of_source hs d hmem hnext hnil, ?_⟩
  intro fuel self cell
  have he : Abs (Map.empty other.self cell) Tree.leaf :=
    ⟨trivial, rfl, List.nodup_nil, fun a ha => by simp at ha, by show 1 < 2; decide,
      by simp [Map.empty, Map.newNode, Map.setParent, Map.setRight, Map.setLeft, Map.setRoot,
        Map.upd],
      by simp [Map.empty, Map.newNode, Map.setParent, Map.setRight, Map.setLeft, Map.setRoot,
        Map.upd]⟩
  exact copyConstruct_of_source he fuel self cell

theorem copyHelper_never_returns_witness :
    Abs exMap3 exTree3 ∧
    (∀ fuel parent, Map.copyHelper fuel exBeside exMap3.root parent = none) ∧
    (∀ fuel, Map.copyConstruct fuel 9 cell0 (Map.empty 7 cell0) = none) :=
  ⟨exMap3_wf.abs,
    (copyHelper_never_returns exMap3_wf.abs exBeside (by decide!) (by decide!)
      (by decide!)).1,
    fun fuel => (copyHelper_never_returns exMap3_wf.abs exBeside (by decide!)
      (by decide!) (by decide!)).2 fuel 9 cell0⟩

end sjtu

namespace sjtu

variable {K V : Type}

/-! ## Cursors: succession and predecession in the in-order sequence -/

@[simp] theorem lastPtr_nil (nilp : Nat) : lastPtr nilp ([] : List (Nat × K × V)) = nilp := rfl

@[simp] theorem lastPtr_concat (nilp : Nat) (l : List (Nat × K × V)) (e : Nat × K × V) :
    lastPtr nilp (l ++ [e]) = e.1 := by
  simp [lastPtr, headPtr]

theorem lastPtr_append (nilp : Nat) (l : List (Nat × K × V)) {l2 : List (Nat × K × V)}
    (h : l2 ≠ []) : lastPtr nilp (l ++ l2) = lastPtr nilp l2 := by
  unfold lastPtr
  rw [List.reverse_append]
  exact headPtr_append nilp (by simpa using h) _

theorem lastPtr_cons_concat (nilp : Nat) (l : List (Nat × K × V)) (e0 e : Nat × K × V) :
    lastPtr nilp (e0 :: (l ++ [e])) = e.1 := by
  rw [← List.cons_append, lastPtr_concat]

/-- Lines 266, 270: the rightmost node of a subtree is its last element in order. -/
theorem maximum_last {m : Map K V} (r : Tree K V) : ∀ (P : Path K V), r ≠ Tree.leaf →
    Abs m (P.plug r) →
    ∀ fuel, r.height ≤ fuel → m.maximum fuel (r.ptr m.nil) = some (lastPtr m.nil r.elems) := by
  induction r with
  | leaf => intro P h; exact absurd rfl h
  | node l a c k v r2 _ ihr =>
    intro P _ h fuel hf
    obtain ⟨f, rfl⟩ : ∃ f, fuel = f + 1 := ⟨fuel - 1, by simp [Tree.height] at hf; omega⟩
    have e1 : m.right a = r2.ptr m.nil := abs_right_eq P h
    have hR : Abs m ((Path.R l a c k v P).plug r2) := h
    by_cases hr : r2 = Tree.leaf
    · subst hr
      simp only [Tree.ptr_node, Map.maximum, e1, Tree.ptr_leaf, ne_eq, not_true_eq_false,
        if_false, Tree.elems_node, Tree.elems_leaf]
      rw [lastPtr_concat]
    · have hn := tree_ptr_ne_nil hR hr
      simp only [Tree.ptr_node, Map.maximum, e1, ne_eq, hn, not_false_eq_true, if_true,
        Tree.elems_node]
      rw [ihr (Path.R l a c k v P) hr hR f (by simp [Tree.height] at hf; omega),
        lastPtr_append m.nil l.elems (List.cons_ne_nil _ _), ← List.singleton_append,
        lastPtr_append m.nil _ (elems_ne_nil hr)]

/-- Lines 273-276: the climbing loop of `operator--` stops at the first ancestor reached
from its right subtree. -/
theorem climbLeft_spec {m : Map K V} (p : Path K V) : ∀ (t : Tree K V), Abs m (p.plug t) →
    t ≠ Tree.leaf → ∀ fuel, p.depth + 1 ≤ fuel →
      m.climbLeft fuel (t.ptr m.nil) (p.ptr m.nil) = some (lastPtr m.nil p.pre) := by
  induction p with
  | top =>
    intro t _ _ fuel hf
    obtain ⟨f, rfl⟩ : ∃ f, fuel = f + 1 := ⟨fuel - 1, by omega⟩
    simp [Map.climbLeft, Path.pre]
  | R l a c k v up ih =>
    intro t h ht fuel hf
    obtain ⟨f, rfl⟩ : ∃ f, fuel = f + 1 := ⟨fuel - 1, by omega⟩
    have h2 : Abs m (up.plug (Tree.node l a c k v t)) := h
    obtain ⟨-, -, -, -, -, -, -, -, f9, -⟩ := zrep_facts (zrep_iff.1 h2)
    have hmem := tree_ptr_mem m.nil ht
    have hne : t.ptr m.nil ≠ m.left a := by
      rw [abs_left_eq up h2]
      rcases tree_ptr_cases m.nil l with ⟨_, e⟩ | ⟨_, e⟩
      · rw [e]; exact (f9 _ hmem).2.2.2
      · intro e2; exact (f9 _ hmem).2.1 (e2 ▸ e)
    have hp : (Path.R l a c k v up).pre = (up.pre ++ l.elems) ++ [(a, k, v)] := by
      simp [Path.pre]
    rw [hp, lastPtr_concat]
    simp [Map.climbLeft, hne]
  | L a c k v r up ih =>
    intro t h ht fuel hf
    obtain ⟨f, rfl⟩ : ∃ f, fuel = f + 1 := ⟨fuel - 1, by omega⟩
    have h2 : Abs m (up.plug (Tree.node t a c k v r)) := h
    have e1 : a ≠ m.nil := abs_ne_nil h2
    have e2 : m.left a = t.ptr m.nil := abs_left_eq up h2
    have := ih _ h2 (by simp) f (by simp only [Path.depth_L] at hf; omega)
    simp only [Tree.ptr_node] at this
    rw [Map.climbLeft, Path.ptr_L, if_pos ⟨e1, e2.symm⟩, abs_parent_eq up h2, this]
    rfl

theorem lastPtr_eq_nil_iff {m : Map K V} {T : Tree K V} (h : Abs m T)
    {l : List (Nat × K × V)} (hl : ∀ e ∈ l, e ∈ T.elems) : lastPtr m.nil l = m.nil ↔ l = [] := by
  constructor
  · intro hp
    rcases List.eq_nil_or_concat l with rfl | ⟨l2, e, rfl⟩
    · rfl
    · exfalso
      rw [List.concat_eq_append, lastPtr_concat] at hp
      exact (abs_elem h (hl e (by simp))).1 hp
  · rintro rfl; rfl

/-- Prefix `operator--` at an element moves to the element before it in order; at the first
element it moves the cursor to the sentinel and throws. -/
theorem iter_prev_spec {m : Map K V} {p : Path K V} {l r : Tree K V} {a : Nat} {c : Color}
    {k : K} {v : V} (h : Abs m (p.plug (Tree.node l a c k v r))) (s : Nat) :
    ∀ fuel, (p.plug (Tree.node l a c k v r)).height + 1 ≤ fuel →
      Map.Iter_prev fuel m ⟨a, s⟩ = some (⟨lastPtr m.nil (p.pre ++ l.elems), s⟩,
        if (p.pre ++ l.elems).isEmpty then some Exn.invalid_iterator else none) := by
  intro fuel hf
  have hht := height_plug p (Tree.node l a c k v r)
  simp only [Tree.height] at hht
  have e1 : a ≠ m.nil := abs_ne_nil h
  have e2 : m.left a = l.ptr m.nil := abs_left_eq p h
  have hL : Abs m ((Path.L a c k v r p).plug l) := h
  by_cases hl : l = Tree.leaf
  · subst hl
    have hc := climbLeft_spec p _ h (by simp) fuel (by omega)
    simp only [Tree.ptr_node] at hc
    have hiff : lastPtr m.nil p.pre = m.nil ↔ p.pre = [] :=
      lastPtr_eq_nil_iff h (fun e he => by rw [Path.elems_plug]; simp [he])
    simp only [Map.Iter_prev, if_neg e1, e2, Tree.ptr_leaf, ne_eq, not_true_eq_false, if_false,
      abs_parent_eq p h, hc, Tree.elems_leaf, List.append_nil]
    by_cases hp : p.pre = []
    · rw [if_pos (hiff.2 hp), hp]; rfl
    · rw [if_neg (fun e => hp (hiff.1 e))]
      have : p.pre.isEmpty = false := by
        cases hq : p.pre with
        | nil => exact absurd hq hp
        | cons x xs => rfl
      rw [this]; rfl
  · have hn := tree_ptr_ne_nil hL hl
    have hm := maximum_last l (Path.L a c k v r p) hl hL fuel (by omega)
    have hne : (p.pre ++ l.elems).isEmpty = false := by
      cases hq : l.elems with
      | nil => exact absurd hq (elems_ne_nil hl)
      | cons x xs => cases p.pre <;> rfl
    simp only [Map.Iter_prev, if_neg e1, e2, ne_eq, hn, not_false_eq_true, if_true, hm,
      lastPtr_append m.nil p.pre (elems_ne_nil hl), hne]
    rfl

end sjtu

namespace sjtu

variable {K V : Type}

/-- The position of an element in the in-order sequence fixes the path to its node. -/
theorem split_unique {m : Map K V} {p : Path K V} {l r : Tree K V} {c : Color}
    {e : Nat × K × V} (h : Abs m (p.plug (Tree.node l e.1 c e.2.1 e.2.2 r)))
    {pre rest : List (Nat × K × V)}
    (hsplit : (p.plug (Tree.node l e.1 c e.2.1 e.2.2 r)).elems = pre ++ e :: rest) :
    pre = p.pre ++ l.elems ∧ rest = r.elems ++ p.post := by
  have hnd := nodup_elems h.nodup
  rw [hsplit] at hnd
  have hnd2 := List.nodup_append.1 hnd
  have hd3 := List.nodup_cons.1 hnd2.2.1
  have hpre : e ∉ pre := fun hm => hnd2.2.2 hm (List.mem_cons_self _ _)
  have hT : (p.plug (Tree.node l e.1 c e.2.1 e.2.2 r)).elems =
      (p.pre ++ l.elems) ++ e :: (r.elems ++ p.post) := by
    rw [Path.elems_plug]; simp
  rw [hsplit] at hT
  obtain ⟨h1, -, h2⟩ := (List.append_cons_inj_of_not_mem hpre hd3.1).1 hT
  exact ⟨h1, h2⟩

/-- Prefix `operator++` at the element `e` of the in-order sequence `pre ++ e :: rest`. -/
theorem iter_next_list {m : Map K V} {T : Tree K V} (h : Abs m T)
    {pre rest : List (Nat × K × V)} {e : Nat × K × V} (hsplit : T.elems = pre ++ e :: rest)
    (s : Nat) : ∀ fuel, T.height + 1 ≤ fuel →
      Map.Iter_next fuel m ⟨e.1, s⟩ = some (Except.ok ⟨headPtr m.nil rest, s⟩) := by
  intro fuel hf
  have he : e ∈ T.elems := by rw [hsplit]; simp
  obtain ⟨p, l, c, r, hp⟩ := locate_elem e T Path.top he
  simp only [Path.plug_top] at hp
  subst hp
  rw [(split_unique h hsplit).2]
  exact iter_next_spec h s fuel hf

/-- Prefix `operator--` at the element `e` of the in-order sequence `pre ++ e :: rest`. -/
theorem iter_prev_list {m : Map K V} {T : Tree K V} (h : Abs m T)
    {pre rest : List (Nat × K × V)} {e : Nat × K × V} (hsplit : T.elems = pre ++ e :: rest)
    (s : Nat) : ∀ fuel, T.height + 1 ≤ fuel →
      Map.Iter_prev fuel m ⟨e.1, s⟩ = some (⟨lastPtr m.nil pre, s⟩,
        if pre.isEmpty then some Exn.invalid_iterator else none) := by
  intro fuel hf
  have he : e ∈ T.elems := by rw [hsplit]; simp
  obtain ⟨p, l, c, r, hp⟩ := locate_elem e T Path.top he
  simp only [Path.plug_top] at hp
  subst hp
  rw [(split_unique h hsplit).1]
  exact iter_prev_spec h s fuel hf

/-- Prefix `operator--` at `end()`. -/
theorem iter_prev_end {m : Map K V} {T : Tree K V} (h : Abs m T) (s : Nat) :
    ∀ fuel, T.height ≤ fuel →
      Map.Iter_prev fuel m ⟨m.nil, s⟩ = some (⟨lastPtr m.nil T.elems, s⟩,
        if T.elems.isEmpty then some Exn.invalid_iterator else none) := by
  intro fuel hf
  by_cases hT : T = Tree.leaf
  · subst hT
    have : m.root = m.nil := h.root
    simp [Map.Iter_prev, this]
  · have hn := tree_ptr_ne_nil (p := Path.top) h hT
    have hm := maximum_last T Path.top hT h fuel hf
    rw [← h.root] at hn hm
    have hne : T.elems.isEmpty = false := by
      cases hq : T.elems with
      | nil => exact absurd hq (elems_ne_nil hT)
      | cons x xs => rfl
    simp [Map.Iter_prev, hn, hm, hne]

theorem iter_next_end (m : Map K V) (s fuel : Nat) :
    Map.Iter_next fuel m ⟨m.nil, s⟩ = some (Except.error Exn.invalid_iterator) := by
  simp [Map.Iter_next]

/-- From the element at the head of `suf` (from `end()` when `suf` is empty), as many calls
of `operator--` as there are elements before it reach the first element. -/
theorem retreat_spec {m : Map K V} {T : Tree K V} (h : Abs m T) (s : Nat) :
    ∀ (pre suf : List (Nat × K × V)), T.elems = pre ++ suf →
      ∀ fuel, T.height + 1 ≤ fuel →
        m.retreat fuel pre.length ⟨headPtr m.nil suf, s⟩ =
          some (⟨headPtr m.nil T.elems, s⟩, none) := by
  intro pre
  induction pre using List.reverseRecOn with
  | nil =>
    intro suf hsplit fuel _
    rw [hsplit]; rfl
  | append_singleton pre2 e ih =>
    intro suf hsplit fuel hf
    have hsplit2 : T.elems = pre2 ++ e :: suf := by rw [hsplit]; simp
    have hstep : Map.Iter_prev fuel m ⟨headPtr m.nil suf, s⟩ = some (⟨e.1, s⟩, none) := by
      cases suf with
      | nil =>
        have := iter_prev_end h s fuel (by omega)
        rw [hsplit, List.append_nil] at this
        rw [lastPtr_concat] at this
        have hne : (pre2 ++ [e]).isEmpty = false := by cases pre2 <;> rfl
        rw [hne] at this
        exact this
      | cons x rest =>
        have := iter_prev_list h hsplit s fuel hf
        rw [lastPtr_concat] at this
        have hne : (pre2 ++ [e]).isEmpty = false := by cases pre2 <;> rfl
        rw [hne] at this
        exact this
    rw [List.length_append, List.length_singleton, Map.retreat, hstep]
    exact ih (e :: suf) hsplit2 fuel hf

/-- From the element at the head of `suf`, as many calls of `operator++` as `suf` has
elements reach `end()`. -/
theorem advance_spec {m : Map K V} {T : Tree K V} (h : Abs m T) (s : Nat) :
    ∀ (suf pre : List (Nat × K × V)), T.elems = pre ++ suf →
      ∀ fuel, T.height + 1 ≤ fuel →
        m.advance fuel suf.length ⟨headPtr m.nil suf, s⟩ = some (Except.ok ⟨m.nil, s⟩) := by
  intro suf
  induction suf with
  | nil => intro pre _ fuel _; rfl
  | cons e rest ih =>
    intro pre hsplit fuel hf
    rw [List.length_cons, Map.advance]
    have : headPtr m.nil (e :: rest) = e.1 := rfl
    rw [this, iter_next_list h hsplit s fuel hf]
    exact ih (pre ++ [e]) (by rw [hsplit]; simp) fuel hf

end sjtu

namespace sjtu

variable {K V : Type}

/-! ## Iteration in both directions -/

/-- C14: forward iteration is in-order succession.  In a well-formed container the keys of
the in-order sequence are strictly ascending; `begin()` (and `cbegin()`) is at its first
element, at `end()` when there is none; `operator++` at an element moves to the next
element of the sequence, to `end()` from the last; `operator++` at `end()` throws
`invalid_iterator`; `size()` calls of `operator++` from `begin()` reach `end()`, and the
loop from `begin()` to `end()` visits the nodes of the sequence, each once, in order.
`iterator` and `const_iterator` run the same code. -/
theorem forward_iteration {lt : K → K → Bool} (hswo : StrictWeakOrder lt) {m : Map K V}
    {T : Tree K V} (hwf : WF lt m T) :
    Ascending lt T.keys ∧
    (∀ fuel, T.height ≤ fuel → m.begin fuel = some ⟨headPtr m.nil T.elems, m.self⟩) ∧
    (T.elems = [] → ∀ fuel, m.begin fuel = some m.end_) ∧
    (∀ pre e rest s, T.elems = pre ++ e :: rest → ∀ fuel, T.height + 1 ≤ fuel →
      Map.Iter_next fuel m ⟨e.1, s⟩ = some (Except.ok ⟨headPtr m.nil rest, s⟩)) ∧
    (∀ fuel s, Map.Iter_next fuel m ⟨m.nil, s⟩ = some (Except.error Exn.invalid_iterator)) ∧
    (∀ fuel, T.height + 1 ≤ fuel →
      m.advance fuel m.size ⟨headPtr m.nil T.elems, m.self⟩ = some (Except.ok m.end_)) ∧
    (∀ fuel, T.size + T.height + 1 ≤ fuel →
      m.walk fuel ⟨headPtr m.nil T.elems, m.self⟩ = some T.addrs) ∧
    T.addrs.Nodup ∧ T.addrs.length = m.size := by
  have hsz : m.size = T.elems.length := by
    rw [Tree.length_elems]; exact hwf.size_eq
  refine ⟨ascending_of_bst hswo.trans hwf.bst, begin_spec hwf.abs, ?_,
    fun pre e rest s hs => iter_next_list hwf.abs hs s, fun fuel s => iter_next_end m s fuel,
    ?_, ?_, hwf.abs.nodup, ?_⟩
  · intro hT fuel
    have hl : T = Tree.leaf := by
      by_contra hne; exact elems_ne_nil hne hT
    subst hl
    have : m.root = m.nil := hwf.abs.root
    simp [Map.begin, this, Map.end_]
  · intro fuel hf
    rw [hsz]
    exact advance_spec hwf.abs m.self T.elems [] rfl fuel hf
  · intro fuel hf
    exact traverse_spec hwf.abs T.elems [] rfl fuel (by rw [Tree.length_elems]; exact hf)
  · rw [hsz]; simp [Tree.addrs]

theorem forward_iteration_witness :
    StrictWeakOrder ltN ∧ WF ltN exMap3 exTree3 ∧
    Map.Iter_next 3 exMap3 ⟨3, 7⟩ = some (Except.ok ⟨2, 7⟩) ∧
    Map.Iter_next 3 exMap3 ⟨4, 7⟩ = some (Except.ok exMap3.end_) ∧
    exMap3.walk 6 ⟨3, 7⟩ = some [3, 2, 4] :=
  ⟨ltN_swo, exMap3_wf,
    (forward_iteration ltN_swo exMap3_wf).2.2.2.1 [] (3, 3, 30) [(2, 5, 50), (4, 8, 80)] 7 rfl
      3 (by decide),
    (forward_iteration ltN_swo exMap3_wf).2.2.2.1 [(3, 3, 30), (2, 5, 50)] (4, 8, 80) [] 7 rfl
      3 (by decide),
    (forward_iteration ltN_swo exMap3_wf).2.2.2.2.2.2.1 6 (by decide)⟩

/-- C15: backward iteration is in-order predecession.  In a well-formed container
`operator--` at `end()` throws `invalid_iterator` when the container is empty and moves to
the last element otherwise; `operator--` at an element moves to the element before it and
at the first element throws `invalid_iterator` (line 277 has then moved the cursor to the
sentinel); where `operator++` moves from `e0` to `e`, `operator--` moves from `e` to `e0`,
and likewise between the last element and `end()`; `size()` calls of `operator--` from
`end()` reach `begin()`. -/
theorem backward_iteration {lt : K → K → Bool} {m : Map K V} {T : Tree K V}
    (hwf : WF lt m T) :
    (T.elems = [] → ∀ fuel s,
      Map.Iter_prev fuel m ⟨m.nil, s⟩ = some (⟨m.nil, s⟩, some Exn.invalid_iterator)) ∧
    (∀ pre e s, T.elems = pre ++ [e] → ∀ fuel, T.height + 1 ≤ fuel →
      Map.Iter_prev fuel m ⟨m.nil, s⟩ = some (⟨e.1, s⟩, none) ∧
      Map.Iter_next fuel m ⟨e.1, s⟩ = some (Except.ok ⟨m.nil, s⟩)) ∧
    (∀ pre e0 e rest s, T.elems = pre ++ e0 :: e :: rest → ∀ fuel, T.height + 1 ≤ fuel →
      Map.Iter_prev fuel m ⟨e.1, s⟩ = some (⟨e0.1, s⟩, none) ∧
      Map.Iter_next fuel m ⟨e0.1, s⟩ = some (Except.ok ⟨e.1, s⟩)) ∧
    (∀ e rest s, T.elems = e :: rest → ∀ fuel, T.height + 1 ≤ fuel →
      Map.Iter_prev fuel m ⟨e.1, s⟩ = some (⟨m.nil, s⟩, some Exn.invalid_iterator)) ∧
    (∀ fuel, T.height + 1 ≤ fuel →
      m.retreat fuel m.size m.end_ = some (⟨headPtr m.nil T.elems, m.self⟩, none) ∧
      m.begin fuel = some ⟨headPtr m.nil T.elems, m.self⟩) := by
  have hsz : m.size = T.elems.length := by
    rw [Tree.length_elems]; exact hwf.size_eq
  refine ⟨?_, ?_, ?_, ?_, ?_⟩
  · intro hT fuel s
    have hl : T = Tree.leaf := by
      by_contra hne; exact elems_ne_nil hne hT
    subst hl
    have : m.root = m.nil := hwf.abs.root
    simp [Map.Iter_prev, this]
  · intro pre e s hT fuel hf
    have h1 := iter_prev_end hwf.abs s fuel (by omega)
    have hne : (pre ++ [e]).isEmpty = false := by cases pre <;> rfl
    rw [hT, lastPtr_concat, hne] at h1
    exact ⟨h1, iter_next_list hwf.abs hT s fuel hf⟩
  · intro pre e0 e rest s hT fuel hf
    have hT2 : T.elems = (pre ++ [e0]) ++ e :: rest := by rw [hT]; simp
    have h1 := iter_prev_list hwf.abs hT2 s fuel hf
    have hne : (pre ++ [e0]).isEmpty = false := by cases pre <;> rfl
    rw [lastPtr_concat, hne] at h1
    exact ⟨h1, iter_next_list hwf.abs hT s fuel hf⟩
  · intro e rest s hT fuel hf
    have hT2 : T.elems = [] ++ e :: rest := hT
    exact iter_prev_list hwf.abs hT2 s fuel hf
  · intro fuel hf
    refine ⟨?_, begin_spec hwf.abs fuel (by omega)⟩
    have := retreat_spec hwf.abs m.self T.elems [] (by simp) fuel hf
    rw [hsz]; exact this

theorem backward_iteration_witness :
    WF ltN exMap3 exTree3 ∧
    Map.Iter_prev 3 exMap3 exMap3.end_ = some (⟨4, 7⟩, none) ∧
    Map.Iter_prev 3 exMap3 ⟨2, 7⟩ = some (⟨3, 7⟩, none) ∧
    Map.Iter_prev 3 exMap3 ⟨3, 7⟩ = some (exMap3.end_, some Exn.invalid_iterator) ∧
    exMap3.retreat 3 exMap3.size exMap3.end_ = some (⟨3, 7⟩, none) :=
  ⟨exMap3_wf,
    ((backward_iteration exMap3_wf).2.1 [(3, 3, 30), (2, 5, 50)] (4, 8, 80) 7 rfl
      3 (by decide)).1,
    ((backward_iteration exMap3_wf).2.2.1 [] (3, 3, 30) (2, 5, 50) [(4, 8, 80)] 7 rfl
      3 (by decide)).1,
    (backward_iteration exMap3_wf).2.2.2.1 (3, 3, 30) [(2, 5, 50), (4, 8, 80)] 7 rfl
      3 (by decide),
    ((backward_iteration exMap3_wf).2.2.2.2 3 (by decide)).1⟩

end sjtu

namespace sjtu

variable {K V : Type}

/-! ## Dereference and cursor stability -/

theorem abs_followsOrder {m : Map K V} {T : Tree K V} (h : Abs m T) : FollowsOrder m T :=
  fun _ _ _ s hs fuel hf => ⟨iter_next_list h hs s fuel hf, iter_prev_list h hs s fuel hf⟩

/-- C16 (the code does not do this for `operator->`): dereference.  At a cursor positioned
at an element, `operator*` and `operator->` of both cursor kinds yield the key/value pair of
that element.  At the sentinel `operator*` throws `invalid_iterator`; `operator->` has the
same `throw`, and is declared `noexcept`, so the call ends in `std::terminate` and no
exception reaches the caller.  Neither writes to the container. -/
theorem deref_contract {m : Map K V} {T : Tree K V} (h : Abs m T) :
    (∀ e ∈ T.elems, ∀ s, m.deref ⟨e.1, s⟩ = Except.ok (e.2.1, e.2.2) ∧
      m.arrow ⟨e.1, s⟩ = Outcome.value (e.2.1, e.2.2)) ∧
    (∀ s, m.deref ⟨m.nil, s⟩ = Except.error Exn.invalid_iterator) ∧
    (∀ s, m.arrow ⟨m.nil, s⟩ = Outcome.terminated) ∧
    (∀ s, m.arrow ⟨m.nil, s⟩ ≠ Outcome.raised Exn.invalid_iterator) := by
  refine ⟨?_, ?_, ?_, ?_⟩
  · intro e he s
    obtain ⟨a1, a2, a3⟩ := abs_elem h he
    simp [Map.deref, Map.arrow, a1, a2, a3]
  · intro s; simp [Map.deref]
  · intro s; simp [Map.arrow]
  · intro s; simp [Map.arrow]

theorem deref_contract_witness :
    Abs exMap3 exTree3 ∧ exMap3.deref ⟨2, 7⟩ = Except.ok (5, 50) ∧
    exMap3.arrow ⟨2, 7⟩ = Outcome.value (5, 50) ∧
    exMap3.deref exMap3.end_ = Except.error Exn.invalid_iterator ∧
    exMap3.arrow exMap3.end_ = Outcome.terminated ∧
    exMap3.arrow exMap3.end_ ≠ Outcome.raised Exn.invalid_iterator :=
  ⟨exMap3_wf.abs, ((deref_contract exMap3_wf.abs).1 (2, 5, 50) (by simp [exTree3]) 7).1,
    ((deref_contract exMap3_wf.abs).1 (2, 5, 50) (by simp [exTree3]) 7).2,
    (deref_contract exMap3_wf.abs).2.1 7, (deref_contract exMap3_wf.abs).2.2.1 7,
    (deref_contract exMap3_wf.abs).2.2.2 7⟩

/-- C17: cursor stability.  In a well-formed container every `insert` and every `erase` at
a cursor of the container positioned at an element returns a well-formed container in which
every element other than the erased one is at the node it was at before, so that a cursor
at it dereferences to the same pair as before; the erased node is not a node of the new
tree; and `operator++` and `operator--` at the elements follow the in-order sequence of the
new tree. -/
theorem cursor_stability {lt : K → K → Bool} (hswo : StrictWeakOrder lt) {m : Map K V}
    {T : Tree K V} (hwf : WF lt m T) :
    (∀ value : K × V, ∃ m2 T2 it b,
      (∀ fuel, T.height + 2 ≤ fuel → m.insert lt fuel value = some (m2, it, b)) ∧
      WF lt m2 T2 ∧
      (∀ e ∈ T.elems, e ∈ T2.elems ∧ ∀ s, m.deref ⟨e.1, s⟩ = Except.ok (e.2.1, e.2.2) ∧
        m2.deref ⟨e.1, s⟩ = Except.ok (e.2.1, e.2.2)) ∧
      FollowsOrder m2 T2) ∧
    (∀ pos : Iter, ValidCursor m T pos → ∃ m2 T2,
      (∀ fuel, T.height + 2 ≤ fuel → m.erase fuel pos = some (Except.ok m2)) ∧
      WF lt m2 T2 ∧ pos.current ∉ T2.addrs ∧
      (∀ e ∈ T.elems, e.1 ≠ pos.current →
        e ∈ T2.elems ∧ ∀ s, m.deref ⟨e.1, s⟩ = Except.ok (e.2.1, e.2.2) ∧
          m2.deref ⟨e.1, s⟩ = Except.ok (e.2.1, e.2.2)) ∧
      FollowsOrder m2 T2) := by
  constructor
  · intro value
    obtain ⟨k, v⟩ := value
    by_cases hex : ∃ e ∈ T.elems, Equiv lt k e.2.1
    · obtain ⟨e, he, heq⟩ := hex
      refine ⟨m, T, _, false, fun fuel hf =>
        insert_present_spec hswo hwf k v he heq fuel (by omega), hwf, ?_,
        abs_followsOrder hwf.abs⟩
      intro e2 he2
      exact ⟨he2, fun s => ⟨deref_elem hwf.abs he2 s, deref_elem hwf.abs he2 s⟩⟩
    · obtain ⟨m2, T2, pre, post, g1, g2, g3, g4, -⟩ :=
        insert_absent_wf hswo hwf k v (absent_of_not_exists hex)
      refine ⟨m2, T2, _, true, g1, g2, ?_, abs_followsOrder g2.abs⟩
      intro e he
      have he2 : e ∈ T2.elems := by
        rw [g3] at he
        rw [g4]
        simp only [List.mem_append, List.mem_cons] at he ⊢
        rcases he with h | h
        · exact Or.inl h
        · exact Or.inr (Or.inr h)
      exact ⟨he2, fun s => ⟨deref_elem hwf.abs he s, deref_elem g2.abs he2 s⟩⟩
  · intro pos hpos
    obtain ⟨hc, hz⟩ := hpos
    obtain ⟨m2, T2, pre, k, v, post, g1, g2, g3, g4, -⟩ := erase_wf hswo hwf hz
    have hne := inTree_ne_nil hwf.abs hz
    refine ⟨m2, T2, ?_, g2, ?_, ?_, abs_followsOrder g2.abs⟩
    · intro fuel hf
      rw [erase_eq_eraseNode hc hne, g1 fuel hf]; rfl
    · intro hin
      have hnd := hwf.abs.nodup
      simp only [Tree.addrs, g3, g4, List.map_append, List.map_cons, List.mem_append] at hnd hin
      have h1 := List.nodup_append.1 hnd
      have h2 := List.nodup_cons.1 h1.2.1
      rcases hin with hin | hin
      · exact h1.2.2 hin (List.mem_cons_self _ _)
      · exact h2.1 hin
    · intro e he hne2
      have he2 : e ∈ T2.elems := by
        rw [g3] at he
        rw [g4]
        simp only [List.mem_append, List.mem_cons] at he ⊢
        rcases he with h | rfl | h
        · exact Or.inl h
        · exact absurd rfl hne2
        · exact Or.inr h
      exact ⟨he2, fun s => ⟨deref_elem hwf.abs he s, deref_elem g2.abs he2 s⟩⟩

theorem cursor_stability_witness :
    StrictWeakOrder ltN ∧ WF ltN exMap3 exTree3 ∧ ValidCursor exMap3 exTree3 ⟨2, 7⟩ ∧
    ∃ m2 T2,
      (∀ fuel, exTree3.height + 2 ≤ fuel → exMap3.erase fuel ⟨2, 7⟩ = some (Except.ok m2)) ∧
      WF ltN m2 T2 ∧ (⟨2, 7⟩ : Iter).current ∉ T2.addrs ∧
      (∀ e ∈ exTree3.elems, e.1 ≠ (⟨2, 7⟩ : Iter).current →
        e ∈ T2.elems ∧ ∀ s, exMap3.deref ⟨e.1, s⟩ = Except.ok (e.2.1, e.2.2) ∧
          m2.deref ⟨e.1, s⟩ = Except.ok (e.2.1, e.2.2)) ∧
      FollowsOrder m2 T2 :=
  ⟨ltN_swo, exMap3_wf, ⟨rfl, by decide⟩,
    (cursor_stability ltN_swo exMap3_wf).2 ⟨2, 7⟩ ⟨rfl, by decide⟩⟩

end sjtu

namespace sjtu

variable {K V : Type}

/-! ## Rotations -/

namespace Map

/-- `leftRotate` writes no colour. -/
theorem leftRotate_color (m : Map K V) (x a : Nat) : (m.leftRotate x).color a = m.color a := by
  unfold leftRotate
  simp only []
  split_ifs <;> simp only [color_setLeft, color_setRight, color_setParent, color_setRoot]

/-- `rightRotate` writes no colour. -/
theorem rightRotate_color (m : Map K V) (y a : Nat) :
    (m.rightRotate y).color a = m.color a := by
  unfold rightRotate
  simp only []
  split_ifs <;> simp only [color_setLeft, color_setRight, color_setParent, color_setRoot]

/-- Two states with the same fields are the same state. -/
theorem ext_of_fields {m m2 : Map K V} (h1 : ∀ a, m.mem a = m2.mem a) (h2 : m.root = m2.root)
    (h3 : m.nil = m2.nil) (h4 : m.map_size = m2.map_size) (h5 : m.self = m2.self)
    (h6 : m.next = m2.next) : m = m2 := by
  cases m; cases m2
  simp only [Map.mk.injEq]
  exact ⟨funext h1, h2, h3, h4, h5, h6⟩

end Map

/-- The tree that a state represents fixes the cells of its nodes. -/
theorem abs_mem_determined {m m2 : Map K V} {T : Tree K V} (h : Abs m T) (h2 : Abs m2 T)
    (hn : m2.nil = m.nil) : ∀ b ∈ T.addrs, m2.mem b = m.mem b := by
  intro b hb
  obtain ⟨p, l, c, k, v, r, hp⟩ := locate b T Path.top hb
  simp only [Path.plug_top] at hp
  subst hp
  rw [abs_read h, abs_read h2, hn]

/-- `rightRotate` at the new subtree root undoes `leftRotate`. -/
theorem rightRotate_leftRotate {m : Map K V} {p : Path K V} {α β γ : Tree K V}
    {x y cx cy kx ky vx vy}
    (h : Abs m (p.plug (Tree.node α x cx kx vx (Tree.node β y cy ky vy γ)))) :
    (m.leftRotate x).rightRotate y = m := by
  have h1 := abs_leftRotate h
  have h2 := abs_rightRotate h1
  obtain ⟨-, -, -, -, e5, -⟩ := zrep_leftRotate_mem (zrep_iff.1 h)
  obtain ⟨-, -, -, -, g5, -⟩ := zrep_rightRotate_mem (zrep_iff.1 h1)
  refine Map.ext_of_fields ?_ ?_ (by simp) (by simp) (by simp) (by simp)
  · intro b
    by_cases hb : b ∈ (p.plug (Tree.node α x cx kx vx (Tree.node β y cy ky vy γ))).addrs
    · exact abs_mem_determined h h2 (by simp) b hb
    · rw [path_mem_addrs_plug] at hb
      simp only [Tree.addrs_node, List.mem_append, List.mem_cons, not_or] at hb
      obtain ⟨hb1, hb2, hb3, hb4, hb5, hb6⟩ := hb
      have c1 : β ≠ Tree.leaf → b ≠ β.ptr m.nil := fun hβ e => hb4 (e ▸ tree_ptr_mem m.nil hβ)
      have c2 : p ≠ Path.top → b ≠ p.ptr m.nil := fun hp e => hb1 (e ▸ path_ptr_mem m.nil hp)
      rw [g5 b hb3 hb5 (by simpa using c1) (by simpa using c2), e5 b hb3 hb5 c1 c2]
  · rw [h2.root, h.root]; simp

/-- `leftRotate` at the new subtree root undoes `rightRotate`. -/
theorem leftRotate_rightRotate {m : Map K V} {p : Path K V} {α β γ : Tree K V}
    {x y cx cy kx ky vx vy}
    (h : Abs m (p.plug (Tree.node (Tree.node α x cx kx vx β) y cy ky vy γ))) :
    (m.rightRotate y).leftRotate x = m := by
  have h1 := abs_rightRotate h
  have h2 := abs_leftRotate h1
  obtain ⟨-, -, -, -, e5, -⟩ := zrep_rightRotate_mem (zrep_iff.1 h)
  obtain ⟨-, -, -, -, g5, -⟩ := zrep_leftRotate_mem (zrep_iff.1 h1)
  refine Map.ext_of_fields ?_ ?_ (by simp) (by simp) (by simp) (by simp)
  · intro b
    by_cases hb : b ∈ (p.plug (Tree.node (Tree.node α x cx kx vx β) y cy ky vy γ)).addrs
    · exact abs_mem_determined h h2 (by simp) b hb
    · rw [path_mem_addrs_plug] at hb
      simp only [Tree.addrs_node, List.mem_append, List.mem_cons, not_or] at hb
      obtain ⟨hb1, ⟨hb2, hb3, hb4⟩, hb5, hb6⟩ := hb
      have c1 : β ≠ Tree.leaf → b ≠ β.ptr m.nil := fun hβ e => hb4 (e ▸ tree_ptr_mem m.nil hβ)
      have c2 : p ≠ Path.top → b ≠ p.ptr m.nil := fun hp e => hb1 (e ▸ path_ptr_mem m.nil hp)
      rw [g5 b hb3 hb5 (by simpa using c1) (by simpa using c2), e5 b hb3 hb5 c1 c2]
  · rw [h2.root, h.root]; simp

/-- A node of the tree whose right child is not the sentinel, with its context. -/
theorem locate_with_right {m : Map K V} {T : Tree K V} (h : Abs m T) {x : Nat}
    (hx : x ∈ T.addrs) (hr : m.right x ≠ m.nil) :
    ∃ (p : Path K V) (α β γ : Tree K V) (cx cy : Color) (kx ky : K) (vx vy : V),
      T = p.plug (Tree.node α x cx kx vx (Tree.node β (m.right x) cy ky vy γ)) := by
  obtain ⟨p, l, c, k, v, r, hp⟩ := locate x T Path.top hx
  simp only [Path.plug_top] at hp
  subst hp
  have e := abs_right_eq p h
  cases r with
  | leaf => exact absurd e hr
  | node β y cy ky vy γ =>
    simp only [Tree.ptr_node] at e
    rw [e]
    exact ⟨p, l, β, γ, c, cy, k, ky, v, vy, rfl⟩

/-- A node of the tree whose left child is not the sentinel, with its context. -/
theorem locate_with_left {m : Map K V} {T : Tree K V} (h : Abs m T) {y : Nat}
    (hy : y ∈ T.addrs) (hl : m.left y ≠ m.nil) :
    ∃ (p : Path K V) (α β γ : Tree K V) (cx cy : Color) (kx ky : K) (vx vy : V),
      T = p.plug (Tree.node (Tree.node α (m.left y) cx kx vx β) y cy ky vy γ) := by
  obtain ⟨p, l, c, k, v, r, hp⟩ := locate y T Path.top hy
  simp only [Path.plug_top] at hp
  subst hp
  have e := abs_left_eq p h
  cases l with
  | leaf => exact absurd e hl
  | node α x cx kx vx β =>
    simp only [Tree.ptr_node] at e
    rw [e]
    exact ⟨p, α, β, r, cx, c, kx, k, vx, v, rfl⟩

end sjtu

namespace sjtu

variable {K V : Type}

/-- `leftRotate` at a node with a right child, in its context. -/
theorem leftRotate_facts {m : Map K V} {p : Path K V} {α β γ : Tree K V}
    {x y cx cy kx ky vx vy}
    (h : Abs m (p.plug (Tree.node α x cx kx vx (Tree.node β y cy ky vy γ)))) :
    Abs (m.leftRotate x) (p.plug (Tree.node (Tree.node α x cx kx vx β) y cy ky vy γ)) ∧
    (p.plug (Tree.node (Tree.node α x cx kx vx β) y cy ky vy γ)).elems =
      (p.plug (Tree.node α x cx kx vx (Tree.node β y cy ky vy γ))).elems ∧
    (m.root = x → (m.leftRotate x).root = y) := by
  have h1 := abs_leftRotate h
  refine ⟨h1, by simp [Path.elems_plug], ?_⟩
  intro hr
  by_cases hp : p = Path.top
  · subst hp; exact h1.root
  · exact absurd hr.symm (ptr_ne_root (X := Tree.node α x cx kx vx _) h hp)

/-- `rightRotate` at a node with a left child, in its context. -/
theorem rightRotate_facts {m : Map K V} {p : Path K V} {α β γ : Tree K V}
    {x y cx cy kx ky vx vy}
    (h : Abs m (p.plug (Tree.node (Tree.node α x cx kx vx β) y cy ky vy γ))) :
    Abs (m.rightRotate y) (p.plug (Tree.node α x cx kx vx (Tree.node β y cy ky vy γ))) ∧
    (p.plug (Tree.node α x cx kx vx (Tree.node β y cy ky vy γ))).elems =
      (p.plug (Tree.node (Tree.node α x cx kx vx β) y cy ky vy γ)).elems ∧
    (m.root = y → (m.rightRotate y).root = x) := by
  have h1 := abs_rightRotate h
  refine ⟨h1, by simp [Path.elems_plug], ?_⟩
  intro hr
  by_cases hp : p = Path.top
  · subst hp; exact h1.root
  · exact absurd hr.symm (ptr_ne_root (X := Tree.node _ y cy ky vy γ) h hp)

/-- C19: rotations preserve order and colours.  In a state that represents a tree (parent
and child links consistent), `leftRotate x` at a node whose right child is not the sentinel
gives a state that represents a tree again, with the same in-order sequence of nodes, keys
and values; it changes the colour of no node; it makes the former right child the root
when `x` was the root; and `rightRotate` at the former right child, the new root of the
subtree, gives the state back.  Symmetrically for `rightRotate y` at a node whose left
child is not the sentinel. -/
theorem rotations_preserve {m : Map K V} {T : Tree K V} (h : Abs m T) :
    (∀ x ∈ T.addrs, m.right x ≠ m.nil →
      ∃ T2, Abs (m.leftRotate x) T2 ∧ T2.elems = T.elems ∧ T2.toList = T.toList ∧
        (∀ a, (m.leftRotate x).color a = m.color a) ∧
        (m.root = x → (m.leftRotate x).root = m.right x) ∧
        (m.leftRotate x).rightRotate (m.right x) = m) ∧
    (∀ y ∈ T.addrs, m.left y ≠ m.nil →
      ∃ T2, Abs (m.rightRotate y) T2 ∧ T2.elems = T.elems ∧ T2.toList = T.toList ∧
        (∀ a, (m.rightRotate y).color a = m.color a) ∧
        (m.root = y → (m.rightRotate y).root = m.left y) ∧
        (m.rightRotate y).leftRotate (m.left y) = m) := by
  constructor
  · intro x hx hr
    obtain ⟨p, α, β, γ, cx, cy, kx, ky, vx, vy, hT⟩ := locate_with_right h hx hr
    subst hT
    obtain ⟨g1, g2, g3⟩ := leftRotate_facts h
    exact ⟨_, g1, g2, by rw [toList_eq_map, toList_eq_map, g2], Map.leftRotate_color m x, g3,
      rightRotate_leftRotate h⟩
  · intro y hy hl
    obtain ⟨p, α, β, γ, cx, cy, kx, ky, vx, vy, hT⟩ := locate_with_left h hy hl
    subst hT
    obtain ⟨g1, g2, g3⟩ := rightRotate_facts h
    exact ⟨_, g1, g2, by rw [toList_eq_map, toList_eq_map, g2], Map.rightRotate_color m y, g3,
      leftRotate_rightRotate h⟩

theorem rotations_preserve_witness :
    Abs exMap3 exTree3 ∧ (2 ∈ exTree3.addrs) ∧ exMap3.right 2 ≠ exMap3.nil ∧
    ∃ T2, Abs (exMap3.leftRotate 2) T2 ∧ T2.elems = exTree3.elems ∧
      T2.toList = exTree3.toList ∧
      (∀ a, (exMap3.leftRotate 2).color a = exMap3.color a) ∧
      (exMap3.root = 2 → (exMap3.leftRotate 2).root = exMap3.right 2) ∧
      (exMap3.leftRotate 2).rightRotate (exMap3.right 2) = exMap3 :=
  ⟨exMap3_wf.abs, by decide, by decide,
    (rotations_preserve exMap3_wf.abs).1 2 (by decide) (by decide)⟩

end sjtu

namespace sjtu

variable {K V : Type}

/-! ## Height of a red-black tree -/

/-- A tree of black height `n` has at least `2 ^ n - 1` nodes. -/
theorem pow_le_size_of_BH (t : Tree K V) : ∀ n, t.BH n → 2 ^ n ≤ t.size + 1 := by
  induction t with
  | leaf => intro n h; rw [Tree.BH_leaf] at h; subst h; simp
  | node l a c k v r ihl ihr =>
    intro n h
    cases c with
    | RED =>
      rw [Tree.BH_red] at h
      have := ihl n h.1
      simp only [Tree.size_node]; omega
    | BLACK =>
      rw [Tree.BH_black] at h
      obtain ⟨n2, rfl, h1, h2⟩ := h
      have := ihl n2 h1
      have := ihr n2 h2
      simp only [Tree.size_node, pow_succ]; omega

/-- Without a RED node with a RED child, a path has at most twice the black height in
nodes, and one more below a RED root. -/
theorem height_le_of_BH (t : Tree K V) : ∀ n, t.NoRedRed → t.BH n →
    t.height ≤ 2 * n + (if t.color = Color.RED then 1 else 0) := by
  induction t with
  | leaf => intro n _ _; simp [Tree.height]
  | node l a c k v r ihl ihr =>
    intro n hn h
    rw [Tree.NoRedRed_node] at hn
    obtain ⟨hc, hl, hr⟩ := hn
    cases c with
    | RED =>
      rw [Tree.BH_red] at h
      have h1 := ihl n hl h.1
      have h2 := ihr n hr h.2
      rw [(hc rfl).1] at h1
      rw [(hc rfl).2] at h2
      simp only [Tree.height, Tree.color_node, if_true] at h1 h2 ⊢
      simp at h1 h2
      omega
    | BLACK =>
      rw [Tree.BH_black] at h
      obtain ⟨n2, rfl, h1, h2⟩ := h
      have g1 := ihl n2 hl h1
      have g2 := ihr n2 hr h2
      simp only [Tree.height, Tree.color_node]
      have e1 : (if l.color = Color.RED then 1 else 0) ≤ 1 := by split_ifs <;> omega
      have e2 : (if r.color = Color.RED then 1 else 0) ≤ 1 := by split_ifs <;> omega
      simp
      omega

/-- The height of a red-black tree is logarithmic in its size. -/
theorem rb_height_bound {t : Tree K V} (h : t.RB) :
    2 ^ (t.height / 2) ≤ t.size + 1 ∧ t.height ≤ 2 * Nat.log 2 (t.size + 1) := by
  obtain ⟨n, hn⟩ := (Tree.equalBlackHeight_iff t).1 h.balanced
  have h1 := pow_le_size_of_BH t n hn
  have h2 := height_le_of_BH t n h.no_red_red hn
  rw [h.root_black] at h2
  simp at h2
  have h3 : n ≤ Nat.log 2 (t.size + 1) := Nat.le_log_of_pow_le (by decide) h1
  refine ⟨le_trans (Nat.pow_le_pow_right (by decide) (by omega)) h1, by omega⟩

/-- C20: logarithmic height.  Every container reached from the empty container by
`insert`, `erase` at a valid cursor and `clear` (and mutable `operator[]`) represents a
tree whose height `h`, the largest number of nodes on a path from the root down, is at most
`2 * log2 (size() + 1)`, that is `size() + 1 ≥ 2 ^ (h / 2)`; `findHelper` returns for every
key once the fuel exceeds `h`, so it visits at most `h` nodes. -/
theorem logarithmic_height {lt : K → K → Bool} (hswo : StrictWeakOrder lt) (dflt : V)
    {self : Nat} (cell : Node K V) (hself : self ≠ 0) {m : Map K V}
    (hr : Reachable lt dflt self cell m) :
    ∃ T, Abs m T ∧ T.height ≤ 2 * Nat.log 2 (m.size + 1) ∧
      2 ^ (T.height / 2) ≤ m.size + 1 ∧
      ∀ key fuel, T.height + 1 ≤ fuel → ∃ node, m.findHelper lt key fuel m.root = some node := by
  obtain ⟨T, hwf⟩ := reachable_wf hswo dflt cell hself hr
  have hb := rb_height_bound hwf.rb
  have hs : m.size = T.size := hwf.size_eq
  refine ⟨T, hwf.abs, by rw [hs]; exact hb.2, by rw [hs]; exact hb.1, ?_⟩
  intro key fuel hf
  obtain ⟨res, f1, -⟩ := findHelper_spec hswo hwf.abs hwf.bst key
  exact ⟨res, f1 fuel hf⟩

theorem logarithmic_height_witness :
    StrictWeakOrder ltN ∧ Reachable ltN 0 7 cell0 exMap3 ∧
    ∃ T, Abs exMap3 T ∧ T.height ≤ 2 * Nat.log 2 (exMap3.size + 1) ∧
      2 ^ (T.height / 2) ≤ exMap3.size + 1 ∧
      ∀ key fuel, T.height + 1 ≤ fuel →
        ∃ node, exMap3.findHelper ltN key fuel exMap3.root = some node :=
  ⟨ltN_swo, exMap3_reachable,
    logarithmic_height ltN_swo 0 cell0 (by decide) exMap3_reachable⟩

end sjtu

/-!
# The sentinel

Which fields of the sentinel cell the public operations write: the colour and the `left`
and `right` links never change; the parent link is written by `transplant` (line 115) and
by line 604 of `erase` whenever the node that moves up is the sentinel.
-/

namespace sjtu

variable {K V : Type}

/-- A returning run of `insert` leaves the cell of the sentinel as it is. -/
theorem insert_sentinel_cell {lt : K → K → Bool} (hswo : StrictWeakOrder lt) {m : Map K V}
    {T : Tree K V} (hwf : WF lt m T) {fuel : Nat} {value : K × V} {m2 : Map K V} {it : Iter}
    {b : Bool} (hop : m.insert lt fuel value = some (m2, it, b)) :
    m2.nil = m.nil ∧ m2.mem m2.nil = m.mem m.nil := by
  obtain ⟨k, v⟩ := value
  by_cases hex : ∃ e ∈ T.elems, Equiv lt k e.2.1
  · obtain ⟨e, he, heq⟩ := hex
    have := fuel_determined (Map.insert_mono lt m (k, v))
      (insert_present_spec hswo hwf k v he heq) fuel _ hop
    simp only [Prod.mk.injEq] at this
    rw [this.1]
    exact ⟨rfl, rfl⟩
  · have habs : ∀ x ∈ T.keys, ¬ Equiv lt k x := by
      intro x hx heq
      obtain ⟨e, he, rfl⟩ := List.mem_map.1 hx
      exact hex ⟨e, he, heq⟩
    obtain ⟨m3, T2, pre, post, g1, g2, g3, g4, g5, g6, g7, g8, g9, g10, g11⟩ :=
      insert_absent_wf hswo hwf k v habs
    have := fuel_determined (Map.insert_mono lt m (k, v)) g1 fuel _ hop
    simp only [Prod.mk.injEq] at this
    rw [this.1]
    exact ⟨g8, by rw [g8]; exact g11.1⟩

/-- The state after mutable `operator[]` is the state before it or the state after the
`insert` of line 490. -/
theorem index_state {lt : K → K → Bool} {dflt : V} {fuel : Nat} {m m2 : Map K V} {key : K}
    {r : Outcome V} (h : m.index lt dflt fuel key = some (m2, r)) :
    m2 = m ∨ ∃ it b, m.insert lt fuel (key, dflt) = some (m2, it, b) := by
  simp only [Map.index] at h
  cases h1 : m.findHelper lt key fuel m.root with
  | none => rw [h1] at h; cases h
  | some node =>
    rw [h1] at h
    simp only at h
    split_ifs at h with hn
    · simp only [Option.some.injEq, Prod.mk.injEq] at h
      exact Or.inl h.1.symm
    · cases h2 : m.insert lt fuel (key, dflt) with
      | none => rw [h2] at h; cases h
      | some res =>
        obtain ⟨m3, it, b⟩ := res
        rw [h2] at h
        simp only [Option.some.injEq, Prod.mk.injEq] at h
        exact Or.inr ⟨it, b, by rw [← h.1]⟩

/-- A returning run of `clear` writes `root` and `map_size` only. -/
theorem clear_state {fuel : Nat} {m m2 : Map K V} (h : m.clear fuel = some m2) :
    m2.nil = m.nil ∧ m2.mem = m.mem := by
  simp only [Map.clear] at h
  cases h1 : m.clearHelper fuel m.root with
  | none => rw [h1] at h; cases h
  | some u =>
    rw [h1] at h
    simp only [Option.some.injEq] at h
    subst h
    exact ⟨rfl, rfl⟩

end sjtu

namespace sjtu

variable {K V : Type}

/-- C18, counterexample: the parent link of the sentinel does not stay at the sentinel.
The container at address 7 holding the keys 5, 3, 8 (nodes 2, 3, 4; sentinel 1) is reached
by three calls of `insert` and its sentinel still has itself as parent; `erase` of the
childless node 3 returns, and in the state it leaves the parent link of the sentinel is
node 2, because `transplant(z, z->right)` stores `u->parent` into `v->parent` (line 115)
also when `v` is the sentinel. -/
theorem sentinel_parent_not_kept :
    Reachable ltN 0 7 cell0 exMap3 ∧ exMap3.nil = 1 ∧ exMap3.parent 1 = 1 ∧
    exMap3.InTree 3 ∧ exMap3.left 3 = 1 ∧ exMap3.right 3 = 1 ∧
    exMap3.erase 10 ⟨3, 7⟩ = some (Except.ok (eraseD exMap3 3)) ∧
    Reachable ltN 0 7 cell0 (eraseD exMap3 3) ∧
    (eraseD exMap3 3).nil = 1 ∧ (eraseD exMap3 3).parent 1 = 2 := by
  have hin : exMap3.InTree 3 := (inTree_iff exMap3_wf.abs 3).2 (by decide)
  have he : exMap3.erase 10 ⟨3, 7⟩ = some (Except.ok (eraseD exMap3 3)) := rfl
  exact ⟨exMap3_reachable, by decide!, by decide!, hin, by decide!, by decide!, he,
    @Reachable.erase _ _ ltN 0 7 cell0 exMap3 _ 10 ⟨3, 7⟩ exMap3_reachable rfl hin he,
    by decide!, by decide!⟩

/-- C18 (amended): the sentinel invariant without the parent link.  In every state reached
from the default-constructed container by `insert`, `erase` at a valid cursor, `clear` and
mutable `operator[]`, the sentinel is BLACK and its `left` and `right` links refer to the
sentinel itself.  Its parent link refers to the sentinel after construction, and every
returning run of `insert`, of `operator[]` and of `clear` leaves the whole cell of the
sentinel as it is, so that only `erase` changes the parent link; and in such a state each
of these operations returns. -/
theorem sentinel_invariant {lt : K → K → Bool} (hswo : StrictWeakOrder lt) (dflt : V)
    {self : Nat} (cell : Node K V) (hself : self ≠ 0) {m : Map K V}
    (hr : Reachable lt dflt self cell m) :
    (m.color m.nil = Color.BLACK ∧ m.left m.nil = m.nil ∧ m.right m.nil = m.nil) ∧
    (Map.empty self cell).parent (Map.empty self cell).nil = (Map.empty self cell).nil ∧
    (∀ fuel value m2 it b, m.insert lt fuel value = some (m2, it, b) →
      m2.nil = m.nil ∧ m2.mem m2.nil = m.mem m.nil) ∧
    (∀ fuel key m2 r, m.index lt dflt fuel key = some (m2, r) →
      m2.nil = m.nil ∧ m2.mem m2.nil = m.mem m.nil) ∧
    (∀ fuel m2, m.clear fuel = some m2 → m2.nil = m.nil ∧ m2.mem m2.nil = m.mem m.nil) ∧
    Responsive lt dflt m := by
  obtain ⟨T, hwf⟩ := reachable_wf hswo dflt cell hself hr
  refine ⟨⟨hwf.abs.nil_black, hwf.abs.nil_links.1, hwf.abs.nil_links.2⟩, ?_, ?_, ?_, ?_,
    wf_responsive hswo dflt hwf⟩
  · simp [Map.empty, Map.newNode, Map.setParent, Map.setRight, Map.setLeft, Map.setRoot,
      Map.upd, Map.parent]
  · intro fuel value m2 it b hop
    exact insert_sentinel_cell hswo hwf hop
  · intro fuel key m2 r hop
    rcases index_state hop with rfl | ⟨it, b, h2⟩
    · exact ⟨rfl, rfl⟩
    · exact insert_sentinel_cell hswo hwf h2
  · intro fuel m2 hop
    obtain ⟨h1, h2⟩ := clear_state hop
    exact ⟨h1, by rw [h1, h2]⟩

theorem sentinel_invariant_witness :
    StrictWeakOrder ltN ∧ Reachable ltN 0 7 cell0 (eraseD exMap3 3) ∧
    ((eraseD exMap3 3).color (eraseD exMap3 3).nil = Color.BLACK ∧
      (eraseD exMap3 3).left (eraseD exMap3 3).nil = (eraseD exMap3 3).nil ∧
      (eraseD exMap3 3).right (eraseD exMap3 3).nil = (eraseD exMap3 3).nil) ∧
    (∀ fuel value m2 it b, (eraseD exMap3 3).insert ltN fuel value = some (m2, it, b) →
      m2.nil = (eraseD exMap3 3).nil ∧
      m2.mem m2.nil = (eraseD exMap3 3).mem (eraseD exMap3 3).nil) :=
  have hin : exMap3.InTree 3 := (inTree_iff exMap3_wf.abs 3).2 (by decide)
  have hr : Reachable ltN 0 7 cell0 (eraseD exMap3 3) :=
    @Reachable.erase _ _ ltN 0 7 cell0 exMap3 _ 10 ⟨3, 7⟩ exMap3_reachable rfl hin rfl
  ⟨ltN_swo, hr, (sentinel_invariant ltN_swo 0 cell0 (by decide) hr).1,
    (sentinel_invariant ltN_swo 0 cell0 (by decide) hr).2.2.1⟩

end sjtu

/-!
# The fixup loops with their log

The logged loops return what the loops return, more fuel does not change a log, and the log
of `insert` and of `erase` on a well-formed container.
-/

namespace sjtu

variable {K V : Type}

namespace Map

/-- The logged loop of `insertFixup` returns the state that `insertFixup` returns. -/
theorem insertFixupT_fst : ∀ (n : Nat) (m : Map K V) (z : Nat),
    (insertFixupT n m z).map (fun r => r.1) = insertFixup n m z := by
  intro n
  induction n with
  | zero => intro m z; rfl
  | succ n ih =>
    intro m z
    rw [insertFixupT, insertFixup]
    split_ifs
    · rw [← ih, insertFixupBodyT_fst]
      cases insertFixupT n (m.insertFixupBody z).1 (m.insertFixupBody z).2 <;> rfl
    · rfl

/-- The logged loop of `eraseFixup` returns the state that `eraseFixup` returns. -/
theorem eraseFixupT_fst : ∀ (n : Nat) (m : Map K V) (x : Nat),
    (eraseFixupT n m x).map (fun r => r.1) = eraseFixup n m x := by
  intro n
  induction n with
  | zero => intro m x; rfl
  | succ n ih =>
    intro m x
    rw [eraseFixupT, eraseFixup]
    split_ifs
    · rw [← ih, eraseFixupBodyT_fst]
      cases eraseFixupT n (m.eraseFixupBody x).1 (m.eraseFixupBody x).2 <;> rfl
    · rfl

/-- The logged `insert` returns what `insert` returns. -/
theorem insertT_fst (lt : K → K → Bool) (n : Nat) (m : Map K V) (value : K × V) :
    (m.insertT lt n value).map (fun r => r.1) = m.insert lt n value := by
  rw [insertT_eq, insert_eq]
  cases m.insertWalk lt value.1 n m.nil m.root with
  | none => rfl
  | some yx =>
    obtain ⟨y, x⟩ := yx
    simp only
    split_ifs
    · rfl
    · rw [← insertFixupT_fst]
      cases insertFixupT n (Map.insertLink lt m value y) m.next <;> rfl

theorem eraseFinishT_fst (n : Nat) (m : Map K V) (x : Nat) (c : Color) :
    (eraseFinishT n m x c).map (fun r => r.1) = eraseFinish n m x c := by
  unfold eraseFinishT eraseFinish
  split_ifs
  · rw [← eraseFixupT_fst]
    cases eraseFixupT n m x <;> rfl
  · rfl

/-- The logged `erase` of a node returns the state that the plain one returns. -/
theorem eraseNodeT_fst (n : Nat) (m : Map K V) (z : Nat) :
    (m.eraseNodeT n z).map (fun r => r.1) = m.eraseNode n z := by
  by_cases hl : m.left z = m.nil
  · rw [eraseNodeT_left_nil _ _ _ hl, eraseNode_left_nil _ _ _ hl, eraseFinishT_fst]
  by_cases hr : m.right z = m.nil
  · rw [eraseNodeT_right_nil _ _ _ hl hr, eraseNode_right_nil _ _ _ hl hr, eraseFinishT_fst]
  cases h1 : m.minimum n (m.right z) with
  | none =>
    unfold eraseNodeT eraseNode
    simp only [hl, hr, h1, if_false]
    rfl
  | some y =>
    rw [eraseNodeT_two _ _ _ y hl hr h1, eraseNode_two _ _ _ y hl hr h1, eraseFinishT_fst]

/-- The logged `erase` returns what `erase` returns. -/
theorem eraseT_fst (n : Nat) (m : Map K V) (pos : Iter) :
    (m.eraseT n pos).map (fun r => r.1) = m.erase n pos := by
  unfold eraseT erase
  split_ifs
  · rfl
  · rw [← eraseNodeT_fst]
    cases m.eraseNodeT n pos.current <;> rfl

theorem insertFixupT_mono : ∀ (m : Map K V) (z : Nat),
    ∀ n r, insertFixupT n m z = some r → insertFixupT (n + 1) m z = some r := by
  intro m z n
  induction n generalizing m z with
  | zero => intro r h; simp [insertFixupT] at h
  | succ n ih =>
    intro r h
    rw [insertFixupT] at h ⊢
    split_ifs at h ⊢
    · cases h1 : insertFixupT n (m.insertFixupBodyT z).1.1 (m.insertFixupBodyT z).1.2 with
      | none => rw [h1] at h; cases h
      | some r1 => rw [h1] at h; rw [ih _ _ _ h1]; exact h
    · exact h

theorem eraseFixupT_mono : ∀ (m : Map K V) (x : Nat),
    ∀ n r, eraseFixupT n m x = some r → eraseFixupT (n + 1) m x = some r := by
  intro m x n
  induction n generalizing m x with
  | zero => intro r h; simp [eraseFixupT] at h
  | succ n ih =>
    intro r h
    rw [eraseFixupT] at h ⊢
    split_ifs at h ⊢
    · cases h1 : eraseFixupT n (m.eraseFixupBodyT x).1.1 (m.eraseFixupBodyT x).1.2 with
      | none => rw [h1] at h; cases h
      | some r1 => rw [h1] at h; rw [ih _ _ _ h1]; exact h
    · exact h

theorem insertT_mono (lt : K → K → Bool) (m : Map K V) (value : K × V) :
    ∀ n r, m.insertT lt n value = some r → m.insertT lt (n + 1) value = some r := by
  intro n r h
  rw [insertT_eq] at h ⊢
  cases h1 : m.insertWalk lt value.1 n m.nil m.root with
  | none => rw [h1] at h; cases h
  | some yx =>
    obtain ⟨y, x⟩ := yx
    rw [h1] at h
    rw [insertWalk_mono lt m value.1 _ _ n _ h1]
    simp only at h ⊢
    split_ifs at h ⊢ with hx
    · exact h
    · cases h2 : (Map.insertLink lt m value y).insertFixupT n m.next with
      | none => rw [h2] at h; cases h
      | some m4 =>
        rw [h2] at h
        rw [insertFixupT_mono _ _ n _ h2]
        exact h

theorem eraseNodeT_mono (m : Map K V) (z : Nat) :
    ∀ n r, m.eraseNodeT n z = some r → m.eraseNodeT (n + 1) z = some r := by
  intro n r h
  have hfin : ∀ (m1 : Map K V) (x : Nat) (c : Color),
      ∀ n r, eraseFinishT n m1 x c = some r → eraseFinishT (n + 1) m1 x c = some r := by
    intro m1 x c n r h
    simp only [eraseFinishT] at h ⊢
    split_ifs at h ⊢ with hc
    · cases h1 : eraseFixupT n m1 x with
      | none => rw [h1] at h; cases h
      | some m2 => rw [h1] at h; rw [eraseFixupT_mono _ _ n _ h1]; exact h
    · exact h
  by_cases hl : m.left z = m.nil
  · rw [eraseNodeT_left_nil _ _ _ hl] at h ⊢
    exact hfin _ _ _ _ _ h
  by_cases hr : m.right z = m.nil
  · rw [eraseNodeT_right_nil _ _ _ hl hr] at h ⊢
    exact hfin _ _ _ _ _ h
  cases h1 : m.minimum n (m.right z) with
  | none =>
    exfalso
    unfold eraseNodeT at h
    simp only [hl, hr, h1, if_false] at h
    cases h
  | some y =>
    rw [eraseNodeT_two _ _ _ y hl hr h1] at h
    rw [eraseNodeT_two _ _ _ y hl hr (minimum_mono m _ n _ h1)]
    exact hfin _ _ _ _ _ h

theorem eraseT_mono (m : Map K V) (pos : Iter) :
    ∀ n r, m.eraseT n pos = some r → m.eraseT (n + 1) pos = some r := by
  intro n r h
  simp only [eraseT] at h ⊢
  split_ifs at h ⊢ with hc
  · exact h
  · cases h1 : m.eraseNodeT n pos.current with
    | none => rw [h1] at h; cases h
    | some m2 => rw [h1] at h; rw [eraseNodeT_mono m _ n _ h1]; exact h

end Map

end sjtu

namespace sjtu

variable {K V : Type}

/-- The log of `insert` on a red-black tree: with fuel above the height the logged `insert`
returns, and every logged step of its run of `insertFixup` keeps off the sentinel. -/
theorem insertT_safe (lt : K → K → Bool) {m : Map K V} {T : Tree K V} (h : Abs m T)
    (hrb : T.RB) (value : K × V) :
    ∃ r tr, (∀ fuel, T.height + 2 ≤ fuel → m.insertT lt fuel value = some (r, tr)) ∧
      ∀ e ∈ tr, e.Safe m.nil := by
  obtain ⟨k, v⟩ := value
  by_cases hd : (descend lt k T Path.top).2 = Tree.leaf
  · obtain ⟨m2, T2, -, -, -, -, -, -, -, -, -, -, tr, g1, g2⟩ := insert_fresh lt h hrb k v hd
    exact ⟨_, tr, g1, g2⟩
  · refine ⟨_, [], fun fuel hf => insertT_found lt h (k, v) hd fuel (by omega), ?_⟩
    intro e he; simp at he

/-- The log of `erase` at a node of a red-black tree: with fuel above the height the logged
`erase` returns without an exception, and every logged step of its run of `eraseFixup`
keeps off the sentinel. -/
theorem eraseT_safe {m : Map K V} {T : Tree K V} (h : Abs m T) (hrb : T.RB) {z : Nat}
    (hz : z ∈ T.addrs) :
    ∃ m2 tr, (∀ fuel, T.height + 2 ≤ fuel →
        m.eraseT fuel ⟨z, m.self⟩ = some (Except.ok m2, tr)) ∧
      ∀ e ∈ tr, e.Safe m.nil := by
  obtain ⟨p, l, c, k, v, r, hp⟩ := locate z T Path.top hz
  simp only [Path.plug_top] at hp
  have hzn : z ≠ m.nil := inTree_ne_nil h hz
  have hA := h
  have hR := hrb
  rw [hp] at hA hR
  obtain ⟨m2, T2, -, -, -, -, -, -, -, -, tr, g1, g2⟩ := eraseNode_spec hA hR
  refine ⟨m2, tr, ?_, g2⟩
  intro fuel hf
  simp only [Map.eraseT, ne_eq, not_true_eq_false, hzn, or_self, if_false]
  rw [g1 fuel (by rw [← hp]; exact hf)]

/-- C21: fixup safety.  For every state that represents a red-black tree (a search tree or
not), `insert` of any value and `erase` at any node return once the fuel exceeds the
height by two, so both fixup loops terminate, and in the log of the run every call
`leftRotate(x)` is at a node `x` with `x->right` a node, every call `rightRotate(y)` at a
node `y` with `y->left` a node, no assignment of RED to a `color` field (that of the
grandparent in `insertFixup` among them) is to the sentinel, and every sibling `w` read by
`eraseFixup` is a node.  The logged operations return what `insert` and `erase` return,
and every returning run, with whatever fuel, has such a log. -/
theorem fixup_safety (lt : K → K → Bool) {m : Map K V} {T : Tree K V} (h : Abs m T)
    (hrb : T.RB) :
    (∀ value, ∃ r tr,
      (∀ fuel, T.height + 2 ≤ fuel →
        m.insertT lt fuel value = some (r, tr) ∧ m.insert lt fuel value = some r) ∧
      ∀ e ∈ tr, e.Safe m.nil) ∧
    (∀ z ∈ T.addrs, ∃ m2 tr,
      (∀ fuel, T.height + 2 ≤ fuel →
        m.eraseT fuel ⟨z, m.self⟩ = some (Except.ok m2, tr) ∧
        m.erase fuel ⟨z, m.self⟩ = some (Except.ok m2)) ∧
      ∀ e ∈ tr, e.Safe m.nil) ∧
    (∀ fuel value r tr, m.insertT lt fuel value = some (r, tr) → ∀ e ∈ tr, e.Safe m.nil) ∧
    (∀ fuel z r tr, z ∈ T.addrs → m.eraseT fuel ⟨z, m.self⟩ = some (r, tr) →
      ∀ e ∈ tr, e.Safe m.nil) := by
  refine ⟨?_, ?_, ?_, ?_⟩
  · intro value
    obtain ⟨r, tr, g1, g2⟩ := insertT_safe lt h hrb value
    refine ⟨r, tr, fun fuel hf => ⟨g1 fuel hf, ?_⟩, g2⟩
    rw [← Map.insertT_fst, g1 fuel hf]; rfl
  · intro z hz
    obtain ⟨m2, tr, g1, g2⟩ := eraseT_safe h hrb hz
    refine ⟨m2, tr, fun fuel hf => ⟨g1 fuel hf, ?_⟩, g2⟩
    rw [← Map.eraseT_fst, g1 fuel hf]; rfl
  · intro fuel value r tr hop
    obtain ⟨r0, tr0, g1, g2⟩ := insertT_safe lt h hrb value
    have := fuel_determined (Map.insertT_mono lt m value) g1 fuel _ hop
    simp only [Prod.mk.injEq] at this
    rw [this.2]; exact g2
  · intro fuel z r tr hz hop
    obtain ⟨m2, tr0, g1, g2⟩ := eraseT_safe h hrb hz
    have := fuel_determined (Map.eraseT_mono m ⟨z, m.self⟩) g1 fuel _ hop
    simp only [Prod.mk.injEq] at this
    rw [this.2]; exact g2

theorem fixup_safety_witness :
    Abs exMap6 exTree6 ∧ exTree6.RB ∧
    (exMap6.insertT ltN 10 (2, 20)).map (fun r => r.2) =
      some [Event.leftRotate 5 9, Event.recolour 9 Color.BLACK, Event.recolour 6 Color.RED,
        Event.rightRotate 6 9, Event.recolour 2 Color.BLACK] ∧
    (∀ e ∈ [Event.leftRotate 5 9, Event.recolour 9 Color.BLACK, Event.recolour 6 Color.RED,
        Event.rightRotate 6 9, Event.recolour 2 Color.BLACK], e.Safe exMap6.nil) ∧
    (∀ fuel z r tr, z ∈ exTree6.addrs → exMap6.eraseT fuel ⟨z, exMap6.self⟩ = some (r, tr) →
      ∀ e ∈ tr, e.Safe exMap6.nil) := by
  have hlog : (exMap6.insertT ltN 10 (2, 20)).map (fun r => r.2) =
      some [Event.leftRotate 5 9, Event.recolour 9 Color.BLACK, Event.recolour 6 Color.RED,
        Event.rightRotate 6 9, Event.recolour 2 Color.BLACK] := by decide!
  obtain ⟨r, hr, hr2⟩ := Option.map_eq_some'.1 hlog
  obtain ⟨r1, tr⟩ := r
  simp only at hr2
  subst hr2
  exact ⟨exMap6_wf.abs, exMap6_wf.rb, hlog,
    (fixup_safety ltN exMap6_wf.abs exMap6_wf.rb).2.2.1 10 (2, 20) r1 _ hr,
    (fixup_safety ltN exMap6_wf.abs exMap6_wf.rb).2.2.2⟩

/-- Logs of runs in which `eraseFixup` reads a sibling: in the container with the keys
4, 5, 7, 8, 9 `erase` of the BLACK leaf with the key 4 rotates at the root, and in the
container with the keys 4, 5, 8 `erase` of the BLACK leaf with the key 8 recolours the
sibling RED and goes on at the root; `insert` of 1, 2, 3 in this order rotates at the third
key. -/
theorem fixup_log_examples :
    ((eraseD exMap6 1).eraseT 10 ⟨6, 7⟩).map (fun r => r.2) =
      some [Event.sibling 4, Event.recolour 4 Color.BLACK, Event.recolour 2 Color.BLACK,
        Event.recolour 8 Color.BLACK, Event.leftRotate 2 4, Event.recolour 4 Color.BLACK] ∧
    ((eraseD (eraseD (eraseD exMap6 7) 9) 1).eraseT 10 ⟨4, 7⟩).map (fun r => r.2) =
      some [Event.sibling 6, Event.recolour 6 Color.RED, Event.recolour 2 Color.BLACK] ∧
    ((insertD (insertD exEmpty (1, 10)) (2, 20)).insertT ltN 10 (3, 30)).map (fun r => r.2) =
      some [Event.recolour 3 Color.BLACK, Event.recolour 2 Color.RED, Event.leftRotate 2 3,
        Event.recolour 3 Color.BLACK] :=
  ⟨by decide!, by decide!, by decide!⟩

end sjtu
